import Mathlib

/-!
ABySS 2.3.1: k-mer core, rolling-hash iterator and scaffold graph passes.

A shallow embedding of parts of `BloomDBG/LightweightKmer.h`,
`BloomDBG/RollingBloomDBG.h`, `BloomDBG/RollingHashIterator.h` and
`Scaffold/scaffold.cc`, followed by theorems about the embedded functions.

Conventions.
* A k-mer buffer (`boost::shared_array<char>`) is a `List Char`; the k-mer size
  `Kmer::length()` is a process-wide value in the source and an explicit
  argument `k` here.  Reading `m_kmer.get()[i]` is `charAt m i`.
* The spaced-seed mask `MaskedKmer::mask()` is an explicit argument
  `spacedSeed : List Char`; the empty list means that no mask is active.
* `size_t` values are natural numbers, wrapped modulo `2 ^ 64` where the
  source increments them.
-/

namespace Abyss

/-! ## Characters -/

/-- The NUL character, used as the value read outside of a buffer. -/
def nul : Char := Char.ofNat 0

/-- Reading `buf[i]` from a character buffer. -/
def charAt (buf : List Char) (i : Nat) : Char := buf.getD i nul

/-- The C library function `toupper` in the "C" locale. -/
def toupper (c : Char) : Char := c.toUpper

/-- Modelled from the spec: `complementBaseChar` is declared in
`Common/Sequence.h`, which is not among the sources.  The spec fixes the
alphabet {A,C,G,T} and the reverse complement of a k-mer; this is the
Watson-Crick complement on that alphabet (in both cases), and every other
character is left as it is. -/
def complementBaseChar (c : Char) : Char :=
  if c = 'A' then 'T'
  else if c = 'C' then 'G'
  else if c = 'G' then 'C'
  else if c = 'T' then 'A'
  else if c = 'a' then 't'
  else if c = 'c' then 'g'
  else if c = 'g' then 'c'
  else if c = 't' then 'a'
  else c

/-- The characters of `ACGT_CHARS` / `BASE_CHARS`. -/
def isACGT (c : Char) : Bool := c == 'A' || c == 'C' || c == 'G' || c == 'T'

/-- The C library function `memmove` on one buffer: `n` characters starting at
offset `src` are copied to offset `dst`, the two ranges may overlap. -/
def memmove (buf : List Char) (dst src n : Nat) : List Char :=
  buf.take dst ++ ((buf.drop src).take n ++ buf.drop (dst + n))

/-- The C library function `memcmp` on the first `n` characters of two
buffers; the result is negative, zero or positive. -/
def memcmp (a b : List Char) : Nat → Int
  | 0 => 0
  | n + 1 =>
    match a, b with
    | x :: xs, y :: ys =>
      if x < y then -1 else if y < x then 1 else memcmp xs ys n
    | _, _ => 0

/-- The direction of extension, `extDirection` of `Common/Sense.h`. -/
inductive extDirection where
  | SENSE
  | ANTISENSE
  deriving DecidableEq, Repr

namespace LightweightKmer

/-- `LightweightKmer::setBase`. -/
def setBase (kmer : List Char) (pos : Nat) (base : Char) : List Char :=
  kmer.set pos base

/-- `LightweightKmer::setLastBase`. -/
def setLastBase (k : Nat) (kmer : List Char) (dir : extDirection) (base : Char) :
    List Char :=
  let pos := if dir = extDirection.SENSE then k - 1 else 0
  setBase kmer pos base

/-- `LightweightKmer::shift`. -/
def shift (k : Nat) (kmer : List Char) (dir : extDirection) (charIn : Char) :
    List Char :=
  let moved :=
    if dir = extDirection.SENSE then memmove kmer 0 1 (k - 1)
    else memmove kmer 1 0 (k - 1)
  setLastBase k moved dir charIn

/-- `LightweightKmer::getBase`. -/
def getBase (kmer : List Char) (pos : Nat) : Char := charAt kmer pos

/-- The loop of `LightweightKmer::isCanonical`: `n` iterations are left and the
loop variable is `i`. -/
def isCanonicalLoop (k : Nat) (kmer : List Char) : Nat → Nat → Bool
  | 0, _ => true
  | n + 1, i =>
    let c1 := toupper (charAt kmer i)
    let c2 := complementBaseChar (toupper (charAt kmer (k - i - 1)))
    if c1 > c2 then false
    else if c1 < c2 then true
    else isCanonicalLoop k kmer n (i + 1)

/-- `LightweightKmer::isCanonical`: the loop runs for `i = 0 .. k/2 - 1`. -/
def isCanonical (k : Nat) (kmer : List Char) : Bool :=
  isCanonicalLoop k kmer (k / 2) 0

/-- The loop of `LightweightKmer::reverseComplement`. -/
def reverseComplementLoop (k : Nat) : Nat → Nat → List Char → List Char
  | 0, _, kmer => kmer
  | n + 1, i, kmer =>
    let tmp := complementBaseChar (charAt kmer i)
    let kmer1 := kmer.set i (complementBaseChar (charAt kmer (k - i - 1)))
    let kmer2 := kmer1.set (k - i - 1) tmp
    reverseComplementLoop k n (i + 1) kmer2

/-- `LightweightKmer::reverseComplement`. -/
def reverseComplement (k : Nat) (kmer : List Char) : List Char :=
  let kmer1 := reverseComplementLoop k (k / 2) 0 kmer
  if k % 2 = 1 ∧ k > 1 then
    kmer1.set (k / 2) (complementBaseChar (charAt kmer1 (k / 2)))
  else kmer1

/-- `LightweightKmer::canonicalize`. -/
def canonicalize (k : Nat) (kmer : List Char) : List Char :=
  if !isCanonical k kmer then reverseComplement k kmer else kmer

/-- The masked branch of `LightweightKmer::operator==`: the loop over
`i = 0 .. k - 1`, with `n` iterations left. -/
def eqLoop (spacedSeed a b : List Char) : Nat → Nat → Bool
  | 0, _ => true
  | n + 1, i =>
    if charAt spacedSeed i != '0' && getBase a i != getBase b i then false
    else eqLoop spacedSeed a b n (i + 1)

/-- `LightweightKmer::operator==`. -/
def eq (k : Nat) (spacedSeed a b : List Char) : Bool :=
  if spacedSeed.isEmpty then memcmp a b k == 0
  else eqLoop spacedSeed a b k 0

/-- `LightweightKmer::operator!=`. -/
def ne (k : Nat) (spacedSeed a b : List Char) : Bool :=
  !eq k spacedSeed a b

end LightweightKmer

namespace RollingBloomDBGVertex

open LightweightKmer

/-- The loop of `RollingBloomDBGVertex::compare`.  The positions are C `int`s;
the result is `none` only when the fuel runs out before the loop ends. -/
def compareLoop (spacedSeed kmer1 kmer2 : List Char) (rc1 rc2 : Bool)
    (end1 end2 inc1 inc2 : Int) : Nat → Int → Int → Option Int
  | 0, _, _ => none
  | fuel + 1, pos1, pos2 =>
    if pos1 != end1 && pos2 != end2 then
      let c1 := toupper (charAt kmer1 pos1.toNat)
      let c2 := toupper (charAt kmer2 pos2.toNat)
      if !spacedSeed.isEmpty && charAt spacedSeed pos1.toNat != '1' then
        compareLoop spacedSeed kmer1 kmer2 rc1 rc2 end1 end2 inc1 inc2 fuel
          (pos1 + inc1) (pos2 + inc2)
      else
        let c1 := if rc1 then complementBaseChar c1 else c1
        let c2 := if rc2 then complementBaseChar c2 else c2
        if c1 > c2 then some 1
        else if c1 < c2 then some (-1)
        else
          compareLoop spacedSeed kmer1 kmer2 rc1 rc2 end1 end2 inc1 inc2 fuel
            (pos1 + inc1) (pos2 + inc2)
    else some 0

/-- `RollingBloomDBGVertex::compare` on the k-mers of the two vertices (the
rolling hash of a vertex is not read by `compare`). -/
def compare (k : Nat) (spacedSeed kmer1 kmer2 : List Char) : Option Int :=
  let rc1 := !isCanonical k kmer1
  let rc2 := !isCanonical k kmer2
  let end1 : Int := if rc1 then -1 else k
  let end2 : Int := if rc2 then -1 else k
  let inc1 : Int := if rc1 then -1 else 1
  let inc2 : Int := if rc2 then -1 else 1
  let pos1 : Int := if rc1 then (k : Int) - 1 else 0
  let pos2 : Int := if rc2 then (k : Int) - 1 else 0
  compareLoop spacedSeed kmer1 kmer2 rc1 rc2 end1 end2 inc1 inc2 (k + 1) pos1 pos2

end RollingBloomDBGVertex

/-! ## The rolling-hash iterator -/

/-- The value `std::numeric_limits<std::size_t>::max()`, also `std::string::npos`. -/
def npos : Nat := 2 ^ 64 - 1

/-- Arithmetic on `size_t` wraps modulo `2 ^ 64`. -/
def wrap64 (n : Nat) : Nat := n % 2 ^ 64

/-- Modelled from the spec: the class `RollingHash` is declared in
`BloomDBG/RollingHash.h`, which is not among the sources.  The operations the
iterator calls are taken as parameters: the constructor, `reset(kmer)`,
`rollRight(kmer, charIn)` and `getHashes`. -/
structure RollingHashOps (H : Type) where
  /-- The constructor `RollingHash(numHashes, k)`. -/
  create : Nat → Nat → H
  /-- The method `reset(kmer)`. -/
  reset : H → List Char → H
  /-- The method `rollRight(kmer, charIn)`, `kmer` being the preceding k-mer. -/
  rollRight : H → List Char → Char → H
  /-- The method `getHashes(hashes)`. -/
  getHashes : H → List Nat

/-- The data members of `RollingHashIterator`. -/
structure RollingHashIterator (H : Type) where
  m_seq : List Char
  m_numHashes : Nat
  m_hashes : List Nat
  m_k : Nat
  m_rollingHash : H
  m_rollNextHash : Bool
  m_pos : Nat
  m_badCharPos : List Nat

namespace RollingHashIterator

variable {H : Type}

/-- `std::string::substr(pos, n)`. -/
def substr (seq : List Char) (pos n : Nat) : List Char := (seq.drop pos).take n

/-- The loop `while (!m_badCharPos.empty() && m_badCharPos.front() < m_pos)
m_badCharPos.pop_front();` of `next`. -/
def popFrontWhile : List Nat → Nat → List Nat
  | [], _ => []
  | b :: bs, pos => if b < pos then popFrontWhile bs pos else b :: bs

/-- The `for` loop of `next` that computes `goodKmer` under a spaced seed: it
walks the recorded positions that lie before `m_pos + m_k`. -/
def goodKmer (spacedSeed : List Char) (pos k : Nat) : List Nat → Bool
  | [] => true
  | b :: bs =>
    if b < wrap64 (pos + k) then
      if charAt spacedSeed (b - pos) == '1' then false
      else goodKmer spacedSeed pos k bs
    else true

/-- The end of the loop body of `next`: the iterator is positioned at a valid
k-mer, whose hash values are computed from scratch or by rolling. -/
def emit (ops : RollingHashOps H) (it : RollingHashIterator H) : RollingHashIterator H :=
  let it1 :=
    if !it.m_rollNextHash then
      { it with
        m_rollingHash := ops.reset it.m_rollingHash (substr it.m_seq it.m_pos it.m_k)
        m_rollNextHash := true }
    else
      { it with
        m_rollingHash :=
          ops.rollRight it.m_rollingHash (substr it.m_seq (it.m_pos - 1) it.m_k)
            (charAt it.m_seq (it.m_pos + it.m_k - 1)) }
  { it1 with m_hashes := ops.getHashes it1.m_rollingHash }

/-- The `while` loop of `next`.  The result is `none` only when the fuel runs
out before the loop ends. -/
def nextLoop (ops : RollingHashOps H) (spacedSeed : List Char) :
    Nat → RollingHashIterator H → Option (RollingHashIterator H)
  | 0, _ => none
  | fuel + 1, it =>
    if it.m_pos < wrap64 (it.m_seq.length - it.m_k + 1) then
      let it1 := { it with m_badCharPos := popFrontWhile it.m_badCharPos it.m_pos }
      match it1.m_badCharPos with
      | [] => some (emit ops it1)
      | front :: _ =>
        if front < wrap64 (it1.m_pos + it1.m_k) then
          if spacedSeed.isEmpty then
            nextLoop ops spacedSeed fuel
              { it1 with m_rollNextHash := false, m_pos := wrap64 (front + 1) }
          else if !goodKmer spacedSeed it1.m_pos it1.m_k it1.m_badCharPos then
            nextLoop ops spacedSeed fuel
              { it1 with m_rollNextHash := false, m_pos := wrap64 (it1.m_pos + 1) }
          else some (emit ops it1)
        else some (emit ops it1)
    else some { it with m_pos := npos }

/-- `RollingHashIterator::next`. -/
def next (ops : RollingHashOps H) (spacedSeed : List Char) (it : RollingHashIterator H) :
    Option (RollingHashIterator H) :=
  if it.m_seq.length < it.m_k then some { it with m_pos := npos }
  else nextLoop ops spacedSeed (it.m_seq.length + 1) it

/-- `std::string::find_first_not_of(ACGT_CHARS, pos)` on the characters from
index `i` on; `npos` when there is none. -/
def findFirstNotOfFrom : List Char → Nat → Nat
  | [], _ => npos
  | c :: cs, i => if !isACGT c then i else findFirstNotOfFrom cs (i + 1)

/-- `std::string::find_first_not_of(ACGT_CHARS, pos)`. -/
def find_first_not_of (seq : List Char) (pos : Nat) : Nat :=
  findFirstNotOfFrom (seq.drop pos) pos

/-- The loop of `init` that records the positions of the non-ACGT characters. -/
def recordBadChars (seq : List Char) : Nat → Nat → List Nat → Option (List Nat)
  | 0, _, _ => none
  | fuel + 1, i, bad =>
    if i != npos then
      recordBadChars seq fuel (find_first_not_of seq (wrap64 (i + 1))) (bad ++ [i])
    else some bad

/-- `RollingHashIterator::init`. -/
def init (ops : RollingHashOps H) (spacedSeed : List Char) (it : RollingHashIterator H) :
    Option (RollingHashIterator H) :=
  let seq := it.m_seq.map toupper
  match recordBadChars seq (seq.length + 1) (find_first_not_of seq 0) it.m_badCharPos with
  | none => none
  | some bad => next ops spacedSeed { it with m_seq := seq, m_badCharPos := bad }

/-- The constructor `RollingHashIterator(seq, numHashes, k)`. -/
def create (ops : RollingHashOps H) (spacedSeed : List Char) (seq : List Char)
    (numHashes k : Nat) : Option (RollingHashIterator H) :=
  init ops spacedSeed
    { m_seq := seq, m_numHashes := numHashes, m_hashes := [], m_k := k,
      m_rollingHash := ops.create numHashes k, m_rollNextHash := false, m_pos := 0,
      m_badCharPos := [] }

/-- `RollingHashIterator::operator++` (pre-increment). -/
def incr (ops : RollingHashOps H) (spacedSeed : List Char) (it : RollingHashIterator H) :
    Option (RollingHashIterator H) :=
  next ops spacedSeed { it with m_pos := wrap64 (it.m_pos + 1) }

/-- `RollingHashIterator::operator==` against `end()`, whose position is
`npos`. -/
def isEnd (it : RollingHashIterator H) : Bool := it.m_pos == npos

/-- `RollingHashIterator::pos`. -/
def pos (it : RollingHashIterator H) : Nat := it.m_pos

/-- The loop `for (; it != end(); ++it)` of a caller, collecting `it.pos()`. -/
def visitLoop (ops : RollingHashOps H) (spacedSeed : List Char) :
    Nat → RollingHashIterator H → Option (List Nat)
  | 0, _ => none
  | fuel + 1, it =>
    if isEnd it then some []
    else
      match incr ops spacedSeed it with
      | none => none
      | some it1 =>
        match visitLoop ops spacedSeed fuel it1 with
        | none => none
        | some ps => some (pos it :: ps)

/-- The positions visited by iterating from construction until `end()`. -/
def visited (ops : RollingHashOps H) (spacedSeed : List Char) (seq : List Char)
    (numHashes k : Nat) : Option (List Nat) :=
  match create ops spacedSeed seq numHashes k with
  | none => none
  | some it => visitLoop ops spacedSeed (seq.length + 1) it

/-- A rolling hash without content, for evaluating the iterator. -/
def unitOps : RollingHashOps Unit :=
  { create := fun _ _ => (), reset := fun _ _ => (), rollRight := fun _ _ _ => (),
    getHashes := fun _ => [] }

end RollingHashIterator

/-! ### Specification predicates for the iterator -/

/-- Position `p` of the upper-cased sequence `useq` holds a character outside
of ACGT. -/
def isBadPos (useq : List Char) (p : Nat) : Prop :=
  p < useq.length ∧ isACGT (charAt useq p) = false

/-- The window of `k` characters at `p` is acceptable: every position that
takes part (all of them without a mask, those with mask character 1
otherwise) holds a character of ACGT. -/
def goodAt (spacedSeed useq : List Char) (k p : Nat) : Prop :=
  ∀ i, i < k → (spacedSeed = [] ∨ charAt spacedSeed i = '1') →
    isACGT (charAt useq (p + i)) = true

/-- The deque `m_badCharPos` is consistent with the iterator position `q`: it
is strictly increasing, holds only positions of non-ACGT characters, and holds
all of those that are at `q` or later. -/
def badInv (useq : List Char) (bad : List Nat) (q : Nat) : Prop :=
  bad.Pairwise (fun a b => a < b) ∧ (∀ b ∈ bad, isBadPos useq b) ∧
  (∀ p, q ≤ p → isBadPos useq p → p ∈ bad)

/-! ## The scaffold graph -/

/-- Modelled from the spec: `ContigNode` is declared in `ContigNode.h`, which is
not among the sources.  The spec describes a vertex of the scaffold graph as a
pair (contig id, orientation). -/
structure ContigNode where
  id : Nat
  sense : Bool
  deriving DecidableEq, Repr

/-- Modelled from the spec: the vertex property `vertex_complement` of
`ContigNode.h`, the same contig in the other orientation. -/
def ContigNode.complement (u : ContigNode) : ContigNode :=
  { u with sense := !u.sense }

/-- Modelled from the spec: the edge bundle `DistanceEst` is declared in
`Estimate.h`, which is not among the sources.  The spec lists the edge
attributes: the estimated distance (a signed integer, negative for an overlap),
the number of supporting pairs and the standard deviation (not negative, 0 for
an exact overlap; a `float` in the source, a rational number here). -/
structure DistanceEst where
  distance : Int
  numPairs : Nat
  stdDev : ℚ
  deriving DecidableEq

/-- An edge of the scaffold graph with its bundle: `source(e, g)`,
`target(e, g)` and `g[e]`. -/
structure Edge where
  source : ContigNode
  target : ContigNode
  ep : DistanceEst
  deriving DecidableEq

/-- Modelled from the spec: the graph type `ContigGraph<DirectedGraph<Length,
DistanceEst>>` is declared in `Graph/ContigGraph.h` and
`Graph/DirectedGraph.h`, which are not among the sources.  The spec describes a
directed graph on oriented contigs whose vertices persist for the lifetime of
the scaffolder: the vertices in iteration order, the vertex property
`g[u].length`, the vertices flagged as removed, and the edges in iteration
order. -/
structure Graph where
  vertices : List ContigNode
  length : ContigNode → Nat
  removed : List ContigNode
  edges : List Edge

namespace Graph

/-- Modelled from the spec: `out_edges(u, g)` of the absent graph library, the
edges that leave `u`. -/
def out_edges (u : ContigNode) (g : Graph) : List Edge :=
  g.edges.filter (fun e => decide (e.source = u))

/-- Modelled from the spec: `in_edges(v, g)` of the absent graph library, the
edges that enter `v`. -/
def in_edges (v : ContigNode) (g : Graph) : List Edge :=
  g.edges.filter (fun e => decide (e.target = v))

/-- Modelled from the spec: `out_degree(u, g)` of the absent graph library. -/
def out_degree (u : ContigNode) (g : Graph) : Nat := (out_edges u g).length

/-- Modelled from the spec: `in_degree(v, g)` of the absent graph library. -/
def in_degree (v : ContigNode) (g : Graph) : Nat := (in_edges v g).length

/-- Modelled from the spec: `clear_out_edges(u, g)` of the absent
`Graph/ContigGraph.h`.  It removes the edges that leave `u` together with their
complementary edges, which enter the complement of `u`, so that the
reverse-complement symmetry of the graph is kept. -/
def clear_out_edges (u : ContigNode) (g : Graph) : Graph :=
  { g with edges := g.edges.filter (fun e =>
      !decide (e.source = u) && !decide (e.target = u.complement)) }

/-- Modelled from the spec: `clear_in_edges(v, g)` of the absent
`Graph/ContigGraph.h`: the edges that enter `v` are the complementary edges of
those that leave the complement of `v`. -/
def clear_in_edges (v : ContigNode) (g : Graph) : Graph :=
  clear_out_edges v.complement g

/-- Modelled from the spec: `clear_vertex(v, g)` of the absent
`Graph/ContigGraph.h`, which removes all edges to and from `v` (the spec:
"clear its edges"). -/
def clear_vertex (v : ContigNode) (g : Graph) : Graph :=
  clear_in_edges v (clear_out_edges v g)

/-- Modelled from the spec: `remove_vertex(v, g)` of the absent
`Graph/ContigGraph.h`.  A contig leaves the graph in both orientations (the
spec: "remove v itself (and its complement)"); the vertex is flagged, the
vertex list is not changed. -/
def remove_vertex (v : ContigNode) (g : Graph) : Graph :=
  { g with removed := v :: v.complement :: g.removed }

/-- Modelled from the spec: `remove_edge_if(pred, g)` on the underlying
directed graph, which removes exactly the edges that satisfy `pred`. -/
def remove_edge_if (pred : Edge → Bool) (g : Graph) : Graph :=
  { g with edges := g.edges.filter (fun e => !pred e) }

/-- Modelled from the spec: `remove_edges(g, first, last)` of the absent graph
library, which removes the listed edges; an edge descriptor names an edge by
its source and target. -/
def remove_edges (g : Graph) (es : List Edge) : Graph :=
  { g with edges := g.edges.filter (fun e =>
      !es.any (fun d => decide (d.source = e.source ∧ d.target = e.target))) }

end Graph

namespace Scaffold

open Graph

/-- `PoorSupport::operator()`: the edge has fewer pairs than `minEdgeWeight`. -/
def PoorSupport (minEdgeWeight : Nat) (e : Edge) : Bool :=
  decide (e.ep.numPairs < minEdgeWeight)

/-- The body of the vertex loop of `filterGraph` for the vertex `u`. -/
def filterVertex (minContigLength : Nat) (g : Graph) (u : ContigNode) : Graph :=
  let g1 := if g.length u < minContigLength then clear_vertex u g else g
  if out_degree u g1 = 0 ∧ in_degree u g1 = 0 then remove_vertex u g1 else g1

/-- `filterGraph`: the loop over `vertices(g)` and then
`remove_edge_if(PoorSupport(g, minEdgeWeight), g)`.  The counters that are only
printed or stored in the database are left out. -/
def filterGraph (g : Graph) (minEdgeWeight minContigLength : Nat) : Graph :=
  let g1 := g.vertices.foldl (filterVertex minContigLength) g
  remove_edge_if (PoorSupport minEdgeWeight) g1

/-- The body of the edge loop of `removeWeakEdges`: whether the edge `u1v2` is
pushed onto `weak`.  With out-degree 2 and in-degree 2 the two edge lists have
two elements each; the assertions of the source (`v1 != v2`, `u1 != u2`, the
iterators reach the end) are not evaluated. -/
def isWeakEdge (g : Graph) (u1v2 : Edge) : Bool :=
  let u1 := u1v2.source
  let v2 := u1v2.target
  if out_degree u1 g ≠ 2 ∨ in_degree v2 g ≠ 2 then false
  else
    match out_edges u1 g with
    | [o1, o2] =>
      let u1v1 := if o1.target = v2 then o2 else o1
      let v1 := u1v1.target
      if in_degree v1 g ≠ 1 then false
      else
        match in_edges v2 g with
        | [i1, i2] =>
          let u2v2 := if i1.source = u1 then i2 else i1
          let u2 := u2v2.source
          if out_degree u2 g ≠ 1 then false
          else
            let n := u1v2.ep.numPairs
            decide (n < u1v1.ep.numPairs ∧ n < u2v2.ep.numPairs)
        | _ => false
    | _ => false

/-- `removeWeakEdges`: the weak edges are collected over `edges(g)` and then
removed with `remove_edges`. -/
def removeWeakEdges (g : Graph) : Graph :=
  let weak := g.edges.filter (isWeakEdge g)
  remove_edges g weak

/-- The graph of the weak-edge scenario of the spec: u1 is contig 1, u2 contig
2, v1 contig 3 and v2 contig 4, all in the forward orientation. -/
def weakEdgeExample : Graph :=
  { vertices := [⟨1, true⟩, ⟨1, false⟩, ⟨2, true⟩, ⟨2, false⟩, ⟨3, true⟩, ⟨3, false⟩,
      ⟨4, true⟩, ⟨4, false⟩]
    length := fun _ => 2000
    removed := []
    edges := [⟨⟨1, true⟩, ⟨3, true⟩, ⟨100, 10, 5⟩⟩, ⟨⟨1, true⟩, ⟨4, true⟩, ⟨100, 2, 5⟩⟩,
      ⟨⟨2, true⟩, ⟨4, true⟩, ⟨100, 8, 5⟩⟩] }

end Scaffold

/-! ## The scaffold graph: cycles, long edges and symmetry -/

/-- The complementary edge of `(u, v)`: the edge from the complement of `v` to
the complement of `u` with the same attributes. -/
def Edge.complement (e : Edge) : Edge :=
  { source := e.target.complement, target := e.source.complement, ep := e.ep }

namespace Graph

/-- Modelled from the spec: `edge(u, v, g)` of the absent graph library, which
looks up the edge from `u` to `v`; `.second` of the source is `isSome`. -/
def edge (u v : ContigNode) (g : Graph) : Option Edge :=
  g.edges.find? (fun e => decide (e.source = u ∧ e.target = v))

/-- Modelled from the spec: `adjacent_vertices(u, g)` of the absent graph
library, the targets of the edges that leave `u`, in edge order. -/
def adjacent_vertices (u : ContigNode) (g : Graph) : List ContigNode :=
  (out_edges u g).map (fun e => e.target)

/-- Modelled from the spec: `add_edge(u, v, ep, g)` of the absent
`Graph/ContigGraph.h`.  The edge is added together with its complementary edge
(unless it is its own complement), so that the reverse-complement symmetry of
the graph is kept. -/
def add_edge (u v : ContigNode) (ep : DistanceEst) (g : Graph) : Graph :=
  { g with edges := g.edges ++
      (if u = v.complement then [{ source := u, target := v, ep := ep }]
       else [{ source := u, target := v, ep := ep },
             { source := v.complement, target := u.complement, ep := ep }]) }

/-- The reverse-complement symmetry of the data model: with every edge the
graph holds the complementary edge with the same attributes, and complementary
vertices have equal length. -/
def isSymmetric (g : Graph) : Prop :=
  (∀ e ∈ g.edges, e.complement ∈ g.edges) ∧
  (∀ u : ContigNode, g.length u.complement = g.length u)

/-- The graph holds at most one edge for each ordered pair of vertices. -/
def noParallelEdges (g : Graph) : Prop :=
  g.edges.Pairwise (fun a b => ¬ (a.source = b.source ∧ a.target = b.target))

end Graph

/-- The conversion of a 32-bit `unsigned` value to `int`. -/
def toInt32 (n : Int) : Int := (n + 2 ^ 31) % 2 ^ 32 - 2 ^ 31

namespace Scaffold

open Graph

/-- `InvalidEdge::operator()`: the overlap is larger than the length of either
incident sequence.  The source converts the `unsigned` lengths to `int` and
adds `int` values; an overflow of a sum, which the language leaves undefined,
wraps here like the conversion does. -/
def InvalidEdge (g : Graph) (e : Edge) : Bool :=
  let d : Int := e.ep.distance
  let ulength : Int := toInt32 (g.length e.source)
  let vlength : Int := toInt32 (g.length e.target)
  decide (toInt32 (d + ulength) ≤ 0 ∨ toInt32 (d + vlength) ≤ 0)

/-- `isCycle`: the reverse edge exists. -/
def isCycle (g : Graph) (e : Edge) : Bool :=
  (edge e.target e.source g).isSome

/-- `removeCycles`: the edges with a reverse edge are collected over `edges(g)`
and then removed with `remove_edges`. -/
def removeCycles (g : Graph) : Graph :=
  let cycles := g.edges.filter (isCycle g)
  remove_edges g cycles

/-- `removeLongEdges`, with `opt::maxGap` as an argument. -/
def removeLongEdges (maxGap : Int) (g : Graph) : Graph :=
  let long_e := g.edges.filter (fun e => decide (e.ep.distance > maxGap))
  remove_edges g long_e

/-- The statement `if (opt::maxGap >= 0) removeLongEdges(g);` of `scaffold`. -/
def removeLongEdgesStep (maxGap : Int) (g : Graph) : Graph :=
  if maxGap ≥ 0 then removeLongEdges maxGap g else g

/-- A symmetric graph with a short and a long edge out of contig 1. -/
def longEdgeExample : Graph :=
  { vertices := [⟨1, true⟩, ⟨1, false⟩, ⟨2, true⟩, ⟨2, false⟩, ⟨3, true⟩, ⟨3, false⟩]
    length := fun _ => 2000
    removed := []
    edges := [⟨⟨1, true⟩, ⟨2, true⟩, ⟨100, 5, 3⟩⟩, ⟨⟨1, true⟩, ⟨3, true⟩, ⟨900, 5, 3⟩⟩,
      ⟨⟨2, false⟩, ⟨1, false⟩, ⟨100, 5, 3⟩⟩, ⟨⟨3, false⟩, ⟨1, false⟩, ⟨900, 5, 3⟩⟩] }

end Scaffold

/-! ## The scaffold graph: forks -/

namespace Scaffold

open Graph

/-- The body of the inner loop of `resolveForks` for the successors `v1` and
`v2` of a fork: when they are not joined in `g` and exactly one of the edges
(v1,v2), (v2,v1) exists in `g0`, that edge is added to `g`. -/
def resolvePair (g0 g : Graph) (v1 v2 : ContigNode) : Graph :=
  if (edge v1 v2 g).isSome ∨ (edge v2 v1 g).isSome then g
  else
    match edge v1 v2 g0, edge v2 v1 g0 with
    | some _, some _ => g
    | some e, none => add_edge e.source e.target e.ep g
    | none, some e => add_edge e.source e.target e.ep g
    | none, none => g

/-- The loop over `vit2` of `resolveForks`: `v1` is paired with each of the
later successors. -/
def resolveInner (g0 : Graph) (v1 : ContigNode) (vs : List ContigNode) (g : Graph) : Graph :=
  vs.foldl (fun acc v2 => resolvePair g0 acc v1 v2) g

/-- The loop over `vit1` of `resolveForks` on the successors of a vertex. -/
def resolveOuter (g0 : Graph) : List ContigNode → Graph → Graph
  | [], g => g
  | v1 :: rest, g => resolveOuter g0 rest (resolveInner g0 v1 rest g)

/-- The body of the vertex loop of `resolveForks`.  The range
`adjacent_vertices(u, g)` is taken once, before the pairs are visited. -/
def resolveVertex (g0 g : Graph) (u : ContigNode) : Graph :=
  if out_degree u g < 2 then g
  else resolveOuter g0 (adjacent_vertices u g) g

/-- `resolveForks`.  The counter that is only printed or stored in the
database is left out. -/
def resolveForks (g g0 : Graph) : Graph :=
  g.vertices.foldl (resolveVertex g0) g

/-- An edge of `g0` whose reverse edge is not in `g0`: the kind of edge that
`resolveForks` copies. -/
def oneWayIn (g0 : Graph) (e : Edge) : Prop :=
  e ∈ g0.edges ∧ ¬ ∃ d ∈ g0.edges, d.source = e.target ∧ d.target = e.source

/-- The graph `g1` holds the edges of `g` and, besides them, only one-way edges
of `g0`. -/
def extendsBy (g0 g g1 : Graph) : Prop :=
  (∀ x ∈ g.edges, x ∈ g1.edges) ∧ (∀ x ∈ g1.edges, x ∈ g.edges ∨ oneWayIn g0 x)

/-- The original graph of a fork: contig 1 leads to contigs 2 and 3, and contig
2 leads to contig 3; with the complementary edges. -/
def forkOriginal : Graph :=
  { vertices := [⟨1, true⟩, ⟨1, false⟩, ⟨2, true⟩, ⟨2, false⟩, ⟨3, true⟩, ⟨3, false⟩]
    length := fun _ => 2000
    removed := []
    edges := [⟨⟨1, true⟩, ⟨2, true⟩, ⟨100, 5, 3⟩⟩, ⟨⟨1, true⟩, ⟨3, true⟩, ⟨900, 5, 3⟩⟩,
      ⟨⟨2, true⟩, ⟨3, true⟩, ⟨200, 1, 3⟩⟩,
      ⟨⟨2, false⟩, ⟨1, false⟩, ⟨100, 5, 3⟩⟩, ⟨⟨3, false⟩, ⟨1, false⟩, ⟨900, 5, 3⟩⟩,
      ⟨⟨3, false⟩, ⟨2, false⟩, ⟨200, 1, 3⟩⟩] }

/-- The graph `forkOriginal` after the edges with fewer than 3 pairs were
filtered out: the successors 2 and 3 of contig 1 are no longer joined. -/
def forkFiltered : Graph :=
  { vertices := [⟨1, true⟩, ⟨1, false⟩, ⟨2, true⟩, ⟨2, false⟩, ⟨3, true⟩, ⟨3, false⟩]
    length := fun _ => 2000
    removed := []
    edges := [⟨⟨1, true⟩, ⟨2, true⟩, ⟨100, 5, 3⟩⟩, ⟨⟨1, true⟩, ⟨3, true⟩, ⟨900, 5, 3⟩⟩,
      ⟨⟨2, false⟩, ⟨1, false⟩, ⟨100, 5, 3⟩⟩, ⟨⟨3, false⟩, ⟨1, false⟩, ⟨900, 5, 3⟩⟩] }

end Scaffold

/-! ## The scaffold graph: repeats -/

/-- Modelled from the spec: the order of `ContigNode` (`operator<` of the absent
`ContigNode.h`) compares an index in which the two orientations of a contig
are next to each other. -/
def ContigNode.index (u : ContigNode) : Nat :=
  2 * u.id + (if u.sense then 0 else 1)

namespace Graph

/-- The graph holds an edge from `u` to `v`. -/
def hasEdge (u v : ContigNode) (g : Graph) : Prop :=
  ∃ d ∈ g.edges, d.source = u ∧ d.target = v

/-- Modelled from the spec: `find_transitive_edges(g, out)` of the absent
`Graph/ContigGraphAlgorithms.h`.  The spec: "find transitive triples u→v→w
with u→w also present"; the result holds the edges u→w, in edge order. -/
def find_transitive_edges (g : Graph) : List Edge :=
  g.edges.filter (fun e =>
    (adjacent_vertices e.source g).any (fun v => (edge v e.target g).isSome))

end Graph

namespace Scaffold

open Graph

/-- `std::sort` on a vector of vertices. -/
def sortNodes (l : List ContigNode) : List ContigNode :=
  l.insertionSort (fun a b => a.index ≤ b.index)

/-- `std::unique` followed by `erase`: of consecutive equal elements the first
is kept. -/
def unique : List ContigNode → List ContigNode
  | [] => []
  | [x] => [x]
  | x :: y :: rest => if x = y then unique (y :: rest) else x :: unique (y :: rest)

/-- The innermost loop of the search of `removeRepeats`: `v` has a successor
`w2` other than `w1` with no edge between `w1` and `w2`. -/
def hasUnrelatedSuccessor (g : Graph) (v w1 : ContigNode) : Bool :=
  (adjacent_vertices v g).any (fun w2 =>
    decide (w1 ≠ w2) && !(edge w1 w2 g).isSome && !(edge w2 w1 g).isSome)

/-- The search of `removeRepeats`: for each transitive edge u->w1 and each
successor v of u with an edge to w1, v is pushed when it has an unrelated
successor. -/
def findRepeats (g : Graph) : List ContigNode :=
  (find_transitive_edges g).flatMap (fun e =>
    (adjacent_vertices e.source g).filter (fun v =>
      (edge v e.target g).isSome && hasUnrelatedSuccessor g v e.target))

/-- The removal loop of `removeRepeats` over the sorted vertices; `prev` is
`it[-1]`, absent at `repeats.begin()`. -/
def removeRepeatsLoop : Option ContigNode → List ContigNode → Graph → Graph
  | _, [], g => g
  | prev, u :: rest, g =>
    let uc := u.complement
    let g1 := clear_out_edges u g
    let g2 := if prev = some uc then remove_vertex u g1 else g1
    removeRepeatsLoop (some u) rest g2

/-- The vertices at which the removal loop of `removeRepeats` calls
`remove_vertex`, the ones counted by `numRemoved`. -/
def removeVertexCalls : Option ContigNode → List ContigNode → List ContigNode
  | _, [] => []
  | prev, u :: rest =>
    if prev = some u.complement then u :: removeVertexCalls (some u) rest
    else removeVertexCalls (some u) rest

/-- `removeRepeats`.  The counters that are only printed or stored in the
database are left out. -/
def removeRepeats (g : Graph) : Graph :=
  removeRepeatsLoop none (unique (sortNodes (findRepeats g))) g

/-- The vertex `v` is a repeat: it lies on u->v->w1 with the transitive edge
u->w1 present, and it has a successor w2 other than w1 that has no edge to or
from w1. -/
def isRepeat (g : Graph) (v : ContigNode) : Prop :=
  ∃ u w1 w2, hasEdge u v g ∧ hasEdge v w1 g ∧ hasEdge u w1 g ∧ hasEdge v w2 g ∧
    w1 ≠ w2 ∧ ¬ hasEdge w1 w2 g ∧ ¬ hasEdge w2 w1 g

/-- A symmetric graph in which contig 2 is a repeat and its complement is not:
1->2, 2->3, 1->3 and 2->4, with the complementary edges. -/
def repeatExample : Graph :=
  { vertices := [⟨1, true⟩, ⟨1, false⟩, ⟨2, true⟩, ⟨2, false⟩, ⟨3, true⟩, ⟨3, false⟩,
      ⟨4, true⟩, ⟨4, false⟩]
    length := fun _ => 2000
    removed := []
    edges := [⟨⟨1, true⟩, ⟨2, true⟩, ⟨100, 5, 3⟩⟩, ⟨⟨2, true⟩, ⟨3, true⟩, ⟨100, 5, 3⟩⟩,
      ⟨⟨1, true⟩, ⟨3, true⟩, ⟨100, 5, 3⟩⟩, ⟨⟨2, true⟩, ⟨4, true⟩, ⟨100, 5, 3⟩⟩,
      ⟨⟨2, false⟩, ⟨1, false⟩, ⟨100, 5, 3⟩⟩, ⟨⟨3, false⟩, ⟨2, false⟩, ⟨100, 5, 3⟩⟩,
      ⟨⟨3, false⟩, ⟨1, false⟩, ⟨100, 5, 3⟩⟩, ⟨⟨4, false⟩, ⟨2, false⟩, ⟨100, 5, 3⟩⟩] }

/-- The graph of the comment of `removeRepeats`, with the complementary edges:
t1 is contig 1, t2 contig 2, u contig 3, v1 contig 4 and v2 contig 5. -/
def repeatPairExample : Graph :=
  { vertices := [⟨1, true⟩, ⟨1, false⟩, ⟨2, true⟩, ⟨2, false⟩, ⟨3, true⟩, ⟨3, false⟩,
      ⟨4, true⟩, ⟨4, false⟩, ⟨5, true⟩, ⟨5, false⟩]
    length := fun _ => 2000
    removed := []
    edges := [⟨⟨1, true⟩, ⟨4, true⟩, ⟨100, 5, 3⟩⟩, ⟨⟨2, true⟩, ⟨5, true⟩, ⟨100, 5, 3⟩⟩,
      ⟨⟨1, true⟩, ⟨3, true⟩, ⟨100, 5, 3⟩⟩, ⟨⟨2, true⟩, ⟨3, true⟩, ⟨100, 5, 3⟩⟩,
      ⟨⟨3, true⟩, ⟨4, true⟩, ⟨100, 5, 3⟩⟩, ⟨⟨3, true⟩, ⟨5, true⟩, ⟨100, 5, 3⟩⟩,
      ⟨⟨4, false⟩, ⟨1, false⟩, ⟨100, 5, 3⟩⟩, ⟨⟨5, false⟩, ⟨2, false⟩, ⟨100, 5, 3⟩⟩,
      ⟨⟨3, false⟩, ⟨1, false⟩, ⟨100, 5, 3⟩⟩, ⟨⟨3, false⟩, ⟨2, false⟩, ⟨100, 5, 3⟩⟩,
      ⟨⟨4, false⟩, ⟨3, false⟩, ⟨100, 5, 3⟩⟩, ⟨⟨5, false⟩, ⟨3, false⟩, ⟨100, 5, 3⟩⟩] }

end Scaffold

/-! ## Distance estimates on a path -/

/-- A node of a contig path: an oriented contig, or the ambiguous node
`ContigNode(n, 'N')` that stands for a gap of `n` bases. -/
inductive PathNode where
  | contig (u : ContigNode)
  | gap (n : Int)
  deriving DecidableEq

/-- The ways in which `addDistEst` can stop: `path.front()` of an empty path,
or one of the assertions of `addDistEst` and `isOverlap`. -/
inductive AddDistEstFailure where
  | emptyPath
  | missingEdge
  | overlapDistance
  | negativeGap
  deriving DecidableEq

namespace Scaffold

open Graph

/-- `isOverlap`: the estimate is an exact overlap; the source asserts that the
distance of an exact overlap is negative. -/
def isOverlap (d : DistanceEst) : Except AddDistEstFailure Bool :=
  if d.stdDev = 0 then
    if d.distance < 0 then Except.ok true else Except.error AddDistEstFailure.overlapDistance
  else Except.ok false

/-- The estimate that `addDistEst` uses for the step from `u` to `v`: the
bundle of the edge in `g0` when it exists, else that of the edge in `g1`. -/
def estimate (g0 g1 : Graph) (u v : ContigNode) : Option DistanceEst :=
  match edge u v g0, edge u v g1 with
  | some e0, _ => some e0.ep
  | none, some e1 => some e1.ep
  | none, none => none

/-- The body of the loop of `addDistEst`: the nodes pushed for the step from
`u` to `v`.  `opt::k` and `opt::minGap` are arguments; `distance + opt::k - 1`
is computed in `unsigned` and converted to `int`. -/
def addDistEstStep (k : Nat) (minGap : Int) (g0 g1 : Graph) (u v : ContigNode) :
    Except AddDistEstFailure (List PathNode) :=
  match estimate g0 g1 u v with
  | none => Except.error AddDistEstFailure.missingEdge
  | some ep =>
    match isOverlap ep with
    | Except.error x => Except.error x
    | Except.ok true => Except.ok [PathNode.contig v]
    | Except.ok false =>
      let distance : Int := max ep.distance minGap
      let numN : Int := toInt32 (distance + (k : Int) - 1)
      if numN ≥ 0 then Except.ok [PathNode.gap (max numN 1), PathNode.contig v]
      else Except.error AddDistEstFailure.negativeGap

/-- The loop of `addDistEst` over `path.begin() + 1 .. path.end()`. -/
def addDistEstLoop (k : Nat) (minGap : Int) (g0 g1 : Graph) :
    ContigNode → List ContigNode → Except AddDistEstFailure (List PathNode)
  | _, [] => Except.ok []
  | u, v :: rest =>
    match addDistEstStep k minGap g0 g1 u v with
    | Except.error x => Except.error x
    | Except.ok pushed =>
      match addDistEstLoop k minGap g0 g1 v rest with
      | Except.error x => Except.error x
      | Except.ok out => Except.ok (pushed ++ out)

/-- `addDistEst`. -/
def addDistEst (k : Nat) (minGap : Int) (g0 g1 : Graph) (path : List ContigNode) :
    Except AddDistEstFailure (List PathNode) :=
  match path with
  | [] => Except.error AddDistEstFailure.emptyPath
  | u :: rest =>
    match addDistEstLoop k minGap g0 g1 u rest with
    | Except.error x => Except.error x
    | Except.ok out => Except.ok (PathNode.contig u :: out)

/-- The output described by the spec for the contigs that follow `u` on a path:
between two consecutive contigs one gap node of length
max(max(distance, minGap) + k - 1, 1) when the estimate is not an exact
overlap, and nothing when it is. -/
def gappedPath (k : Nat) (minGap : Int) (g0 g1 : Graph) :
    ContigNode → List ContigNode → List PathNode
  | _, [] => []
  | u, v :: rest =>
    (match estimate g0 g1 u v with
      | some ep =>
        if ep.stdDev ≠ 0 then
          [PathNode.gap (max (max ep.distance minGap + (k : Int) - 1) 1)]
        else []
      | none => []) ++ PathNode.contig v :: gappedPath k minGap g0 g1 v rest

/-- The condition under which the step from `u` to `v` passes the assertions
and the gap length is computed without overflow. -/
def stepOk (k : Nat) (minGap : Int) (g0 g1 : Graph) (u v : ContigNode) : Prop :=
  ∃ ep, estimate g0 g1 u v = some ep ∧
    (ep.stdDev = 0 → ep.distance < 0) ∧
    (ep.stdDev ≠ 0 → 0 ≤ max ep.distance minGap + (k : Int) - 1 ∧
      max ep.distance minGap + (k : Int) - 1 < 2 ^ 31)

/-- The first scenario of the spec for the scaffolder: contigs 1, 2 and 3 of
length 2000, the edge from 1 to 2 with d=100 and n=5, the edge from 1 to 3 with
d=100 and n=1; with the complementary edges. -/
def scenarioGraph : Graph :=
  { vertices := [⟨1, true⟩, ⟨1, false⟩, ⟨2, true⟩, ⟨2, false⟩, ⟨3, true⟩, ⟨3, false⟩]
    length := fun _ => 2000
    removed := []
    edges := [⟨⟨1, true⟩, ⟨2, true⟩, ⟨100, 5, 10⟩⟩, ⟨⟨1, true⟩, ⟨3, true⟩, ⟨100, 1, 10⟩⟩,
      ⟨⟨2, false⟩, ⟨1, false⟩, ⟨100, 5, 10⟩⟩, ⟨⟨3, false⟩, ⟨1, false⟩, ⟨100, 1, 10⟩⟩] }

end Scaffold

/-! ## Parameter search -/

/-- Arithmetic on `unsigned` wraps modulo `2 ^ 32`. -/
def wrap32 (n : Nat) : Nat := n % 2 ^ 32

/-- `ScaffoldParam`: the parameters of scaffolding. -/
structure ScaffoldParam where
  n : Nat
  s : Nat
  deriving DecidableEq

/-- `ScaffoldResult`: the parameters, the scaffold N50 and the metrics text. -/
structure ScaffoldResult where
  n : Nat
  s : Nat
  n50 : Nat
  metrics : String
  deriving DecidableEq

/-- The state of a search: `ScaffoldMemo` (an `unordered_map` from
`ScaffoldParam` to `ScaffoldResult`, here an association list) and, as a
record of what was computed, the parameters of every run of `scaffold`. -/
structure SearchState where
  memo : List (ScaffoldParam × ScaffoldResult)
  calls : List ScaffoldParam

/-- The floating-point expressions of `optimize_s`, taken as parameters:
`index x` is `(unsigned)round(log(x) / log(STEP))` and `value i` is the seed
length of step `i`, which is `pow(STEP, i)` rounded to one figure. -/
structure SweepOps where
  index : Nat → Nat
  value : Nat → Nat

namespace Scaffold

/-- `ScaffoldMemo::find`. -/
def memoFind : List (ScaffoldParam × ScaffoldResult) → ScaffoldParam → Option ScaffoldResult
  | [], _ => none
  | (key, r) :: rest, param => if key = param then some r else memoFind rest param

/-- `scaffold_memoized`.  The call `scaffold(g, n, s, false)` on the fixed graph
is the parameter `run`, which gives the N50 and the metrics text for `n` and
`s`; the result of `scaffold` carries `n` and `s` as they were passed. -/
def scaffold_memoized (run : Nat → Nat → Nat × String) (n s : Nat) (st : SearchState) :
    ScaffoldResult × SearchState :=
  let param : ScaffoldParam := { n := n, s := s }
  match memoFind st.memo param with
  | some found => ({ found with metrics := "" }, st)
  | none =>
    let result : ScaffoldResult :=
      { n := n, s := s, n50 := (run n s).1, metrics := (run n s).2 }
    (result, { memo := (param, result) :: st.memo, calls := st.calls ++ [param] })

/-- The body of the loop of `optimize_n` for the value `n`; `acc` holds
`bestn`, `bestN50` and `metrics_table`. -/
def optimize_n_step (run : Nat → Nat → Nat × String) (minContigLength n : Nat)
    (acc : ScaffoldResult) (st : SearchState) : ScaffoldResult × SearchState :=
  let out := scaffold_memoized run n minContigLength st
  let table := acc.metrics ++ out.1.metrics
  if out.1.n50 > acc.n50 then
    ({ n := n, s := acc.s, n50 := out.1.n50, metrics := table }, out.2)
  else ({ acc with metrics := table }, out.2)

/-- The loop of `optimize_n`: `for (n = first; n <= second; n += step)`.  The
result is `none` when the fuel runs out before the loop ends. -/
def optimize_n_loop (run : Nat → Nat → Nat × String) (step hi minContigLength : Nat) :
    Nat → Nat → ScaffoldResult → SearchState → Option (ScaffoldResult × SearchState)
  | 0, _, _, _ => none
  | fuel + 1, n, acc, st =>
    if n ≤ hi then
      let out := optimize_n_step run minContigLength n acc st
      optimize_n_loop run step hi minContigLength fuel (wrap32 (n + step)) out.1 out.2
    else some (acc, st)

/-- `optimize_n`. -/
def optimize_n (run : Nat → Nat → Nat × String) (step : Nat) (minEdgeWeight : Nat × Nat)
    (minContigLength : Nat) (st : SearchState) : Option (ScaffoldResult × SearchState) :=
  optimize_n_loop run step minEdgeWeight.2 minContigLength (minEdgeWeight.2 + 2)
    minEdgeWeight.1 { n := 0, s := minContigLength, n50 := 0, metrics := "" } st

/-- The body of the loop of `optimize_s` for the step `i`; `acc` holds `bests`,
`bestN50` and `metrics_table`. -/
def optimize_s_step (run : Nat → Nat → Nat × String) (ops : SweepOps)
    (minEdgeWeight i : Nat) (acc : ScaffoldResult) (st : SearchState) :
    ScaffoldResult × SearchState :=
  let s := ops.value i
  let out := scaffold_memoized run minEdgeWeight s st
  let table := acc.metrics ++ out.1.metrics
  if out.1.n50 > acc.n50 then
    ({ n := acc.n, s := s, n50 := out.1.n50, metrics := table }, out.2)
  else ({ acc with metrics := table }, out.2)

/-- The loop of `optimize_s`: `for (i = ...; i <= ilast; ++i)`.  The result is
`none` when the fuel runs out before the loop ends. -/
def optimize_s_loop (run : Nat → Nat → Nat × String) (ops : SweepOps)
    (minEdgeWeight ilast : Nat) :
    Nat → Nat → ScaffoldResult → SearchState → Option (ScaffoldResult × SearchState)
  | 0, _, _, _ => none
  | fuel + 1, i, acc, st =>
    if i ≤ ilast then
      let out := optimize_s_step run ops minEdgeWeight i acc st
      optimize_s_loop run ops minEdgeWeight ilast fuel (wrap32 (i + 1)) out.1 out.2
    else some (acc, st)

/-- `optimize_s`. -/
def optimize_s (run : Nat → Nat → Nat × String) (ops : SweepOps) (minEdgeWeight : Nat)
    (minContigLength : Nat × Nat) (st : SearchState) :
    Option (ScaffoldResult × SearchState) :=
  let ilast := ops.index minContigLength.2
  optimize_s_loop run ops minEdgeWeight ilast (ilast + 2) (ops.index minContigLength.1)
    { n := minEdgeWeight, s := 0, n50 := 0, metrics := "" } st

/-- The loop of `optimize_grid_search` over `n`; the pair holds `best` and
`metrics_table`. -/
def gridLoop (run : Nat → Nat → Nat × String) (ops : SweepOps) (step hi : Nat)
    (minContigLength : Nat × Nat) :
    Nat → Nat → ScaffoldResult × String → SearchState →
      Option ((ScaffoldResult × String) × SearchState)
  | 0, _, _, _ => none
  | fuel + 1, n, acc, st =>
    if n ≤ hi then
      match optimize_s run ops n minContigLength st with
      | none => none
      | some (result, st1) =>
        let table := acc.2 ++ result.metrics
        let best := if result.n50 > acc.1.n50 then result else acc.1
        gridLoop run ops step hi minContigLength fuel (wrap32 (n + step)) (best, table) st1
    else some (acc, st)

/-- `optimize_grid_search`; `opt::minEdgeWeightStep` is the argument `step`.
The final state of the memo is returned with the result. -/
def optimize_grid_search (run : Nat → Nat → Nat × String) (ops : SweepOps) (step : Nat)
    (minEdgeWeight minContigLength : Nat × Nat) : Option (ScaffoldResult × SearchState) :=
  match gridLoop run ops step minEdgeWeight.2 minContigLength (minEdgeWeight.2 + 2)
      minEdgeWeight.1 ({ n := 0, s := 0, n50 := 0, metrics := "" }, "")
      { memo := [], calls := [] } with
  | none => none
  | some (acc, st) => some ({ acc.1 with metrics := acc.2 }, st)

/-- The loop of `optimize_line_search`, with `m` iterations left before
`MAX_ITERATIONS` is reached. -/
def lineLoop (run : Nat → Nat → Nat × String) (ops : SweepOps) (step : Nat)
    (minEdgeWeight minContigLength : Nat × Nat) :
    Nat → ScaffoldResult × String → SearchState →
      Option ((ScaffoldResult × String) × SearchState)
  | 0, acc, st => some (acc, st)
  | m + 1, acc, st =>
    let previous_s := acc.1.s
    match optimize_s run ops acc.1.n minContigLength st with
    | none => none
    | some (best1, st1) =>
      let table1 := acc.2 ++ best1.metrics
      if best1.s = previous_s then some ((best1, table1), st1)
      else
        let previous_n := best1.n
        match optimize_n run step minEdgeWeight best1.s st1 with
        | none => none
        | some (best2, st2) =>
          let table2 := table1 ++ best2.metrics
          if best2.n = previous_n then some ((best2, table2), st2)
          else lineLoop run ops step minEdgeWeight minContigLength m (best2, table2) st2

/-- `optimize_line_search`; `opt::minEdgeWeightStep` is the argument `step`
(the source divides by it: a step of 0 is a division by zero there).  The
final state of the memo is returned with the result. -/
def optimize_line_search (run : Nat → Nat → Nat × String) (ops : SweepOps) (step : Nat)
    (minEdgeWeight minContigLength : Nat × Nat) : Option (ScaffoldResult × SearchState) :=
  let best : ScaffoldResult :=
    { n := wrap32 (minEdgeWeight.1 + minEdgeWeight.2) / 2, s := minContigLength.2,
      n50 := 0, metrics := "" }
  let MAX_ITERATIONS :=
    wrap32 (1 + wrap32 (minEdgeWeight.2 + 2 ^ 32 - minEdgeWeight.1) / step)
  match lineLoop run ops step minEdgeWeight minContigLength MAX_ITERATIONS (best, "")
      { memo := [], calls := [] } with
  | none => none
  | some (acc, st) => some ({ acc.1 with metrics := acc.2 }, st)

/-- The memo holds, for every key, a result with the N50 that `scaffold` gives
for that key. -/
def memoConsistent (run : Nat → Nat → Nat × String) (st : SearchState) : Prop :=
  ∀ key r, memoFind st.memo key = some r → r.n50 = (run key.n key.s).1

/-- A sweep of one step that gives the seed length 1000. -/
def sweep1000 : SweepOps := { index := fun _ => 9, value := fun _ => 1000 }

/-- A scaffolder whose N50 is 0 everywhere. -/
def runZero : Nat → Nat → Nat × String := fun _ _ => (0, "")

/-- A scaffolder whose N50 is 1200 for the seed length 0 and 0 otherwise. -/
def runOnlyAtZero : Nat → Nat → Nat × String :=
  fun _ s => if s = 0 then (1200, "") else (0, "")

/-- A scaffolder whose N50 is 5000 for n = 2 and 3000 otherwise. -/
def runPeak : Nat → Nat → Nat × String :=
  fun n _ => if n = 2 then (5000, "") else (3000, "")

end Scaffold

/-! ## The sweep of the seed length -/

/-- The largest `m` between `lo` and `hi` with `m ^ 3 ≤ n`, by bisection. -/
def icbrtLoop (n : Nat) : Nat → Nat → Nat → Nat
  | 0, lo, _ => lo
  | fuel + 1, lo, hi =>
    if hi ≤ lo + 1 then lo
    else if ((lo + hi) / 2) ^ 3 ≤ n then icbrtLoop n fuel ((lo + hi) / 2) hi
    else icbrtLoop n fuel lo ((lo + hi) / 2)

/-- `(unsigned)pow(STEP, (int)i)` with `STEP = cbrt(10)`, in exact arithmetic:
the integer part of the cube root of `10 ^ i`. -/
def powStep (i : Nat) : Nat := icbrtLoop (10 ^ i) (4 * i + 4) 0 (10 ^ i + 1)

/-- `pow(10, floor(log10(s)))` in exact arithmetic: the largest power of ten
that is at most `s`, searched upwards from `d`. -/
def nearestDecadeLoop (s : Nat) : Nat → Nat → Nat
  | 0, d => d
  | fuel + 1, d => if 10 * d ≤ s then nearestDecadeLoop s fuel (10 * d) else d

/-- The rounding to one figure of `optimize_s`:
`unsigned(round(s / nearestDecade) * nearestDecade)`, halves rounded up. -/
def roundToOneFigure (s : Nat) : Nat :=
  let nearestDecade := nearestDecadeLoop s s 1
  (2 * s + nearestDecade) / (2 * nearestDecade) * nearestDecade

/-- `(unsigned)round(log(x) / log(STEP))` with `STEP = cbrt(10)`, in exact
arithmetic, for `x ≥ 1`: the quotient is three times the decimal logarithm of
`x`, and it rounds to `i` when `10 ^ (2 i - 1) ≤ x ^ 6 < 10 ^ (2 i + 1)`. -/
def sweepIndexLoop (x : Nat) : Nat → Nat → Nat
  | 0, i => i
  | fuel + 1, i => if x ^ 6 < 10 ^ (2 * i + 1) then i else sweepIndexLoop x fuel (i + 1)

/-- The sweep of `optimize_s` in exact arithmetic.  The `double` arithmetic of
the source gives the same values wherever the exact quantities are not within
rounding error of a rounding boundary; that is so at the seed lengths used
below (500, 600, 700 and 1000, steps 8 and 9). -/
def exactSweep : SweepOps :=
  { index := fun x => sweepIndexLoop x (x + 1) 0
    value := fun i => roundToOneFigure (powStep i) }

namespace Scaffold

/-- One iteration of the loop of `optimize_line_search`: `best.n` and
`previous_s` at its start, the result of `optimize_s`, and the result of
`optimize_n` when the iteration reaches it. -/
structure LineIteration where
  n0 : Nat
  s0 : Nat
  afterS : ScaffoldResult
  afterN : Option ScaffoldResult

/-- The loop of `optimize_line_search` (see `lineLoop`), giving the record of
its iterations instead of the final result. -/
def lineLog (run : Nat → Nat → Nat × String) (ops : SweepOps) (step : Nat)
    (minEdgeWeight minContigLength : Nat × Nat) :
    Nat → ScaffoldResult → SearchState → Option (List LineIteration)
  | 0, _, _ => some []
  | m + 1, best, st =>
    let previous_s := best.s
    match optimize_s run ops best.n minContigLength st with
    | none => none
    | some (best1, st1) =>
      if best1.s = previous_s then
        some [{ n0 := best.n, s0 := previous_s, afterS := best1, afterN := none }]
      else
        let previous_n := best1.n
        match optimize_n run step minEdgeWeight best1.s st1 with
        | none => none
        | some (best2, st2) =>
          if best2.n = previous_n then
            some [{ n0 := best.n, s0 := previous_s, afterS := best1, afterN := some best2 }]
          else
            (lineLog run ops step minEdgeWeight minContigLength m best2 st2).map
              (fun rest =>
                { n0 := best.n, s0 := previous_s, afterS := best1, afterN := some best2 }
                  :: rest)

/-- The record of the iterations of `optimize_line_search`, with the starting
point and `MAX_ITERATIONS` of the source. -/
def optimize_line_search_log (run : Nat → Nat → Nat × String) (ops : SweepOps)
    (step : Nat) (minEdgeWeight minContigLength : Nat × Nat) :
    Option (List LineIteration) :=
  let best : ScaffoldResult :=
    { n := wrap32 (minEdgeWeight.1 + minEdgeWeight.2) / 2, s := minContigLength.2,
      n50 := 0, metrics := "" }
  let MAX_ITERATIONS :=
    wrap32 (1 + wrap32 (minEdgeWeight.2 + 2 ^ 32 - minEdgeWeight.1) / step)
  lineLog run ops step minEdgeWeight minContigLength MAX_ITERATIONS best
    { memo := [], calls := [] }

/-- The alternation the spec describes, as a property of a record of
iterations that starts from `n` and `s` with the memo `st`: each iteration
runs `optimize_s` with `n` fixed and stops when the seed length comes back
unchanged; otherwise it runs `optimize_n` with that seed length fixed and
stops when `n` comes back unchanged; otherwise the next iteration starts from
the result. -/
def alternates (run : Nat → Nat → Nat × String) (ops : SweepOps) (step : Nat)
    (minEdgeWeight minContigLength : Nat × Nat) :
    Nat → Nat → SearchState → List LineIteration → Prop
  | _, _, _, [] => True
  | n, s, st, it :: rest =>
    it.n0 = n ∧ it.s0 = s ∧
    ∃ st1, optimize_s run ops n minContigLength st = some (it.afterS, st1) ∧
      it.afterS.n = n ∧
      ((it.afterS.s = s ∧ it.afterN = none ∧ rest = []) ∨
       (it.afterS.s ≠ s ∧ ∃ best2 st2,
          optimize_n run step minEdgeWeight it.afterS.s st1 = some (best2, st2) ∧
          it.afterN = some best2 ∧ best2.s = it.afterS.s ∧
          ((best2.n = n ∧ rest = []) ∨
           (best2.n ≠ n ∧
            alternates run ops step minEdgeWeight minContigLength best2.n best2.s st2 rest))))

/-- The result an iteration ends with. -/
def LineIteration.result (it : LineIteration) : ScaffoldResult :=
  match it.afterN with
  | none => it.afterS
  | some best2 => best2

/-- The conversion of an `int` to `unsigned`. -/
def toUInt32 (z : Int) : Nat := (z % 2 ^ 32).toNat

/-- The loop of `addLength`: `u` is `*(it - 1)` and the list holds `*it` and
what follows.  `get(edge_bundle, g, u, v)` asserts that the edge exists; a
failed assertion is `none`. -/
def addLengthLoop (g : Graph) : ContigNode → List ContigNode → Nat → Option Nat
  | _, [], length => some length
  | u, v :: rest, length =>
    match Graph.edge u v g with
    | none => none
    | some e =>
      let length1 := wrap32 (length + toUInt32 (min 0 e.ep.distance))
      addLengthLoop g v rest (wrap32 (length1 + g.length v))

/-- `addLength`; `assert(first != last)` fails on an empty path. -/
def addLength (g : Graph) : List ContigNode → Option Nat
  | [] => none
  | first :: rest => addLengthLoop g first rest (wrap32 (g.length first))

/-- The scaffold length not counting gaps, as the spec states it: the lengths
of the vertices plus, for each consecutive pair, the distance when it is
negative. -/
def scaffoldLength (g : Graph) : ContigNode → List ContigNode → Int
  | u, [] => (g.length u : Int)
  | u, v :: rest =>
    (g.length u : Int)
      + min 0 (match Graph.edge u v g with
          | some e => e.ep.distance
          | none => 0)
      + scaffoldLength g v rest

/-- Two contigs of length 2000 joined by an edge whose overlap is the whole
length, 2000. -/
def fullOverlapExample : Graph :=
  { vertices := [⟨1, true⟩, ⟨1, false⟩, ⟨2, true⟩, ⟨2, false⟩]
    length := fun _ => 2000
    removed := []
    edges := [⟨⟨1, true⟩, ⟨2, true⟩, ⟨-2000, 5, 10⟩⟩,
      ⟨⟨2, false⟩, ⟨1, false⟩, ⟨-2000, 5, 10⟩⟩] }

end Scaffold

namespace Scaffold

/-- The runs of `scaffold` are tracked by the memo: no parameter pair was run
twice, every pair that was run has an entry in the memo, and every pair that
was run satisfies `P`. -/
def callsTracked (P : ScaffoldParam → Prop) (st : SearchState) : Prop :=
  st.calls.Nodup ∧
  (∀ key ∈ st.calls, (memoFind st.memo key).isSome = true) ∧
  (∀ key ∈ st.calls, P key)

/-- The points of the grid: `n` is reached from `n_lo` in steps of `step`
without passing `n_hi`, and `s` is the seed length of a step of the sweep
between the steps of `s_lo` and `s_hi`. -/
def gridPoint (ops : SweepOps) (step n_lo n_hi s_lo s_hi : Nat) (key : ScaffoldParam) :
    Prop :=
  (∃ k, key.n = n_lo + k * step ∧ key.n ≤ n_hi) ∧
  (∃ j, ops.index s_lo ≤ j ∧ j ≤ ops.index s_hi ∧ key.s = ops.value j)

end Scaffold

/-! ## The assembly driver -/

/-- The options `assemble` reads; `coverage` is a `float` in the source, a
rational number here. -/
structure AssemblyOptions where
  inFiles : List String
  kc : Nat
  erode : Nat
  coverage : ℚ
  bubbleLen : Int
  graphPath : String

/-- The calls `assemble` makes on the sequence collection, in the order in
which they are made. -/
inductive Pass where
  | loadSequences (path : String)
  | setDeletedKey
  | shrink
  | setCoverageParameters
  | applyKmerCoverageThreshold
  | generateAdjacency
  | removePairedDBGInconsistentEdges
  | erodeEnds
  | cleanup
  | performTrim
  | markAmbiguous
  | assemble (writer : Bool)
  | splitAmbiguous
  | wipeFlag
  | popBubbles
  | write_graph
  deriving DecidableEq

/-- Modelled from the spec: `SequenceCollectionHash` and the functions of
`AssemblyAlgorithms` are declared in `Assembly/`, which is not among the
sources.  They are taken as parameters on a graph type `G`; the functions
that read the options take them as an argument, and only
`setCoverageParameters` changes them.  `erodeEnds`,
`applyKmerCoverageThreshold` and `assemble` also give their count, and
`popBubbles` gives the count and whether the bubble stream is good.  The spec
says that `loadSequences` failing a file is fatal: `loadSequencesFails` tells
whether the call for a file fails on the collection loaded so far, and
`loadSequences` gives the collection after a call that does not fail. -/
structure AssemblyOps (G : Type) where
  init : G
  PAIRED_DBG : Bool
  loadSequences : String → G → G
  loadSequencesFails : String → G → Bool
  size : G → Nat
  setDeletedKey : G → G
  shrink : G → G
  empty : G → Bool
  setCoverageParameters : G → AssemblyOptions → AssemblyOptions
  applyKmerCoverageThreshold : Nat → G → G × Nat
  generateAdjacency : G → G
  removePairedDBGInconsistentEdges : G → G
  erodeEnds : AssemblyOptions → G → G × Nat
  cleanup : G → G
  performTrim : AssemblyOptions → G → G
  markAmbiguous : G → G
  assemble : AssemblyOptions → Bool → G → G × Nat
  splitAmbiguous : G → G
  wipeFlag : G → G
  popBubbles : AssemblyOptions → G → G × Nat × Bool

/-- The state of `assemble`: the sequence collection, the options (globals of
the source) and the record of the calls made so far. -/
structure AssemblyState (G : Type) where
  g : G
  opt : AssemblyOptions
  log : List Pass

/-- How `assemble` ends: it returns, it calls `exit(EXIT_FAILURE)` after a
message, an `assert` fails, or the call of `loadSequences` for a file fails,
which ends the program. -/
inductive Outcome where
  | completed
  | exitFailure (message : String)
  | assertionFailed (expression : String)
  | loadFailed (path : String)
  deriving DecidableEq

namespace Assembly

variable {G : Type}

/-- A call that changes the sequence collection. -/
def call (p : Pass) (f : G → G) (st : AssemblyState G) : AssemblyState G :=
  { st with g := f st.g, log := st.log ++ [p] }

/-- The static function `removeLowCoverageContigs`. -/
def removeLowCoverageContigs (ops : AssemblyOps G) (st : AssemblyState G) :
    AssemblyState G :=
  let st1 := call Pass.markAmbiguous ops.markAmbiguous st
  let st2 := call (Pass.assemble false) (fun g => (ops.assemble st1.opt false g).1) st1
  let st3 := call Pass.splitAmbiguous ops.splitAmbiguous st2
  { st3 with opt := { st3.opt with coverage := 0 } }

/-- The static function `popBubbles`, with its `assert(out.good())`. -/
def popBubbles (ops : AssemblyOps G) (st : AssemblyState G) :
    Except (String × AssemblyState G) (AssemblyState G) :=
  let r := ops.popBubbles st.opt st.g
  let st1 : AssemblyState G := { st with g := r.1, log := st.log ++ [Pass.popBubbles] }
  if r.2.2 then Except.ok st1 else Except.error ("out.good()", st1)

/-- The statements of `assemble` from the label `erode` to the second
`g.cleanup()`: erosion when `opt::erode > 0` (the `assert` calls `erodeEnds` a
second time), then trimming. -/
def trimRound (ops : AssemblyOps G) (st : AssemblyState G) :
    Except (String × AssemblyState G) (AssemblyState G) :=
  let eroded : Except (String × AssemblyState G) (AssemblyState G) :=
    if st.opt.erode > 0 then
      let st1 := call Pass.erodeEnds (fun g => (ops.erodeEnds st.opt g).1) st
      let again := ops.erodeEnds st1.opt st1.g
      let st2 : AssemblyState G := { st1 with g := again.1, log := st1.log ++ [Pass.erodeEnds] }
      if again.2 = 0 then Except.ok (call Pass.cleanup ops.cleanup st2)
      else Except.error ("AssemblyAlgorithms::erodeEnds(&g) == 0", st2)
    else Except.ok st
  match eroded with
  | Except.error a => Except.error a
  | Except.ok st3 =>
    let st4 := call Pass.performTrim (ops.performTrim st3.opt) st3
    Except.ok (call Pass.cleanup ops.cleanup st4)

/-- The loop that `goto erode` makes in `assemble`; `none` when the fuel runs
out. -/
def erodeLoop (ops : AssemblyOps G) :
    Nat → AssemblyState G → Option (Except (String × AssemblyState G) (AssemblyState G))
  | 0, _ => none
  | fuel + 1, st =>
    match trimRound ops st with
    | Except.error a => some (Except.error a)
    | Except.ok st1 =>
      if st1.opt.coverage > 0 then
        let st2 := removeLowCoverageContigs ops st1
        let st3 := call Pass.wipeFlag ops.wipeFlag st2
        let st4 := call Pass.cleanup ops.cleanup st3
        erodeLoop ops fuel st4
      else some (Except.ok st1)

/-- The first statements of `assemble`: the sequences are loaded, then
`setDeletedKey` and `shrink`. -/
def loadAll (ops : AssemblyOps G) (opt : AssemblyOptions) (pathIn : String) :
    AssemblyState G :=
  let st0 : AssemblyState G := { g := ops.init, opt := opt, log := [] }
  let st1 :=
    if pathIn ≠ "" then call (Pass.loadSequences pathIn) (ops.loadSequences pathIn) st0
    else st0
  let st2 := opt.inFiles.foldl
    (fun st s => call (Pass.loadSequences s) (ops.loadSequences s) st) st1
  let st3 := call Pass.setDeletedKey ops.setDeletedKey st2
  call Pass.shrink ops.shrink st3

/-- The calls of `loadSequences` of `assemble` for the files `files`, up to the
first one that fails: the file and the state at the failing call, `none` when
no call fails. -/
def loadFailureLoop (ops : AssemblyOps G) :
    List String → AssemblyState G → Option (String × AssemblyState G)
  | [], _ => none
  | s :: rest, st =>
    if ops.loadSequencesFails s st.g then
      some (s, { st with log := st.log ++ [Pass.loadSequences s] })
    else loadFailureLoop ops rest (call (Pass.loadSequences s) (ops.loadSequences s) st)

/-- The first call of `loadSequences` of `assemble` that fails, for `pathIn`
(when it is not empty) and then the files of `opt::inFiles`. -/
def loadFailure (ops : AssemblyOps G) (opt : AssemblyOptions) (pathIn : String) :
    Option (String × AssemblyState G) :=
  loadFailureLoop ops ((if pathIn ≠ "" then [pathIn] else []) ++ opt.inFiles)
    { g := ops.init, opt := opt, log := [] }

/-- The statements of `assemble` from `setCoverageParameters` to the
`markAmbiguous` that precedes the final walk. -/
def cleanGraph (ops : AssemblyOps G) (fuel : Nat) (st : AssemblyState G) :
    Option (Except (String × AssemblyState G) (AssemblyState G)) :=
  let st1 : AssemblyState G :=
    { st with opt := ops.setCoverageParameters st.g st.opt
              log := st.log ++ [Pass.setCoverageParameters] }
  let st2 :=
    if st1.opt.kc > 0 then
      call Pass.applyKmerCoverageThreshold
        (fun g => (ops.applyKmerCoverageThreshold st1.opt.kc g).1) st1
    else st1
  let st3 := call Pass.generateAdjacency ops.generateAdjacency st2
  let st4 :=
    if ops.PAIRED_DBG then
      call Pass.removePairedDBGInconsistentEdges ops.removePairedDBGInconsistentEdges st3
    else st3
  match erodeLoop ops fuel st4 with
  | none => none
  | some (Except.error a) => some (Except.error a)
  | some (Except.ok st5) =>
    match (if st5.opt.bubbleLen > 0 then popBubbles ops st5 else Except.ok st5) with
    | Except.error a => some (Except.error a)
    | Except.ok st6 =>
      let st7 := if st6.opt.graphPath ≠ "" then call Pass.write_graph id st6 else st6
      some (Except.ok (call Pass.markAmbiguous ops.markAmbiguous st7))

/-- The static function `assemble`; the messages on `cout` and the database
calls are left out, and the FASTA writer opened at `pathOut` is the flag `true`
of the final `AssemblyAlgorithms::assemble`.  A call of `loadSequences` that
fails ends the program; when none fails, `loadAll` is the state after the
first statements. -/
def assemble (ops : AssemblyOps G) (opt : AssemblyOptions) (pathIn : String)
    (fuel : Nat) : Option (Outcome × AssemblyState G) :=
  match loadFailure ops opt pathIn with
  | some a => some (Outcome.loadFailed a.1, a.2)
  | none =>
    let st := loadAll ops opt pathIn
    if ops.empty st.g then some (Outcome.exitFailure "error: no usable sequence\n", st)
    else
      match cleanGraph ops fuel st with
      | none => none
      | some (Except.error a) => some (Outcome.assertionFailed a.1, a.2)
      | some (Except.ok st1) =>
        let r := ops.assemble st1.opt true st1.g
        let st2 : AssemblyState G :=
          { st1 with g := r.1, log := st1.log ++ [Pass.assemble true] }
        if r.2 = 0 then some (Outcome.exitFailure "error: no contigs assembled\n", st2)
        else some (Outcome.completed, st2)

/-- The calls of `AssemblyAlgorithms::assemble` without a writer in a record:
the rounds of low-coverage contig removal. -/
def removalRounds (log : List Pass) : Nat := log.count (Pass.assemble false)

/-- The second `erodeEnds` of the `assert` removes nothing. -/
def erodeStable (ops : AssemblyOps G) : Prop :=
  ∀ opt g, (ops.erodeEnds opt (ops.erodeEnds opt g).1).2 = 0

/-- A toy sequence collection, the number of its k-mers: every file loads
three k-mers, a round of low-coverage contig removal removes one k-mer when
the threshold is positive, the other passes remove nothing, and the final walk
gives one contig per k-mer. -/
def countingOps : AssemblyOps Nat :=
  { init := 0
    PAIRED_DBG := false
    loadSequences := fun _ g => g + 3
    loadSequencesFails := fun _ _ => false
    size := fun g => g
    setDeletedKey := fun g => g
    shrink := fun g => g
    empty := fun g => decide (g = 0)
    setCoverageParameters := fun _ opt => opt
    applyKmerCoverageThreshold := fun _ g => (g, 0)
    generateAdjacency := fun g => g
    removePairedDBGInconsistentEdges := fun g => g
    erodeEnds := fun _ g => (g, 0)
    cleanup := fun g => g
    performTrim := fun _ g => g
    markAmbiguous := fun g => g
    assemble := fun opt writer g =>
      if writer then (g, g) else if opt.coverage > 0 then (g - 1, 0) else (g, 0)
    splitAmbiguous := fun g => g
    wipeFlag := fun g => g
    popBubbles := fun _ g => (g, 0, true) }

/-- Options with one input file and the coverage threshold 2. -/
def countingOptions : AssemblyOptions :=
  { inFiles := ["reads.fa"], kc := 0, erode := 2, coverage := 2, bubbleLen := 0,
    graphPath := "" }

/-- The toy sequence collection with a bubble stream that is not good after
`popBubbles`. -/
def badBubbleOps : AssemblyOps Nat :=
  { countingOps with popBubbles := fun _ g => (g, 0, false) }

/-- The toy sequence collection with an `erodeEnds` that removes one k-mer at
every call. -/
def unstableErodeOps : AssemblyOps Nat :=
  { countingOps with erodeEnds := fun _ g => (g - 1, 1) }

/-- The toy sequence collection on which loading the file missing.fa fails. -/
def failingLoadOps : AssemblyOps Nat :=
  { countingOps with loadSequencesFails := fun path _ => decide (path = "missing.fa") }

/-- The options of `countingOptions` with bubble popping. -/
def bubbleOptions : AssemblyOptions :=
  { countingOptions with bubbleLen := 1 }

/-- The options of `countingOptions` with a second input file, missing.fa. -/
def missingFileOptions : AssemblyOptions :=
  { countingOptions with inFiles := ["reads.fa", "missing.fa"] }

end Assembly

/-! ## The vertices and iterators of `RollingBloomDBG` -/

/-- Modelled from the spec: the further methods of the absent class
`RollingHash` that `RollingBloomDBGVertex` calls, `rollLeft(charIn, kmer)` and
`setLastBase(kmer, dir, base)`, taken as parameters like the others.  They
give the new hash state and leave the k-mer as it is. -/
structure RollingHashVertexOps (H : Type) extends RollingHashOps H where
  rollLeft : H → Char → List Char → H
  setLastBase : H → List Char → extDirection → Char → H

/-- The character arrays allocated with `new char[k + 1]`; a pointer to an
array is its index.  A `LightweightKmer` is such a pointer
(`boost::shared_array<char>`), and copies of it share the array. -/
abbrev Heap := List (List Char)

namespace Heap

/-- The array a pointer points to. -/
def read (heap : Heap) (p : Nat) : List Char := heap.getD p []

/-- The heap after the array at `p` was overwritten. -/
def write (heap : Heap) (p : Nat) (buf : List Char) : Heap := heap.set p buf

/-- A new array; the pointer to it is the second component. -/
def alloc (heap : Heap) (buf : List Char) : Heap × Nat := (heap ++ [buf], heap.length)

/-- Every array of `heap` is unchanged in `heap1`. -/
def preserved (heap heap1 : Heap) : Prop :=
  ∀ p, p < heap.length → heap1.read p = heap.read p

end Heap

namespace RollingBloomDBG

variable {H : Type}

/-- `RollingBloomDBGVertex`: the k-mer (a pointer to its characters) and the
rolling hash state.  The implicit copy constructor copies both members, so a
copy shares the characters of the original. -/
structure Vertex (H : Type) where
  m_kmer : Nat
  m_rollingHash : H

/-- `NUM_BASES` of `Assembly/SeqExt.h`. -/
def NUM_BASES : Nat := 4

/-- `BASE_CHARS`. -/
def BASE_CHARS : List Char := ['A', 'C', 'G', 'T']

namespace Vertex

/-- `RollingBloomDBGVertex::clone`: the constructor of `LightweightKmer` copies
the `k` characters into a new array. -/
def clone (k : Nat) (heap : Heap) (v : Vertex H) : Heap × Vertex H :=
  let r := heap.alloc ((heap.read v.m_kmer).take k)
  (r.1, { m_kmer := r.2, m_rollingHash := v.m_rollingHash })

/-- `RollingBloomDBGVertex::shift`. -/
def shift (ops : RollingHashVertexOps H) (k : Nat) (heap : Heap) (v : Vertex H)
    (dir : extDirection) (charIn : Char) : Heap × Vertex H :=
  let kmer := heap.read v.m_kmer
  let hash :=
    if dir = extDirection.SENSE then ops.rollRight v.m_rollingHash kmer charIn
    else ops.rollLeft v.m_rollingHash charIn kmer
  (heap.write v.m_kmer (LightweightKmer.shift k kmer dir charIn),
   { m_kmer := v.m_kmer, m_rollingHash := hash })

/-- `RollingBloomDBGVertex::setLastBase`. -/
def setLastBase (ops : RollingHashVertexOps H) (k : Nat) (heap : Heap) (v : Vertex H)
    (dir : extDirection) (base : Char) : Heap × Vertex H :=
  let kmer := heap.read v.m_kmer
  let hash := ops.setLastBase v.m_rollingHash kmer dir base
  (heap.write v.m_kmer (LightweightKmer.setLastBase k kmer dir base),
   { m_kmer := v.m_kmer, m_rollingHash := hash })

end Vertex

/-- `vertex_exists`: the Bloom filter is asked for the hashes of the vertex;
`contains` is the membership test of the filter. -/
def vertex_exists (ops : RollingHashVertexOps H) (contains : List Nat → Bool)
    (v : Vertex H) : Bool :=
  contains (ops.getHashes v.m_rollingHash)

/-- The data members of `adjacency_iterator`, `out_edge_iterator` and
`in_edge_iterator` (the graph `m_g` is the pair of `ops` and `contains`).  The
three classes have the same members, constructors, `next` and `operator++`,
except that `in_edge_iterator` works in the direction `ANTISENSE`; the
direction is the argument `dir` below. -/
structure adjacency_iterator (H : Type) where
  m_u : Vertex H
  m_v : Vertex H
  m_i : Nat

namespace adjacency_iterator

/-- The loop of `next`: skip to the next edge that is present.  `none` when
the fuel runs out. -/
def nextLoop (ops : RollingHashVertexOps H) (k : Nat) (contains : List Nat → Bool)
    (dir : extDirection) :
    Nat → Heap → adjacency_iterator H → Option (Heap × adjacency_iterator H)
  | 0, _, _ => none
  | fuel + 1, heap, it =>
    if it.m_i < NUM_BASES then
      let r := it.m_v.setLastBase ops k heap dir (charAt BASE_CHARS it.m_i)
      if vertex_exists ops contains r.2 then some (r.1, { it with m_v := r.2 })
      else nextLoop ops k contains dir fuel r.1 { it with m_v := r.2, m_i := it.m_i + 1 }
    else some (heap, it)

/-- `next`. -/
def next (ops : RollingHashVertexOps H) (k : Nat) (contains : List Nat → Bool)
    (dir : extDirection) (heap : Heap) (it : adjacency_iterator H) :
    Option (Heap × adjacency_iterator H) :=
  nextLoop ops k contains dir (NUM_BASES + 1) heap it

/-- The constructor from a graph and a vertex `u`. -/
def create (ops : RollingHashVertexOps H) (k : Nat) (contains : List Nat → Bool)
    (dir : extDirection) (heap : Heap) (u : Vertex H) :
    Option (Heap × adjacency_iterator H) :=
  let c := u.clone k heap
  let s := c.2.shift ops k c.1 dir 'A'
  next ops k contains dir s.1 { m_u := u, m_v := s.2, m_i := 0 }

/-- `operator++`; `none` also when `assert(m_i < NUM_BASES)` fails. -/
def incr (ops : RollingHashVertexOps H) (k : Nat) (contains : List Nat → Bool)
    (dir : extDirection) (heap : Heap) (it : adjacency_iterator H) :
    Option (Heap × adjacency_iterator H) :=
  if it.m_i < NUM_BASES then next ops k contains dir heap { it with m_i := it.m_i + 1 }
  else none

/-- Comparison with the end iterator, whose `m_i` is `NUM_BASES`. -/
def isEnd (it : adjacency_iterator H) : Bool := it.m_i == NUM_BASES

end adjacency_iterator

/-- A vertex as it is read when an iterator is dereferenced: the characters of
its k-mer and its hash state. -/
abbrev VertexValue (H : Type) := List Char × H

/-- Reading a vertex. -/
def Vertex.value (heap : Heap) (v : Vertex H) : VertexValue H :=
  (heap.read v.m_kmer, v.m_rollingHash)

open adjacency_iterator

/-- A loop from an `adjacency_iterator` to the end iterator that reads `*it`
(a reference to `m_v`) at every position. -/
def adjacentLoop (ops : RollingHashVertexOps H) (k : Nat) (contains : List Nat → Bool) :
    Nat → Heap → adjacency_iterator H → List (VertexValue H) →
      Option (Heap × List (VertexValue H))
  | 0, _, _, _ => none
  | fuel + 1, heap, it, acc =>
    if it.isEnd then some (heap, acc)
    else
      match incr ops k contains extDirection.SENSE heap it with
      | none => none
      | some (heap1, it1) =>
        adjacentLoop ops k contains fuel heap1 it1 (acc ++ [it.m_v.value heap])

/-- The vertices visited from `adjacent_vertices(u, g)`. -/
def adjacent_vertices (ops : RollingHashVertexOps H) (k : Nat) (contains : List Nat → Bool)
    (heap : Heap) (u : Vertex H) : Option (Heap × List (VertexValue H)) :=
  match create ops k contains extDirection.SENSE heap u with
  | none => none
  | some (heap1, it) => adjacentLoop ops k contains (NUM_BASES + 1) heap1 it []

/-- A loop from an `out_edge_iterator` (`dir` is `SENSE`) or an
`in_edge_iterator` (`dir` is `ANTISENSE`) to the end iterator that reads `*it`
at every position: the edge `(m_u, m_v.clone())`, or `(m_v.clone(), m_u)` for
an in-edge. -/
def edgeLoop (ops : RollingHashVertexOps H) (k : Nat) (contains : List Nat → Bool)
    (dir : extDirection) :
    Nat → Heap → adjacency_iterator H → List (VertexValue H × VertexValue H) →
      Option (Heap × List (VertexValue H × VertexValue H))
  | 0, _, _, _ => none
  | fuel + 1, heap, it, acc =>
    if it.isEnd then some (heap, acc)
    else
      let c := it.m_v.clone k heap
      let e : VertexValue H × VertexValue H :=
        if dir = extDirection.SENSE then (it.m_u.value c.1, c.2.value c.1)
        else (c.2.value c.1, it.m_u.value c.1)
      match incr ops k contains dir c.1 it with
      | none => none
      | some (heap1, it1) => edgeLoop ops k contains dir fuel heap1 it1 (acc ++ [e])

/-- The edges visited from `out_edges(u, g)`. -/
def out_edges (ops : RollingHashVertexOps H) (k : Nat) (contains : List Nat → Bool)
    (heap : Heap) (u : Vertex H) : Option (Heap × List (VertexValue H × VertexValue H)) :=
  match create ops k contains extDirection.SENSE heap u with
  | none => none
  | some (heap1, it) => edgeLoop ops k contains extDirection.SENSE (NUM_BASES + 1) heap1 it []

/-- The edges visited from `in_edges(u, g)`. -/
def in_edges (ops : RollingHashVertexOps H) (k : Nat) (contains : List Nat → Bool)
    (heap : Heap) (u : Vertex H) : Option (Heap × List (VertexValue H × VertexValue H)) :=
  match create ops k contains extDirection.ANTISENSE heap u with
  | none => none
  | some (heap1, it) =>
    edgeLoop ops k contains extDirection.ANTISENSE (NUM_BASES + 1) heap1 it []

/-- `std::distance(first, last)` on these input iterators: the number of
increments that lead to the end iterator. -/
def distanceLoop (ops : RollingHashVertexOps H) (k : Nat) (contains : List Nat → Bool)
    (dir : extDirection) :
    Nat → Heap → adjacency_iterator H → Nat → Option (Heap × Nat)
  | 0, _, _, _ => none
  | fuel + 1, heap, it, n =>
    if it.isEnd then some (heap, n)
    else
      match incr ops k contains dir heap it with
      | none => none
      | some (heap1, it1) => distanceLoop ops k contains dir fuel heap1 it1 (n + 1)

/-- `out_degree(u, g)`. -/
def out_degree (ops : RollingHashVertexOps H) (k : Nat) (contains : List Nat → Bool)
    (heap : Heap) (u : Vertex H) : Option (Heap × Nat) :=
  match create ops k contains extDirection.SENSE heap u with
  | none => none
  | some (heap1, it) =>
    distanceLoop ops k contains extDirection.SENSE (NUM_BASES + 1) heap1 it 0

/-- `in_degree(u, g)`. -/
def in_degree (ops : RollingHashVertexOps H) (k : Nat) (contains : List Nat → Bool)
    (heap : Heap) (u : Vertex H) : Option (Heap × Nat) :=
  match create ops k contains extDirection.ANTISENSE heap u with
  | none => none
  | some (heap1, it) =>
    distanceLoop ops k contains extDirection.ANTISENSE (NUM_BASES + 1) heap1 it 0

/-- The hash state is a function `hashOf` of the k-mer: rolling and
`setLastBase` give the hash state of the k-mer they lead to. -/
def hashCoherent (ops : RollingHashVertexOps H) (k : Nat) (hashOf : List Char → H) : Prop :=
  (∀ x c, x.length = k →
    ops.rollRight (hashOf x) x c = hashOf (LightweightKmer.shift k x extDirection.SENSE c)) ∧
  (∀ x c, x.length = k →
    ops.rollLeft (hashOf x) c x
      = hashOf (LightweightKmer.shift k x extDirection.ANTISENSE c)) ∧
  (∀ x dir b, x.length = k →
    ops.setLastBase (hashOf x) x dir b = hashOf (LightweightKmer.setLastBase k x dir b))

/-- The k-mer next to `kmer` in the direction `dir` with the new base `b`:
`kmer[1..k-1] + b` for `SENSE`, `b + kmer[0..k-2]` for `ANTISENSE`. -/
def neighbour (dir : extDirection) (k : Nat) (kmer : List Char) (b : Char) : List Char :=
  if dir = extDirection.SENSE then kmer.drop 1 ++ [b] else b :: kmer.take (k - 1)

/-- The neighbour with the base `BASE_CHARS[t]` exists in the filter. -/
def candidateExists (ops : RollingHashVertexOps H) (contains : List Nat → Bool)
    (hashOf : List Char → H) (dir : extDirection) (k : Nat) (kmer : List Char) (t : Nat) :
    Bool :=
  contains (ops.getHashes (hashOf (neighbour dir k kmer (charAt BASE_CHARS t))))

/-- An iterator made from the vertex `u` with the k-mer `kmer` on the heap
`heap0`: `m_u` is `u`, `m_v` points to the array allocated by `clone`, which
holds a neighbour of `kmer`, its hash state is the one of that neighbour, and
the arrays of `heap0` are unchanged. -/
def attached (hashOf : List Char → H) (dir : extDirection) (k : Nat) (kmer : List Char)
    (u : Vertex H) (heap0 heap : Heap) (it : adjacency_iterator H) : Prop :=
  it.m_u = u ∧ it.m_v.m_kmer = heap0.length ∧ heap0.length < heap.length ∧
  Heap.preserved heap0 heap ∧ it.m_i ≤ NUM_BASES ∧
  ∃ c, heap.read heap0.length = neighbour dir k kmer c ∧
    it.m_v.m_rollingHash = hashOf (neighbour dir k kmer c)

/-- An attached iterator after `next`: when it is not at the end, `m_v` is the
neighbour with the base `BASE_CHARS[m_i]`, and that neighbour exists. -/
def positioned (ops : RollingHashVertexOps H) (contains : List Nat → Bool)
    (hashOf : List Char → H) (dir : extDirection) (k : Nat) (kmer : List Char)
    (u : Vertex H) (heap0 heap : Heap) (it : adjacency_iterator H) : Prop :=
  attached hashOf dir k kmer u heap0 heap it ∧
  (it.m_i < NUM_BASES →
    heap.read heap0.length = neighbour dir k kmer (charAt BASE_CHARS it.m_i) ∧
    it.m_v.m_rollingHash = hashOf (neighbour dir k kmer (charAt BASE_CHARS it.m_i)) ∧
    candidateExists ops contains hashOf dir k kmer it.m_i = true)

/-- The k-mers `u[1..k-1] + b` that exist, for `b` in the order A, C, G, T. -/
def successors (ops : RollingHashVertexOps H) (contains : List Nat → Bool)
    (hashOf : List Char → H) (kmer : List Char) : List (List Char) :=
  (BASE_CHARS.map (fun b => kmer.drop 1 ++ [b])).filter
    (fun x => contains (ops.getHashes (hashOf x)))

/-- The k-mers `b + u[0..k-2]` that exist, for `b` in the order A, C, G, T. -/
def predecessors (ops : RollingHashVertexOps H) (k : Nat) (contains : List Nat → Bool)
    (hashOf : List Char → H) (kmer : List Char) : List (List Char) :=
  (BASE_CHARS.map (fun b => b :: kmer.take (k - 1))).filter
    (fun x => contains (ops.getHashes (hashOf x)))

/-- A hash state that is the k-mer itself, for k-mers of `k` characters. -/
def identityOps (k : Nat) : RollingHashVertexOps (List Char) :=
  { create := fun _ _ => []
    reset := fun _ kmer => kmer
    rollRight := fun _ kmer c => LightweightKmer.shift k kmer extDirection.SENSE c
    getHashes := fun h => h.map Char.toNat
    rollLeft := fun _ c kmer => LightweightKmer.shift k kmer extDirection.ANTISENSE c
    setLastBase := fun _ kmer dir b => LightweightKmer.setLastBase k kmer dir b }

/-- A filter that holds the k-mers that end in G and those that start with TA. -/
def exampleFilter (hashes : List Nat) : Bool :=
  hashes.getLast? = some 71 || hashes.take 2 = [84, 65]

end RollingBloomDBG

/-! ## Orientation and order of k-mers -/

namespace RollingBloomDBGVertex

open LightweightKmer

/-- The three-way lexicographic comparison of two character sequences, with
the results -1, 0 and 1. -/
def lexCompare : List Char → List Char → Int
  | a :: as, b :: bs => if a > b then 1 else if a < b then -1 else lexCompare as bs
  | _, _ => 0

/-- The orientation of a k-mer as the claim on `compare` states it: the
upper-cased k-mer when it is canonical, its reverse complement otherwise. -/
def orientAsStated (k : Nat) (kmer : List Char) : List Char :=
  if isCanonical k kmer then kmer.map toupper else reverseComplement k kmer

/-- The orientation of a k-mer that `compare` reads: the upper-cased k-mer when
it is canonical, the reverse complement of the upper-cased k-mer otherwise. -/
def orient (k : Nat) (kmer : List Char) : List Char :=
  if isCanonical k kmer then kmer.map toupper
  else reverseComplement k (kmer.map toupper)

/-- `operator<` of `RollingBloomDBGVertex`: `compare(o) < 0`; false also when
`compare` gives no result. -/
def lt (k : Nat) (spacedSeed kmer1 kmer2 : List Char) : Bool :=
  match compare k spacedSeed kmer1 kmer2 with
  | some r => decide (r < 0)
  | none => false

end RollingBloomDBGVertex

/-! ## Checked reads of the spaced seed in `compare` -/

namespace RollingBloomDBGVertex

open LightweightKmer

/-- The ways the loop of `compare` can stop without a result: `std::string::at`
throws `std::out_of_range`, the assertion on the mask fails, or the model runs
out of fuel. -/
inductive CompareFailure where
  | outOfRange
  | assertion
  | fuel
  deriving DecidableEq, Repr

/-- `spacedSeed.at(pos)` with an `int` position: the position is converted to
`size_t`, so a negative one is out of range like one past the end. -/
def maskAt (spacedSeed : List Char) (pos : Int) : Option Char :=
  if 0 ≤ pos ∧ pos.toNat < spacedSeed.length then some (charAt spacedSeed pos.toNat)
  else none

/-- The test `!spacedSeed.empty() && spacedSeed.at(pos1) != '1'` of `compare`
together with the assertion `spacedSeed.at(pos2) != '1'` in its body: `ok true`
when the position is skipped. -/
def maskedAt (spacedSeed : List Char) (pos1 pos2 : Int) : Except CompareFailure Bool :=
  if spacedSeed.isEmpty then Except.ok false
  else
    match maskAt spacedSeed pos1 with
    | none => Except.error CompareFailure.outOfRange
    | some m1 =>
      if m1 != '1' then
        match maskAt spacedSeed pos2 with
        | none => Except.error CompareFailure.outOfRange
        | some m2 =>
          if m2 != '1' then Except.ok true else Except.error CompareFailure.assertion
      else Except.ok false

/-- The loop of `RollingBloomDBGVertex::compare` with the range check of
`std::string::at` and the assertion on the mask. -/
def compareLoopChecked (spacedSeed kmer1 kmer2 : List Char) (rc1 rc2 : Bool)
    (end1 end2 inc1 inc2 : Int) : Nat → Int → Int → Except CompareFailure Int
  | 0, _, _ => Except.error CompareFailure.fuel
  | fuel + 1, pos1, pos2 =>
    if pos1 != end1 && pos2 != end2 then
      let c1 := toupper (charAt kmer1 pos1.toNat)
      let c2 := toupper (charAt kmer2 pos2.toNat)
      match maskedAt spacedSeed pos1 pos2 with
      | Except.error e => Except.error e
      | Except.ok true =>
        compareLoopChecked spacedSeed kmer1 kmer2 rc1 rc2 end1 end2 inc1 inc2 fuel
          (pos1 + inc1) (pos2 + inc2)
      | Except.ok false =>
        let c1 := if rc1 then complementBaseChar c1 else c1
        let c2 := if rc2 then complementBaseChar c2 else c2
        if c1 > c2 then Except.ok 1
        else if c1 < c2 then Except.ok (-1)
        else
          compareLoopChecked spacedSeed kmer1 kmer2 rc1 rc2 end1 end2 inc1 inc2 fuel
            (pos1 + inc1) (pos2 + inc2)
    else Except.ok 0

/-- `RollingBloomDBGVertex::compare` with the range check of `std::string::at`
and the assertion on the mask. -/
def compareChecked (k : Nat) (spacedSeed kmer1 kmer2 : List Char) :
    Except CompareFailure Int :=
  let rc1 := !isCanonical k kmer1
  let rc2 := !isCanonical k kmer2
  let end1 : Int := if rc1 then -1 else k
  let end2 : Int := if rc2 then -1 else k
  let inc1 : Int := if rc1 then -1 else 1
  let inc2 : Int := if rc2 then -1 else 1
  let pos1 : Int := if rc1 then (k : Int) - 1 else 0
  let pos2 : Int := if rc2 then (k : Int) - 1 else 0
  compareLoopChecked spacedSeed kmer1 kmer2 rc1 rc2 end1 end2 inc1 inc2 (k + 1) pos1 pos2

/-- The mask is symmetric: `mask[i] = mask[k-1-i]` for every position. -/
def symmetricMask (k : Nat) (spacedSeed : List Char) : Prop :=
  ∀ i, i < k → charAt spacedSeed i = charAt spacedSeed (k - 1 - i)

instance (k : Nat) (spacedSeed : List Char) : Decidable (symmetricMask k spacedSeed) := by
  unfold symmetricMask; infer_instance

/-- Two k-mers agree at every position the mask keeps. -/
def agreeOnMask (k : Nat) (spacedSeed a b : List Char) : Prop :=
  ∀ i, i < k → charAt spacedSeed i = '1' → charAt a i = charAt b i

instance (k : Nat) (spacedSeed a b : List Char) : Decidable (agreeOnMask k spacedSeed a b) := by
  unfold agreeOnMask; infer_instance

end RollingBloomDBGVertex

/-! ## The rolling-hash iterator with its assertion -/

namespace RollingHashIterator

variable {H : Type}

/-- The ways `next` can stop without a result: the assertion `m_pos > 0` fails,
or the model runs out of fuel. -/
inductive IteratorFailure where
  | assertion
  | fuel
  deriving DecidableEq, Repr

/-- The iterator after `next`, with a record of the branch `next` ended in. -/
structure Step (H : Type) where
  /-- The iterator after `next`. -/
  it : RollingHashIterator H
  /-- Whether the hash values were computed by `rollRight`; false when they were
  computed by `reset` and when there was no further k-mer. -/
  rolled : Bool
  /-- The value of `m_rollingHash` that the last branch started from. -/
  before : H

/-- The end of the loop body of `next` with the assertion `m_pos > 0` of the
rolling branch. -/
def emitChecked (ops : RollingHashOps H) (it : RollingHashIterator H) :
    Except IteratorFailure (Step H) :=
  if !it.m_rollNextHash then
    Except.ok { it := emit ops it, rolled := false, before := it.m_rollingHash }
  else if it.m_pos > 0 then
    Except.ok { it := emit ops it, rolled := true, before := it.m_rollingHash }
  else Except.error IteratorFailure.assertion

/-- The `while` loop of `next` with the assertion of the rolling branch. -/
def nextLoopChecked (ops : RollingHashOps H) (spacedSeed : List Char) :
    Nat → RollingHashIterator H → Except IteratorFailure (Step H)
  | 0, _ => Except.error IteratorFailure.fuel
  | fuel + 1, it =>
    if it.m_pos < wrap64 (it.m_seq.length - it.m_k + 1) then
      let it1 := { it with m_badCharPos := popFrontWhile it.m_badCharPos it.m_pos }
      match it1.m_badCharPos with
      | [] => emitChecked ops it1
      | front :: _ =>
        if front < wrap64 (it1.m_pos + it1.m_k) then
          if spacedSeed.isEmpty then
            nextLoopChecked ops spacedSeed fuel
              { it1 with m_rollNextHash := false, m_pos := wrap64 (front + 1) }
          else if !goodKmer spacedSeed it1.m_pos it1.m_k it1.m_badCharPos then
            nextLoopChecked ops spacedSeed fuel
              { it1 with m_rollNextHash := false, m_pos := wrap64 (it1.m_pos + 1) }
          else emitChecked ops it1
        else emitChecked ops it1
    else
      Except.ok { it := { it with m_pos := npos }, rolled := false, before := it.m_rollingHash }

/-- `RollingHashIterator::next` with the assertion of the rolling branch. -/
def nextChecked (ops : RollingHashOps H) (spacedSeed : List Char)
    (it : RollingHashIterator H) : Except IteratorFailure (Step H) :=
  if it.m_seq.length < it.m_k then
    Except.ok { it := { it with m_pos := npos }, rolled := false, before := it.m_rollingHash }
  else nextLoopChecked ops spacedSeed (it.m_seq.length + 1) it

/-- `RollingHashIterator::init` with the assertion of the rolling branch. -/
def initChecked (ops : RollingHashOps H) (spacedSeed : List Char)
    (it : RollingHashIterator H) : Except IteratorFailure (Step H) :=
  let seq := it.m_seq.map toupper
  match recordBadChars seq (seq.length + 1) (find_first_not_of seq 0) it.m_badCharPos with
  | none => Except.error IteratorFailure.fuel
  | some bad => nextChecked ops spacedSeed { it with m_seq := seq, m_badCharPos := bad }

/-- The constructor `RollingHashIterator(seq, numHashes, k)` with the assertion
of the rolling branch. -/
def createChecked (ops : RollingHashOps H) (spacedSeed : List Char) (seq : List Char)
    (numHashes k : Nat) : Except IteratorFailure (Step H) :=
  initChecked ops spacedSeed
    { m_seq := seq, m_numHashes := numHashes, m_hashes := [], m_k := k,
      m_rollingHash := ops.create numHashes k, m_rollNextHash := false, m_pos := 0,
      m_badCharPos := [] }

/-- `RollingHashIterator::operator++` with the assertion of the rolling
branch. -/
def incrChecked (ops : RollingHashOps H) (spacedSeed : List Char)
    (it : RollingHashIterator H) : Except IteratorFailure (Step H) :=
  nextChecked ops spacedSeed { it with m_pos := wrap64 (it.m_pos + 1) }

/-- The loop `for (; it != end(); ++it)` of a caller, collecting the iterator
at every k-mer it visits together with the record of how `next` got there. -/
def visitLoopChecked (ops : RollingHashOps H) (spacedSeed : List Char) :
    Nat → Step H → Except IteratorFailure (List (Step H))
  | 0, _ => Except.error IteratorFailure.fuel
  | fuel + 1, st =>
    if isEnd st.it then Except.ok []
    else
      match incrChecked ops spacedSeed st.it with
      | Except.error e => Except.error e
      | Except.ok st1 =>
        match visitLoopChecked ops spacedSeed fuel st1 with
        | Except.error e => Except.error e
        | Except.ok tr => Except.ok (st :: tr)

/-- The trace of iterating from construction until `end()`. -/
def visitedChecked (ops : RollingHashOps H) (spacedSeed : List Char) (seq : List Char)
    (numHashes k : Nat) : Except IteratorFailure (List (Step H)) :=
  match createChecked ops spacedSeed seq numHashes k with
  | Except.error e => Except.error e
  | Except.ok st => visitLoopChecked ops spacedSeed (seq.length + 1) st

/-- The hash state is a function `hashOf` of the window of `k` characters:
`reset` gives the state of its window, and `rollRight` on the state of a window
gives the state of the window one position to the right. -/
def windowCoherent (ops : RollingHashOps H) (k : Nat) (hashOf : List Char → H) : Prop :=
  (∀ h w, w.length = k → ops.reset h w = hashOf w) ∧
  (∀ w c, w.length = k → ops.rollRight (hashOf w) w c = hashOf (w.drop 1 ++ [c]))

/-- A rolling hash whose state is the window itself and whose only hash value
is the number of characters A in it. -/
def windowOps : RollingHashOps (List Char) :=
  { create := fun _ _ => [], reset := fun _ w => w,
    rollRight := fun h _ c => h.drop 1 ++ [c],
    getHashes := fun h => [h.count 'A'] }

end RollingHashIterator

/-! ## The scaffold graph: the edges that the passes keep -/

namespace Graph

/-- Both ends of every edge are vertices of the graph. -/
def endsInVertices (g : Graph) : Prop :=
  ∀ e ∈ g.edges, e.source ∈ g.vertices ∧ e.target ∈ g.vertices

instance (g : Graph) : Decidable (endsInVertices g) := by
  unfold endsInVertices; infer_instance

/-- Every edge of `g` is an edge of `g0`: the same source and target with the
same distance, number of pairs and standard deviation. -/
def edgesFrom (g0 g : Graph) : Prop := ∀ e ∈ g.edges, e ∈ g0.edges

instance (g0 g : Graph) : Decidable (edgesFrom g0 g) := by
  unfold edgesFrom; infer_instance

end Graph

namespace Scaffold

open Graph

/-- The edges that `filterGraph` is to keep: enough pairs, and both ends at
least `minContigLength` long. -/
def supportedEdge (g : Graph) (minEdgeWeight minContigLength : Nat) (e : Edge) : Bool :=
  decide (minEdgeWeight ≤ e.ep.numPairs ∧ minContigLength ≤ g.length e.source ∧
    minContigLength ≤ g.length e.target)

/-- A symmetric graph in which contig 2 is short and the edge between the
contigs 1 and 3 has few pairs. -/
def shortContigExample : Graph :=
  { vertices := [⟨1, true⟩, ⟨1, false⟩, ⟨2, true⟩, ⟨2, false⟩, ⟨3, true⟩, ⟨3, false⟩,
      ⟨4, true⟩, ⟨4, false⟩]
    length := fun u => if u.id = 2 then 500 else 2000
    removed := []
    edges := [⟨⟨1, true⟩, ⟨2, true⟩, ⟨100, 9, 3⟩⟩, ⟨⟨1, true⟩, ⟨3, true⟩, ⟨200, 2, 3⟩⟩,
      ⟨⟨1, true⟩, ⟨4, true⟩, ⟨300, 7, 3⟩⟩,
      ⟨⟨2, false⟩, ⟨1, false⟩, ⟨100, 9, 3⟩⟩, ⟨⟨3, false⟩, ⟨1, false⟩, ⟨200, 2, 3⟩⟩,
      ⟨⟨4, false⟩, ⟨1, false⟩, ⟨300, 7, 3⟩⟩] }

end Scaffold

/-! ## Distance estimates on a path: the gap nodes -/

namespace Scaffold

open Graph

/-- The contigs of an output path of `addDistEst`: the path without its gap
nodes. -/
def contigsOf (out : List PathNode) : List ContigNode :=
  out.filterMap (fun x =>
    match x with
    | PathNode.contig u => some u
    | PathNode.gap _ => none)

/-- The assertions of `addDistEst` other than `numN >= 0` hold for the step from
`u` to `v`: an edge is found, and an exact overlap has a negative distance. -/
def stepFound (g0 g1 : Graph) (u v : ContigNode) : Prop :=
  ∃ ep, estimate g0 g1 u v = some ep ∧ (ep.stdDev = 0 → ep.distance < 0)

end Scaffold

/-! ## The assembly driver: the rounds of the loop -/

namespace Assembly

/-- The calls of `performTrim` in a record: the rounds of trimming. -/
def trimRounds (log : List Pass) : Nat := log.count Pass.performTrim

/-- The calls of `erodeEnds` in a record; a round of erosion makes two, the
second one inside the `assert`. -/
def erodeCalls (log : List Pass) : Nat := log.count Pass.erodeEnds

/-- The calls of the erosion phase, which runs when `opt::erode > 0`. -/
def erosionPasses (erode : Nat) : List Pass :=
  if erode > 0 then [Pass.erodeEnds, Pass.erodeEnds, Pass.cleanup] else []

/-- The calls of one round of erosion and trimming. -/
def trimPasses (erode : Nat) : List Pass :=
  erosionPasses erode ++ [Pass.performTrim, Pass.cleanup]

/-- The calls of the branch `if (opt::coverage > 0)` of `assemble`. -/
def removalPasses : List Pass :=
  [Pass.markAmbiguous, Pass.assemble false, Pass.splitAmbiguous, Pass.wipeFlag, Pass.cleanup]

/-- The calls of the whole loop of `assemble`: with `opt::coverage > 0` on
entry a round of erosion and trimming, the removal of low-coverage contigs and
a second round; otherwise one round. -/
def loopPasses (erode : Nat) (coverage : ℚ) : List Pass :=
  if coverage > 0 then trimPasses erode ++ removalPasses ++ trimPasses erode
  else trimPasses erode

/-- The passes that the loop of `assemble` is counted by: the walk of
`removeLowCoverageContigs`, `performTrim` and `erodeEnds`. -/
def isRoundPass (p : Pass) : Prop :=
  p = Pass.assemble false ∨ p = Pass.performTrim ∨ p = Pass.erodeEnds

end Assembly

/-! ## The search that `main` runs -/

/-- The search strategies of `opt::searchStrategy`. -/
inductive SearchStrategy where
  | GRID_SEARCH
  | LINE_SEARCH
  deriving DecidableEq

namespace Scaffold

/-- The call `scaffold(g, n, s, true)` of `main` as a `ScaffoldResult`.  The
flag `output` only makes `scaffold` write the paths and the graph; the N50 and
the metrics are those of `run`. -/
def scaffoldOutput (run : Nat → Nat → Nat × String) (n s : Nat) : ScaffoldResult :=
  { n := n, s := s, n50 := (run n s).1, metrics := (run n s).2 }

/-- The statements of `main` that follow the removal of the invalid edges.
When both ranges are singletons `main` calls `scaffold(g, n, s, true)` at once;
otherwise it runs the search of the chosen strategy and then calls
`scaffold(g, best.n, best.s, true)`.  The result is the `ScaffoldResult` of
that last call, with the parameters of the runs of `scaffold` that the search
made. -/
def mainSearch (run : Nat → Nat → Nat × String) (ops : SweepOps) (strategy : SearchStrategy)
    (step : Nat) (minEdgeWeight minContigLength : Nat × Nat) :
    Option (ScaffoldResult × List ScaffoldParam) :=
  if minEdgeWeight.1 = minEdgeWeight.2 ∧ minContigLength.1 = minContigLength.2 then
    some (scaffoldOutput run minEdgeWeight.1 minContigLength.1, [])
  else
    let best :=
      match strategy with
      | SearchStrategy.GRID_SEARCH =>
        optimize_grid_search run ops step minEdgeWeight minContigLength
      | SearchStrategy.LINE_SEARCH =>
        optimize_line_search run ops step minEdgeWeight minContigLength
    match best with
    | none => none
    | some (b, st) => some (scaffoldOutput run b.n b.s, st.calls)

end Scaffold

/-! ## Theorems: k-mer core -/

section BufferLemmas

theorem charAt_eq (buf : List Char) (i : Nat) : charAt buf i = buf[i]?.getD nul := by
  simp [charAt, List.getD_eq_getElem?_getD]

theorem charAt_set (buf : List Char) (i j : Nat) (c : Char) :
    charAt (buf.set i c) j = if i = j ∧ i < buf.length then c else charAt buf j := by
  simp only [charAt_eq, List.getElem?_set]
  by_cases h : i = j
  · subst h
    by_cases h2 : i < buf.length
    · simp [h2]
    · simp [h2, List.getElem?_eq_none (Nat.le_of_not_lt h2)]
  · simp [h]

theorem charAt_of_le (buf : List Char) (i : Nat) (h : buf.length ≤ i) :
    charAt buf i = nul := by
  simp [charAt_eq, List.getElem?_eq_none h]

theorem charAt_cons_succ (x : Char) (xs : List Char) (i : Nat) :
    charAt (x :: xs) (i + 1) = charAt xs i := by
  simp [charAt_eq]

theorem charAt_cons_zero (x : Char) (xs : List Char) : charAt (x :: xs) 0 = x := by
  simp [charAt_eq]

theorem length_memmove (buf : List Char) (dst src n : Nat)
    (hs : src + n ≤ buf.length) (hd : dst + n ≤ buf.length) :
    (memmove buf dst src n).length = buf.length := by
  simp only [memmove, List.length_append, List.length_take, List.length_drop]
  omega

theorem charAt_memmove (buf : List Char) (dst src n j : Nat)
    (hs : src + n ≤ buf.length) (hd : dst + n ≤ buf.length) :
    charAt (memmove buf dst src n) j
      = if dst ≤ j ∧ j < dst + n then charAt buf (src + (j - dst)) else charAt buf j := by
  simp only [charAt_eq, memmove, List.getElem?_append, List.length_take, List.length_drop,
    List.getElem?_take, List.getElem?_drop]
  have h1 : min dst buf.length = dst := by omega
  have h2 : min n (buf.length - src) = n := by omega
  rw [h1, h2]
  by_cases hj : j < dst
  · have : ¬ (dst ≤ j ∧ j < dst + n) := by omega
    simp [hj, this]
  · by_cases hj2 : j - dst < n
    · have : dst ≤ j ∧ j < dst + n := by omega
      simp [hj, hj2, this]
    · have : ¬ (dst ≤ j ∧ j < dst + n) := by omega
      have e : dst + n + (j - dst - n) = j := by omega
      simp [hj, hj2, this, e]

theorem memcmp_eq_zero_iff (n : Nat) : ∀ (a b : List Char), n ≤ a.length → n ≤ b.length →
    (memcmp a b n = 0 ↔ ∀ j, j < n → charAt a j = charAt b j) := by
  induction n with
  | zero => intro a b _ _; simp [memcmp]
  | succ n ih =>
    intro a b ha hb
    match a, b, ha, hb with
    | x :: xs, y :: ys, ha, hb =>
      have ha2 : n ≤ xs.length := by simpa using ha
      have hb2 : n ≤ ys.length := by simpa using hb
      simp only [memcmp]
      by_cases h1 : x < y
      · simp only [h1, if_true]
        constructor
        · intro h; omega
        · intro h
          have := h 0 (Nat.succ_pos n)
          simp only [charAt_cons_zero] at this
          exact absurd h1 (this ▸ lt_irrefl _)
      · by_cases h2 : y < x
        · simp only [h1, h2, if_true, if_false]
          constructor
          · intro h; omega
          · intro h
            have := h 0 (Nat.succ_pos n)
            simp only [charAt_cons_zero] at this
            exact absurd h2 (this ▸ lt_irrefl _)
        · simp only [h1, h2, if_false]
          have hxy : x = y := le_antisymm (not_lt.mp h2) (not_lt.mp h1)
          rw [ih xs ys ha2 hb2]
          constructor
          · intro h j hj
            cases j with
            | zero => simp [charAt_cons_zero, hxy]
            | succ j => simp only [charAt_cons_succ]; exact h j (by omega)
          · intro h j hj
            have := h (j + 1) (by omega)
            simpa only [charAt_cons_succ] using this

end BufferLemmas


section KmerCore
open LightweightKmer

theorem eqLoop_iff (spacedSeed a b : List Char) (n : Nat) : ∀ i,
    (eqLoop spacedSeed a b n i = true ↔
      ∀ j, i ≤ j → j < i + n → charAt spacedSeed j ≠ '0' → charAt a j = charAt b j) := by
  induction n with
  | zero => intro i; simp only [eqLoop, true_iff]; intro j h1 h2; omega
  | succ n ih =>
    intro i
    simp only [eqLoop, getBase]
    by_cases h : charAt spacedSeed i ≠ '0' ∧ charAt a i ≠ charAt b i
    · have hc : (charAt spacedSeed i != '0' && charAt a i != charAt b i) = true := by
        simp [h.1, h.2]
      simp only [hc, if_true]
      constructor
      · intro hf; exact absurd hf (by simp)
      · intro hall; exact absurd (hall i (le_refl i) (by omega) h.1) h.2
    · have hc : (charAt spacedSeed i != '0' && charAt a i != charAt b i) = false := by
        by_cases h1 : charAt spacedSeed i = '0'
        · simp [h1]
        · have h2 : charAt a i = charAt b i := by
            by_contra h2; exact h ⟨h1, h2⟩
          simp [h2]
      simp only [hc, Bool.false_eq_true, if_false]
      rw [ih (i + 1)]
      constructor
      · intro hall j h1 h2 h3
        by_cases hj : j = i
        · subst hj
          by_contra h4; exact h ⟨h3, h4⟩
        · exact hall j (by omega) (by omega) h3
      · intro hall j h1 h2 h3
        exact hall j (by omega) (by omega) h3

/-- The positions compared by `operator==`: all of them when no mask is active,
the positions whose mask character is 1 otherwise. -/
theorem eq_iff (k : Nat) (spacedSeed a b : List Char)
    (hmask : spacedSeed = [] ∨
      (spacedSeed.length = k ∧ ∀ c ∈ spacedSeed, c = '0' ∨ c = '1'))
    (ha : a.length = k) (hb : b.length = k) :
    (LightweightKmer.eq k spacedSeed a b = true ↔
      ∀ i, i < k → (spacedSeed = [] ∨ charAt spacedSeed i = '1') →
        charAt a i = charAt b i) := by
  rcases hmask with h0 | ⟨hlen, hchars⟩
  · subst h0
    simp only [LightweightKmer.eq, List.isEmpty_nil, if_true, beq_iff_eq]
    rw [memcmp_eq_zero_iff k a b (by omega) (by omega)]
    constructor
    · intro h i hi _; exact h i hi
    · intro h i hi; exact h i hi (Or.inl trivial)
  · by_cases hnil : spacedSeed = []
    · subst hnil
      simp only [LightweightKmer.eq, List.isEmpty_nil, if_true, beq_iff_eq]
      rw [memcmp_eq_zero_iff k a b (by omega) (by omega)]
      constructor
      · intro h i hi _; exact h i hi
      · intro h i hi; exact h i hi (Or.inl trivial)
    · have hne : spacedSeed.isEmpty = false := by
        cases spacedSeed with
        | nil => exact absurd rfl hnil
        | cons x xs => rfl
      simp only [LightweightKmer.eq, hne, Bool.false_eq_true, if_false]
      rw [eqLoop_iff]
      have hbit : ∀ i, i < k → (charAt spacedSeed i ≠ '0' ↔ charAt spacedSeed i = '1') := by
        intro i hi
        have hi2 : i < spacedSeed.length := by omega
        have hmem : charAt spacedSeed i ∈ spacedSeed := by
          rw [charAt_eq, List.getElem?_eq_getElem hi2]
          exact List.getElem_mem hi2
        rcases hchars _ hmem with h | h
        · rw [h]; decide
        · rw [h]; decide
      constructor
      · intro h i hi hm
        rcases hm with hm | hm
        · exact absurd hm hnil
        · exact h i (Nat.zero_le i) (by omega) ((hbit i hi).mpr hm)
      · intro h j _ hj hm
        exact h j (by omega) (Or.inr ((hbit j (by omega)).mp hm))

theorem isACGT_iff (c : Char) :
    isACGT c = true ↔ (c = 'A' ∨ c = 'C' ∨ c = 'G' ∨ c = 'T') := by
  simp [isACGT, or_assoc]

theorem toupper_of_isACGT (c : Char) (h : isACGT c = true) : toupper c = c := by
  rcases (isACGT_iff c).mp h with h | h | h | h <;> subst h <;> decide

theorem complement_complement (c : Char) (h : isACGT c = true) :
    complementBaseChar (complementBaseChar c) = c := by
  rcases (isACGT_iff c).mp h with h | h | h | h <;> subst h <;> decide

theorem isACGT_complement (c : Char) (h : isACGT c = true) :
    isACGT (complementBaseChar c) = true := by
  rcases (isACGT_iff c).mp h with h | h | h | h <;> subst h <;> decide

theorem isACGT_charAt (kmer : List Char) (h : ∀ c ∈ kmer, isACGT c = true) (i : Nat)
    (hi : i < kmer.length) : isACGT (charAt kmer i) = true := by
  apply h
  rw [charAt_eq, List.getElem?_eq_getElem hi]
  exact List.getElem_mem hi

/-- Invariant of the swap loop of `reverseComplement`: the positions already
visited from both ends hold the complement of the mirrored base. -/
theorem reverseComplementLoop_spec (k n : Nat) : ∀ (i : Nat) (kmer : List Char),
    kmer.length = k → i + n ≤ k / 2 →
    (reverseComplementLoop k n i kmer).length = k ∧
    ∀ t, charAt (reverseComplementLoop k n i kmer) t
      = if (i ≤ t ∧ t < i + n) ∨ (k - (i + n) ≤ t ∧ t < k - i)
        then complementBaseChar (charAt kmer (k - 1 - t)) else charAt kmer t := by
  induction n with
  | zero =>
    intro i kmer hlen _
    refine ⟨hlen, fun t => ?_⟩
    have : ¬ ((i ≤ t ∧ t < i + 0) ∨ (k - (i + 0) ≤ t ∧ t < k - i)) := by omega
    simp only [reverseComplementLoop]
    rw [if_neg this]
  | succ n ih =>
    intro i kmer hlen hin
    simp only [reverseComplementLoop]
    have hk2 : 2 * (k / 2) ≤ k := by omega
    have hl2 : ((kmer.set i (complementBaseChar (charAt kmer (k - i - 1)))).set (k - i - 1)
        (complementBaseChar (charAt kmer i))).length = k := by
      simp [hlen]
    obtain ⟨ihlen, ihc⟩ := ih (i + 1) _ hl2 (by omega)
    refine ⟨ihlen, fun t => ?_⟩
    rw [ihc t]
    have hset : ∀ u, charAt ((kmer.set i (complementBaseChar (charAt kmer (k - i - 1)))).set
        (k - i - 1) (complementBaseChar (charAt kmer i))) u
        = if u = k - i - 1 then complementBaseChar (charAt kmer i)
          else if u = i then complementBaseChar (charAt kmer (k - i - 1))
          else charAt kmer u := by
      intro u
      rw [charAt_set, charAt_set, List.length_set]
      by_cases h1 : u = k - i - 1
      · have : k - i - 1 = u ∧ k - i - 1 < kmer.length := by omega
        rw [if_pos this, if_pos h1]
      · have : ¬ (k - i - 1 = u ∧ k - i - 1 < kmer.length) := by omega
        rw [if_neg this, if_neg h1]
        by_cases h2 : u = i
        · have : i = u ∧ i < kmer.length := by omega
          rw [if_pos this, if_pos h2]
        · have : ¬ (i = u ∧ i < kmer.length) := by omega
          rw [if_neg this, if_neg h2]
    by_cases hin2 : (i + 1 ≤ t ∧ t < i + 1 + n) ∨ (k - (i + 1 + n) ≤ t ∧ t < k - (i + 1))
    · have hout : (i ≤ t ∧ t < i + (n + 1)) ∨ (k - (i + (n + 1)) ≤ t ∧ t < k - i) := by omega
      rw [if_pos hin2, if_pos hout, hset]
      have h1 : ¬ (k - 1 - t = k - i - 1) := by omega
      have h2 : ¬ (k - 1 - t = i) := by omega
      rw [if_neg h1, if_neg h2]
    · rw [if_neg hin2, hset]
      by_cases h1 : t = k - i - 1
      · have hout : (i ≤ t ∧ t < i + (n + 1)) ∨ (k - (i + (n + 1)) ≤ t ∧ t < k - i) := by omega
        rw [if_pos h1, if_pos hout]
        congr 2; omega
      · rw [if_neg h1]
        by_cases h2 : t = i
        · have hout : (i ≤ t ∧ t < i + (n + 1)) ∨ (k - (i + (n + 1)) ≤ t ∧ t < k - i) := by
            omega
          rw [if_pos h2, if_pos hout]
          congr 2; omega
        · have hout : ¬ ((i ≤ t ∧ t < i + (n + 1)) ∨ (k - (i + (n + 1)) ≤ t ∧ t < k - i)) := by
            omega
          rw [if_neg h2, if_neg hout]

/-- For k different from 1, `reverseComplement` writes at every position the
complement of the mirrored base. -/
theorem reverseComplement_charAt (k : Nat) (kmer : List Char) (hlen : kmer.length = k)
    (hk : k ≠ 1) :
    (reverseComplement k kmer).length = k ∧
    ∀ t, t < k →
      charAt (reverseComplement k kmer) t = complementBaseChar (charAt kmer (k - 1 - t)) := by
  obtain ⟨hl, hc⟩ := reverseComplementLoop_spec k (k / 2) 0 kmer hlen (by omega)
  by_cases hodd : k % 2 = 1 ∧ k > 1
  · simp only [reverseComplement, if_pos hodd]
    refine ⟨by rw [List.length_set, hl], fun t ht => ?_⟩
    rw [charAt_set, hc, hc]
    by_cases hmid : t = k / 2
    · have h1 : k / 2 = t ∧ k / 2 < (reverseComplementLoop k (k / 2) 0 kmer).length := by
        rw [hl]; omega
      have h2 : ¬ ((0 ≤ k / 2 ∧ k / 2 < 0 + k / 2) ∨ (k - (0 + k / 2) ≤ k / 2 ∧ k / 2 < k - 0)) := by
        omega
      rw [if_pos h1, if_neg h2]
      congr 2; omega
    · have h1 : ¬ (k / 2 = t ∧ k / 2 < (reverseComplementLoop k (k / 2) 0 kmer).length) := by
        omega
      have h2 : (0 ≤ t ∧ t < 0 + k / 2) ∨ (k - (0 + k / 2) ≤ t ∧ t < k - 0) := by omega
      rw [if_neg h1, if_pos h2]
  · simp only [reverseComplement, if_neg hodd]
    refine ⟨hl, fun t ht => ?_⟩
    rw [hc]
    have h2 : (0 ≤ t ∧ t < 0 + k / 2) ∨ (k - (0 + k / 2) ≤ t ∧ t < k - 0) := by omega
    rw [if_pos h2]

/-- When the bases compared by `isCanonical` are swapped pairwise, a rejecting
run of the loop becomes an accepting one. -/
theorem isCanonicalLoop_flip (k : Nat) (kmer rc : List Char) (n : Nat) : ∀ i,
    (∀ j, i ≤ j → j < i + n →
      toupper (charAt rc j) = complementBaseChar (toupper (charAt kmer (k - j - 1))) ∧
      complementBaseChar (toupper (charAt rc (k - j - 1))) = toupper (charAt kmer j)) →
    isCanonicalLoop k kmer n i = false → isCanonicalLoop k rc n i = true := by
  induction n with
  | zero => intro i _ h; simp [isCanonicalLoop] at h
  | succ n ih =>
    intro i hrel h
    obtain ⟨e1, e2⟩ := hrel i (le_refl i) (by omega)
    simp only [isCanonicalLoop] at h ⊢
    rw [e1, e2]
    by_cases h1 : toupper (charAt kmer i) >
        complementBaseChar (toupper (charAt kmer (k - i - 1)))
    · have h2 : ¬ (complementBaseChar (toupper (charAt kmer (k - i - 1))) >
          toupper (charAt kmer i)) := fun h2 => lt_asymm h1 h2
      rw [if_neg h2, if_pos h1]
    · rw [if_neg h1] at h
      by_cases h2 : toupper (charAt kmer i) <
          complementBaseChar (toupper (charAt kmer (k - i - 1)))
      · rw [if_pos h2] at h; exact absurd h (by simp)
      · rw [if_neg h2] at h
        rw [if_neg h2, if_neg h1]
        exact ih (i + 1) (fun j hj1 hj2 => hrel j (by omega) (by omega)) h

/-- C6: `canonicalize` is idempotent on k-mers over {A,C,G,T}: a second call
changes nothing, and after one call `isCanonical` holds. -/
theorem canonicalize_idempotent (k : Nat) (kmer : List Char) (hlen : kmer.length = k)
    (hacgt : ∀ c ∈ kmer, isACGT c = true) :
    canonicalize k (canonicalize k kmer) = canonicalize k kmer ∧
    isCanonical k (canonicalize k kmer) = true := by
  by_cases hcan : isCanonical k kmer = true
  · have e : canonicalize k kmer = kmer := by simp [canonicalize, hcan]
    rw [e, e]; exact ⟨rfl, hcan⟩
  · have hcan2 : isCanonical k kmer = false := by simpa using hcan
    have e : canonicalize k kmer = reverseComplement k kmer := by
      simp [canonicalize, hcan2]
    have hk : k ≠ 1 := by
      intro h1; subst h1
      simp [isCanonical, isCanonicalLoop] at hcan2
    obtain ⟨hl, hc⟩ := reverseComplement_charAt k kmer hlen hk
    have hrc : isCanonical k (reverseComplement k kmer) = true := by
      apply isCanonicalLoop_flip k kmer (reverseComplement k kmer) (k / 2) 0 _ hcan2
      intro j _ hj
      have hj1 : j < k := by omega
      have hj2 : k - j - 1 < k := by omega
      have a1 := isACGT_charAt kmer hacgt (k - 1 - j) (by omega)
      have a2 := isACGT_charAt kmer hacgt j (by omega)
      have e3 : k - 1 - (k - j - 1) = j := by omega
      have e4 : k - j - 1 = k - 1 - j := by omega
      rw [hc j hj1, hc (k - j - 1) hj2, e3, e4]
      rw [toupper_of_isACGT _ (isACGT_complement _ a1), toupper_of_isACGT _ a1,
        toupper_of_isACGT _ (isACGT_complement _ a2), toupper_of_isACGT _ a2,
        complement_complement _ a2]
      exact ⟨rfl, rfl⟩
    rw [e]
    refine ⟨?_, hrc⟩
    simp [canonicalize, hrc]

/-- Witness for C6: TTG (k = 3) is not canonical and becomes CAA. -/
theorem canonicalize_idempotent_witness :
    canonicalize 3 (canonicalize 3 ['T', 'T', 'G']) = canonicalize 3 ['T', 'T', 'G'] ∧
    isCanonical 3 (canonicalize 3 ['T', 'T', 'G']) = true :=
  canonicalize_idempotent 3 ['T', 'T', 'G'] rfl (by decide)

/-- C7: `LightweightKmer::operator==` under a spaced seed.  With a mask of
length k over the characters 0 and 1, `a == b` holds exactly when `a` and `b`
agree at every position whose mask character is 1 (masked-out positions are
never read into the result); with an empty mask it holds exactly when all k
characters agree.  In both cases `==` is reflexive, symmetric and transitive on
k-mers, and `!=` is its negation. -/
theorem operator_eq_spaced_seed (k : Nat) (spacedSeed : List Char)
    (hmask : spacedSeed = [] ∨
      (spacedSeed.length = k ∧ ∀ c ∈ spacedSeed, c = '0' ∨ c = '1')) :
    (∀ a b : List Char, a.length = k → b.length = k →
      (LightweightKmer.eq k spacedSeed a b = true ↔
        ∀ i, i < k → (spacedSeed = [] ∨ charAt spacedSeed i = '1') →
          charAt a i = charAt b i)) ∧
    (∀ a : List Char, a.length = k → LightweightKmer.eq k spacedSeed a a = true) ∧
    (∀ a b : List Char, a.length = k → b.length = k →
      LightweightKmer.eq k spacedSeed a b = true →
      LightweightKmer.eq k spacedSeed b a = true) ∧
    (∀ a b c : List Char, a.length = k → b.length = k → c.length = k →
      LightweightKmer.eq k spacedSeed a b = true →
      LightweightKmer.eq k spacedSeed b c = true →
      LightweightKmer.eq k spacedSeed a c = true) ∧
    (∀ a b : List Char,
      LightweightKmer.ne k spacedSeed a b = !LightweightKmer.eq k spacedSeed a b) := by
  refine ⟨fun a b ha hb => eq_iff k spacedSeed a b hmask ha hb, ?_, ?_, ?_, ?_⟩
  · intro a ha
    rw [eq_iff k spacedSeed a a hmask ha ha]
    intro i _ _; rfl
  · intro a b ha hb h
    rw [eq_iff k spacedSeed a b hmask ha hb] at h
    rw [eq_iff k spacedSeed b a hmask hb ha]
    intro i hi hm; exact (h i hi hm).symm
  · intro a b c ha hb hc h1 h2
    rw [eq_iff k spacedSeed a b hmask ha hb] at h1
    rw [eq_iff k spacedSeed b c hmask hb hc] at h2
    rw [eq_iff k spacedSeed a c hmask ha hc]
    intro i hi hm; exact (h1 i hi hm).trans (h2 i hi hm)
  · intro a b; rfl

/-- Witness for C7 at k = 3 with the mask 101: ACG and ATG differ only at the
masked-out middle position. -/
theorem operator_eq_spaced_seed_witness :
    LightweightKmer.eq 3 ['1', '0', '1'] ['A', 'C', 'G'] ['A', 'T', 'G'] = true ∧
    (LightweightKmer.eq 3 ['1', '0', '1'] ['A', 'C', 'G'] ['A', 'T', 'G'] = true ↔
      ∀ i, i < 3 → ((['1', '0', '1'] : List Char) = [] ∨ charAt ['1', '0', '1'] i = '1') →
        charAt ['A', 'C', 'G'] i = charAt ['A', 'T', 'G'] i) :=
  ⟨by decide,
   (operator_eq_spaced_seed 3 ['1', '0', '1'] (Or.inr ⟨rfl, by decide⟩)).1
     ['A', 'C', 'G'] ['A', 'T', 'G'] rfl rfl⟩

/-- C5: for k at least 2, `shift(SENSE, c)` moves every base one position to
the left and writes `c` at position k-1; `shift(ANTISENSE, c)` moves every base
one position to the right and writes `c` at position 0.  The length stays k. -/
theorem shift_spec (k : Nat) (kmer : List Char) (c : Char)
    (hk : 2 ≤ k) (hlen : kmer.length = k) :
    (shift k kmer extDirection.SENSE c).length = k ∧
    (∀ i, i < k - 1 → charAt (shift k kmer extDirection.SENSE c) i = charAt kmer (i + 1)) ∧
    charAt (shift k kmer extDirection.SENSE c) (k - 1) = c ∧
    (shift k kmer extDirection.ANTISENSE c).length = k ∧
    charAt (shift k kmer extDirection.ANTISENSE c) 0 = c ∧
    (∀ i, 1 ≤ i → i < k →
      charAt (shift k kmer extDirection.ANTISENSE c) i = charAt kmer (i - 1)) := by
  have hS : shift k kmer extDirection.SENSE c = (memmove kmer 0 1 (k - 1)).set (k - 1) c := by
    simp [shift, setLastBase, setBase]
  have hA : shift k kmer extDirection.ANTISENSE c = (memmove kmer 1 0 (k - 1)).set 0 c := by
    simp [shift, setLastBase, setBase]
  have hl1 : (memmove kmer 0 1 (k - 1)).length = kmer.length :=
    length_memmove kmer 0 1 (k - 1) (by omega) (by omega)
  have hl2 : (memmove kmer 1 0 (k - 1)).length = kmer.length :=
    length_memmove kmer 1 0 (k - 1) (by omega) (by omega)
  refine ⟨?_, ?_, ?_, ?_, ?_, ?_⟩
  · rw [hS, List.length_set, hl1, hlen]
  · intro i hi
    rw [hS, charAt_set, charAt_memmove kmer 0 1 (k - 1) i (by omega) (by omega)]
    have h1 : ¬ (k - 1 = i ∧ k - 1 < (memmove kmer 0 1 (k - 1)).length) := by omega
    have h2 : 0 ≤ i ∧ i < 0 + (k - 1) := by omega
    rw [if_neg h1, if_pos h2]
    congr 1; omega
  · rw [hS, charAt_set]
    have h1 : k - 1 = k - 1 ∧ k - 1 < (memmove kmer 0 1 (k - 1)).length := by
      rw [hl1]; omega
    rw [if_pos h1]
  · rw [hA, List.length_set, hl2, hlen]
  · rw [hA, charAt_set]
    have h1 : 0 = 0 ∧ 0 < (memmove kmer 1 0 (k - 1)).length := by
      rw [hl2]; omega
    rw [if_pos h1]
  · intro i hi1 hi2
    rw [hA, charAt_set, charAt_memmove kmer 1 0 (k - 1) i (by omega) (by omega)]
    have h1 : ¬ (0 = i ∧ 0 < (memmove kmer 1 0 (k - 1)).length) := by omega
    have h2 : 1 ≤ i ∧ i < 1 + (k - 1) := by omega
    rw [if_neg h1, if_pos h2]
    congr 1; omega

/-- Witness for C5: shifting ACG (k = 3). -/
theorem shift_spec_witness :
    (shift 3 ['A', 'C', 'G'] extDirection.SENSE 'T').length = 3 ∧
    (∀ i, i < 3 - 1 →
      charAt (shift 3 ['A', 'C', 'G'] extDirection.SENSE 'T') i
        = charAt ['A', 'C', 'G'] (i + 1)) ∧
    charAt (shift 3 ['A', 'C', 'G'] extDirection.SENSE 'T') (3 - 1) = 'T' ∧
    (shift 3 ['A', 'C', 'G'] extDirection.ANTISENSE 'T').length = 3 ∧
    charAt (shift 3 ['A', 'C', 'G'] extDirection.ANTISENSE 'T') 0 = 'T' ∧
    (∀ i, 1 ≤ i → i < 3 →
      charAt (shift 3 ['A', 'C', 'G'] extDirection.ANTISENSE 'T') i
        = charAt ['A', 'C', 'G'] (i - 1)) :=
  shift_spec 3 ['A', 'C', 'G'] 'T' (by decide) rfl

end KmerCore

section IteratorLemmas
open RollingHashIterator

variable {H : Type}

theorem wrap64_of_lt (n : Nat) (h : n < 2 ^ 64) : wrap64 n = n := Nat.mod_eq_of_lt h

theorem npos_lt : npos < 2 ^ 64 := by decide

theorem popFrontWhile_spec (useq : List Char) (q : Nat) : ∀ bad : List Nat,
    badInv useq bad q →
    badInv useq (popFrontWhile bad q) q ∧ ∀ b ∈ popFrontWhile bad q, q ≤ b := by
  intro bad
  induction bad with
  | nil => intro h; exact ⟨h, by simp [popFrontWhile]⟩
  | cons b bs ih =>
    intro h
    obtain ⟨hs, hb, hall⟩ := h
    by_cases hlt : b < q
    · simp only [popFrontWhile, if_pos hlt]
      apply ih
      refine ⟨(List.pairwise_cons.mp hs).2, fun x hx => hb x (List.mem_cons_of_mem _ hx), ?_⟩
      intro p hp hbad
      rcases List.mem_cons.mp (hall p hp hbad) with h1 | h1
      · omega
      · exact h1
    · simp only [popFrontWhile, if_neg hlt]
      refine ⟨⟨hs, hb, hall⟩, ?_⟩
      intro x hx
      rcases List.mem_cons.mp hx with h1 | h1
      · omega
      · have := (List.pairwise_cons.mp hs).1 x h1
        omega

theorem goodKmer_iff (spacedSeed : List Char) (q k : Nat) (hw : q + k < 2 ^ 64) :
    ∀ bad : List Nat, bad.Pairwise (fun a b => a < b) →
    (goodKmer spacedSeed q k bad = true ↔
      ∀ b ∈ bad, b < q + k → charAt spacedSeed (b - q) ≠ '1') := by
  intro bad
  induction bad with
  | nil => intro _; simp [goodKmer]
  | cons b bs ih =>
    intro hs
    have hs2 := List.pairwise_cons.mp hs
    simp only [goodKmer, wrap64_of_lt _ hw]
    by_cases hlt : b < q + k
    · rw [if_pos hlt]
      by_cases h1 : charAt spacedSeed (b - q) = '1'
      · simp only [h1, beq_self_eq_true, if_true]
        constructor
        · intro h; exact absurd h (by simp)
        · intro h; exact absurd h1 (h b (List.mem_cons_self _ _) hlt)
      · have : (charAt spacedSeed (b - q) == '1') = false := by simpa using h1
        simp only [this, Bool.false_eq_true, if_false]
        rw [ih hs2.2]
        constructor
        · intro h x hx hxlt
          rcases List.mem_cons.mp hx with e | e
          · rw [e]; exact h1
          · exact h x e hxlt
        · intro h x hx hxlt
          exact h x (List.mem_cons_of_mem _ hx) hxlt
    · rw [if_neg hlt]
      simp only [true_iff]
      intro x hx hxlt
      rcases List.mem_cons.mp hx with e | e
      · omega
      · have := hs2.1 x e; omega

theorem findFirstNotOfFrom_spec : ∀ (cs : List Char) (i : Nat),
    (findFirstNotOfFrom cs i = npos ∧ ∀ j, j < cs.length → isACGT (charAt cs j) = true) ∨
    (i ≤ findFirstNotOfFrom cs i ∧ findFirstNotOfFrom cs i < i + cs.length ∧
      isACGT (charAt cs (findFirstNotOfFrom cs i - i)) = false ∧
      ∀ j, j < findFirstNotOfFrom cs i - i → isACGT (charAt cs j) = true) := by
  intro cs
  induction cs with
  | nil => intro i; left; simp [findFirstNotOfFrom]
  | cons c cs ih =>
    intro i
    by_cases hc : isACGT c = true
    · have e : findFirstNotOfFrom (c :: cs) i = findFirstNotOfFrom cs (i + 1) := by
        simp [findFirstNotOfFrom, hc]
      rw [e]
      rcases ih (i + 1) with ⟨h1, h2⟩ | ⟨h1, h2, h3, h4⟩
      · left
        refine ⟨h1, fun j hj => ?_⟩
        cases j with
        | zero => simpa [charAt_cons_zero] using hc
        | succ j =>
          rw [charAt_cons_succ]; exact h2 j (by simpa using hj)
      · right
        have e2 : findFirstNotOfFrom cs (i + 1) - i = (findFirstNotOfFrom cs (i + 1) - (i + 1)) + 1 := by
          omega
        refine ⟨by omega, by simp only [List.length_cons]; omega, ?_, ?_⟩
        · rw [e2, charAt_cons_succ]; exact h3
        · intro j hj
          cases j with
          | zero => simpa [charAt_cons_zero] using hc
          | succ j => rw [charAt_cons_succ]; exact h4 j (by omega)
    · have hc2 : isACGT c = false := by simpa using hc
      have e : findFirstNotOfFrom (c :: cs) i = i := by
        simp [findFirstNotOfFrom, hc2]
      rw [e]
      right
      refine ⟨le_refl i, by simp, ?_, ?_⟩
      · simpa [charAt_cons_zero] using hc2
      · intro j hj; omega

theorem charAt_drop (buf : List Char) (i j : Nat) :
    charAt (buf.drop i) j = charAt buf (i + j) := by
  simp [charAt_eq, List.getElem?_drop]

theorem find_first_not_of_spec (useq : List Char) (q : Nat) (hq : q ≤ useq.length)
    (hlen : useq.length < npos) :
    (find_first_not_of useq q = npos ∧ ∀ p, q ≤ p → ¬ isBadPos useq p) ∨
    (find_first_not_of useq q ≠ npos ∧ q ≤ find_first_not_of useq q ∧
      isBadPos useq (find_first_not_of useq q) ∧
      ∀ p, q ≤ p → p < find_first_not_of useq q → ¬ isBadPos useq p) := by
  have hl : (useq.drop q).length = useq.length - q := List.length_drop q useq
  rcases findFirstNotOfFrom_spec (useq.drop q) q with ⟨h1, h2⟩ | ⟨h1, h2, h3, h4⟩
  · left
    refine ⟨h1, fun p hp hbad => ?_⟩
    have := h2 (p - q) (by rw [hl]; have := hbad.1; omega)
    rw [charAt_drop] at this
    have e : q + (p - q) = p := by omega
    rw [e] at this
    rw [hbad.2] at this
    exact absurd this (by simp)
  · right
    simp only [find_first_not_of]
    rw [hl] at h2
    have e : q + (findFirstNotOfFrom (useq.drop q) q - q) = findFirstNotOfFrom (useq.drop q) q := by
      omega
    refine ⟨by omega, h1, ⟨by omega, ?_⟩, ?_⟩
    · rw [charAt_drop, e] at h3; exact h3
    · intro p hp1 hp2 hbad
      have := h4 (p - q) (by omega)
      rw [charAt_drop] at this
      have e2 : q + (p - q) = p := by omega
      rw [e2, hbad.2] at this
      exact absurd this (by simp)

theorem recordBadChars_spec (useq : List Char) (hlen : useq.length < npos) :
    ∀ (fuel i : Nat) (acc : List Nat),
    (i = npos ∨ isBadPos useq i) →
    (∀ p, isBadPos useq p → p < i → p ∈ acc) →
    acc.Pairwise (fun a b => a < b) →
    (∀ b ∈ acc, isBadPos useq b ∧ b < i) →
    (i = npos → 0 < fuel) → (i ≠ npos → useq.length - i < fuel) →
    ∃ bad, recordBadChars useq fuel i acc = some bad ∧ badInv useq bad 0 := by
  intro fuel
  induction fuel with
  | zero =>
    intro i acc hi _ _ _ hf1 hf2
    by_cases h : i = npos
    · exact absurd (hf1 h) (by omega)
    · exact absurd (hf2 h) (by omega)
  | succ fuel ih =>
    intro i acc hi hall hs hacc hf1 hf2
    by_cases h : i = npos
    · refine ⟨acc, by simp [recordBadChars, h], hs, fun b hb => (hacc b hb).1, ?_⟩
      intro p _ hbad
      exact hall p hbad (by have := hbad.1; omega)
    · have hbadi : isBadPos useq i := by
        rcases hi with hi | hi
        · exact absurd hi h
        · exact hi
      have hil : i < useq.length := hbadi.1
      have hw : wrap64 (i + 1) = i + 1 := wrap64_of_lt _ (by have := npos_lt; omega)
      have e : recordBadChars useq (fuel + 1) i acc
          = recordBadChars useq fuel (find_first_not_of useq (i + 1)) (acc ++ [i]) := by
        simp [recordBadChars, h, hw]
      rw [e]
      have hs2 : (acc ++ [i]).Pairwise (fun a b => a < b) := by
        rw [List.pairwise_append]
        refine ⟨hs, List.pairwise_singleton _ _, ?_⟩
        intro a ha b hb
        rw [List.mem_singleton] at hb
        rw [hb]; exact (hacc a ha).2
      rcases find_first_not_of_spec useq (i + 1) (by omega) hlen with
        ⟨h1, h2⟩ | ⟨h1, h2, h3, h4⟩
      · rw [h1]
        apply ih npos (acc ++ [i]) (Or.inl rfl) _ hs2 _ (fun _ => by omega)
          (fun hne => absurd rfl hne)
        · intro p hbad _
          by_cases hp : p < i
          · exact List.mem_append_left _ (hall p hbad hp)
          · by_cases hp2 : p = i
            · rw [hp2]; simp
            · exact absurd hbad (h2 p (by omega))
        · intro b hb
          rcases List.mem_append.mp hb with hb | hb
          · exact ⟨(hacc b hb).1, by have := (hacc b hb).1.1; omega⟩
          · rw [List.mem_singleton] at hb
            rw [hb]; exact ⟨hbadi, by omega⟩
      · apply ih (find_first_not_of useq (i + 1)) (acc ++ [i]) (Or.inr h3) _ hs2 _
          (fun hc => absurd hc h1) (fun _ => by omega)
        · intro p hbad hp3
          by_cases hp : p < i
          · exact List.mem_append_left _ (hall p hbad hp)
          · by_cases hp2 : p = i
            · rw [hp2]; simp
            · exact absurd hbad (h4 p (by omega) hp3)
        · intro b hb
          rcases List.mem_append.mp hb with hb | hb
          · exact ⟨(hacc b hb).1, by have := (hacc b hb).2; omega⟩
          · rw [List.mem_singleton] at hb
            rw [hb]; exact ⟨hbadi, by omega⟩

theorem emit_fields (ops : RollingHashOps H) (it : RollingHashIterator H) :
    (emit ops it).m_seq = it.m_seq ∧ (emit ops it).m_k = it.m_k ∧
    (emit ops it).m_pos = it.m_pos ∧ (emit ops it).m_badCharPos = it.m_badCharPos := by
  unfold emit
  by_cases h : it.m_rollNextHash = true <;> simp [h]

/-- A window without recorded bad position is acceptable. -/
theorem goodAt_of_no_bad (spacedSeed useq : List Char) (k q : Nat) (bad : List Nat)
    (hq : q + k ≤ useq.length) (hinv : badInv useq bad q)
    (hno : ∀ b ∈ bad, q + k ≤ b) : goodAt spacedSeed useq k q := by
  intro i hi _
  by_contra hc
  have hc2 : isACGT (charAt useq (q + i)) = false := by simpa using hc
  have := hno _ (hinv.2.2 (q + i) (by omega) ⟨by omega, hc2⟩)
  omega

theorem nextLoop_spec (ops : RollingHashOps H) (spacedSeed useq : List Char) (k : Nat)
    (hk : 1 ≤ k) (hkl : k ≤ useq.length) (hlen : useq.length < npos) :
    ∀ (fuel : Nat) (it : RollingHashIterator H), it.m_seq = useq → it.m_k = k →
    badInv useq it.m_badCharPos it.m_pos →
    useq.length + 1 - k - it.m_pos < fuel →
    ∃ it1, nextLoop ops spacedSeed fuel it = some it1 ∧ it1.m_seq = useq ∧ it1.m_k = k ∧
      ((it1.m_pos = npos ∧
          ∀ p, it.m_pos ≤ p → p + k ≤ useq.length → ¬ goodAt spacedSeed useq k p) ∨
       (it.m_pos ≤ it1.m_pos ∧ it1.m_pos + k ≤ useq.length ∧
          goodAt spacedSeed useq k it1.m_pos ∧
          (∀ p, it.m_pos ≤ p → p < it1.m_pos → ¬ goodAt spacedSeed useq k p) ∧
          badInv useq it1.m_badCharPos it1.m_pos)) := by
  have hnp := npos_lt
  intro fuel
  induction fuel with
  | zero => intro it _ _ _ hf; omega
  | succ fuel ih =>
    intro it hseq hkk hinv hf
    have hN : wrap64 (it.m_seq.length - it.m_k + 1) = useq.length + 1 - k := by
      rw [hseq, hkk, wrap64_of_lt _ (by omega)]; omega
    unfold nextLoop
    simp only [hN]
    by_cases hcond : it.m_pos < useq.length + 1 - k
    · rw [if_pos hcond]
      obtain ⟨hinv1, hge⟩ := popFrontWhile_spec useq it.m_pos it.m_badCharPos hinv
      have hw : wrap64 (it.m_pos + it.m_k) = it.m_pos + k := by
        rw [hkk, wrap64_of_lt _ (by omega)]
      -- the iterator positioned at a valid k-mer
      have hemit : goodAt spacedSeed useq k it.m_pos →
          ∃ it1, some (emit ops { it with m_badCharPos := popFrontWhile it.m_badCharPos it.m_pos })
              = some it1 ∧ it1.m_seq = useq ∧ it1.m_k = k ∧
            ((it1.m_pos = npos ∧
                ∀ p, it.m_pos ≤ p → p + k ≤ useq.length → ¬ goodAt spacedSeed useq k p) ∨
             (it.m_pos ≤ it1.m_pos ∧ it1.m_pos + k ≤ useq.length ∧
                goodAt spacedSeed useq k it1.m_pos ∧
                (∀ p, it.m_pos ≤ p → p < it1.m_pos → ¬ goodAt spacedSeed useq k p) ∧
                badInv useq it1.m_badCharPos it1.m_pos)) := by
        intro hgood
        obtain ⟨e1, e2, e3, e4⟩ :=
          emit_fields ops { it with m_badCharPos := popFrontWhile it.m_badCharPos it.m_pos }
        refine ⟨_, rfl, by rw [e1]; exact hseq, by rw [e2]; exact hkk, Or.inr ?_⟩
        rw [e3, e4]
        exact ⟨le_refl _, by show it.m_pos + k ≤ useq.length; omega, hgood,
          fun p h1 h2 => by
            have h3 : p < it.m_pos := h2
            omega, hinv1⟩
      cases hpop : popFrontWhile it.m_badCharPos it.m_pos with
      | nil =>
        simp only []
        rw [← hpop]
        apply hemit
        apply goodAt_of_no_bad spacedSeed useq k it.m_pos _ (by omega) hinv1
        intro b hb; rw [hpop] at hb; exact absurd hb (List.not_mem_nil b)
      | cons front rest =>
        simp only [hw]
        rw [hpop] at hinv1 hge
        have hfront := hge front (List.mem_cons_self _ _)
        have hfbad := hinv1.2.1 front (List.mem_cons_self _ _)
        by_cases hfr : front < it.m_pos + k
        · rw [if_pos hfr]
          by_cases hseed : spacedSeed.isEmpty = true
          · rw [if_pos hseed]
            have hseed2 : spacedSeed = [] := List.isEmpty_iff.mp hseed
            have hw2 : wrap64 (front + 1) = front + 1 :=
              wrap64_of_lt _ (by have := hfbad.1; omega)
            rw [hw2]
            have hinv2 : badInv useq (front :: rest) (front + 1) :=
              ⟨hinv1.1, hinv1.2.1, fun p hp hbad => hinv1.2.2 p (by omega) hbad⟩
            obtain ⟨it1, h1, h2, h3, h4⟩ := ih
              { it with m_badCharPos := front :: rest, m_rollNextHash := false,
                        m_pos := front + 1 } hseq hkk hinv2 (by
                  show useq.length + 1 - k - (front + 1) < fuel
                  omega)
            refine ⟨it1, h1, h2, h3, ?_⟩
            have hnot : ∀ p, it.m_pos ≤ p → p < front + 1 → ¬ goodAt spacedSeed useq k p := by
              intro p hp1 hp2 hgood
              have := hgood (front - p) (by omega) (Or.inl hseed2)
              have e : p + (front - p) = front := by omega
              rw [e, hfbad.2] at this
              exact absurd this (by simp)
            rcases h4 with ⟨h5, h6⟩ | ⟨h5, h6, h7, h8, h9⟩
            · left
              refine ⟨h5, fun p hp1 hp2 => ?_⟩
              by_cases hpf : p < front + 1
              · exact hnot p hp1 hpf
              · exact h6 p (by show front + 1 ≤ p; omega) hp2
            · right
              have h5b : front + 1 ≤ it1.m_pos := h5
              refine ⟨by omega, h6, h7, fun p hp1 hp2 => ?_, h9⟩
              by_cases hpf : p < front + 1
              · exact hnot p hp1 hpf
              · exact h8 p (by show front + 1 ≤ p; omega) hp2
          · rw [if_neg hseed]
            have hseed2 : spacedSeed ≠ [] := fun h => hseed (List.isEmpty_iff.mpr h)
            have hgk := goodKmer_iff spacedSeed it.m_pos k (by omega) (front :: rest) hinv1.1
            have hgke : goodKmer spacedSeed it.m_pos it.m_k (front :: rest)
                = goodKmer spacedSeed it.m_pos k (front :: rest) := by rw [hkk]
            rw [hgke]
            by_cases hg : goodKmer spacedSeed it.m_pos k (front :: rest) = true
            · simp only [hg, Bool.not_true, Bool.false_eq_true, if_false]
              rw [← hpop]
              apply hemit
              intro i hi hm
              rcases hm with hm | hm
              · exact absurd hm hseed2
              · by_contra hc
                have hc2 : isACGT (charAt useq (it.m_pos + i)) = false := by simpa using hc
                have hmem := hinv1.2.2 (it.m_pos + i) (by omega) ⟨by omega, hc2⟩
                have := (hgk.mp hg) _ hmem (by omega)
                have e : it.m_pos + i - it.m_pos = i := by omega
                rw [e] at this
                exact this hm
            · have hg2 : goodKmer spacedSeed it.m_pos k (front :: rest) = false := by
                simpa using hg
              simp only [hg2, Bool.not_false, if_true]
              have hw2 : wrap64 (it.m_pos + 1) = it.m_pos + 1 := wrap64_of_lt _ (by omega)
              rw [hw2]
              have hinv2 : badInv useq (front :: rest) (it.m_pos + 1) :=
                ⟨hinv1.1, hinv1.2.1, fun p hp hbad => hinv1.2.2 p (by omega) hbad⟩
              obtain ⟨it1, h1, h2, h3, h4⟩ := ih
                { it with m_badCharPos := front :: rest, m_rollNextHash := false,
                          m_pos := it.m_pos + 1 } hseq hkk hinv2 (by
                    show useq.length + 1 - k - (it.m_pos + 1) < fuel
                    omega)
              refine ⟨it1, h1, h2, h3, ?_⟩
              have hnot : ¬ goodAt spacedSeed useq k it.m_pos := by
                intro hgood
                apply hg
                rw [hgk]
                intro b hb hbl hm1
                have hb1 := hge b hb
                have hbb := hinv1.2.1 b hb
                have := hgood (b - it.m_pos) (by omega) (Or.inr hm1)
                have e : it.m_pos + (b - it.m_pos) = b := by omega
                rw [e, hbb.2] at this
                exact absurd this (by simp)
              rcases h4 with ⟨h5, h6⟩ | ⟨h5, h6, h7, h8, h9⟩
              · left
                refine ⟨h5, fun p hp1 hp2 => ?_⟩
                by_cases hpf : p = it.m_pos
                · rw [hpf]; exact hnot
                · exact h6 p (by show it.m_pos + 1 ≤ p; omega) hp2
              · right
                have h5b : it.m_pos + 1 ≤ it1.m_pos := h5
                refine ⟨by omega, h6, h7, fun p hp1 hp2 => ?_, h9⟩
                by_cases hpf : p = it.m_pos
                · rw [hpf]; exact hnot
                · exact h8 p (by show it.m_pos + 1 ≤ p; omega) hp2
        · rw [if_neg hfr]
          rw [← hpop]
          apply hemit
          apply goodAt_of_no_bad spacedSeed useq k it.m_pos _ (by omega) hinv1
          intro b hb
          rcases List.mem_cons.mp hb with e | e
          · omega
          · have := (List.pairwise_cons.mp hinv1.1).1 b e; omega
    · rw [if_neg hcond]
      refine ⟨_, rfl, hseq, hkk, Or.inl ⟨rfl, fun p hp1 hp2 => ?_⟩⟩
      omega

theorem eq_filter_range (n : Nat) (P : Nat → Bool) (ps : List Nat)
    (hs : ps.Pairwise (fun a b => a < b))
    (hm : ∀ p, p ∈ ps ↔ p < n ∧ P p = true) : ps = (List.range n).filter P := by
  have hs2 : ((List.range n).filter P).Pairwise (fun a b => a < b) :=
    List.Pairwise.filter _ (List.pairwise_lt_range n)
  apply List.eq_of_perm_of_sorted _ hs hs2
  apply (List.perm_ext_iff_of_nodup _ _).mpr
  · intro p; rw [hm, List.mem_filter, List.mem_range]
  · exact hs.imp (fun h => Nat.ne_of_lt h)
  · exact hs2.imp (fun h => Nat.ne_of_lt h)

theorem charAt_map_toupper (seq : List Char) (j : Nat) :
    charAt (seq.map toupper) j = toupper (charAt seq j) := by
  simp only [charAt_eq, List.getElem?_map]
  cases seq[j]? with
  | none => decide
  | some c => rfl

theorem next_spec (ops : RollingHashOps H) (spacedSeed useq : List Char) (k : Nat)
    (hk : 1 ≤ k) (hlen : useq.length < npos) (it : RollingHashIterator H)
    (hseq : it.m_seq = useq) (hkk : it.m_k = k)
    (hinv : badInv useq it.m_badCharPos it.m_pos) :
    ∃ it1, next ops spacedSeed it = some it1 ∧ it1.m_seq = useq ∧ it1.m_k = k ∧
      ((it1.m_pos = npos ∧
          ∀ p, it.m_pos ≤ p → p + k ≤ useq.length → ¬ goodAt spacedSeed useq k p) ∨
       (it.m_pos ≤ it1.m_pos ∧ it1.m_pos + k ≤ useq.length ∧
          goodAt spacedSeed useq k it1.m_pos ∧
          (∀ p, it.m_pos ≤ p → p < it1.m_pos → ¬ goodAt spacedSeed useq k p) ∧
          badInv useq it1.m_badCharPos it1.m_pos)) := by
  unfold next
  by_cases hshort : it.m_seq.length < it.m_k
  · rw [if_pos hshort]
    refine ⟨_, rfl, hseq, hkk, Or.inl ⟨rfl, fun p _ hp => ?_⟩⟩
    rw [hseq, hkk] at hshort; omega
  · rw [if_neg hshort]
    have hkl : k ≤ useq.length := by rw [hseq, hkk] at hshort; omega
    rw [hseq]
    exact nextLoop_spec ops spacedSeed useq k hk hkl hlen (useq.length + 1) it hseq hkk hinv
      (by omega)

theorem create_spec (ops : RollingHashOps H) (spacedSeed seq : List Char)
    (numHashes k : Nat) (hk : 1 ≤ k) (hlen : seq.length < npos) :
    ∃ it, create ops spacedSeed seq numHashes k = some it ∧
      it.m_seq = seq.map toupper ∧ it.m_k = k ∧
      ((it.m_pos = npos ∧
          ∀ p, p + k ≤ seq.length → ¬ goodAt spacedSeed (seq.map toupper) k p) ∨
       (it.m_pos + k ≤ seq.length ∧
          goodAt spacedSeed (seq.map toupper) k it.m_pos ∧
          (∀ p, p < it.m_pos → ¬ goodAt spacedSeed (seq.map toupper) k p) ∧
          badInv (seq.map toupper) it.m_badCharPos it.m_pos)) := by
  have hl : (seq.map toupper).length = seq.length := List.length_map _ _
  have hlen2 : (seq.map toupper).length < npos := by rw [hl]; exact hlen
  have hfirst := find_first_not_of_spec (seq.map toupper) 0 (Nat.zero_le _) hlen2
  have hrec : ∃ bad, recordBadChars (seq.map toupper) ((seq.map toupper).length + 1)
      (find_first_not_of (seq.map toupper) 0) [] = some bad ∧
      badInv (seq.map toupper) bad 0 := by
    rcases hfirst with ⟨h1, h2⟩ | ⟨h1, _, h3, h4⟩
    · rw [h1]
      exact recordBadChars_spec _ hlen2 _ npos [] (Or.inl rfl)
        (fun p hbad _ => absurd hbad (h2 p (Nat.zero_le p))) List.Pairwise.nil
        (fun b hb => absurd hb (List.not_mem_nil b)) (fun _ => by omega)
        (fun hne => absurd rfl hne)
    · exact recordBadChars_spec _ hlen2 _ _ [] (Or.inr h3)
        (fun p hbad hp => absurd hbad (h4 p (Nat.zero_le p) hp)) List.Pairwise.nil
        (fun b hb => absurd hb (List.not_mem_nil b)) (fun hc => absurd hc h1)
        (fun _ => by omega)
  obtain ⟨bad, hb1, hb2⟩ := hrec
  obtain ⟨it1, h1, h2, h3, h4⟩ := next_spec ops spacedSeed (seq.map toupper) k hk hlen2
    { m_seq := seq.map toupper, m_numHashes := numHashes, m_hashes := [], m_k := k,
      m_rollingHash := ops.create numHashes k, m_rollNextHash := false, m_pos := 0,
      m_badCharPos := bad } rfl rfl hb2
  refine ⟨it1, ?_, h2, h3, ?_⟩
  · simp only [create, init, hb1]
    exact h1
  · rcases h4 with ⟨h5, h6⟩ | ⟨_, h6, h7, h8, h9⟩
    · left
      exact ⟨h5, fun p hp => h6 p (Nat.zero_le p) (by rw [hl]; exact hp)⟩
    · right
      exact ⟨by rw [← hl]; exact h6, h7, fun p hp => h8 p (Nat.zero_le p) hp, h9⟩

theorem visitLoop_spec (ops : RollingHashOps H) (spacedSeed useq : List Char) (k : Nat)
    (hk : 1 ≤ k) (hlen : useq.length < npos) :
    ∀ (fuel : Nat) (it : RollingHashIterator H), it.m_seq = useq → it.m_k = k →
    (it.m_pos = npos ∨
      (it.m_pos + k ≤ useq.length ∧ goodAt spacedSeed useq k it.m_pos ∧
        badInv useq it.m_badCharPos it.m_pos)) →
    0 < fuel → (it.m_pos ≠ npos → useq.length + 1 - k - it.m_pos < fuel) →
    ∃ ps, visitLoop ops spacedSeed fuel it = some ps ∧
      ps.Pairwise (fun a b => a < b) ∧
      ∀ p, p ∈ ps ↔
        (it.m_pos ≠ npos ∧ it.m_pos ≤ p ∧ p + k ≤ useq.length ∧ goodAt spacedSeed useq k p) := by
  have hnp := npos_lt
  intro fuel
  induction fuel with
  | zero => intro it _ _ _ hf _; omega
  | succ fuel ih =>
    intro it hseq hkk hst _ hf
    unfold visitLoop
    by_cases hend : it.m_pos = npos
    · have : isEnd it = true := by simp [isEnd, hend]
      rw [if_pos this]
      refine ⟨[], rfl, List.Pairwise.nil, fun p => ?_⟩
      constructor
      · intro h; exact absurd h (List.not_mem_nil p)
      · intro h; exact absurd hend h.1
    · have : ¬ (isEnd it = true) := by simp [isEnd, hend]
      rw [if_neg this]
      obtain ⟨hq, hgood, hinv⟩ : it.m_pos + k ≤ useq.length ∧
          goodAt spacedSeed useq k it.m_pos ∧ badInv useq it.m_badCharPos it.m_pos := by
        rcases hst with h | h
        · exact absurd h hend
        · exact h
      have hw : wrap64 (it.m_pos + 1) = it.m_pos + 1 := wrap64_of_lt _ (by omega)
      have hinv2 : badInv useq it.m_badCharPos (it.m_pos + 1) :=
        ⟨hinv.1, hinv.2.1, fun p hp hbad => hinv.2.2 p (by omega) hbad⟩
      obtain ⟨it1, h1, h2, h3, h4⟩ := next_spec ops spacedSeed useq k hk hlen
        { it with m_pos := it.m_pos + 1 } hseq hkk hinv2
      have hincr : incr ops spacedSeed it = some it1 := by
        unfold incr; rw [hw]; exact h1
      rw [hincr]
      have hfu := hf hend
      rcases h4 with ⟨h5, h6⟩ | ⟨h5, h6, h7, h8, h9⟩
      · obtain ⟨ps, hps, hsorted, hmem⟩ := ih it1 h2 h3 (Or.inl h5) (by omega)
          (fun hne => absurd h5 hne)
        refine ⟨pos it :: ps, by simp only [hps], ?_, fun p => ?_⟩
        · rw [List.pairwise_cons]
          refine ⟨fun x hx => ?_, hsorted⟩
          exact absurd h5 ((hmem x).mp hx).1
        · rw [List.mem_cons, hmem]
          constructor
          · intro h
            rcases h with h | h
            · rw [h]; exact ⟨hend, le_refl _, hq, hgood⟩
            · exact absurd h5 h.1
          · intro h
            by_cases hp : p = it.m_pos
            · left; exact hp
            · exact absurd h.2.2.2 (h6 p (by show it.m_pos + 1 ≤ p; omega) h.2.2.1)
      · have h5b : it.m_pos + 1 ≤ it1.m_pos := h5
        have hne1 : it1.m_pos ≠ npos := by omega
        obtain ⟨ps, hps, hsorted, hmem⟩ := ih it1 h2 h3 (Or.inr ⟨h6, h7, h9⟩) (by omega)
          (fun _ => by omega)
        refine ⟨pos it :: ps, by simp only [hps], ?_, fun p => ?_⟩
        · rw [List.pairwise_cons]
          refine ⟨fun x hx => ?_, hsorted⟩
          have := ((hmem x).mp hx).2.1
          show it.m_pos < x
          omega
        · rw [List.mem_cons, hmem]
          constructor
          · intro h
            rcases h with h | h
            · rw [h]; exact ⟨hend, le_refl _, hq, hgood⟩
            · exact ⟨hend, by omega, h.2.2.1, h.2.2.2⟩
          · intro h
            by_cases hp : p = it.m_pos
            · left; exact hp
            · right
              refine ⟨hne1, ?_, h.2.2.1, h.2.2.2⟩
              by_contra hlt
              exact h8 p (by show it.m_pos + 1 ≤ p; omega) (by omega) h.2.2.2

/-- The positions visited from construction to `end()`, for any spaced seed:
strictly increasing, and exactly the positions of the acceptable windows. -/
theorem visited_spec (ops : RollingHashOps H) (spacedSeed seq : List Char)
    (numHashes k : Nat) (hk : 1 ≤ k) (hlen : seq.length < npos) :
    ∃ it ps, create ops spacedSeed seq numHashes k = some it ∧
      visited ops spacedSeed seq numHashes k = some ps ∧
      (ps = [] → isEnd it = true) ∧
      ps.Pairwise (fun a b => a < b) ∧
      ∀ p, p ∈ ps ↔
        (p < seq.length + 1 - k ∧ goodAt spacedSeed (seq.map toupper) k p) := by
  have hl : (seq.map toupper).length = seq.length := List.length_map _ _
  have hlen2 : (seq.map toupper).length < npos := by rw [hl]; exact hlen
  obtain ⟨it, h1, h2, h3, h4⟩ := create_spec ops spacedSeed seq numHashes k hk hlen
  have hst : it.m_pos = npos ∨
      (it.m_pos + k ≤ (seq.map toupper).length ∧
        goodAt spacedSeed (seq.map toupper) k it.m_pos ∧
        badInv (seq.map toupper) it.m_badCharPos it.m_pos) := by
    rcases h4 with ⟨h5, _⟩ | ⟨h5, h6, _, h8⟩
    · exact Or.inl h5
    · exact Or.inr ⟨by rw [hl]; exact h5, h6, h8⟩
  obtain ⟨ps, hps, hsorted, hmem⟩ := visitLoop_spec ops spacedSeed (seq.map toupper) k hk
    hlen2 (seq.length + 1) it h2 h3 hst (by omega) (fun _ => by rw [hl]; omega)
  refine ⟨it, ps, h1, by simp only [visited, h1, hps], ?_, hsorted, fun p => ?_⟩
  · intro hnil
    by_contra hne
    have hne2 : it.m_pos ≠ npos := by
      intro h; apply hne; simp [isEnd, h]
    rcases hst with h | ⟨h5, h6, _⟩
    · exact hne2 h
    · have : it.m_pos ∈ ps := (hmem it.m_pos).mpr ⟨hne2, le_refl _, h5, h6⟩
      rw [hnil] at this
      exact absurd this (List.not_mem_nil _)
  · rw [hmem, hl]
    constructor
    · intro h; exact ⟨by omega, h.2.2.2⟩
    · intro h
      refine ⟨?_, ?_, by omega, h.2⟩
      · rcases h4 with ⟨_, h6⟩ | ⟨h5, _, _, _⟩
        · exact absurd h.2 (h6 p (by omega))
        · have := npos_lt; omega
      · rcases h4 with ⟨_, h6⟩ | ⟨_, _, h7, _⟩
        · exact absurd h.2 (h6 p (by omega))
        · by_contra hlt
          exact h7 p (by omega) h.2

/-- C3: with no spaced-seed mask and k at least 1, iterating a
`RollingHashIterator` from construction until it equals `end()` visits exactly
the positions p with p + k at most the length of the sequence whose window of
k upper-cased characters lies in ACGT, each once and in increasing order; when
there is no such position (in particular when the sequence is shorter than k)
the constructed iterator equals `end()`.  The sequence is shorter than
`SIZE_MAX`, as every `std::string` is. -/
theorem visited_no_mask (ops : RollingHashOps H) (seq : List Char) (numHashes k : Nat)
    (hk : 1 ≤ k) (hlen : seq.length < npos) :
    visited ops [] seq numHashes k
      = some ((List.range (seq.length + 1 - k)).filter (fun p =>
          decide (∀ i, i < k → isACGT (toupper (charAt seq (p + i))) = true))) ∧
    ((List.range (seq.length + 1 - k)).filter (fun p =>
        decide (∀ i, i < k → isACGT (toupper (charAt seq (p + i))) = true)) = [] →
      ∃ it, create ops [] seq numHashes k = some it ∧ isEnd it = true) := by
  obtain ⟨it, ps, h1, h2, h3, h4, h5⟩ := visited_spec ops [] seq numHashes k hk hlen
  have e : ps = (List.range (seq.length + 1 - k)).filter (fun p =>
      decide (∀ i, i < k → isACGT (toupper (charAt seq (p + i))) = true)) := by
    apply eq_filter_range _ _ _ h4
    intro p
    rw [h5 p, decide_eq_true_iff]
    constructor
    · intro h
      refine ⟨h.1, fun i hi => ?_⟩
      rw [← charAt_map_toupper]; exact h.2 i hi (Or.inl rfl)
    · intro h
      refine ⟨h.1, fun i hi _ => ?_⟩
      rw [charAt_map_toupper]; exact h.2 i hi
  rw [← e]
  exact ⟨h2, fun hnil => ⟨it, h1, h3 hnil⟩⟩

/-- Witness for C3: in ACGTNACGT with k = 3 the windows at 0, 1, 5 and 6 are
visited; the three windows that span the N are skipped. -/
theorem visited_no_mask_witness :
    visited unitOps [] ['A', 'C', 'G', 'T', 'N', 'A', 'C', 'G', 'T'] 1 3
      = some ((List.range (['A', 'C', 'G', 'T', 'N', 'A', 'C', 'G', 'T'].length + 1 - 3)).filter
          (fun p : Nat => decide (∀ i : Nat, i < 3 →
            isACGT (toupper (charAt ['A', 'C', 'G', 'T', 'N', 'A', 'C', 'G', 'T'] (p + i)))
              = true))) ∧
    visited unitOps [] ['A', 'C', 'G', 'T', 'N', 'A', 'C', 'G', 'T'] 1 3 = some [0, 1, 5, 6] :=
  ⟨(visited_no_mask unitOps ['A', 'C', 'G', 'T', 'N', 'A', 'C', 'G', 'T'] 1 3
      (by decide) (by decide)).1, by decide⟩

/-- C4: with a spaced-seed mask of length k active, the iterator visits exactly
the positions p with p + k at most the length of the sequence such that every
position of the window whose mask character is 1 holds an upper-cased character
of ACGT, in increasing order; characters at the other positions of the window
do not cause the window to be skipped.  The sequence is shorter than
`SIZE_MAX`, as every `std::string` is. -/
theorem visited_spaced_seed (ops : RollingHashOps H) (spacedSeed seq : List Char)
    (numHashes k : Nat) (hk : 1 ≤ k) (hmask : spacedSeed.length = k)
    (hlen : seq.length < npos) :
    visited ops spacedSeed seq numHashes k
      = some ((List.range (seq.length + 1 - k)).filter (fun p =>
          decide (∀ i, i < k → charAt spacedSeed i = '1' →
            isACGT (toupper (charAt seq (p + i))) = true))) := by
  obtain ⟨it, ps, _, h2, _, h4, h5⟩ := visited_spec ops spacedSeed seq numHashes k hk hlen
  have hne : spacedSeed ≠ [] := by
    intro h; rw [h] at hmask; simp at hmask; omega
  have e : ps = (List.range (seq.length + 1 - k)).filter (fun p =>
      decide (∀ i, i < k → charAt spacedSeed i = '1' →
        isACGT (toupper (charAt seq (p + i))) = true)) := by
    apply eq_filter_range _ _ _ h4
    intro p
    rw [h5 p, decide_eq_true_iff]
    constructor
    · intro h
      refine ⟨h.1, fun i hi hm => ?_⟩
      rw [← charAt_map_toupper]; exact h.2 i hi (Or.inr hm)
    · intro h
      refine ⟨h.1, fun i hi hm => ?_⟩
      rw [charAt_map_toupper]
      rcases hm with hm | hm
      · exact absurd hm hne
      · exact h.2 i hi hm
  rw [← e]
  exact h2

/-- Witness for C4: with the mask 101 the window TNA at position 3 of
ACGTNACGT is visited as well, the N being masked out. -/
theorem visited_spaced_seed_witness :
    visited unitOps ['1', '0', '1'] ['A', 'C', 'G', 'T', 'N', 'A', 'C', 'G', 'T'] 1 3
      = some ((List.range (['A', 'C', 'G', 'T', 'N', 'A', 'C', 'G', 'T'].length + 1 - 3)).filter
          (fun p : Nat => decide (∀ i : Nat, i < 3 → charAt ['1', '0', '1'] i = '1' →
            isACGT (toupper (charAt ['A', 'C', 'G', 'T', 'N', 'A', 'C', 'G', 'T'] (p + i)))
              = true))) ∧
    visited unitOps ['1', '0', '1'] ['A', 'C', 'G', 'T', 'N', 'A', 'C', 'G', 'T'] 1 3
      = some [0, 1, 3, 5, 6] :=
  ⟨visited_spaced_seed unitOps ['1', '0', '1'] ['A', 'C', 'G', 'T', 'N', 'A', 'C', 'G', 'T'] 1 3
      (by decide) rfl (by decide), by decide⟩

end IteratorLemmas

section ScaffoldFilter
open Graph Scaffold

theorem complement_complement_node (u : ContigNode) : u.complement.complement = u := by
  cases u with
  | mk id sense => simp [ContigNode.complement]

theorem out_degree_eq_zero_iff (w : ContigNode) (g : Graph) :
    out_degree w g = 0 ↔ ∀ e ∈ g.edges, e.source ≠ w := by
  simp [out_degree, out_edges, List.filter_eq_nil_iff]

theorem in_degree_eq_zero_iff (w : ContigNode) (g : Graph) :
    in_degree w g = 0 ↔ ∀ e ∈ g.edges, e.target ≠ w := by
  simp [in_degree, in_edges, List.filter_eq_nil_iff]

theorem clear_vertex_edges (u : ContigNode) (g : Graph) :
    ∀ e, e ∈ (clear_vertex u g).edges ↔
      (e ∈ g.edges ∧ e.source ≠ u ∧ e.target ≠ u.complement ∧
        e.source ≠ u.complement ∧ e.target ≠ u) := by
  intro e
  simp only [clear_vertex, clear_in_edges, clear_out_edges, List.mem_filter,
    complement_complement_node, Bool.and_eq_true, Bool.not_eq_true', decide_eq_false_iff_not]
  tauto

theorem clear_vertex_fields (u : ContigNode) (g : Graph) :
    (clear_vertex u g).vertices = g.vertices ∧ (clear_vertex u g).length = g.length ∧
    (clear_vertex u g).removed = g.removed := ⟨rfl, rfl, rfl⟩

/-- One step of the vertex loop of `filterGraph`: what stays and what may
change. -/
theorem filterVertex_spec (s : Nat) (g : Graph) (u : ContigNode) :
    (filterVertex s g u).vertices = g.vertices ∧
    (filterVertex s g u).length = g.length ∧
    (∀ e ∈ (filterVertex s g u).edges, e ∈ g.edges) ∧
    (∀ x ∈ g.removed, x ∈ (filterVertex s g u).removed) ∧
    (g.length u < s → u ∈ (filterVertex s g u).removed) ∧
    (∀ x ∈ (filterVertex s g u).removed, x ∈ g.removed ∨
      ((u = x ∨ u = x.complement) ∧
        out_degree u (filterVertex s g u) = 0 ∧ in_degree u (filterVertex s g u) = 0)) := by
  by_cases hshort : g.length u < s
  · have hiso : out_degree u (clear_vertex u g) = 0 ∧ in_degree u (clear_vertex u g) = 0 := by
      rw [out_degree_eq_zero_iff, in_degree_eq_zero_iff]
      exact ⟨fun e he => ((clear_vertex_edges u g e).mp he).2.1,
        fun e he => ((clear_vertex_edges u g e).mp he).2.2.2.2⟩
    have e : filterVertex s g u = remove_vertex u (clear_vertex u g) := by
      simp only [filterVertex, if_pos hshort, if_pos hiso]
    rw [e]
    refine ⟨rfl, rfl, fun x hx => ((clear_vertex_edges u g x).mp hx).1, ?_, ?_, ?_⟩
    · intro x hx
      exact List.mem_cons_of_mem _ (List.mem_cons_of_mem _ hx)
    · intro _; exact List.mem_cons_self _ _
    · intro x hx
      simp only [remove_vertex, List.mem_cons] at hx
      rcases hx with h | h | h
      · right; exact ⟨Or.inl h.symm, hiso⟩
      · right
        refine ⟨Or.inr ?_, hiso⟩
        rw [h, complement_complement_node]
      · left; exact h
  · by_cases hiso : out_degree u g = 0 ∧ in_degree u g = 0
    · have e : filterVertex s g u = remove_vertex u g := by
        simp only [filterVertex, if_neg hshort, if_pos hiso]
      rw [e]
      refine ⟨rfl, rfl, fun x hx => hx, ?_, fun h => absurd h hshort, ?_⟩
      · intro x hx
        exact List.mem_cons_of_mem _ (List.mem_cons_of_mem _ hx)
      · intro x hx
        simp only [remove_vertex, List.mem_cons] at hx
        rcases hx with h | h | h
        · right; exact ⟨Or.inl h.symm, hiso⟩
        · right
          refine ⟨Or.inr ?_, hiso⟩
          rw [h, complement_complement_node]
        · left; exact h
    · have e : filterVertex s g u = g := by
        simp only [filterVertex, if_neg hshort, if_neg hiso]
      rw [e]
      exact ⟨rfl, rfl, fun x hx => hx, fun x hx => hx, fun h => absurd h hshort,
        fun x hx => Or.inl hx⟩

/-- A vertex without edges stays without edges when edges are only removed. -/
theorem isolated_mono (w : ContigNode) (g g1 : Graph)
    (hsub : ∀ e ∈ g1.edges, e ∈ g.edges)
    (h : out_degree w g = 0 ∧ in_degree w g = 0) :
    out_degree w g1 = 0 ∧ in_degree w g1 = 0 := by
  rw [out_degree_eq_zero_iff, in_degree_eq_zero_iff] at h ⊢
  exact ⟨fun e he => h.1 e (hsub e he), fun e he => h.2 e (hsub e he)⟩

/-- The vertex loop of `filterGraph` over the vertices `vs`. -/
theorem filterVertex_foldl_spec (s : Nat) : ∀ (vs : List ContigNode) (g : Graph),
    (vs.foldl (filterVertex s) g).vertices = g.vertices ∧
    (vs.foldl (filterVertex s) g).length = g.length ∧
    (∀ e ∈ (vs.foldl (filterVertex s) g).edges, e ∈ g.edges) ∧
    (∀ x ∈ g.removed, x ∈ (vs.foldl (filterVertex s) g).removed) ∧
    (∀ u ∈ vs, g.length u < s → u ∈ (vs.foldl (filterVertex s) g).removed) ∧
    (∀ x ∈ (vs.foldl (filterVertex s) g).removed, x ∈ g.removed ∨
      ∃ w, (w = x ∨ w = x.complement) ∧ w ∈ vs ∧
        out_degree w (vs.foldl (filterVertex s) g) = 0 ∧
        in_degree w (vs.foldl (filterVertex s) g) = 0) := by
  intro vs
  induction vs with
  | nil =>
    intro g
    exact ⟨rfl, rfl, fun e he => he, fun x hx => hx,
      fun u hu => absurd hu (List.not_mem_nil u), fun x hx => Or.inl hx⟩
  | cons v vs ih =>
    intro g
    obtain ⟨a1, a2, a3, a4, a5, a6⟩ := filterVertex_spec s g v
    obtain ⟨b1, b2, b3, b4, b5, b6⟩ := ih (filterVertex s g v)
    simp only [List.foldl_cons]
    refine ⟨b1.trans a1, b2.trans a2, fun e he => a3 e (b3 e he),
      fun x hx => b4 x (a4 x hx), ?_, ?_⟩
    · intro u hu hshort
      rcases List.mem_cons.mp hu with h | h
      · rw [h]; exact b4 v (a5 (by rw [← h]; exact hshort))
      · exact b5 u h (by rw [a2]; exact hshort)
    · intro x hx
      rcases b6 x hx with h | ⟨w, hw1, hw2, hw3⟩
      · rcases a6 x h with h2 | ⟨h2, h3⟩
        · exact Or.inl h2
        · right
          exact ⟨v, h2, List.mem_cons_self _ _,
            isolated_mono v (filterVertex s g v) _ b3 h3⟩
      · right
        exact ⟨w, hw1, List.mem_cons_of_mem _ hw2, hw3⟩

/-- C8: after `filterGraph(g, n, s)` every vertex that is still in the graph
(not flagged as removed) has length at least s, and every remaining edge has
numPairs at least n. -/
theorem filterGraph_postcondition (g : Graph) (n s : Nat) :
    (∀ u ∈ (filterGraph g n s).vertices, u ∉ (filterGraph g n s).removed →
      s ≤ (filterGraph g n s).length u) ∧
    (∀ e ∈ (filterGraph g n s).edges, n ≤ e.ep.numPairs) := by
  obtain ⟨b1, b2, _, _, b5, _⟩ := filterVertex_foldl_spec s g.vertices g
  constructor
  · intro u hu hnot
    have hu2 : u ∈ g.vertices := by
      have : (filterGraph g n s).vertices = (g.vertices.foldl (filterVertex s) g).vertices := rfl
      rw [this, b1] at hu; exact hu
    have hl : (filterGraph g n s).length u = g.length u := by
      have : (filterGraph g n s).length = (g.vertices.foldl (filterVertex s) g).length := rfl
      rw [this, b2]
    rw [hl]
    by_contra hlt
    exact hnot (b5 u hu2 (by omega))
  · intro e he
    simp only [filterGraph, remove_edge_if, List.mem_filter, PoorSupport,
      Bool.not_eq_true', decide_eq_false_iff_not] at he
    omega

end ScaffoldFilter

section ScaffoldWeakEdges
open Graph Scaffold

/-- In a graph without parallel edges an edge is determined by its source and
target. -/
theorem edge_unique (g : Graph)
    (hnp : g.edges.Pairwise (fun a b => ¬ (a.source = b.source ∧ a.target = b.target)))
    (a b : Edge) (ha : a ∈ g.edges) (hb : b ∈ g.edges)
    (h1 : a.source = b.source) (h2 : a.target = b.target) : a = b := by
  by_contra hne
  have hsym : Symmetric (fun a b : Edge => ¬ (a.source = b.source ∧ a.target = b.target)) :=
    fun x y h hxy => h ⟨hxy.1.symm, hxy.2.symm⟩
  exact hnp.forall hsym ha hb hne ⟨h1, h2⟩

theorem pick_other {α : Type} (P : α → Prop) [DecidablePred P] (o1 o2 e : α)
    (he : e = o1 ∨ e = o2) (hP : P e) (hne : ¬ (P o1 ∧ P o2)) :
    ¬ P (if P o1 then o2 else o1) ∧
    ((if P o1 then o2 else o1) = o1 ∨ (if P o1 then o2 else o1) = o2) ∧
    ∀ y, (y = o1 ∨ y = o2) → ¬ P y → y = (if P o1 then o2 else o1) := by
  by_cases h1 : P o1
  · rw [if_pos h1]
    refine ⟨fun h2 => hne ⟨h1, h2⟩, Or.inr rfl, fun y hy hny => ?_⟩
    rcases hy with hy | hy
    · rw [hy] at hny; exact absurd h1 hny
    · exact hy
  · rw [if_neg h1]
    refine ⟨h1, Or.inl rfl, fun y hy hny => ?_⟩
    rcases hy with hy | hy
    · exact hy
    · rcases he with he | he
      · rw [he] at hP; exact absurd hP h1
      · rw [hy, ← he] at hny; exact absurd hP hny

/-- The edge chosen as `u1v1` by `removeWeakEdges`: the only edge from the
source of `e` that does not lead to the target of `e`. -/
theorem other_out_edge (g : Graph)
    (hnp : g.edges.Pairwise (fun a b => ¬ (a.source = b.source ∧ a.target = b.target)))
    (e o1 o2 : Edge) (he : e ∈ g.edges) (ho : out_edges e.source g = [o1, o2]) :
    (if o1.target = e.target then o2 else o1) ∈ g.edges ∧
    (if o1.target = e.target then o2 else o1).source = e.source ∧
    (if o1.target = e.target then o2 else o1).target ≠ e.target ∧
    ∀ y ∈ g.edges, y.source = e.source → y.target ≠ e.target →
      y = (if o1.target = e.target then o2 else o1) := by
  have hmem : ∀ y, y ∈ [o1, o2] ↔ (y ∈ g.edges ∧ y.source = e.source) := by
    intro y; rw [← ho]; simp [out_edges, List.mem_filter]
  have hpw : [o1, o2].Pairwise (fun a b => ¬ (a.source = b.source ∧ a.target = b.target)) := by
    rw [← ho]; exact List.Pairwise.filter _ hnp
  have h1 := (hmem o1).mp (by simp)
  have h2 := (hmem o2).mp (by simp)
  have h12 : ¬ (o1.source = o2.source ∧ o1.target = o2.target) := by
    simpa using hpw
  have hein : e = o1 ∨ e = o2 := by
    have := (hmem e).mpr ⟨he, rfl⟩
    simpa using this
  obtain ⟨p1, p2, p3⟩ := pick_other (fun o : Edge => o.target = e.target) o1 o2 e hein rfl
    (fun h => h12 ⟨h1.2.trans h2.2.symm, h.1.trans h.2.symm⟩)
  refine ⟨?_, ?_, p1, fun y hy hs ht => p3 y ?_ ht⟩
  · rcases p2 with h | h
    · rw [h]; exact h1.1
    · rw [h]; exact h2.1
  · rcases p2 with h | h
    · rw [h]; exact h1.2
    · rw [h]; exact h2.2
  · have := (hmem y).mpr ⟨hy, hs⟩
    simpa using this

/-- The edge chosen as `u2v2` by `removeWeakEdges`: the only edge to the target
of `e` that does not come from the source of `e`. -/
theorem other_in_edge (g : Graph)
    (hnp : g.edges.Pairwise (fun a b => ¬ (a.source = b.source ∧ a.target = b.target)))
    (e i1 i2 : Edge) (he : e ∈ g.edges) (hi : in_edges e.target g = [i1, i2]) :
    (if i1.source = e.source then i2 else i1) ∈ g.edges ∧
    (if i1.source = e.source then i2 else i1).target = e.target ∧
    (if i1.source = e.source then i2 else i1).source ≠ e.source ∧
    ∀ y ∈ g.edges, y.target = e.target → y.source ≠ e.source →
      y = (if i1.source = e.source then i2 else i1) := by
  have hmem : ∀ y, y ∈ [i1, i2] ↔ (y ∈ g.edges ∧ y.target = e.target) := by
    intro y; rw [← hi]; simp [in_edges, List.mem_filter]
  have hpw : [i1, i2].Pairwise (fun a b => ¬ (a.source = b.source ∧ a.target = b.target)) := by
    rw [← hi]; exact List.Pairwise.filter _ hnp
  have h1 := (hmem i1).mp (by simp)
  have h2 := (hmem i2).mp (by simp)
  have h12 : ¬ (i1.source = i2.source ∧ i1.target = i2.target) := by
    simpa using hpw
  have hein : e = i1 ∨ e = i2 := by
    have := (hmem e).mpr ⟨he, rfl⟩
    simpa using this
  obtain ⟨p1, p2, p3⟩ := pick_other (fun o : Edge => o.source = e.source) i1 i2 e hein rfl
    (fun h => h12 ⟨h.1.trans h.2.symm, h1.2.trans h2.2.symm⟩)
  refine ⟨?_, ?_, p1, fun y hy ht hs => p3 y ?_ hs⟩
  · rcases p2 with h | h
    · rw [h]; exact h1.1
    · rw [h]; exact h2.1
  · rcases p2 with h | h
    · rw [h]; exact h1.2
    · rw [h]; exact h2.2
  · have := (hmem y).mpr ⟨hy, ht⟩
    simpa using this

/-- The test made by `removeWeakEdges` on an edge, in terms of the graph. -/
theorem isWeakEdge_iff (g : Graph)
    (hnp : g.edges.Pairwise (fun a b => ¬ (a.source = b.source ∧ a.target = b.target)))
    (e : Edge) (he : e ∈ g.edges) :
    isWeakEdge g e = true ↔
      (out_degree e.source g = 2 ∧ in_degree e.target g = 2 ∧
        ∃ e1 ∈ g.edges, ∃ e2 ∈ g.edges,
          e1.source = e.source ∧ e1.target ≠ e.target ∧
          e2.target = e.target ∧ e2.source ≠ e.source ∧
          in_degree e1.target g = 1 ∧ out_degree e2.source g = 1 ∧
          e.ep.numPairs < e1.ep.numPairs ∧ e.ep.numPairs < e2.ep.numPairs) := by
  by_cases hdeg : out_degree e.source g = 2 ∧ in_degree e.target g = 2
  · obtain ⟨o1, o2, ho⟩ := List.length_eq_two.mp hdeg.1
    obtain ⟨i1, i2, hi⟩ := List.length_eq_two.mp hdeg.2
    obtain ⟨a1, a2, a3, a4⟩ := other_out_edge g hnp e o1 o2 he ho
    obtain ⟨b1, b2, b3, b4⟩ := other_in_edge g hnp e i1 i2 he hi
    have hcond : ¬ (out_degree e.source g ≠ 2 ∨ in_degree e.target g ≠ 2) := by
      rw [hdeg.1, hdeg.2]; simp
    have hval : isWeakEdge g e = true ↔
        (in_degree (if o1.target = e.target then o2 else o1).target g = 1 ∧
          out_degree (if i1.source = e.source then i2 else i1).source g = 1 ∧
          e.ep.numPairs < (if o1.target = e.target then o2 else o1).ep.numPairs ∧
          e.ep.numPairs < (if i1.source = e.source then i2 else i1).ep.numPairs) := by
      unfold isWeakEdge
      simp only [if_neg hcond, ho, hi]
      by_cases c1 : in_degree (if o1.target = e.target then o2 else o1).target g = 1
      · by_cases c2 : out_degree (if i1.source = e.source then i2 else i1).source g = 1
        · simp [c1, c2]
        · simp [c1, c2]
      · simp [c1]
    rw [hval]
    constructor
    · intro h
      exact ⟨hdeg.1, hdeg.2, _, a1, _, b1, a2, a3, b2, b3, h.1, h.2.1, h.2.2.1, h.2.2.2⟩
    · rintro ⟨_, _, e1, he1, e2, he2, c1, c2, c3, c4, c5, c6, c7, c8⟩
      have x1 := a4 e1 he1 c1 c2
      have x2 := b4 e2 he2 c3 c4
      rw [← x1, ← x2]
      exact ⟨c5, c6, c7, c8⟩
  · have hcond : out_degree e.source g ≠ 2 ∨ in_degree e.target g ≠ 2 := by
      by_contra h
      apply hdeg
      constructor
      · by_contra h1; exact h (Or.inl h1)
      · by_contra h1; exact h (Or.inr h1)
    have : isWeakEdge g e = false := by
      unfold isWeakEdge
      simp only [if_pos hcond]
    rw [this]
    constructor
    · intro h; exact absurd h (by simp)
    · intro h; exact absurd ⟨h.1, h.2.1⟩ hdeg

/-- C10: in a graph without parallel edges, `removeWeakEdges` removes the edge
(u1,v2) exactly when, in the graph as it is before any removal, u1 has
out-degree 2, v2 has in-degree 2, the other successor v1 of u1 has in-degree 1,
the other predecessor u2 of v2 has out-degree 1 and numPairs(u1,v2) is below
both numPairs(u1,v1) and numPairs(u2,v2).  All other edges are kept and no edge
is added. -/
theorem removeWeakEdges_spec (g : Graph)
    (hnp : g.edges.Pairwise (fun a b => ¬ (a.source = b.source ∧ a.target = b.target))) :
    (∀ e ∈ (removeWeakEdges g).edges, e ∈ g.edges) ∧
    (∀ e ∈ g.edges,
      (e ∉ (removeWeakEdges g).edges ↔
        (out_degree e.source g = 2 ∧ in_degree e.target g = 2 ∧
          ∃ e1 ∈ g.edges, ∃ e2 ∈ g.edges,
            e1.source = e.source ∧ e1.target ≠ e.target ∧
            e2.target = e.target ∧ e2.source ≠ e.source ∧
            in_degree e1.target g = 1 ∧ out_degree e2.source g = 1 ∧
            e.ep.numPairs < e1.ep.numPairs ∧ e.ep.numPairs < e2.ep.numPairs))) := by
  have hmem : ∀ e, e ∈ (removeWeakEdges g).edges ↔
      (e ∈ g.edges ∧ ¬ ∃ d, (d ∈ g.edges ∧ isWeakEdge g d = true) ∧
        d.source = e.source ∧ d.target = e.target) := by
    intro e
    simp [removeWeakEdges, remove_edges, List.mem_filter]
  refine ⟨fun e he => ((hmem e).mp he).1, fun e he => ?_⟩
  rw [← isWeakEdge_iff g hnp e he, hmem]
  constructor
  · intro h
    by_contra hw
    apply h
    refine ⟨he, ?_⟩
    rintro ⟨d, ⟨hd1, hd2⟩, hd3, hd4⟩
    have := edge_unique g hnp d e hd1 he hd3 hd4
    rw [this] at hd2
    exact hw hd2
  · intro hw h
    exact h.2 ⟨e, ⟨he, hw⟩, rfl, rfl⟩

/-- Witness for C10, the scenario of the spec: u1->v1 with n=10, u1->v2 with
n=2 and u2->v2 with n=8; exactly the edge u1->v2 is removed. -/
theorem removeWeakEdges_spec_witness :
    (removeWeakEdges weakEdgeExample).edges
      = [⟨⟨1, true⟩, ⟨3, true⟩, ⟨100, 10, 5⟩⟩, ⟨⟨2, true⟩, ⟨4, true⟩, ⟨100, 8, 5⟩⟩] ∧
    (∀ e ∈ (removeWeakEdges weakEdgeExample).edges, e ∈ weakEdgeExample.edges) :=
  ⟨by decide, (removeWeakEdges_spec weakEdgeExample (by decide)).1⟩

end ScaffoldWeakEdges

section CanonicalOrientation
open LightweightKmer RollingBloomDBGVertex

/-- C1 (evaluation at the failing input): for k = 3 the loop of `isCanonical`
compares only position 0 with position 2 and never looks at the middle base.
ATT is reported canonical and `canonicalize` leaves it as it is, although its
reverse complement AAT is lexicographically smaller. -/
theorem isCanonical_ignores_middle_base :
    isCanonical 3 ['A', 'T', 'T'] = true ∧
    canonicalize 3 ['A', 'T', 'T'] = ['A', 'T', 'T'] ∧
    reverseComplement 3 ['A', 'T', 'T'] = ['A', 'A', 'T'] ∧
    (['A', 'A', 'T'] : List Char) < ['A', 'T', 'T'] := by
  decide

/-- C2 (evaluation at the failing input): for k = 3 and no mask, ATT and its
reverse complement AAT are both reported canonical by `isCanonical`, so
`compare` reads both forwards: ATT compared with itself gives 0, but ATT
compared with its reverse complement gives 1 and the reverse complement
compared with ATT gives -1. -/
theorem compare_differs_on_reverse_complement :
    reverseComplement 3 ['A', 'T', 'T'] = ['A', 'A', 'T'] ∧
    compare 3 [] ['A', 'T', 'T'] ['A', 'T', 'T'] = some 0 ∧
    compare 3 [] ['A', 'T', 'T'] (reverseComplement 3 ['A', 'T', 'T']) = some 1 ∧
    compare 3 [] (reverseComplement 3 ['A', 'T', 'T']) ['A', 'T', 'T'] = some (-1) := by
  decide

end CanonicalOrientation

section ScaffoldCycles
open Graph Scaffold

theorem edge_isSome_iff (u v : ContigNode) (g : Graph) :
    (edge u v g).isSome = true ↔ ∃ d ∈ g.edges, d.source = u ∧ d.target = v := by
  simp [edge, List.find?_isSome]

/-- What `remove_edges` leaves when the listed edges are those of the graph
that satisfy a test which only looks at the end points. -/
theorem remove_edges_filter_mem_of_endpoints (g : Graph) (P : Edge → Bool)
    (hP : ∀ a b : Edge, a.source = b.source → a.target = b.target → P a = P b) (e : Edge) :
    e ∈ (remove_edges g (g.edges.filter P)).edges ↔ (e ∈ g.edges ∧ P e = false) := by
  simp only [remove_edges, List.mem_filter, Bool.not_eq_true', List.any_eq_false,
    decide_eq_true_eq, and_imp]
  constructor
  · rintro ⟨he, h⟩
    refine ⟨he, ?_⟩
    by_contra hc
    have hc2 : P e = true := by simpa using hc
    exact h e he hc2 ⟨rfl, rfl⟩
  · rintro ⟨he, h⟩
    refine ⟨he, fun d _ hd hsame => ?_⟩
    rw [hP d e hsame.1 hsame.2, h] at hd
    exact absurd hd (by simp)

/-- What `remove_edges` leaves when the listed edges are those of the graph
that satisfy a test, in a graph without parallel edges. -/
theorem remove_edges_filter_mem (g : Graph) (hnp : noParallelEdges g) (P : Edge → Bool)
    (e : Edge) :
    e ∈ (remove_edges g (g.edges.filter P)).edges ↔ (e ∈ g.edges ∧ P e = false) := by
  simp only [remove_edges, List.mem_filter, Bool.not_eq_true', List.any_eq_false,
    decide_eq_true_eq, and_imp]
  constructor
  · rintro ⟨he, h⟩
    refine ⟨he, ?_⟩
    by_contra hc
    have hc2 : P e = true := by simpa using hc
    exact h e he hc2 ⟨rfl, rfl⟩
  · rintro ⟨he, h⟩
    refine ⟨he, fun d hd hPd hsame => ?_⟩
    have := edge_unique g hnp d e hd he hsame.1 hsame.2
    rw [this, h] at hPd
    exact absurd hPd (by simp)

/-- C11: after `removeCycles` an edge (u,v) is present exactly when it was
present before and no edge (v,u) was present before; so the result holds no
pair of edges (u,v), (v,u), no self-loop, and every edge that is not on a
2-cycle is kept. -/
theorem removeCycles_spec (g : Graph) :
    (∀ e, e ∈ (removeCycles g).edges ↔
      (e ∈ g.edges ∧ ¬ ∃ d ∈ g.edges, d.source = e.target ∧ d.target = e.source)) ∧
    (∀ a ∈ (removeCycles g).edges, ∀ b ∈ (removeCycles g).edges,
      ¬ (b.source = a.target ∧ b.target = a.source)) ∧
    (∀ e ∈ (removeCycles g).edges, e.source ≠ e.target) := by
  have hmem : ∀ e, e ∈ (removeCycles g).edges ↔
      (e ∈ g.edges ∧ ¬ ∃ d ∈ g.edges, d.source = e.target ∧ d.target = e.source) := by
    intro e
    have hP : ∀ a b : Edge, a.source = b.source → a.target = b.target →
        isCycle g a = isCycle g b := by
      intro a b h1 h2; simp only [isCycle, h1, h2]
    have := remove_edges_filter_mem_of_endpoints g (isCycle g) hP e
    simp only [removeCycles]
    rw [this]
    have hc : isCycle g e = false ↔
        ¬ ∃ d ∈ g.edges, d.source = e.target ∧ d.target = e.source := by
      rw [← edge_isSome_iff]
      simp [isCycle]
    rw [hc]
  refine ⟨hmem, ?_, ?_⟩
  · intro a ha b hb hab
    exact ((hmem a).mp ha).2 ⟨b, ((hmem b).mp hb).1, hab⟩
  · intro e he hloop
    exact ((hmem e).mp he).2 ⟨e, ((hmem e).mp he).1, hloop, hloop.symm⟩

/-- C14: in a graph without parallel edges, the step of `scaffold` for long
edges removes, when maxGap is not negative, exactly the edges whose distance is
above maxGap (an edge with distance at most maxGap is kept); when maxGap is
negative `removeLongEdges` is not applied and the graph is unchanged. -/
theorem removeLongEdgesStep_spec (g : Graph) (maxGap : Int) (hnp : noParallelEdges g) :
    (0 ≤ maxGap → ∀ e, e ∈ (removeLongEdgesStep maxGap g).edges ↔
      (e ∈ g.edges ∧ e.ep.distance ≤ maxGap)) ∧
    (maxGap < 0 → removeLongEdgesStep maxGap g = g) := by
  constructor
  · intro h e
    have hge : maxGap ≥ 0 := h
    simp only [removeLongEdgesStep, if_pos hge, removeLongEdges]
    rw [remove_edges_filter_mem g hnp]
    simp
  · intro h
    have hge : ¬ (maxGap ≥ 0) := by omega
    simp only [removeLongEdgesStep, if_neg hge]

/-- Witness for C14: with maxGap = 500 the edges of distance 900 are removed
and those of distance 100 are kept. -/
theorem removeLongEdgesStep_spec_witness :
    (removeLongEdgesStep 500 longEdgeExample).edges
      = [⟨⟨1, true⟩, ⟨2, true⟩, ⟨100, 5, 3⟩⟩, ⟨⟨2, false⟩, ⟨1, false⟩, ⟨100, 5, 3⟩⟩] ∧
    (∀ e, e ∈ (removeLongEdgesStep 500 longEdgeExample).edges ↔
      (e ∈ longEdgeExample.edges ∧ e.ep.distance ≤ 500)) :=
  ⟨by decide,
   (removeLongEdgesStep_spec longEdgeExample 500 (by unfold noParallelEdges; decide)).1
     (by decide)⟩

end ScaffoldCycles

section ScaffoldSymmetry
open Graph Scaffold

theorem complement_injective_node (u v : ContigNode) (h : u.complement = v.complement) :
    u = v := by
  have := congrArg ContigNode.complement h
  rwa [complement_complement_node, complement_complement_node] at this

theorem complement_complement_edge (e : Edge) : e.complement.complement = e := by
  cases e with
  | mk s t ep => simp [Edge.complement, complement_complement_node]

theorem nodup_of_noParallelEdges (g : Graph) (hnp : noParallelEdges g) : g.edges.Nodup := by
  unfold noParallelEdges at hnp
  exact hnp.imp (fun h hab => h ⟨by rw [hab], by rw [hab]⟩)

theorem complement_mem_iff (g : Graph) (hsym : isSymmetric g) (e : Edge) :
    e.complement ∈ g.edges ↔ e ∈ g.edges := by
  constructor
  · intro h
    have := hsym.1 _ h
    rwa [complement_complement_edge] at this
  · exact hsym.1 e

/-- In a symmetric graph without parallel edges the edges that leave the
complement of `u` are as many as the edges that enter `u`. -/
theorem out_degree_complement (g : Graph) (hsym : isSymmetric g) (hnp : noParallelEdges g)
    (u : ContigNode) : out_degree u.complement g = in_degree u g := by
  have hnd := nodup_of_noParallelEdges g hnp
  have hinj : Function.Injective Edge.complement := by
    intro a b hab
    have := congrArg Edge.complement hab
    rwa [complement_complement_edge, complement_complement_edge] at this
  have h1 : (out_edges u.complement g).Nodup := hnd.filter _
  have h2 : ((in_edges u g).map Edge.complement).Nodup := (hnd.filter _).map hinj
  have hperm : (out_edges u.complement g).Perm ((in_edges u g).map Edge.complement) := by
    apply (List.perm_ext_iff_of_nodup h1 h2).mpr
    intro e
    simp only [out_edges, in_edges, List.mem_filter, List.mem_map, decide_eq_true_eq]
    constructor
    · rintro ⟨he, hs⟩
      refine ⟨e.complement, ⟨hsym.1 e he, ?_⟩, complement_complement_edge e⟩
      show e.source.complement = u
      rw [hs, complement_complement_node]
    · rintro ⟨d, ⟨hd, ht⟩, hde⟩
      rw [← hde]
      refine ⟨hsym.1 d hd, ?_⟩
      show d.target.complement = u.complement
      rw [ht]
  unfold out_degree in_degree
  rw [hperm.length_eq, List.length_map]

theorem in_degree_complement (g : Graph) (hsym : isSymmetric g) (hnp : noParallelEdges g)
    (u : ContigNode) : in_degree u.complement g = out_degree u g := by
  have := out_degree_complement g hsym hnp u.complement
  rw [complement_complement_node] at this
  exact this.symm

/-- The weak-edge test holds for the complementary edge when it holds for the
edge. -/
theorem isWeakEdge_complement_of (g : Graph) (hsym : isSymmetric g)
    (hnp : noParallelEdges g) (e : Edge) (he : e ∈ g.edges) (hw : isWeakEdge g e = true) :
    isWeakEdge g e.complement = true := by
  rw [isWeakEdge_iff g hnp e he] at hw
  rw [isWeakEdge_iff g hnp e.complement (hsym.1 e he)]
  obtain ⟨h1, h2, e1, he1, e2, he2, c1, c2, c3, c4, c5, c6, c7, c8⟩ := hw
  refine ⟨?_, ?_, e2.complement, hsym.1 e2 he2, e1.complement, hsym.1 e1 he1, ?_, ?_, ?_, ?_,
    ?_, ?_, c8, c7⟩
  · show out_degree e.target.complement g = 2
    rw [out_degree_complement g hsym hnp]; exact h2
  · show in_degree e.source.complement g = 2
    rw [in_degree_complement g hsym hnp]; exact h1
  · show e2.target.complement = e.target.complement
    rw [c3]
  · show e2.source.complement ≠ e.source.complement
    exact fun h => c4 (complement_injective_node _ _ h)
  · show e1.source.complement = e.source.complement
    rw [c1]
  · show e1.target.complement ≠ e.target.complement
    exact fun h => c2 (complement_injective_node _ _ h)
  · show in_degree e2.source.complement g = 1
    rw [in_degree_complement g hsym hnp]; exact c6
  · show out_degree e1.target.complement g = 1
    rw [out_degree_complement g hsym hnp]; exact c5

theorem isWeakEdge_complement (g : Graph) (hsym : isSymmetric g)
    (hnp : noParallelEdges g) (e : Edge) (he : e ∈ g.edges) :
    isWeakEdge g e.complement = isWeakEdge g e := by
  by_cases h : isWeakEdge g e = true
  · rw [h]; exact isWeakEdge_complement_of g hsym hnp e he h
  · by_cases h2 : isWeakEdge g e.complement = true
    · have := isWeakEdge_complement_of g hsym hnp e.complement (hsym.1 e he) h2
      rw [complement_complement_edge] at this
      exact absurd this h
    · have a : isWeakEdge g e = false := by simpa using h
      have b : isWeakEdge g e.complement = false := by simpa using h2
      rw [a, b]

theorem isCycle_complement (g : Graph) (hsym : isSymmetric g) (e : Edge) :
    isCycle g e.complement = isCycle g e := by
  have key : ∀ x : Edge, isCycle g x = true → isCycle g x.complement = true := by
    intro x hx
    simp only [isCycle] at hx ⊢
    rw [edge_isSome_iff] at hx ⊢
    obtain ⟨d, hd, h1, h2⟩ := hx
    refine ⟨d.complement, hsym.1 d hd, ?_, ?_⟩
    · show d.target.complement = x.source.complement
      rw [h2]
    · show d.source.complement = x.target.complement
      rw [h1]
  by_cases h : isCycle g e = true
  · rw [h]; exact key e h
  · by_cases h2 : isCycle g e.complement = true
    · have := key e.complement h2
      rw [complement_complement_edge] at this
      exact absurd this h
    · have a : isCycle g e = false := by simpa using h
      have b : isCycle g e.complement = false := by simpa using h2
      rw [a, b]

theorem InvalidEdge_complement (g : Graph) (hsym : isSymmetric g) (e : Edge) :
    InvalidEdge g e.complement = InvalidEdge g e := by
  simp only [InvalidEdge, Edge.complement, hsym.2]
  by_cases h : toInt32 (e.ep.distance + toInt32 (g.length e.source : Int)) ≤ 0 ∨
      toInt32 (e.ep.distance + toInt32 (g.length e.target : Int)) ≤ 0
  · have h2 : toInt32 (e.ep.distance + toInt32 (g.length e.target : Int)) ≤ 0 ∨
        toInt32 (e.ep.distance + toInt32 (g.length e.source : Int)) ≤ 0 := h.symm
    simp [h, h2]
  · have h2 : ¬ (toInt32 (e.ep.distance + toInt32 (g.length e.target : Int)) ≤ 0 ∨
        toInt32 (e.ep.distance + toInt32 (g.length e.source : Int)) ≤ 0) := fun x => h x.symm
    simp [h, h2]

/-- Removing the edges selected by a test that is closed under taking the
complementary edge keeps a symmetric graph symmetric. -/
theorem isSymmetric_of_closed (g g1 : Graph) (hsym : isSymmetric g) (P : Edge → Bool)
    (hP : ∀ e ∈ g.edges, P e.complement = P e)
    (hlen : g1.length = g.length)
    (hmem : ∀ e, e ∈ g1.edges ↔ (e ∈ g.edges ∧ P e = false)) : isSymmetric g1 := by
  constructor
  · intro e he
    obtain ⟨h1, h2⟩ := (hmem e).mp he
    exact (hmem _).mpr ⟨hsym.1 e h1, by rw [hP e h1]; exact h2⟩
  · intro u; rw [hlen]; exact hsym.2 u

theorem isSymmetric_filterVertex (s : Nat) (g : Graph) (u : ContigNode)
    (hsym : isSymmetric g) : isSymmetric (filterVertex s g u) := by
  have hclear : isSymmetric (clear_vertex u g) := by
    constructor
    · intro e he
      rw [clear_vertex_edges] at he ⊢
      obtain ⟨h1, h2, h3, h4, h5⟩ := he
      refine ⟨hsym.1 e h1, ?_, ?_, ?_, ?_⟩
      · show e.target.complement ≠ u
        intro h; apply h3
        rw [← h, complement_complement_node]
      · show e.source.complement ≠ u.complement
        exact fun h => h2 (complement_injective_node _ _ h)
      · show e.target.complement ≠ u.complement
        exact fun h => h5 (complement_injective_node _ _ h)
      · show e.source.complement ≠ u
        intro h; apply h4
        rw [← h, complement_complement_node]
    · exact hsym.2
  unfold filterVertex
  by_cases hshort : g.length u < s
  · simp only [if_pos hshort]
    split
    · exact ⟨hclear.1, hclear.2⟩
    · exact hclear
  · simp only [if_neg hshort]
    split
    · exact ⟨hsym.1, hsym.2⟩
    · exact hsym

theorem isSymmetric_filterVertex_foldl (s : Nat) : ∀ (vs : List ContigNode) (g : Graph),
    isSymmetric g → isSymmetric (vs.foldl (filterVertex s) g) := by
  intro vs
  induction vs with
  | nil => intro g h; exact h
  | cons v vs ih =>
    intro g h
    simp only [List.foldl_cons]
    exact ih _ (isSymmetric_filterVertex s g v h)

/-- C17: in a symmetric graph without parallel edges, the edges selected for
removal by `PoorSupport` (in `filterGraph`), `InvalidEdge`, `removeCycles`,
`removeWeakEdges` and `removeLongEdges` are closed under taking the
complementary edge, and the graph after each of these passes (and after the
whole of `filterGraph`) is again symmetric. -/
theorem symmetry_preserved (g : Graph) (n s : Nat) (maxGap : Int)
    (hsym : isSymmetric g) (hnp : noParallelEdges g) :
    ((∀ e ∈ g.edges, PoorSupport n e.complement = PoorSupport n e) ∧
      isSymmetric (remove_edge_if (PoorSupport n) g) ∧ isSymmetric (filterGraph g n s)) ∧
    ((∀ e ∈ g.edges, InvalidEdge g e.complement = InvalidEdge g e) ∧
      isSymmetric (remove_edge_if (InvalidEdge g) g)) ∧
    ((∀ e ∈ g.edges, isCycle g e.complement = isCycle g e) ∧
      isSymmetric (removeCycles g)) ∧
    ((∀ e ∈ g.edges, isWeakEdge g e.complement = isWeakEdge g e) ∧
      isSymmetric (removeWeakEdges g)) ∧
    ((∀ e ∈ g.edges, decide (e.complement.ep.distance > maxGap)
        = decide (e.ep.distance > maxGap)) ∧
      isSymmetric (removeLongEdges maxGap g)) := by
  have hif : ∀ (g0 : Graph) (P : Edge → Bool) (e : Edge),
      e ∈ (remove_edge_if P g0).edges ↔ (e ∈ g0.edges ∧ P e = false) := by
    intro g0 P e
    simp [remove_edge_if, List.mem_filter]
  refine ⟨⟨fun e _ => rfl, ?_, ?_⟩, ⟨fun e _ => InvalidEdge_complement g hsym e, ?_⟩,
    ⟨fun e _ => isCycle_complement g hsym e, ?_⟩,
    ⟨fun e he => isWeakEdge_complement g hsym hnp e he, ?_⟩, ⟨fun e _ => rfl, ?_⟩⟩
  · exact isSymmetric_of_closed g _ hsym (PoorSupport n) (fun e _ => rfl) rfl
      (hif g (PoorSupport n))
  · have h1 := isSymmetric_filterVertex_foldl s g.vertices g hsym
    exact isSymmetric_of_closed _ _ h1 (PoorSupport n) (fun e _ => rfl) rfl
      (hif _ (PoorSupport n))
  · exact isSymmetric_of_closed g _ hsym (InvalidEdge g)
      (fun e _ => InvalidEdge_complement g hsym e) rfl (hif g (InvalidEdge g))
  · exact isSymmetric_of_closed g _ hsym (isCycle g)
      (fun e _ => isCycle_complement g hsym e) rfl
      (fun e => remove_edges_filter_mem g hnp (isCycle g) e)
  · exact isSymmetric_of_closed g _ hsym (isWeakEdge g)
      (fun e he => isWeakEdge_complement g hsym hnp e he) rfl
      (fun e => remove_edges_filter_mem g hnp (isWeakEdge g) e)
  · exact isSymmetric_of_closed g _ hsym (fun e => decide (e.ep.distance > maxGap))
      (fun e _ => rfl) rfl
      (fun e => remove_edges_filter_mem g hnp _ e)

/-- Witness for C17 on a symmetric graph with two pairs of complementary
edges. -/
theorem symmetry_preserved_witness :
    isSymmetric (removeLongEdges 500 longEdgeExample) ∧
    isSymmetric (removeWeakEdges longEdgeExample) ∧
    isSymmetric (removeCycles longEdgeExample) :=
  ⟨(symmetry_preserved longEdgeExample 3 1000 500 ⟨by decide, fun _ => rfl⟩
      (by unfold noParallelEdges; decide)).2.2.2.2.2,
   (symmetry_preserved longEdgeExample 3 1000 500 ⟨by decide, fun _ => rfl⟩
      (by unfold noParallelEdges; decide)).2.2.2.1.2,
   (symmetry_preserved longEdgeExample 3 1000 500 ⟨by decide, fun _ => rfl⟩
      (by unfold noParallelEdges; decide)).2.2.1.2⟩

end ScaffoldSymmetry

section ScaffoldForks
open Graph Scaffold

theorem edge_eq_some (u v : ContigNode) (g : Graph) (e : Edge) (h : edge u v g = some e) :
    e ∈ g.edges ∧ e.source = u ∧ e.target = v := by
  unfold edge at h
  have h1 := List.mem_of_find?_eq_some h
  have h2 := List.find?_some h
  simp only [decide_eq_true_eq] at h2
  exact ⟨h1, h2⟩

theorem edge_eq_none (u v : ContigNode) (g : Graph) (h : edge u v g = none) :
    ¬ ∃ d ∈ g.edges, d.source = u ∧ d.target = v := by
  unfold edge at h
  rw [List.find?_eq_none] at h
  rintro ⟨d, hd, h1⟩
  exact h d hd (by simpa using h1)

theorem add_edge_mem (u v : ContigNode) (ep : DistanceEst) (g : Graph) (x : Edge)
    (hx : x ∈ (add_edge u v ep g).edges) :
    x ∈ g.edges ∨ x = { source := u, target := v, ep := ep } ∨
      x = { source := v.complement, target := u.complement, ep := ep } := by
  unfold add_edge at hx
  by_cases h : u = v.complement
  · simp only [if_pos h, List.mem_append, List.mem_singleton] at hx
    rcases hx with hx | hx
    · exact Or.inl hx
    · exact Or.inr (Or.inl hx)
  · simp only [if_neg h, List.mem_append, List.mem_cons, List.mem_singleton,
      List.not_mem_nil, or_false] at hx
    exact hx

theorem add_edge_self_mem (u v : ContigNode) (ep : DistanceEst) (g : Graph) :
    ({ source := u, target := v, ep := ep } : Edge) ∈ (add_edge u v ep g).edges := by
  unfold add_edge
  by_cases h : u = v.complement
  · simp [if_pos h]
  · simp [if_neg h]

theorem add_edge_mono (u v : ContigNode) (ep : DistanceEst) (g : Graph) (x : Edge)
    (hx : x ∈ g.edges) : x ∈ (add_edge u v ep g).edges := by
  unfold add_edge
  exact List.mem_append_left _ hx

theorem extendsBy_refl (g0 g : Graph) : extendsBy g0 g g :=
  ⟨fun _ h => h, fun _ h => Or.inl h⟩

theorem extendsBy_trans (g0 g g1 g2 : Graph) (h1 : extendsBy g0 g g1)
    (h2 : extendsBy g0 g1 g2) : extendsBy g0 g g2 := by
  refine ⟨fun x hx => h2.1 x (h1.1 x hx), fun x hx => ?_⟩
  rcases h2.2 x hx with h | h
  · exact h1.2 x h
  · exact Or.inr h

/-- The complementary edge of a one-way edge of a symmetric graph is a one-way
edge of that graph. -/
theorem oneWayIn_complement (g0 : Graph) (hsym0 : isSymmetric g0) (e : Edge)
    (h : oneWayIn g0 e) : oneWayIn g0 e.complement := by
  refine ⟨hsym0.1 e h.1, ?_⟩
  rintro ⟨d, hd, h1, h2⟩
  apply h.2
  refine ⟨d.complement, hsym0.1 d hd, ?_, ?_⟩
  · show d.target.complement = e.target
    rw [h2]; exact complement_complement_node _
  · show d.source.complement = e.source
    rw [h1]; exact complement_complement_node _

/-- The edges found by the two look-ups in `g0` when exactly one exists. -/
theorem add_found_extends (g0 g : Graph) (hsym0 : isSymmetric g0) (e : Edge)
    (hone : oneWayIn g0 e) : extendsBy g0 g (add_edge e.source e.target e.ep g) := by
  refine ⟨fun x hx => add_edge_mono _ _ _ _ x hx, fun x hx => ?_⟩
  rcases add_edge_mem _ _ _ _ x hx with h | h | h
  · exact Or.inl h
  · right
    have : x = e := by rw [h]
    rw [this]; exact hone
  · right
    have : x = e.complement := by rw [h]; rfl
    rw [this]; exact oneWayIn_complement g0 hsym0 e hone

theorem resolvePair_cases (g0 g : Graph) (v1 v2 : ContigNode) :
    resolvePair g0 g v1 v2 = g ∨
    ∃ e, oneWayIn g0 e ∧
      ((e.source = v1 ∧ e.target = v2) ∨ (e.source = v2 ∧ e.target = v1)) ∧
      resolvePair g0 g v1 v2 = add_edge e.source e.target e.ep g := by
  unfold resolvePair
  by_cases hc : (edge v1 v2 g).isSome = true ∨ (edge v2 v1 g).isSome = true
  · left; rw [if_pos hc]
  · rw [if_neg hc]
    cases h12 : edge v1 v2 g0 with
    | none =>
      cases h21 : edge v2 v1 g0 with
      | none => left; rfl
      | some e =>
        right
        obtain ⟨a1, a2, a3⟩ := edge_eq_some _ _ _ _ h21
        refine ⟨e, ⟨a1, ?_⟩, Or.inr ⟨a2, a3⟩, rfl⟩
        rw [a2, a3]
        exact edge_eq_none _ _ _ h12
    | some e =>
      cases h21 : edge v2 v1 g0 with
      | none =>
        right
        obtain ⟨a1, a2, a3⟩ := edge_eq_some _ _ _ _ h12
        refine ⟨e, ⟨a1, ?_⟩, Or.inl ⟨a2, a3⟩, rfl⟩
        rw [a2, a3]
        exact edge_eq_none _ _ _ h21
      | some e2 => left; rfl

theorem resolvePair_extends (g0 g : Graph) (hsym0 : isSymmetric g0) (v1 v2 : ContigNode) :
    extendsBy g0 g (resolvePair g0 g v1 v2) := by
  rcases resolvePair_cases g0 g v1 v2 with h | ⟨e, h1, _, h3⟩
  · rw [h]; exact extendsBy_refl g0 g
  · rw [h3]; exact add_found_extends g0 g hsym0 e h1

theorem resolveInner_extends (g0 : Graph) (hsym0 : isSymmetric g0) (v1 : ContigNode) :
    ∀ (vs : List ContigNode) (g : Graph), extendsBy g0 g (resolveInner g0 v1 vs g) := by
  intro vs
  induction vs with
  | nil => intro g; exact extendsBy_refl g0 g
  | cons v vs ih =>
    intro g
    exact extendsBy_trans g0 g _ _ (resolvePair_extends g0 g hsym0 v1 v) (ih _)

theorem resolveOuter_extends (g0 : Graph) (hsym0 : isSymmetric g0) :
    ∀ (vs : List ContigNode) (g : Graph), extendsBy g0 g (resolveOuter g0 vs g) := by
  intro vs
  induction vs with
  | nil => intro g; exact extendsBy_refl g0 g
  | cons v vs ih =>
    intro g
    exact extendsBy_trans g0 g _ _ (resolveInner_extends g0 hsym0 v vs g) (ih _)

theorem resolveVertex_extends (g0 g : Graph) (hsym0 : isSymmetric g0) (u : ContigNode) :
    extendsBy g0 g (resolveVertex g0 g u) := by
  unfold resolveVertex
  split
  · exact extendsBy_refl g0 g
  · exact resolveOuter_extends g0 hsym0 _ g

theorem resolveVertex_foldl_extends (g0 : Graph) (hsym0 : isSymmetric g0) :
    ∀ (us : List ContigNode) (g : Graph),
      extendsBy g0 g (us.foldl (resolveVertex g0) g) := by
  intro us
  induction us with
  | nil => intro g; exact extendsBy_refl g0 g
  | cons u us ih =>
    intro g
    exact extendsBy_trans g0 g _ _ (resolveVertex_extends g0 g hsym0 u) (ih _)

/-- The pair step of `resolveForks` on two successors that are not joined in
the input graph: the one-way edge of `g0` between them is in the graph
afterwards. -/
theorem resolvePair_hits (g0 g gc : Graph) (hnp0 : noParallelEdges g0) (a b : ContigNode)
    (e : Edge) (hext : extendsBy g0 g gc)
    (hno : ¬ ∃ d ∈ g.edges, (d.source = a ∧ d.target = b) ∨ (d.source = b ∧ d.target = a))
    (he : oneWayIn g0 e)
    (hends : (e.source = a ∧ e.target = b) ∨ (e.source = b ∧ e.target = a)) :
    e ∈ (resolvePair g0 gc a b).edges := by
  have heta : ({ source := e.source, target := e.target, ep := e.ep } : Edge) = e := by
    cases e; rfl
  -- an edge of the current graph between a and b is the edge e
  have hpresent : ∀ d ∈ gc.edges,
      ((d.source = a ∧ d.target = b) ∨ (d.source = b ∧ d.target = a)) → e ∈ gc.edges := by
    intro d hd hdab
    rcases hext.2 d hd with h | h
    · exact absurd ⟨d, h, hdab⟩ hno
    · have hsame : d.source = e.source ∧ d.target = e.target := by
        rcases hdab with ⟨d1, d2⟩ | ⟨d1, d2⟩
        · rcases hends with ⟨e1, e2⟩ | ⟨e1, e2⟩
          · exact ⟨d1.trans e1.symm, d2.trans e2.symm⟩
          · exact absurd ⟨d, h.1, d1.trans e2.symm, d2.trans e1.symm⟩ he.2
        · rcases hends with ⟨e1, e2⟩ | ⟨e1, e2⟩
          · exact absurd ⟨d, h.1, d1.trans e2.symm, d2.trans e1.symm⟩ he.2
          · exact ⟨d1.trans e1.symm, d2.trans e2.symm⟩
      have := edge_unique g0 hnp0 d e h.1 he.1 hsame.1 hsame.2
      rw [← this]; exact hd
  unfold resolvePair
  by_cases hc : (edge a b gc).isSome = true ∨ (edge b a gc).isSome = true
  · rw [if_pos hc]
    rcases hc with hc | hc
    · obtain ⟨d, hd, h1⟩ := (edge_isSome_iff a b gc).mp hc
      exact hpresent d hd (Or.inl h1)
    · obtain ⟨d, hd, h1⟩ := (edge_isSome_iff b a gc).mp hc
      exact hpresent d hd (Or.inr h1)
  · rw [if_neg hc]
    rcases hends with ⟨e1, e2⟩ | ⟨e1, e2⟩
    · cases h12 : edge a b g0 with
      | none => exact absurd ⟨e, he.1, e1, e2⟩ (edge_eq_none _ _ _ h12)
      | some x =>
        obtain ⟨x1, x2, x3⟩ := edge_eq_some _ _ _ _ h12
        have hx : x = e := edge_unique g0 hnp0 x e x1 he.1 (x2.trans e1.symm) (x3.trans e2.symm)
        cases h21 : edge b a g0 with
        | none =>
          simp only []
          rw [hx]
          have := add_edge_self_mem e.source e.target e.ep gc
          rwa [heta] at this
        | some y =>
          obtain ⟨y1, y2, y3⟩ := edge_eq_some _ _ _ _ h21
          exact absurd ⟨y, y1, y2.trans e2.symm, y3.trans e1.symm⟩ he.2
    · cases h21 : edge b a g0 with
      | none => exact absurd ⟨e, he.1, e1, e2⟩ (edge_eq_none _ _ _ h21)
      | some x =>
        obtain ⟨x1, x2, x3⟩ := edge_eq_some _ _ _ _ h21
        have hx : x = e := edge_unique g0 hnp0 x e x1 he.1 (x2.trans e1.symm) (x3.trans e2.symm)
        cases h12 : edge a b g0 with
        | none =>
          simp only []
          rw [hx]
          have := add_edge_self_mem e.source e.target e.ep gc
          rwa [heta] at this
        | some y =>
          obtain ⟨y1, y2, y3⟩ := edge_eq_some _ _ _ _ h12
          exact absurd ⟨y, y1, y2.trans e2.symm, y3.trans e1.symm⟩ he.2

theorem resolveInner_hits (g0 g : Graph) (hsym0 : isSymmetric g0) (hnp0 : noParallelEdges g0)
    (a b : ContigNode) (e : Edge)
    (hno : ¬ ∃ d ∈ g.edges, (d.source = a ∧ d.target = b) ∨ (d.source = b ∧ d.target = a))
    (he : oneWayIn g0 e)
    (hends : (e.source = a ∧ e.target = b) ∨ (e.source = b ∧ e.target = a)) :
    ∀ (vs : List ContigNode) (gc : Graph), extendsBy g0 g gc → b ∈ vs →
      e ∈ (resolveInner g0 a vs gc).edges := by
  intro vs
  induction vs with
  | nil => intro gc _ hb; exact absurd hb (List.not_mem_nil b)
  | cons v vs ih =>
    intro gc hext hb
    have hstep : resolveInner g0 a (v :: vs) gc
        = resolveInner g0 a vs (resolvePair g0 gc a v) := rfl
    rw [hstep]
    by_cases hv : v = b
    · rw [hv]
      have h1 := resolvePair_hits g0 g gc hnp0 a b e hext hno he hends
      exact (resolveInner_extends g0 hsym0 a vs _).1 e h1
    · have hb2 : b ∈ vs := by
        rcases List.mem_cons.mp hb with h | h
        · exact absurd h.symm hv
        · exact h
      exact ih _ (extendsBy_trans g0 g gc _ hext (resolvePair_extends g0 gc hsym0 a v)) hb2

theorem resolveOuter_hits (g0 g : Graph) (hsym0 : isSymmetric g0) (hnp0 : noParallelEdges g0)
    (v1 v2 : ContigNode) (hne : v1 ≠ v2) (e : Edge)
    (hno : ¬ ∃ d ∈ g.edges, (d.source = v1 ∧ d.target = v2) ∨ (d.source = v2 ∧ d.target = v1))
    (he : oneWayIn g0 e)
    (hends : (e.source = v1 ∧ e.target = v2) ∨ (e.source = v2 ∧ e.target = v1)) :
    ∀ (vs : List ContigNode) (gc : Graph), extendsBy g0 g gc → v1 ∈ vs → v2 ∈ vs →
      e ∈ (resolveOuter g0 vs gc).edges := by
  intro vs
  induction vs with
  | nil => intro gc _ h1 _; exact absurd h1 (List.not_mem_nil v1)
  | cons x rest ih =>
    intro gc hext h1 h2
    have hstep : resolveOuter g0 (x :: rest) gc
        = resolveOuter g0 rest (resolveInner g0 x rest gc) := rfl
    rw [hstep]
    by_cases hx1 : x = v1
    · have h2r : v2 ∈ rest := by
        rcases List.mem_cons.mp h2 with h | h
        · exact absurd (hx1.symm.trans h.symm).symm (fun h3 => hne h3.symm)
        · exact h
      rw [hx1]
      have := resolveInner_hits g0 g hsym0 hnp0 v1 v2 e hno he hends rest gc hext h2r
      exact (resolveOuter_extends g0 hsym0 rest _).1 e this
    · by_cases hx2 : x = v2
      · have h1r : v1 ∈ rest := by
          rcases List.mem_cons.mp h1 with h | h
          · exact absurd h.symm hx1
          · exact h
        rw [hx2]
        have hno2 : ¬ ∃ d ∈ g.edges,
            (d.source = v2 ∧ d.target = v1) ∨ (d.source = v1 ∧ d.target = v2) := by
          rintro ⟨d, hd, h⟩; exact hno ⟨d, hd, h.symm⟩
        have := resolveInner_hits g0 g hsym0 hnp0 v2 v1 e hno2 he hends.symm rest gc hext h1r
        exact (resolveOuter_extends g0 hsym0 rest _).1 e this
      · have h1r : v1 ∈ rest := by
          rcases List.mem_cons.mp h1 with h | h
          · exact absurd h.symm hx1
          · exact h
        have h2r : v2 ∈ rest := by
          rcases List.mem_cons.mp h2 with h | h
          · exact absurd h.symm hx2
          · exact h
        exact ih _ (extendsBy_trans g0 g gc _ hext (resolveInner_extends g0 hsym0 x rest gc))
          h1r h2r

theorem length_ge_two_of_mem (vs : List ContigNode) (v1 v2 : ContigNode) (hne : v1 ≠ v2)
    (h1 : v1 ∈ vs) (h2 : v2 ∈ vs) : 2 ≤ vs.length := by
  match vs, h1, h2 with
  | [], h1, _ => exact absurd h1 (List.not_mem_nil v1)
  | [x], h1, h2 =>
    rw [List.mem_singleton] at h1 h2
    exact absurd (h1.trans h2.symm) hne
  | _ :: _ :: _, _, _ => simp

theorem resolveVertex_hits (g0 g : Graph) (hsym0 : isSymmetric g0) (hnp0 : noParallelEdges g0)
    (u : ContigNode) (e1 e2 : Edge) (he1 : e1 ∈ g.edges) (he2 : e2 ∈ g.edges)
    (hs1 : e1.source = u) (hs2 : e2.source = u) (hne : e1.target ≠ e2.target) (e : Edge)
    (hno : ¬ ∃ d ∈ g.edges, (d.source = e1.target ∧ d.target = e2.target) ∨
      (d.source = e2.target ∧ d.target = e1.target))
    (he : oneWayIn g0 e)
    (hends : (e.source = e1.target ∧ e.target = e2.target) ∨
      (e.source = e2.target ∧ e.target = e1.target))
    (gc : Graph) (hext : extendsBy g0 g gc) :
    e ∈ (resolveVertex g0 gc u).edges := by
  have hm1 : e1.target ∈ adjacent_vertices u gc := by
    simp only [adjacent_vertices, out_edges, List.mem_map, List.mem_filter, decide_eq_true_eq]
    exact ⟨e1, ⟨hext.1 e1 he1, hs1⟩, rfl⟩
  have hm2 : e2.target ∈ adjacent_vertices u gc := by
    simp only [adjacent_vertices, out_edges, List.mem_map, List.mem_filter, decide_eq_true_eq]
    exact ⟨e2, ⟨hext.1 e2 he2, hs2⟩, rfl⟩
  have hdeg : ¬ (out_degree u gc < 2) := by
    have := length_ge_two_of_mem _ _ _ hne hm1 hm2
    simp only [adjacent_vertices, List.length_map] at this
    unfold out_degree
    omega
  unfold resolveVertex
  rw [if_neg hdeg]
  exact resolveOuter_hits g0 g hsym0 hnp0 _ _ hne e hno he hends _ gc hext hm1 hm2

theorem resolveVertex_foldl_hits (g0 g : Graph) (hsym0 : isSymmetric g0)
    (hnp0 : noParallelEdges g0)
    (u : ContigNode) (e1 e2 : Edge) (he1 : e1 ∈ g.edges) (he2 : e2 ∈ g.edges)
    (hs1 : e1.source = u) (hs2 : e2.source = u) (hne : e1.target ≠ e2.target) (e : Edge)
    (hno : ¬ ∃ d ∈ g.edges, (d.source = e1.target ∧ d.target = e2.target) ∨
      (d.source = e2.target ∧ d.target = e1.target))
    (he : oneWayIn g0 e)
    (hends : (e.source = e1.target ∧ e.target = e2.target) ∨
      (e.source = e2.target ∧ e.target = e1.target)) :
    ∀ (us : List ContigNode) (gc : Graph), extendsBy g0 g gc → u ∈ us →
      e ∈ (us.foldl (resolveVertex g0) gc).edges := by
  intro us
  induction us with
  | nil => intro gc _ hu; exact absurd hu (List.not_mem_nil u)
  | cons x us ih =>
    intro gc hext hu
    simp only [List.foldl_cons]
    by_cases hx : x = u
    · rw [hx]
      have := resolveVertex_hits g0 g hsym0 hnp0 u e1 e2 he1 he2 hs1 hs2 hne e hno he hends
        gc hext
      exact (resolveVertex_foldl_extends g0 hsym0 us _).1 e this
    · have hu2 : u ∈ us := by
        rcases List.mem_cons.mp hu with h | h
        · exact absurd h.symm hx
        · exact h
      exact ih _ (extendsBy_trans g0 g gc _ hext (resolveVertex_extends g0 gc hsym0 x)) hu2

/-- C12: `resolveForks(g, g0)` for a symmetric original graph `g0` without
parallel edges.  No edge of `g` is lost.  For every vertex u of `g` with two
distinct successors v1 and v2 that are not joined in `g`, if exactly one of
(v1,v2), (v2,v1) is an edge of `g0`, that edge is in the result with the
attributes it has in `g0`.  Every edge of the result that was not in `g` is an
edge of `g0` whose reverse edge is not in `g0`; so when both or neither of
(v1,v2), (v2,v1) are edges of `g0`, no edge between v1 and v2 is added. -/
theorem resolveForks_spec (g g0 : Graph) (hsym0 : isSymmetric g0)
    (hnp0 : noParallelEdges g0) :
    (∀ x ∈ g.edges, x ∈ (resolveForks g g0).edges) ∧
    (∀ u ∈ g.vertices, ∀ e1 ∈ g.edges, ∀ e2 ∈ g.edges,
      e1.source = u → e2.source = u → e1.target ≠ e2.target →
      (¬ ∃ d ∈ g.edges, (d.source = e1.target ∧ d.target = e2.target) ∨
        (d.source = e2.target ∧ d.target = e1.target)) →
      ∀ e ∈ g0.edges,
        ((e.source = e1.target ∧ e.target = e2.target) ∨
          (e.source = e2.target ∧ e.target = e1.target)) →
        (¬ ∃ d ∈ g0.edges, d.source = e.target ∧ d.target = e.source) →
        e ∈ (resolveForks g g0).edges) ∧
    (∀ x ∈ (resolveForks g g0).edges, x ∈ g.edges ∨
      (x ∈ g0.edges ∧ ¬ ∃ d ∈ g0.edges, d.source = x.target ∧ d.target = x.source)) := by
  have hext := resolveVertex_foldl_extends g0 hsym0 g.vertices g
  refine ⟨hext.1, ?_, hext.2⟩
  intro u hu e1 he1 e2 he2 hs1 hs2 hne hno e he hends hone
  exact resolveVertex_foldl_hits g0 g hsym0 hnp0 u e1 e2 he1 he2 hs1 hs2 hne e hno ⟨he, hone⟩
    hends g.vertices g (extendsBy_refl g0 g) hu

/-- Witness for C12: contig 1 forks to contigs 2 and 3, which are joined only
in the original graph, by the edge from 2 to 3; that edge and its complementary
edge are copied into the filtered graph. -/
theorem resolveForks_spec_witness :
    (resolveForks forkFiltered forkOriginal).edges
      = forkFiltered.edges ++ [⟨⟨2, true⟩, ⟨3, true⟩, ⟨200, 1, 3⟩⟩,
          ⟨⟨3, false⟩, ⟨2, false⟩, ⟨200, 1, 3⟩⟩] ∧
    (∀ x ∈ forkFiltered.edges, x ∈ (resolveForks forkFiltered forkOriginal).edges) :=
  ⟨by decide,
   (resolveForks_spec forkFiltered forkOriginal
      ⟨by decide, fun _ => rfl⟩ (by unfold noParallelEdges; decide)).1⟩

end ScaffoldForks

section ScaffoldRepeats
open Graph Scaffold

theorem index_injective (u v : ContigNode) (h : u.index = v.index) : u = v := by
  cases u with
  | mk i a =>
    cases v with
    | mk j b =>
      simp only [ContigNode.index] at h
      cases a <;> cases b <;> simp at h ⊢ <;> omega

theorem index_complement (u : ContigNode) :
    u.complement.index + 1 = u.index ∨ u.index + 1 = u.complement.index := by
  cases u with
  | mk i a =>
    cases a <;> simp [ContigNode.index, ContigNode.complement]

theorem mem_adjacent_vertices (u v : ContigNode) (g : Graph) :
    v ∈ adjacent_vertices u g ↔ hasEdge u v g := by
  simp only [adjacent_vertices, out_edges, List.mem_map, List.mem_filter, decide_eq_true_eq,
    hasEdge]
  constructor
  · rintro ⟨d, ⟨h1, h2⟩, h3⟩; exact ⟨d, h1, h2, h3⟩
  · rintro ⟨d, h1, h2, h3⟩; exact ⟨d, ⟨h1, h2⟩, h3⟩

theorem edge_isSome_iff_hasEdge (u v : ContigNode) (g : Graph) :
    (edge u v g).isSome = true ↔ hasEdge u v g := edge_isSome_iff u v g

theorem edge_isSome_false_iff (u v : ContigNode) (g : Graph) :
    (edge u v g).isSome = false ↔ ¬ hasEdge u v g := by
  rw [← edge_isSome_iff_hasEdge]; simp

/-- The search of `removeRepeats` finds exactly the repeats. -/
theorem mem_findRepeats (g : Graph) (v : ContigNode) :
    v ∈ findRepeats g ↔ isRepeat g v := by
  simp only [findRepeats, find_transitive_edges, List.mem_flatMap, List.mem_filter,
    List.any_eq_true, Bool.and_eq_true, hasUnrelatedSuccessor, mem_adjacent_vertices,
    edge_isSome_iff_hasEdge, Bool.not_eq_true', edge_isSome_false_iff, decide_eq_true_eq,
    isRepeat]
  constructor
  · rintro ⟨e, ⟨he, _⟩, huv, hvw, w2, hvw2, ⟨hne, h12⟩, h21⟩
    exact ⟨e.source, e.target, w2, huv, hvw, ⟨e, he, rfl, rfl⟩, hvw2, hne, h12, h21⟩
  · rintro ⟨u, w1, w2, huv, hvw1, ⟨e, he, hs, ht⟩, hvw2, hne, h12, h21⟩
    refine ⟨e, ⟨he, v, ?_, ?_⟩, ?_, ?_, w2, hvw2, ⟨?_, ?_⟩, ?_⟩
    · rw [hs]; exact huv
    · rw [ht]; exact hvw1
    · rw [hs]; exact huv
    · rw [ht]; exact hvw1
    · rw [ht]; exact hne
    · rw [ht]; exact h12
    · rw [ht]; exact h21

theorem mem_unique : ∀ (l : List ContigNode) (x : ContigNode), x ∈ unique l ↔ x ∈ l
  | [], x => by simp [unique]
  | [a], x => by simp [unique]
  | a :: b :: rest, x => by
    have ih := mem_unique (b :: rest) x
    by_cases h : a = b
    · simp only [unique, if_pos h, ih, List.mem_cons]
      rw [h]; tauto
    · simp only [unique, if_neg h, List.mem_cons, ih]

theorem pairwise_unique : ∀ (l : List ContigNode),
    l.Pairwise (fun a b => a.index ≤ b.index) →
    (unique l).Pairwise (fun a b => a.index < b.index)
  | [], _ => by simp [unique]
  | [a], _ => by simp [unique]
  | a :: b :: rest, hs => by
    have hs2 := List.pairwise_cons.mp hs
    have ih := pairwise_unique (b :: rest) hs2.2
    by_cases h : a = b
    · simp only [unique, if_pos h]; exact ih
    · simp only [unique, if_neg h]
      rw [List.pairwise_cons]
      refine ⟨fun z hz => ?_, ih⟩
      have hz2 : z ∈ b :: rest := (mem_unique _ z).mp hz
      have hab : a.index ≤ b.index := hs2.1 b (List.mem_cons_self _ _)
      have hab2 : a.index ≠ b.index := fun hi => h (index_injective a b hi)
      have hbz : b.index ≤ z.index := by
        rcases List.mem_cons.mp hz2 with e | e
        · rw [e]
        · exact (List.pairwise_cons.mp hs2.2).1 z e
      omega

theorem sortNodes_spec (l : List ContigNode) :
    (∀ x, x ∈ sortNodes l ↔ x ∈ l) ∧
    (sortNodes l).Pairwise (fun a b => a.index ≤ b.index) := by
  haveI : IsTotal ContigNode (fun a b => a.index ≤ b.index) :=
    ⟨fun a b => Nat.le_total a.index b.index⟩
  haveI : IsTrans ContigNode (fun a b => a.index ≤ b.index) :=
    ⟨fun a b c h1 h2 => Nat.le_trans h1 h2⟩
  exact ⟨fun x => (List.perm_insertionSort _ l).mem_iff,
    List.sorted_insertionSort (fun a b : ContigNode => a.index ≤ b.index) l⟩

theorem removeRepeatsLoop_edges : ∀ (l : List ContigNode) (p : Option ContigNode) (g : Graph)
    (e : Edge), e ∈ (removeRepeatsLoop p l g).edges ↔
      (e ∈ g.edges ∧ ∀ u ∈ l, e.source ≠ u ∧ e.target ≠ u.complement) := by
  intro l
  induction l with
  | nil => intro p g e; simp [removeRepeatsLoop]
  | cons h rest ih =>
    intro p g e
    simp only [removeRepeatsLoop]
    rw [ih]
    have hed : ∀ x, x ∈ (if p = some h.complement then remove_vertex h (clear_out_edges h g)
        else clear_out_edges h g).edges ↔ (x ∈ g.edges ∧ x.source ≠ h ∧ x.target ≠ h.complement) := by
      intro x
      have : (if p = some h.complement then remove_vertex h (clear_out_edges h g)
          else clear_out_edges h g).edges = (clear_out_edges h g).edges := by
        split <;> rfl
      rw [this]
      simp [clear_out_edges, List.mem_filter]
    rw [hed]
    simp only [List.mem_cons, forall_eq_or_imp]
    tauto

theorem removeRepeatsLoop_removed : ∀ (l : List ContigNode) (p : Option ContigNode)
    (g : Graph) (x : ContigNode), x ∈ (removeRepeatsLoop p l g).removed ↔
      (x ∈ g.removed ∨ ∃ u ∈ removeVertexCalls p l, x = u ∨ x = u.complement) := by
  intro l
  induction l with
  | nil => intro p g x; simp [removeRepeatsLoop, removeVertexCalls]
  | cons h rest ih =>
    intro p g x
    simp only [removeRepeatsLoop, removeVertexCalls]
    rw [ih]
    by_cases hp : p = some h.complement
    · rw [if_pos hp, if_pos hp]
      show (x ∈ h :: h.complement :: g.removed ∨ _) ↔ _
      constructor
      · rintro (hx | ⟨u, hu, hxu⟩)
        · rcases List.mem_cons.mp hx with e | hx2
          · exact Or.inr ⟨h, List.mem_cons_self _ _, Or.inl e⟩
          · rcases List.mem_cons.mp hx2 with e | hx3
            · exact Or.inr ⟨h, List.mem_cons_self _ _, Or.inr e⟩
            · exact Or.inl hx3
        · exact Or.inr ⟨u, List.mem_cons_of_mem _ hu, hxu⟩
      · rintro (hx | ⟨u, hu, hxu⟩)
        · exact Or.inl (List.mem_cons_of_mem _ (List.mem_cons_of_mem _ hx))
        · rcases List.mem_cons.mp hu with e | hu2
          · left
            rcases hxu with e2 | e2
            · rw [e2, e]; exact List.mem_cons_self _ _
            · rw [e2, e]; exact List.mem_cons_of_mem _ (List.mem_cons_self _ _)
          · exact Or.inr ⟨u, hu2, hxu⟩
    · rw [if_neg hp, if_neg hp]
      rfl

theorem removeVertexCalls_sublist : ∀ (l : List ContigNode) (p : Option ContigNode),
    (removeVertexCalls p l).Sublist l := by
  intro l
  induction l with
  | nil => intro p; simp [removeVertexCalls]
  | cons h rest ih =>
    intro p
    simp only [removeVertexCalls]
    split
    · exact (ih _).cons₂ h
    · exact (ih _).cons h

/-- The removal loop of `removeRepeats` calls `remove_vertex` at `u` exactly
when the complement of `u` is in the sorted list before `u`. -/
theorem removeVertexCalls_spec : ∀ (l : List ContigNode) (p : Option ContigNode),
    (p.toList ++ l).Pairwise (fun a b => a.index < b.index) →
    ∀ u, u ∈ removeVertexCalls p l ↔
      (u ∈ l ∧ u.complement ∈ p.toList ++ l ∧ u.complement.index < u.index) := by
  intro l
  induction l with
  | nil => intro p _ u; simp [removeVertexCalls]
  | cons h rest ih =>
    intro p hs u
    have hs1 := List.pairwise_append.mp hs
    have hs2 : ((some h).toList ++ rest).Pairwise (fun a b => a.index < b.index) := hs1.2.1
    have hrest : ∀ y ∈ rest, h.index < y.index := (List.pairwise_cons.mp hs1.2.1).1
    have hp : ∀ x ∈ p.toList, x.index < h.index :=
      fun x hx => hs1.2.2 x hx h (List.mem_cons_self _ _)
    have ih2 := ih (some h) hs2 u
    have hic := index_complement u
    have key : u ∈ removeVertexCalls p (h :: rest) ↔
        ((p = some h.complement ∧ u = h) ∨ u ∈ removeVertexCalls (some h) rest) := by
      simp only [removeVertexCalls]
      by_cases hph : p = some h.complement
      · simp [if_pos hph, hph]
      · simp [if_neg hph, hph]
    rw [key, ih2]
    simp only [Option.toList, List.mem_append, List.mem_cons, List.singleton_append]
    constructor
    · rintro (⟨h1, h2⟩ | ⟨h1, h2, h3⟩)
      · refine ⟨Or.inl h2, Or.inl ?_, ?_⟩
        · rw [h1, h2]; simp
        · rw [h2]
          exact hp _ (by rw [h1]; simp)
      · exact ⟨Or.inr h1, Or.inr h2, h3⟩
    · rintro ⟨h1, h2, h3⟩
      rcases h1 with h1 | h1
      · left
        refine ⟨?_, h1⟩
        rcases h2 with h2 | h2 | h2
        · cases p with
          | none => simp at h2
          | some q =>
            simp only [Option.toList, List.mem_singleton] at h2
            rw [← h2, h1]
        · rw [h1] at h2 h3; rw [h2] at h3; omega
        · have := hrest _ h2
          rw [h1] at h3 this; omega
      · right
        refine ⟨h1, ?_, h3⟩
        rcases h2 with h2 | h2
        · have a := hp _ h2
          have b := hrest _ h1
          omega
        · exact h2

/-- C13, amended: every vertex identified as a repeat ends with no outgoing
edges; a vertex is flagged as removed by `removeRepeats` exactly when it and
its complement are both identified as repeats, and `remove_vertex` is then
called once for the pair.  A repeat whose complement is not a repeat stays in
the graph. -/
theorem removeRepeats_spec (g : Graph) :
    (∀ v, isRepeat g v → out_degree v (removeRepeats g) = 0) ∧
    (∀ v, v ∈ (removeRepeats g).removed ↔
      (v ∈ g.removed ∨ (isRepeat g v ∧ isRepeat g v.complement))) ∧
    (∀ v, isRepeat g v → isRepeat g v.complement →
      (removeVertexCalls none (unique (sortNodes (findRepeats g)))).count v
        + (removeVertexCalls none (unique (sortNodes (findRepeats g)))).count v.complement
        = 1) := by
  have hmemL : ∀ x, x ∈ unique (sortNodes (findRepeats g)) ↔ isRepeat g x := by
    intro x
    rw [mem_unique, (sortNodes_spec _).1, mem_findRepeats]
  have hsorted : (unique (sortNodes (findRepeats g))).Pairwise
      (fun a b => a.index < b.index) := pairwise_unique _ (sortNodes_spec _).2
  have hcalls : ∀ u, u ∈ removeVertexCalls none (unique (sortNodes (findRepeats g))) ↔
      (isRepeat g u ∧ isRepeat g u.complement ∧ u.complement.index < u.index) := by
    intro u
    rw [removeVertexCalls_spec _ none (by simpa using hsorted) u]
    simp only [Option.toList, List.nil_append, hmemL]
  have hnodup : (removeVertexCalls none (unique (sortNodes (findRepeats g)))).Nodup := by
    have h1 : (unique (sortNodes (findRepeats g))).Nodup :=
      hsorted.imp (fun h hab => by rw [hab] at h; exact lt_irrefl _ h)
    exact (removeVertexCalls_sublist _ none).nodup h1
  refine ⟨?_, ?_, ?_⟩
  · intro v hv
    rw [out_degree_eq_zero_iff]
    intro e he
    simp only [removeRepeats] at he
    rw [removeRepeatsLoop_edges] at he
    exact (he.2 v ((hmemL v).mpr hv)).1
  · intro v
    simp only [removeRepeats]
    rw [removeRepeatsLoop_removed]
    constructor
    · rintro (h | ⟨u, hu, h⟩)
      · exact Or.inl h
      · right
        obtain ⟨h1, h2, _⟩ := (hcalls u).mp hu
        rcases h with h | h
        · rw [h]; exact ⟨h1, h2⟩
        · rw [h, complement_complement_node]; exact ⟨h2, h1⟩
    · rintro (h | ⟨h1, h2⟩)
      · exact Or.inl h
      · right
        rcases index_complement v with hi | hi
        · exact ⟨v, (hcalls v).mpr ⟨h1, h2, by omega⟩, Or.inl rfl⟩
        · refine ⟨v.complement, (hcalls _).mpr ⟨h2, ?_, ?_⟩, Or.inr ?_⟩
          · rw [complement_complement_node]; exact h1
          · rw [complement_complement_node]; omega
          · rw [complement_complement_node]
  · intro v h1 h2
    rcases index_complement v with hi | hi
    · have a : v ∈ removeVertexCalls none (unique (sortNodes (findRepeats g))) :=
        (hcalls v).mpr ⟨h1, h2, by omega⟩
      have b : v.complement ∉ removeVertexCalls none (unique (sortNodes (findRepeats g))) := by
        intro hb
        have := ((hcalls _).mp hb).2.2
        rw [complement_complement_node] at this
        omega
      rw [List.count_eq_one_of_mem hnodup a, List.count_eq_zero_of_not_mem b]
    · have a : v.complement ∈ removeVertexCalls none (unique (sortNodes (findRepeats g))) := by
        refine (hcalls _).mpr ⟨h2, ?_, ?_⟩
        · rw [complement_complement_node]; exact h1
        · rw [complement_complement_node]; omega
      have b : v ∉ removeVertexCalls none (unique (sortNodes (findRepeats g))) := by
        intro hb
        have := ((hcalls _).mp hb).2.2
        omega
      rw [List.count_eq_one_of_mem hnodup a, List.count_eq_zero_of_not_mem b]

/-- Counterexample to C13 as stated: in the graph 1->2, 2->3, 1->3, 2->4 (with
the complementary edges) contig 2 is identified as a repeat, its complement is
not, and after `removeRepeats` contig 2 has no outgoing edges but is not
flagged as removed. -/
theorem removeRepeats_keeps_single_repeat :
    isRepeat repeatExample ⟨2, true⟩ ∧
    findRepeats repeatExample = [⟨2, true⟩] ∧
    out_degree ⟨2, true⟩ (removeRepeats repeatExample) = 0 ∧
    (⟨2, true⟩ : ContigNode) ∉ (removeRepeats repeatExample).removed ∧
    (removeRepeats repeatExample).removed = [] := by
  refine ⟨?_, by decide, by decide, by decide, by decide⟩
  rw [← mem_findRepeats]
  decide

end ScaffoldRepeats

section DistanceEstimates
open Graph Scaffold

theorem toInt32_of_range (n : Int) (h0 : 0 ≤ n) (h1 : n < 2 ^ 31) : toInt32 n = n := by
  unfold toInt32
  have : (n + 2 ^ 31) % 2 ^ 32 = n + 2 ^ 31 := by
    apply Int.emod_eq_of_lt <;> omega
  rw [this]; omega

/-- One step of `addDistEst` under the condition `stepOk`. -/
theorem addDistEstStep_ok (k : Nat) (minGap : Int) (g0 g1 : Graph) (u v : ContigNode)
    (h : stepOk k minGap g0 g1 u v) :
    addDistEstStep k minGap g0 g1 u v
      = Except.ok ((match estimate g0 g1 u v with
          | some ep =>
            if ep.stdDev ≠ 0 then
              [PathNode.gap (max (max ep.distance minGap + (k : Int) - 1) 1)]
            else []
          | none => []) ++ [PathNode.contig v]) := by
  obtain ⟨ep, hep, hov, hgap⟩ := h
  unfold addDistEstStep
  rw [hep]
  by_cases hsd : ep.stdDev = 0
  · have hd := hov hsd
    simp [isOverlap, hsd, hd]
  · obtain ⟨a, b⟩ := hgap hsd
    have ht := toInt32_of_range _ a b
    simp only [isOverlap, if_neg hsd, ht]
    have hge : max ep.distance minGap + (k : Int) - 1 ≥ 0 := a
    rw [if_pos hge]
    simp [hsd]

theorem addDistEstLoop_ok (k : Nat) (minGap : Int) (g0 g1 : Graph) :
    ∀ (rest : List ContigNode) (u : ContigNode),
    (∀ p ∈ (u :: rest).zip rest, stepOk k minGap g0 g1 p.1 p.2) →
    addDistEstLoop k minGap g0 g1 u rest = Except.ok (gappedPath k minGap g0 g1 u rest) := by
  intro rest
  induction rest with
  | nil => intro u _; rfl
  | cons v rest ih =>
    intro u h
    have h1 : stepOk k minGap g0 g1 u v := h (u, v) (by simp)
    have h2 : ∀ p ∈ (v :: rest).zip rest, stepOk k minGap g0 g1 p.1 p.2 := by
      intro p hp
      exact h p (by simp only [List.zip_cons_cons, List.mem_cons]; exact Or.inr hp)
    simp only [addDistEstLoop, addDistEstStep_ok k minGap g0 g1 u v h1, ih v h2, gappedPath]
    simp

/-- C15: for a path on which every step has an estimate, passes the assertions
and stays within the range of `int`, `addDistEst` returns the first contig
followed, for every pair of consecutive contigs u and v, by exactly one gap
node of length max(max(distance, minGap) + k - 1, 1) when the estimate is not
an exact overlap (stdDev is not 0), by no gap node when it is an exact overlap,
and then by v. -/
theorem addDistEst_spec (k : Nat) (minGap : Int) (g0 g1 : Graph) (u : ContigNode)
    (rest : List ContigNode)
    (h : ∀ p ∈ (u :: rest).zip rest, stepOk k minGap g0 g1 p.1 p.2) :
    addDistEst k minGap g0 g1 (u :: rest)
      = Except.ok (PathNode.contig u :: gappedPath k minGap g0 g1 u rest) := by
  simp only [addDistEst, addDistEstLoop_ok k minGap g0 g1 rest u h]

/-- Witness for C15: the path from contig 1 to contig 2 of the scenario graph,
with k = 30 and minGap = 50. -/
theorem addDistEst_spec_witness :
    addDistEst 30 50 scenarioGraph scenarioGraph [⟨1, true⟩, ⟨2, true⟩]
      = Except.ok (PathNode.contig ⟨1, true⟩ ::
          gappedPath 30 50 scenarioGraph scenarioGraph ⟨1, true⟩ [⟨2, true⟩]) ∧
    gappedPath 30 50 scenarioGraph scenarioGraph ⟨1, true⟩ [⟨2, true⟩]
      = [PathNode.gap 129, PathNode.contig ⟨2, true⟩] :=
  ⟨addDistEst_spec 30 50 scenarioGraph scenarioGraph ⟨1, true⟩ [⟨2, true⟩] (by
      intro p hp
      simp only [List.zip_cons_cons, List.zip_nil_right, List.mem_singleton] at hp
      subst hp
      exact ⟨⟨100, 5, 10⟩, by decide, by decide, fun _ => by decide⟩),
   by decide⟩

/-- Counterexample to C16 as stated: for k = 30 and minGap = 50 the gap node
between contigs 1 and 2 of the scenario graph (d = 100, not an exact overlap)
has length 129, which is 100 + k - 1 and not 98 + k - 1. -/
theorem addDistEst_gap_is_not_98 :
    addDistEst 30 50 scenarioGraph scenarioGraph [⟨1, true⟩, ⟨2, true⟩]
      = Except.ok [PathNode.contig ⟨1, true⟩, PathNode.gap 129, PathNode.contig ⟨2, true⟩] ∧
    (129 : Int) ≠ 98 + 30 - 1 :=
  ⟨rfl, by decide⟩

/-- C16, amended: for the path c1, c2 joined by an edge with distance 100 that
is not an exact overlap, with the default minGap = 50, `addDistEst` outputs c1,
a gap node of length 100 + k - 1, c2 (k small enough for `int`). -/
theorem addDistEst_scenario (k : Nat) (g0 g1 : Graph) (c1 c2 : ContigNode)
    (ep : DistanceEst) (hest : estimate g0 g1 c1 c2 = some ep)
    (hd : ep.distance = 100) (hs : ep.stdDev ≠ 0) (hk : (k : Int) + 99 < 2 ^ 31) :
    addDistEst k 50 g0 g1 [c1, c2]
      = Except.ok [PathNode.contig c1, PathNode.gap (100 + (k : Int) - 1),
          PathNode.contig c2] := by
  have hmax : max ep.distance 50 = 100 := by rw [hd]; decide
  have hk0 : (0 : Int) ≤ (k : Int) := Int.ofNat_nonneg k
  have hok : stepOk k 50 g0 g1 c1 c2 :=
    ⟨ep, hest, fun h => absurd h hs, fun _ => by rw [hmax]; constructor <;> omega⟩
  have hstep := addDistEstStep_ok k 50 g0 g1 c1 c2 hok
  have hm1 : max (100 + (k : Int) - 1) 1 = 100 + (k : Int) - 1 := max_eq_left (by omega)
  simp only [addDistEst, addDistEstLoop, hstep, hest, hmax, if_pos hs, hm1]
  rfl

/-- Witness for the amended C16 at k = 30 on the scenario graph. -/
theorem addDistEst_scenario_witness :
    addDistEst 30 50 scenarioGraph scenarioGraph [⟨1, true⟩, ⟨2, true⟩]
      = Except.ok [PathNode.contig ⟨1, true⟩, PathNode.gap (100 + ((30 : Nat) : Int) - 1),
          PathNode.contig ⟨2, true⟩] :=
  addDistEst_scenario 30 scenarioGraph scenarioGraph ⟨1, true⟩ ⟨2, true⟩ ⟨100, 5, 10⟩
    (by decide) rfl (by decide) (by decide)

end DistanceEstimates

section ParameterSearch
open Scaffold

theorem wrap32_of_lt (n : Nat) (h : n < 2 ^ 32) : wrap32 n = n := Nat.mod_eq_of_lt h

theorem scaffold_memoized_hit (run : Nat → Nat → Nat × String) (n s : Nat) (st : SearchState)
    (found : ScaffoldResult) (h : memoFind st.memo { n := n, s := s } = some found) :
    scaffold_memoized run n s st
      = ({ n := found.n, s := found.s, n50 := found.n50, metrics := "" }, st) := by
  simp only [scaffold_memoized, h]

theorem scaffold_memoized_miss (run : Nat → Nat → Nat × String) (n s : Nat) (st : SearchState)
    (h : memoFind st.memo { n := n, s := s } = none) :
    scaffold_memoized run n s st
      = ({ n := n, s := s, n50 := (run n s).1, metrics := (run n s).2 },
         { memo := ({ n := n, s := s },
             { n := n, s := s, n50 := (run n s).1, metrics := (run n s).2 }) :: st.memo,
           calls := st.calls ++ [{ n := n, s := s }] }) := by
  simp only [scaffold_memoized, h]

/-- C19: `scaffold_memoized`.  When the memo holds an entry for (n, s), the
call returns that entry with an empty metrics string, does not run `scaffold`
and leaves the memo unchanged.  When it holds no entry, the call runs
`scaffold` once, stores the full result under (n, s) (no other key changes) and
returns it; a later call with the same (n, s) returns the same N50 and changes
nothing. -/
theorem scaffold_memoized_spec (run : Nat → Nat → Nat × String) (n s : Nat)
    (st : SearchState) :
    (∀ found, memoFind st.memo { n := n, s := s } = some found →
      scaffold_memoized run n s st
        = ({ n := found.n, s := found.s, n50 := found.n50, metrics := "" }, st)) ∧
    (memoFind st.memo { n := n, s := s } = none →
      (scaffold_memoized run n s st).1
        = { n := n, s := s, n50 := (run n s).1, metrics := (run n s).2 } ∧
      (scaffold_memoized run n s st).2.calls = st.calls ++ [{ n := n, s := s }] ∧
      memoFind (scaffold_memoized run n s st).2.memo { n := n, s := s }
        = some (scaffold_memoized run n s st).1 ∧
      (∀ key : ScaffoldParam, key ≠ { n := n, s := s } →
        memoFind (scaffold_memoized run n s st).2.memo key = memoFind st.memo key) ∧
      (scaffold_memoized run n s (scaffold_memoized run n s st).2).1.n50
        = (scaffold_memoized run n s st).1.n50 ∧
      (scaffold_memoized run n s (scaffold_memoized run n s st).2).2
        = (scaffold_memoized run n s st).2) := by
  refine ⟨fun found h => scaffold_memoized_hit run n s st found h, fun h => ?_⟩
  rw [scaffold_memoized_miss run n s st h]
  have hfind : memoFind (({ n := n, s := s },
      ({ n := n, s := s, n50 := (run n s).1, metrics := (run n s).2 } : ScaffoldResult))
        :: st.memo) { n := n, s := s }
      = some { n := n, s := s, n50 := (run n s).1, metrics := (run n s).2 } := by
    simp [memoFind]
  refine ⟨rfl, rfl, hfind, ?_, ?_, ?_⟩
  · intro key hkey
    have : ¬ (({ n := n, s := s } : ScaffoldParam) = key) := fun h2 => hkey h2.symm
    simp only [memoFind, if_neg this]
  · rw [scaffold_memoized_hit run n s _ _ hfind]
  · rw [scaffold_memoized_hit run n s _ _ hfind]

/-- Witness for C19: a first call on an empty memo runs the scaffolder, a
second call returns the stored N50 with an empty metrics string. -/
theorem scaffold_memoized_spec_witness :
    (scaffold_memoized runPeak 2 1000 { memo := [], calls := [] }).1
      = { n := 2, s := 1000, n50 := 5000, metrics := "" } ∧
    (scaffold_memoized runPeak 2 1000 { memo := [], calls := [] }).2.calls
      = [{ n := 2, s := 1000 }] :=
  ⟨((scaffold_memoized_spec runPeak 2 1000 { memo := [], calls := [] }).2 rfl).1,
   ((scaffold_memoized_spec runPeak 2 1000 { memo := [], calls := [] }).2 rfl).2.1⟩

theorem scaffold_memoized_consistent (run : Nat → Nat → Nat × String) (n s : Nat)
    (st : SearchState) (h : memoConsistent run st) :
    (scaffold_memoized run n s st).1.n50 = (run n s).1 ∧
    memoConsistent run (scaffold_memoized run n s st).2 := by
  cases hf : memoFind st.memo { n := n, s := s } with
  | some found =>
    rw [scaffold_memoized_hit run n s st found hf]
    exact ⟨h _ _ hf, h⟩
  | none =>
    rw [scaffold_memoized_miss run n s st hf]
    refine ⟨rfl, ?_⟩
    intro key r hkr
    simp only [memoFind] at hkr
    by_cases hk : ({ n := n, s := s } : ScaffoldParam) = key
    · rw [if_pos hk] at hkr
      have : r = { n := n, s := s, n50 := (run n s).1, metrics := (run n s).2 } :=
        (Option.some.inj hkr).symm
      rw [this, ← hk]
    · rw [if_neg hk] at hkr
      exact h key r hkr

theorem optimize_s_step_spec (run : Nat → Nat → Nat × String) (ops : SweepOps)
    (n i : Nat) (acc : ScaffoldResult) (st : SearchState) (h : memoConsistent run st) :
    memoConsistent run (optimize_s_step run ops n i acc st).2 ∧
    (optimize_s_step run ops n i acc st).1.n = acc.n ∧
    ((acc.n50 < (run n (ops.value i)).1 ∧
        (optimize_s_step run ops n i acc st).1.s = ops.value i ∧
        (optimize_s_step run ops n i acc st).1.n50 = (run n (ops.value i)).1) ∨
     ((run n (ops.value i)).1 ≤ acc.n50 ∧
        (optimize_s_step run ops n i acc st).1.s = acc.s ∧
        (optimize_s_step run ops n i acc st).1.n50 = acc.n50)) := by
  obtain ⟨h1, h2⟩ := scaffold_memoized_consistent run n (ops.value i) st h
  unfold optimize_s_step
  simp only [h1]
  by_cases hc : (run n (ops.value i)).1 > acc.n50
  · rw [if_pos hc]
    exact ⟨h2, rfl, Or.inl ⟨hc, rfl, rfl⟩⟩
  · rw [if_neg hc]
    exact ⟨h2, rfl, Or.inr ⟨by omega, rfl, rfl⟩⟩

/-- The loop of `optimize_s` from step `i` on: it ends, and it returns either
the best so far (when no later step is better) or the first later step that
reaches the largest N50. -/
theorem optimize_s_loop_spec (run : Nat → Nat → Nat × String) (ops : SweepOps)
    (n ilast : Nat) (hil : ilast + 1 < 2 ^ 32) :
    ∀ (fuel i : Nat) (acc : ScaffoldResult) (st : SearchState),
    memoConsistent run st → (i ≤ ilast → ilast + 2 ≤ fuel + i) → 1 ≤ fuel →
    ∃ res st1, optimize_s_loop run ops n ilast fuel i acc st = some (res, st1) ∧
      memoConsistent run st1 ∧ res.n = acc.n ∧
      ((res.n50 = acc.n50 ∧ res.s = acc.s ∧
          ∀ j, i ≤ j → j ≤ ilast → (run n (ops.value j)).1 ≤ acc.n50) ∨
       (acc.n50 < res.n50 ∧ ∃ j, i ≤ j ∧ j ≤ ilast ∧ res.s = ops.value j ∧
          (run n (ops.value j)).1 = res.n50 ∧
          (∀ j2, i ≤ j2 → j2 < j → (run n (ops.value j2)).1 < res.n50) ∧
          (∀ j2, i ≤ j2 → j2 ≤ ilast → (run n (ops.value j2)).1 ≤ res.n50))) := by
  intro fuel
  induction fuel with
  | zero => intro i acc st _ _ h; omega
  | succ fuel ih =>
    intro i acc st hst hfuel _
    unfold optimize_s_loop
    by_cases hi : i ≤ ilast
    · rw [if_pos hi]
      have hw : wrap32 (i + 1) = i + 1 := wrap32_of_lt _ (by omega)
      simp only [hw]
      obtain ⟨s1, s2, s3⟩ := optimize_s_step_spec run ops n i acc st hst
      have hf := hfuel hi
      obtain ⟨res, st1, r1, r2, r3, r4⟩ := ih (i + 1) _ _ s1 (fun _ => by omega) (by omega)
      refine ⟨res, st1, r1, r2, r3.trans s2, ?_⟩
      rcases s3 with ⟨a1, a2, a3⟩ | ⟨a1, a2, a3⟩
      · -- step i improves on the best so far
        rcases r4 with ⟨b1, b2, b3⟩ | ⟨b1, j, b2, b3, b4, b5, b6, b7⟩
        · right
          refine ⟨by omega, i, le_refl i, hi, by rw [b2, a2], by rw [b1, a3],
            fun j2 h1 h2 => by omega, fun j2 h1 h2 => ?_⟩
          by_cases hj : j2 = i
          · rw [hj, b1, a3]
          · have := b3 j2 (by omega) h2
            rw [b1]; exact this
        · right
          refine ⟨by omega, j, by omega, b3, b4, b5, fun j2 h1 h2 => ?_, fun j2 h1 h2 => ?_⟩
          · by_cases hj : j2 = i
            · rw [hj]; omega
            · exact b6 j2 (by omega) h2
          · by_cases hj : j2 = i
            · rw [hj]; omega
            · exact b7 j2 (by omega) h2
      · -- step i does not improve
        rcases r4 with ⟨b1, b2, b3⟩ | ⟨b1, j, b2, b3, b4, b5, b6, b7⟩
        · left
          refine ⟨by rw [b1, a3], by rw [b2, a2], fun j2 h1 h2 => ?_⟩
          by_cases hj : j2 = i
          · rw [hj]; exact a1
          · have := b3 j2 (by omega) h2
            rw [a3] at this; exact this
        · right
          refine ⟨by omega, j, by omega, b3, b4, b5, fun j2 h1 h2 => ?_, fun j2 h1 h2 => ?_⟩
          · by_cases hj : j2 = i
            · rw [hj]; omega
            · exact b6 j2 (by omega) h2
          · by_cases hj : j2 = i
            · rw [hj]; omega
            · exact b7 j2 (by omega) h2
    · rw [if_neg hi]
      exact ⟨acc, st, rfl, hst, rfl, Or.inl ⟨rfl, rfl, fun j h1 h2 => by omega⟩⟩

/-- `optimize_s` ends; it returns N50 0 and s = 0 when no step has a positive
N50, and otherwise the first step of the sweep that reaches the largest N50. -/
theorem optimize_s_spec (run : Nat → Nat → Nat × String) (ops : SweepOps)
    (n : Nat) (range : Nat × Nat) (st : SearchState)
    (hil : ops.index range.2 + 1 < 2 ^ 32) (hst : memoConsistent run st) :
    ∃ res st1, optimize_s run ops n range st = some (res, st1) ∧
      memoConsistent run st1 ∧ res.n = n ∧
      (∀ j, ops.index range.1 ≤ j → j ≤ ops.index range.2 →
        (run n (ops.value j)).1 ≤ res.n50) ∧
      ((res.n50 = 0 ∧ res.s = 0) ∨
       (0 < res.n50 ∧ ∃ j, ops.index range.1 ≤ j ∧ j ≤ ops.index range.2 ∧
          res.s = ops.value j ∧ (run n (ops.value j)).1 = res.n50 ∧
          (∀ j2, ops.index range.1 ≤ j2 → j2 < j → (run n (ops.value j2)).1 < res.n50))) := by
  obtain ⟨res, st1, r1, r2, r3, r4⟩ := optimize_s_loop_spec run ops n (ops.index range.2) hil
    (ops.index range.2 + 2) (ops.index range.1)
    { n := n, s := 0, n50 := 0, metrics := "" } st hst (fun _ => by omega) (by omega)
  refine ⟨res, st1, r1, r2, r3, ?_, ?_⟩
  · intro j h1 h2
    rcases r4 with ⟨b1, _, b3⟩ | ⟨_, _, _, _, _, _, _, b7⟩
    · rw [b1]; exact b3 j h1 h2
    · exact b7 j h1 h2
  · rcases r4 with ⟨b1, b2, _⟩ | ⟨b1, j, b2, b3, b4, b5, b6, _⟩
    · exact Or.inl ⟨b1, b2⟩
    · exact Or.inr ⟨b1, j, b2, b3, b4, b5, b6⟩

/-- The loop of `optimize_grid_search` from the value `n` on: it ends, and it
returns either the best so far (when no later grid point is better) or the
first later grid point that reaches the largest N50. -/
theorem gridLoop_spec (run : Nat → Nat → Nat × String) (ops : SweepOps) (step hi : Nat)
    (range : Nat × Nat) (hstep : 1 ≤ step) (hhi : hi + step < 2 ^ 32)
    (hil : ops.index range.2 + 1 < 2 ^ 32) :
    ∀ (fuel n : Nat) (acc : ScaffoldResult × String) (st : SearchState),
    memoConsistent run st → (n ≤ hi → hi + 2 ≤ fuel + n) → 1 ≤ fuel →
    ∃ res st1, gridLoop run ops step hi range fuel n acc st = some (res, st1) ∧
      memoConsistent run st1 ∧
      ((res.1.n50 = acc.1.n50 ∧ res.1.n = acc.1.n ∧ res.1.s = acc.1.s ∧
          ∀ k, n + k * step ≤ hi → ∀ j, ops.index range.1 ≤ j → j ≤ ops.index range.2 →
            (run (n + k * step) (ops.value j)).1 ≤ acc.1.n50) ∨
       (acc.1.n50 < res.1.n50 ∧ ∃ k, n + k * step ≤ hi ∧ res.1.n = n + k * step ∧
          ∃ j, ops.index range.1 ≤ j ∧ j ≤ ops.index range.2 ∧ res.1.s = ops.value j ∧
            (run res.1.n (ops.value j)).1 = res.1.n50 ∧
            (∀ j2, ops.index range.1 ≤ j2 → j2 < j →
              (run res.1.n (ops.value j2)).1 < res.1.n50) ∧
            (∀ k2, k2 < k → ∀ j2, ops.index range.1 ≤ j2 → j2 ≤ ops.index range.2 →
              (run (n + k2 * step) (ops.value j2)).1 < res.1.n50) ∧
            (∀ k2, n + k2 * step ≤ hi → ∀ j2, ops.index range.1 ≤ j2 →
              j2 ≤ ops.index range.2 →
              (run (n + k2 * step) (ops.value j2)).1 ≤ res.1.n50))) := by
  intro fuel
  induction fuel with
  | zero => intro n acc st _ _ h; omega
  | succ fuel ih =>
    intro n acc st hst hfuel _
    unfold gridLoop
    by_cases hn : n ≤ hi
    · rw [if_pos hn]
      have hw : wrap32 (n + step) = n + step := wrap32_of_lt _ (by omega)
      obtain ⟨r, st1, o1, o2, o3, omax, o4⟩ := optimize_s_spec run ops n range st hil hst
      simp only [o1, hw]
      have hf := hfuel hn
      have hshift : ∀ k, n + step + k * step = n + (k + 1) * step := by
        intro k; rw [Nat.add_mul, Nat.one_mul]; omega
      have hzero : n + 0 * step = n := by simp
      obtain ⟨res, st2, r1, r2, r4⟩ := ih (n + step)
        ((if r.n50 > acc.1.n50 then r else acc.1), acc.2 ++ r.metrics) st1 o2
        (fun _ => by omega) (by omega)
      refine ⟨res, st2, r1, r2, ?_⟩
      by_cases hc : r.n50 > acc.1.n50
      · -- the result for n improves on the best so far
        simp only [if_pos hc] at r4
        have hpos : 0 < r.n50 := by omega
        obtain ⟨j, p1, p2, p3, p4, p5⟩ : ∃ j, ops.index range.1 ≤ j ∧
            j ≤ ops.index range.2 ∧ r.s = ops.value j ∧ (run n (ops.value j)).1 = r.n50 ∧
            (∀ j2, ops.index range.1 ≤ j2 → j2 < j → (run n (ops.value j2)).1 < r.n50) := by
          rcases o4 with ⟨q, _⟩ | ⟨_, q⟩
          · omega
          · exact q
        rcases r4 with ⟨b1, b2, b3, b4⟩ | ⟨b1, k, b2, b3, j3, c1, c2, c3, c4, c5, c6, c7⟩
        · right
          refine ⟨by omega, 0, by omega, by rw [b2, o3, hzero], j, p1, p2, by rw [b3, p3], ?_,
            ?_, ?_, ?_⟩
          · rw [b2, o3, b1]; exact p4
          · intro j2 h1 h2; rw [b2, o3, b1]; exact p5 j2 h1 h2
          · intro k2 hk2; omega
          · intro k2 hk2 j2 h1 h2
            cases k2 with
            | zero => rw [hzero, b1]; exact omax j2 h1 h2
            | succ k3 =>
              rw [← hshift, b1]
              exact b4 k3 (by rw [hshift]; exact hk2) j2 h1 h2
        · right
          refine ⟨by omega, k + 1, by rw [← hshift]; exact b2, by rw [b3, hshift], j3, c1, c2,
            c3, c4, c5, ?_, ?_⟩
          · intro k2 hk2 j2 h1 h2
            cases k2 with
            | zero =>
              rw [hzero]
              have := omax j2 h1 h2
              omega
            | succ k3 =>
              rw [← hshift]
              exact c6 k3 (by omega) j2 h1 h2
          · intro k2 hk2 j2 h1 h2
            cases k2 with
            | zero =>
              rw [hzero]
              have := omax j2 h1 h2
              omega
            | succ k3 =>
              rw [← hshift]
              exact c7 k3 (by rw [hshift]; exact hk2) j2 h1 h2
      · -- the result for n does not improve
        simp only [if_neg hc] at r4
        rcases r4 with ⟨b1, b2, b3, b4⟩ | ⟨b1, k, b2, b3, j3, c1, c2, c3, c4, c5, c6, c7⟩
        · left
          refine ⟨b1, b2, b3, ?_⟩
          intro k2 hk2 j2 h1 h2
          cases k2 with
          | zero =>
            rw [hzero]
            have := omax j2 h1 h2
            omega
          | succ k3 =>
            rw [← hshift]
            exact b4 k3 (by rw [hshift]; exact hk2) j2 h1 h2
        · right
          refine ⟨b1, k + 1, by rw [← hshift]; exact b2, by rw [b3, hshift], j3, c1, c2,
            c3, c4, c5, ?_, ?_⟩
          · intro k2 hk2 j2 h1 h2
            cases k2 with
            | zero =>
              rw [hzero]
              have := omax j2 h1 h2
              omega
            | succ k3 =>
              rw [← hshift]
              exact c6 k3 (by omega) j2 h1 h2
          · intro k2 hk2 j2 h1 h2
            cases k2 with
            | zero =>
              rw [hzero]
              have := omax j2 h1 h2
              omega
            | succ k3 =>
              rw [← hshift]
              exact c7 k3 (by rw [hshift]; exact hk2) j2 h1 h2
    · rw [if_neg hn]
      refine ⟨acc, st, rfl, hst, Or.inl ⟨rfl, rfl, rfl, fun k hk => ?_⟩⟩
      have : n ≤ n + k * step := Nat.le_add_right _ _
      omega

theorem memoConsistent_empty (run : Nat → Nat → Nat × String) :
    memoConsistent run { memo := [], calls := [] } := by
  intro key r h
  simp [memoFind] at h

/-- Counterexample to C18 as stated: when the scaffolder gives N50 0 at every
grid point (n in 1..3, one seed length), `optimize_grid_search` returns n = 0
and s = 0, which is not one of the evaluated grid points. -/
theorem optimize_grid_search_all_zero :
    (optimize_grid_search runZero sweep1000 1 (1, 3) (1000, 1000)).map
        (fun r => (r.1.n, r.1.s, r.1.n50, r.2.calls))
      = some (0, 0, 0, [{ n := 1, s := 1000 }, { n := 2, s := 1000 }, { n := 3, s := 1000 }]) ∧
    (0 : Nat) ∉ [1, 2, 3] := by
  decide

/-- C18, amended: for a step of at least 1 (and bounds that do not wrap in
`unsigned`), `optimize_grid_search` ends and returns the largest N50 over the
evaluated grid points n = n_lo + k * step up to n_hi and the steps of the
sweep of s.  When that N50 is positive, the returned pair is an evaluated grid
point with that N50, with the smallest n among the points that reach it and,
for that n, the first step of the sweep that reaches it (the smallest such s
when the sweep does not decrease).  When every evaluated N50 is 0 it returns
n = 0 and s = 0. -/
theorem optimize_grid_search_spec (run : Nat → Nat → Nat × String) (ops : SweepOps)
    (step n_lo n_hi s_lo s_hi : Nat) (hstep : 1 ≤ step) (hhi : n_hi + step < 2 ^ 32)
    (hil : ops.index s_hi + 1 < 2 ^ 32) :
    ∃ res st, optimize_grid_search run ops step (n_lo, n_hi) (s_lo, s_hi) = some (res, st) ∧
      (∀ k j, n_lo + k * step ≤ n_hi → ops.index s_lo ≤ j → j ≤ ops.index s_hi →
        (run (n_lo + k * step) (ops.value j)).1 ≤ res.n50) ∧
      (0 < res.n50 → ∃ k j, n_lo + k * step ≤ n_hi ∧ res.n = n_lo + k * step ∧
        ops.index s_lo ≤ j ∧ j ≤ ops.index s_hi ∧ res.s = ops.value j ∧
        (run res.n res.s).1 = res.n50 ∧
        (∀ j2, ops.index s_lo ≤ j2 → j2 < j → (run res.n (ops.value j2)).1 < res.n50) ∧
        (∀ k2, k2 < k → ∀ j2, ops.index s_lo ≤ j2 → j2 ≤ ops.index s_hi →
          (run (n_lo + k2 * step) (ops.value j2)).1 < res.n50) ∧
        ((∀ a b, a ≤ b → ops.value a ≤ ops.value b) →
          ∀ j2, ops.index s_lo ≤ j2 → j2 ≤ ops.index s_hi →
            (run res.n (ops.value j2)).1 = res.n50 → res.s ≤ ops.value j2)) ∧
      (res.n50 = 0 → res.n = 0 ∧ res.s = 0) := by
  obtain ⟨res, st, r1, _, r4⟩ := gridLoop_spec run ops step n_hi (s_lo, s_hi) hstep hhi hil
    (n_hi + 2) n_lo ({ n := 0, s := 0, n50 := 0, metrics := "" }, "")
    { memo := [], calls := [] } (memoConsistent_empty run) (fun _ => by omega) (by omega)
  refine ⟨{ res.1 with metrics := res.2 }, st, ?_, ?_, ?_, ?_⟩
  · simp only [optimize_grid_search, r1]
  · intro k j hk h1 h2
    show (run (n_lo + k * step) (ops.value j)).1 ≤ res.1.n50
    rcases r4 with ⟨b1, _, _, b4⟩ | ⟨_, _, _, _, _, _, _, _, _, _, _, c7⟩
    · rw [b1]; exact b4 k hk j h1 h2
    · exact c7 k hk j h1 h2
  · intro hpos
    have hpos2 : 0 < res.1.n50 := hpos
    rcases r4 with ⟨b1, _, _, _⟩ | ⟨_, k, b2, b3, j, c1, c2, c3, c4, c5, c6, _⟩
    · have : res.1.n50 = 0 := b1
      omega
    · refine ⟨k, j, b2, b3, c1, c2, c3, ?_, c5, c6, ?_⟩
      · show (run res.1.n res.1.s).1 = res.1.n50
        rw [c3]; exact c4
      · intro hmono j2 h1 h2 h3
        show res.1.s ≤ ops.value j2
        rw [c3]
        apply hmono
        by_contra hlt
        have := c5 j2 h1 (by omega)
        have h3b : (run res.1.n (ops.value j2)).1 = res.1.n50 := h3
        omega
  · intro hz
    have hz2 : res.1.n50 = 0 := hz
    rcases r4 with ⟨_, b2, b3, _⟩ | ⟨b1, _⟩
    · exact ⟨b2, b3⟩
    · have : (0 : Nat) < res.1.n50 := b1
      omega

/-- Witness for C18 (amended): with N50 5000 at n = 2 and 3000 elsewhere, the
grid search over n in 1..3 returns n = 2. -/
theorem optimize_grid_search_spec_witness :
    (optimize_grid_search runPeak sweep1000 1 (1, 3) (1000, 1000)).map
        (fun r => (r.1.n, r.1.s, r.1.n50)) = some (2, 1000, 5000) ∧
    (∃ res st, optimize_grid_search runPeak sweep1000 1 (1, 3) (1000, 1000) = some (res, st) ∧
      (∀ k j, 1 + k * 1 ≤ 3 → sweep1000.index 1000 ≤ j → j ≤ sweep1000.index 1000 →
        (runPeak (1 + k * 1) (sweep1000.value j)).1 ≤ res.n50)) :=
  ⟨by decide,
   match optimize_grid_search_spec runPeak sweep1000 1 1 3 1000 1000 (by decide) (by decide)
       (by decide) with
   | ⟨res, st, h1, h2, _⟩ => ⟨res, st, h1, h2⟩⟩

theorem optimize_s_singleton (run : Nat → Nat → Nat × String) (ops : SweepOps)
    (n s : Nat) (st : SearchState) (hil : ops.index s + 1 < 2 ^ 32) :
    optimize_s run ops n (s, s) st
      = some (optimize_s_step run ops n (ops.index s)
          { n := n, s := 0, n50 := 0, metrics := "" } st) := by
  have hw : wrap32 (ops.index s + 1) = ops.index s + 1 := wrap32_of_lt _ hil
  have h1 : ¬ (ops.index s + 1 ≤ ops.index s) := by omega
  show optimize_s_loop run ops n (ops.index s) ((ops.index s + 1) + 1) (ops.index s) _ st = _
  rw [optimize_s_loop, if_pos (le_refl _), hw]
  show optimize_s_loop run ops n (ops.index s) ((ops.index s) + 1) (ops.index s + 1) _ _ = _
  rw [optimize_s_loop, if_neg h1]

theorem optimize_n_singleton (run : Nat → Nat → Nat × String) (step n s : Nat)
    (st : SearchState) (hstep : 1 ≤ step) (hn : n + step < 2 ^ 32) :
    optimize_n run step (n, n) s st
      = some (optimize_n_step run s n { n := 0, s := s, n50 := 0, metrics := "" } st) := by
  have hw : wrap32 (n + step) = n + step := wrap32_of_lt _ hn
  have h1 : ¬ (n + step ≤ n) := by omega
  show optimize_n_loop run step n s ((n + 1) + 1) n _ st = _
  rw [optimize_n_loop, if_pos (le_refl _), hw]
  show optimize_n_loop run step n s (n + 1) (n + step) _ _ = _
  rw [optimize_n_loop, if_neg h1]

theorem optimize_n_step_spec (run : Nat → Nat → Nat × String) (s n : Nat)
    (acc : ScaffoldResult) (st : SearchState) (h : memoConsistent run st)
    (hacc : acc.n50 = 0) :
    memoConsistent run (optimize_n_step run s n acc st).2 ∧
    (optimize_n_step run s n acc st).1.n50 = (run n s).1 := by
  obtain ⟨h1, h2⟩ := scaffold_memoized_consistent run n s st h
  unfold optimize_n_step
  simp only [h1]
  by_cases hc : (run n s).1 > acc.n50
  · rw [if_pos hc]; exact ⟨h2, rfl⟩
  · rw [if_neg hc]
    refine ⟨h2, ?_⟩
    show acc.n50 = (run n s).1
    omega

/-- The two static search functions on singleton ranges, an input that `main`
does not pass to them: for n = 1 and s = 1000 and a scaffolder whose N50 is 0
at s = 1000 and 1200 at s = 0, `optimize_grid_search` returns N50 0 while
`optimize_line_search`, which goes on to run the scaffolder at s = 0, returns
N50 1200. -/
theorem singleton_searches_differ :
    (optimize_grid_search runOnlyAtZero sweep1000 1 (1, 1) (1000, 1000)).map
        (fun r => (r.1.n, r.1.s, r.1.n50)) = some (0, 0, 0) ∧
    (optimize_line_search runOnlyAtZero sweep1000 1 (1, 1) (1000, 1000)).map
        (fun r => (r.1.n, r.1.s, r.1.n50, r.2.calls))
      = some (1, 0, 1200, [{ n := 1, s := 1000 }, { n := 1, s := 0 }]) := by
  decide

/-- The two static search functions on singleton ranges n_lo = n_hi = n and
s_lo = s_hi = s (step at least 1, n small enough for `unsigned`), an input that
`main` does not pass to them: both end; the grid search returns the N50 of the
one evaluated point (n, s1), s1 being the seed length of the sweep.  The line
search returns the same N50 when that N50 is positive (or s = 0); when it is 0
the line search also runs the scaffolder at the seed length 0 and returns the
N50 found there. -/
theorem singleton_search_spec (run : Nat → Nat → Nat × String) (ops : SweepOps)
    (step n s : Nat) (hstep : 1 ≤ step) (hn1 : n + step < 2 ^ 32) (hn2 : n + n < 2 ^ 32)
    (hil : ops.index s + 1 < 2 ^ 32) :
    ∃ rg stg rl stl,
      optimize_grid_search run ops step (n, n) (s, s) = some (rg, stg) ∧
      optimize_line_search run ops step (n, n) (s, s) = some (rl, stl) ∧
      rg.n50 = (run n (ops.value (ops.index s))).1 ∧
      rl.n50 = (if (run n (ops.value (ops.index s))).1 = 0 ∧ s ≠ 0 then (run n 0).1
                else (run n (ops.value (ops.index s))).1) ∧
      ((0 < (run n (ops.value (ops.index s))).1 ∨ (run n 0).1 = 0 ∨ s = 0) →
        rg.n50 = rl.n50) := by
  have hst0 := memoConsistent_empty run
  -- the one call of optimize_s
  obtain ⟨c1, c2, c3⟩ := optimize_s_step_spec run ops n (ops.index s)
    { n := n, s := 0, n50 := 0, metrics := "" } { memo := [], calls := [] } hst0
  have hS := optimize_s_singleton run ops n s { memo := [], calls := [] } hil
  have hv : (optimize_s_step run ops n (ops.index s)
      { n := n, s := 0, n50 := 0, metrics := "" } { memo := [], calls := [] }).1.n50
      = (run n (ops.value (ops.index s))).1 := by
    rcases c3 with ⟨_, _, a3⟩ | ⟨a1, _, a3⟩
    · exact a3
    · rw [a3]
      have : (run n (ops.value (ops.index s))).1 ≤ 0 := a1
      show 0 = _
      omega
  -- grid search
  have hw : wrap32 (n + step) = n + step := wrap32_of_lt _ hn1
  have hnot : ¬ (n + step ≤ n) := by omega
  have hgrid : ∃ rg stg, optimize_grid_search run ops step (n, n) (s, s) = some (rg, stg) ∧
      rg.n50 = (run n (ops.value (ops.index s))).1 := by
    have e : gridLoop run ops step n (s, s) ((n + 1) + 1) n
        ({ n := 0, s := 0, n50 := 0, metrics := "" }, "") { memo := [], calls := [] }
        = some ((if (optimize_s_step run ops n (ops.index s)
              { n := n, s := 0, n50 := 0, metrics := "" } { memo := [], calls := [] }).1.n50 > 0
            then (optimize_s_step run ops n (ops.index s)
              { n := n, s := 0, n50 := 0, metrics := "" } { memo := [], calls := [] }).1
            else { n := 0, s := 0, n50 := 0, metrics := "" },
            "" ++ (optimize_s_step run ops n (ops.index s)
              { n := n, s := 0, n50 := 0, metrics := "" }
              { memo := [], calls := [] }).1.metrics),
          (optimize_s_step run ops n (ops.index s)
              { n := n, s := 0, n50 := 0, metrics := "" } { memo := [], calls := [] }).2) := by
      rw [gridLoop, if_pos (le_refl _), hS]
      simp only [hw]
      rw [gridLoop, if_neg hnot]
    refine ⟨_, _, by
      show (match gridLoop run ops step n (s, s) ((n + 1) + 1) n _ _ with
        | none => none
        | some (acc, st) => some ({ acc.1 with metrics := acc.2 }, st)) = _
      rw [e], ?_⟩
    show (if _ then _ else _ : ScaffoldResult).n50 = _
    by_cases hpos : (optimize_s_step run ops n (ops.index s)
        { n := n, s := 0, n50 := 0, metrics := "" } { memo := [], calls := [] }).1.n50 > 0
    · rw [if_pos hpos]; exact hv
    · rw [if_neg hpos]
      show 0 = _
      rw [← hv]; omega
  -- line search
  have hmid : wrap32 (n + n) / 2 = n := by
    rw [wrap32_of_lt _ hn2]; omega
  have hmax : wrap32 (1 + wrap32 (n + 2 ^ 32 - n) / step) = 1 := by
    have : wrap32 (n + 2 ^ 32 - n) = 0 := by
      have : n + 2 ^ 32 - n = 2 ^ 32 := by omega
      rw [this]; rfl
    rw [this, Nat.zero_div]; rfl
  have hloop : ∃ acc stl, lineLoop run ops step (n, n) (s, s) (0 + 1)
        ({ n := n, s := s, n50 := 0, metrics := "" }, "") { memo := [], calls := [] }
        = some (acc, stl) ∧
      acc.1.n50 = (if (run n (ops.value (ops.index s))).1 = 0 ∧ s ≠ 0 then (run n 0).1
                else (run n (ops.value (ops.index s))).1) := by
    rw [lineLoop]
    simp only [hS]
    by_cases hsame : (optimize_s_step run ops n (ops.index s)
        { n := n, s := 0, n50 := 0, metrics := "" } { memo := [], calls := [] }).1.s = s
    · rw [if_pos hsame]
      refine ⟨_, _, rfl, ?_⟩
      show (optimize_s_step run ops n (ops.index s)
        { n := n, s := 0, n50 := 0, metrics := "" } { memo := [], calls := [] }).1.n50 = _
      rw [hv]
      by_cases hz : (run n (ops.value (ops.index s))).1 = 0 ∧ s ≠ 0
      · exfalso
        rcases c3 with ⟨a1, _, _⟩ | ⟨_, a2, _⟩
        · have : 0 < (run n (ops.value (ops.index s))).1 := a1
          omega
        · rw [a2] at hsame
          exact hz.2 hsame.symm
      · rw [if_neg hz]
    · rw [if_neg hsame]
      have hN := optimize_n_singleton run step n
        (optimize_s_step run ops n (ops.index s)
          { n := n, s := 0, n50 := 0, metrics := "" } { memo := [], calls := [] }).1.s
        (optimize_s_step run ops n (ops.index s)
          { n := n, s := 0, n50 := 0, metrics := "" } { memo := [], calls := [] }).2 hstep hn1
      simp only [hN]
      obtain ⟨_, d2⟩ := optimize_n_step_spec run
        (optimize_s_step run ops n (ops.index s)
          { n := n, s := 0, n50 := 0, metrics := "" } { memo := [], calls := [] }).1.s n
        { n := 0, s := (optimize_s_step run ops n (ops.index s)
          { n := n, s := 0, n50 := 0, metrics := "" } { memo := [], calls := [] }).1.s,
          n50 := 0, metrics := "" }
        (optimize_s_step run ops n (ops.index s)
          { n := n, s := 0, n50 := 0, metrics := "" } { memo := [], calls := [] }).2 c1 rfl
      have hres : (optimize_n_step run
          (optimize_s_step run ops n (ops.index s)
            { n := n, s := 0, n50 := 0, metrics := "" } { memo := [], calls := [] }).1.s n
          { n := 0, s := (optimize_s_step run ops n (ops.index s)
            { n := n, s := 0, n50 := 0, metrics := "" } { memo := [], calls := [] }).1.s,
            n50 := 0, metrics := "" }
          (optimize_s_step run ops n (ops.index s)
            { n := n, s := 0, n50 := 0, metrics := "" } { memo := [], calls := [] }).2).1.n50
          = (if (run n (ops.value (ops.index s))).1 = 0 ∧ s ≠ 0 then (run n 0).1
             else (run n (ops.value (ops.index s))).1) := by
        rw [d2]
        rcases c3 with ⟨a1, a2, _⟩ | ⟨a1, a2, _⟩
        · have hp : 0 < (run n (ops.value (ops.index s))).1 := a1
          have hz : ¬ ((run n (ops.value (ops.index s))).1 = 0 ∧ s ≠ 0) := by omega
          rw [if_neg hz, a2]
        · have hz0 : (run n (ops.value (ops.index s))).1 = 0 := by
            have : (run n (ops.value (ops.index s))).1 ≤ 0 := a1
            omega
          have hs0 : s ≠ 0 := by
            intro h0
            apply hsame
            rw [a2, h0]
          rw [if_pos ⟨hz0, hs0⟩, a2]
      by_cases hb : (optimize_n_step run
          (optimize_s_step run ops n (ops.index s)
            { n := n, s := 0, n50 := 0, metrics := "" } { memo := [], calls := [] }).1.s n
          { n := 0, s := (optimize_s_step run ops n (ops.index s)
            { n := n, s := 0, n50 := 0, metrics := "" } { memo := [], calls := [] }).1.s,
            n50 := 0, metrics := "" }
          (optimize_s_step run ops n (ops.index s)
            { n := n, s := 0, n50 := 0, metrics := "" } { memo := [], calls := [] }).2).1.n
          = (optimize_s_step run ops n (ops.index s)
            { n := n, s := 0, n50 := 0, metrics := "" } { memo := [], calls := [] }).1.n
      · rw [if_pos hb]
        exact ⟨_, _, rfl, hres⟩
      · rw [if_neg hb, lineLoop]
        exact ⟨_, _, rfl, hres⟩
  have hline : ∃ rl stl, optimize_line_search run ops step (n, n) (s, s) = some (rl, stl) ∧
      rl.n50 = (if (run n (ops.value (ops.index s))).1 = 0 ∧ s ≠ 0 then (run n 0).1
                else (run n (ops.value (ops.index s))).1) := by
    obtain ⟨acc, stl, e1, e2⟩ := hloop
    refine ⟨{ acc.1 with metrics := acc.2 }, stl, ?_, e2⟩
    show (match lineLoop run ops step (n, n) (s, s)
        (wrap32 (1 + wrap32 (n + 2 ^ 32 - n) / step))
        ({ n := wrap32 (n + n) / 2, s := s, n50 := 0, metrics := "" }, "")
        { memo := [], calls := [] } with
      | none => none
      | some (acc, st) => some ({ acc.1 with metrics := acc.2 }, st)) = _
    rw [hmid, hmax, e1]
  obtain ⟨rg, stg, g1, g2⟩ := hgrid
  obtain ⟨rl, stl, l1, l2⟩ := hline
  refine ⟨rg, stg, rl, stl, g1, l1, g2, l2, ?_⟩
  intro hcond
  rw [g2, l2]
  by_cases hz : (run n (ops.value (ops.index s))).1 = 0 ∧ s ≠ 0
  · rw [if_pos hz]
    rcases hcond with h | h | h
    · omega
    · rw [h, hz.1]
    · exact absurd h hz.2
  · rw [if_neg hz]

/-- An instance of `singleton_search_spec`: with a positive N50 at the one grid
point both static search functions return it. -/
theorem singleton_search_spec_witness :
    (optimize_grid_search runPeak sweep1000 1 (2, 2) (1000, 1000)).map
        (fun r => r.1.n50) = some 5000 ∧
    (optimize_line_search runPeak sweep1000 1 (2, 2) (1000, 1000)).map
        (fun r => r.1.n50) = some 5000 ∧
    (∃ rg stg rl stl,
      optimize_grid_search runPeak sweep1000 1 (2, 2) (1000, 1000) = some (rg, stg) ∧
      optimize_line_search runPeak sweep1000 1 (2, 2) (1000, 1000) = some (rl, stl) ∧
      rg.n50 = rl.n50) :=
  ⟨by decide, by decide,
   match singleton_search_spec runPeak sweep1000 1 2 1000 (by decide) (by decide)
       (by decide) (by decide) with
   | ⟨rg, stg, rl, stl, h1, h2, _, _, h5⟩ =>
     ⟨rg, stg, rl, stl, h1, h2, h5 (Or.inl (by decide))⟩⟩

end ParameterSearch

section ScaffoldLengths
open Graph Scaffold

/-- Counterexample to C27 as stated: for two contigs of length 2000 joined by
an edge of distance -2000, the overlap 2000 is not strictly larger than either
length, and `InvalidEdge` is true. -/
theorem InvalidEdge_full_overlap :
    InvalidEdge fullOverlapExample ⟨⟨1, true⟩, ⟨2, true⟩, ⟨-2000, 5, 10⟩⟩ = true ∧
    ¬ ((fullOverlapExample.length ⟨1, true⟩ : Int) < -(-2000 : Int)) ∧
    ¬ ((fullOverlapExample.length ⟨2, true⟩ : Int) < -(-2000 : Int)) := by
  decide

/-- C27, amended: for contig lengths below 2^31 and a distance that is an
`int` whose sums with the two lengths do not overflow, `InvalidEdge(e)` is true
if and only if the overlap of e (the value -distance) is at least the length of
the source contig or at least the length of the target contig. -/
theorem InvalidEdge_iff (g : Graph) (e : Edge)
    (hu : (g.length e.source : Int) < 2 ^ 31) (hv : (g.length e.target : Int) < 2 ^ 31)
    (hd : -(2 ^ 31) ≤ e.ep.distance)
    (hsu : e.ep.distance + (g.length e.source : Int) < 2 ^ 31)
    (hsv : e.ep.distance + (g.length e.target : Int) < 2 ^ 31) :
    InvalidEdge g e = true ↔
      ((g.length e.source : Int) ≤ -e.ep.distance ∨
       (g.length e.target : Int) ≤ -e.ep.distance) := by
  have cu : toInt32 (g.length e.source : Int) = (g.length e.source : Int) :=
    toInt32_of_range _ (Int.ofNat_nonneg _) hu
  have cv : toInt32 (g.length e.target : Int) = (g.length e.target : Int) :=
    toInt32_of_range _ (Int.ofNat_nonneg _) hv
  have wrap : ∀ z : Int, -(2 ^ 31) ≤ z → z < 2 ^ 31 → toInt32 z = z := by
    intro z h1 h2
    unfold toInt32
    have : (z + 2 ^ 31) % 2 ^ 32 = z + 2 ^ 31 := by
      apply Int.emod_eq_of_lt <;> omega
    rw [this]; omega
  have hnu : (0 : Int) ≤ (g.length e.source : Int) := Int.ofNat_nonneg _
  have hnv : (0 : Int) ≤ (g.length e.target : Int) := Int.ofNat_nonneg _
  have su := wrap (e.ep.distance + (g.length e.source : Int)) (by omega) hsu
  have sv := wrap (e.ep.distance + (g.length e.target : Int)) (by omega) hsv
  simp only [InvalidEdge, decide_eq_true_eq, cu, cv, su, sv]
  constructor
  · rintro (h | h)
    · left; omega
    · right; omega
  · rintro (h | h)
    · left; omega
    · right; omega

/-- Witness for C27: in the example the edge of distance -2000 between contigs
of length 2000 is invalid, and the overlap 2000 is at least the length of the
source. -/
theorem InvalidEdge_iff_witness :
    InvalidEdge fullOverlapExample ⟨⟨1, true⟩, ⟨2, true⟩, ⟨-2000, 5, 10⟩⟩ = true ∧
    (InvalidEdge fullOverlapExample ⟨⟨1, true⟩, ⟨2, true⟩, ⟨-2000, 5, 10⟩⟩ = true ↔
      ((fullOverlapExample.length ⟨1, true⟩ : Int) ≤ -(-2000 : Int) ∨
       (fullOverlapExample.length ⟨2, true⟩ : Int) ≤ -(-2000 : Int))) :=
  ⟨by decide,
    InvalidEdge_iff fullOverlapExample ⟨⟨1, true⟩, ⟨2, true⟩, ⟨-2000, 5, 10⟩⟩
      (by decide) (by decide) (by decide) (by decide) (by decide)⟩

/-- The conversion to `int` in `InvalidEdge`: a contig of 3000000000 bases has
the `int` length -1294967296, and an edge of distance 100 at it is invalid. -/
theorem InvalidEdge_long_contig :
    toInt32 3000000000 = -1294967296 ∧
    InvalidEdge { vertices := [], length := fun _ => 3000000000, removed := [], edges := [] }
      ⟨⟨1, true⟩, ⟨2, true⟩, ⟨100, 5, 10⟩⟩ = true := by
  decide

theorem addLength_step (length L : Nat) (z m : Int) (h : (length : Int) = z % 2 ^ 32) :
    ((wrap32 (wrap32 (length + toUInt32 m) + L) : Nat) : Int) = (z + m + (L : Int)) % 2 ^ 32 := by
  have hm : ((toUInt32 m : Nat) : Int) = m % 2 ^ 32 := by
    unfold toUInt32
    exact Int.toNat_of_nonneg (Int.emod_nonneg _ (by decide))
  unfold wrap32
  push_cast
  rw [hm, h]
  omega

theorem addLengthLoop_spec (g : Graph) :
    ∀ (rest : List ContigNode) (u : ContigNode) (length : Nat) (z : Int),
    (length : Int) = z % 2 ^ 32 →
    (∀ p ∈ (u :: rest).zip rest, (edge p.1 p.2 g).isSome = true) →
    addLengthLoop g u rest length
      = some ((z - (g.length u : Int) + scaffoldLength g u rest) % 2 ^ 32).toNat := by
  intro rest
  induction rest with
  | nil =>
    intro u length z h _
    simp only [addLengthLoop, scaffoldLength]
    have : z - (g.length u : Int) + (g.length u : Int) = z := by omega
    rw [this, ← h]
    rfl
  | cons v rest ih =>
    intro u length z h hedges
    have h1 := hedges (u, v) (by simp)
    cases he : edge u v g with
    | none => rw [he] at h1; exact absurd h1 (by decide)
    | some e =>
      simp only [addLengthLoop, scaffoldLength, he]
      rw [ih v _ (z + min 0 e.ep.distance + (g.length v : Int))
        (addLength_step length (g.length v) z (min 0 e.ep.distance) h)
        (fun p hp => hedges p (by
          rw [List.zip_cons_cons]
          exact List.mem_cons_of_mem _ hp))]
      congr 2
      omega

/-- C30: over a non-empty path whose consecutive vertices are joined by edges,
`addLength` returns the sum of the lengths of the vertices plus the sum over
consecutive pairs of min(0, distance), in unsigned 32-bit arithmetic; a
one-vertex path returns the length of its vertex. -/
theorem addLength_spec (g : Graph) (first : ContigNode) (rest : List ContigNode)
    (hedges : ∀ p ∈ (first :: rest).zip rest, (edge p.1 p.2 g).isSome = true) :
    addLength g (first :: rest) = some ((scaffoldLength g first rest) % 2 ^ 32).toNat ∧
    (g.length first < 2 ^ 32 → addLength g [first] = some (g.length first)) := by
  constructor
  · have h0 : ((wrap32 (g.length first) : Nat) : Int) = (g.length first : Int) % 2 ^ 32 := by
      unfold wrap32
      push_cast
      rfl
    have := addLengthLoop_spec g rest first (wrap32 (g.length first)) (g.length first) h0 hedges
    rw [show addLength g (first :: rest)
      = addLengthLoop g first rest (wrap32 (g.length first)) from rfl, this]
    congr 2
    omega
  · intro h
    show some (wrap32 (g.length first)) = _
    rw [wrap32_of_lt _ h]

/-- Witness for C30: contigs 1 and 2 of length 2000 with a gap of 100 give
4000, and with an overlap of 2000 they give 2000. -/
theorem addLength_spec_witness :
    addLength scenarioGraph [⟨1, true⟩, ⟨2, true⟩] = some 4000 ∧
    addLength fullOverlapExample [⟨1, true⟩, ⟨2, true⟩] = some 2000 :=
  ⟨(addLength_spec scenarioGraph ⟨1, true⟩ [⟨2, true⟩] (by decide)).1,
   (addLength_spec fullOverlapExample ⟨1, true⟩ [⟨2, true⟩] (by decide)).1⟩

end ScaffoldLengths

section SearchResources
open Scaffold

theorem memoFind_cons_isSome (key : ScaffoldParam) (r : ScaffoldResult)
    (memo : List (ScaffoldParam × ScaffoldResult)) (key2 : ScaffoldParam)
    (h : key2 = key ∨ (memoFind memo key2).isSome = true) :
    (memoFind ((key, r) :: memo) key2).isSome = true := by
  simp only [memoFind]
  by_cases hk : key = key2
  · rw [if_pos hk]; rfl
  · rw [if_neg hk]
    rcases h with h | h
    · exact absurd h.symm hk
    · exact h

theorem scaffold_memoized_tracked (run : Nat → Nat → Nat × String)
    (P : ScaffoldParam → Prop) (n s : Nat) (st : SearchState)
    (h : callsTracked P st) (hP : P { n := n, s := s }) :
    callsTracked P (scaffold_memoized run n s st).2 := by
  cases hf : memoFind st.memo { n := n, s := s } with
  | some found =>
    rw [scaffold_memoized_hit run n s st found hf]
    exact h
  | none =>
    rw [scaffold_memoized_miss run n s st hf]
    obtain ⟨h1, h2, h3⟩ := h
    have hnot : ({ n := n, s := s } : ScaffoldParam) ∉ st.calls := by
      intro hmem
      have := h2 _ hmem
      rw [hf] at this
      exact absurd this (by decide)
    refine ⟨?_, ?_, ?_⟩
    · show (st.calls ++ [({ n := n, s := s } : ScaffoldParam)]).Nodup
      rw [List.nodup_append]
      refine ⟨h1, List.nodup_singleton _, ?_⟩
      intro a ha hb
      rw [List.mem_singleton] at hb
      rw [hb] at ha
      exact hnot ha
    · intro key hkey
      have hkey2 : key ∈ st.calls ++ [({ n := n, s := s } : ScaffoldParam)] := hkey
      rw [List.mem_append, List.mem_singleton] at hkey2
      apply memoFind_cons_isSome
      rcases hkey2 with hk | hk
      · exact Or.inr (h2 key hk)
      · exact Or.inl hk
    · intro key hkey
      have hkey2 : key ∈ st.calls ++ [({ n := n, s := s } : ScaffoldParam)] := hkey
      rw [List.mem_append, List.mem_singleton] at hkey2
      rcases hkey2 with hk | hk
      · exact h3 key hk
      · rw [hk]; exact hP

theorem optimize_s_step_tracked (run : Nat → Nat → Nat × String) (ops : SweepOps)
    (P : ScaffoldParam → Prop) (n i : Nat) (acc : ScaffoldResult) (st : SearchState)
    (h : callsTracked P st) (hP : P { n := n, s := ops.value i }) :
    callsTracked P (optimize_s_step run ops n i acc st).2 := by
  have := scaffold_memoized_tracked run P n (ops.value i) st h hP
  unfold optimize_s_step
  simp only
  split
  · exact this
  · exact this

theorem optimize_s_loop_tracked (run : Nat → Nat → Nat × String) (ops : SweepOps)
    (P : ScaffoldParam → Prop) (n ilast : Nat) (hil : ilast + 1 < 2 ^ 32) :
    ∀ (fuel i : Nat) (acc : ScaffoldResult) (st : SearchState)
      (out : ScaffoldResult × SearchState),
    callsTracked P st → (∀ j, i ≤ j → j ≤ ilast → P { n := n, s := ops.value j }) →
    optimize_s_loop run ops n ilast fuel i acc st = some out →
    callsTracked P out.2 := by
  intro fuel
  induction fuel with
  | zero =>
    intro i acc st out _ _ h
    simp [optimize_s_loop] at h
  | succ fuel ih =>
    intro i acc st out hst hP h
    unfold optimize_s_loop at h
    by_cases hi : i ≤ ilast
    · rw [if_pos hi] at h
      have hw : wrap32 (i + 1) = i + 1 := wrap32_of_lt _ (by omega)
      simp only [hw] at h
      exact ih (i + 1) _ _ out
        (optimize_s_step_tracked run ops P n i acc st hst (hP i (le_refl i) hi))
        (fun j h1 h2 => hP j (by omega) h2) h
    · rw [if_neg hi] at h
      have := Option.some.inj h
      rw [← this]
      exact hst

theorem gridLoop_tracked (run : Nat → Nat → Nat × String) (ops : SweepOps)
    (step n_lo hi : Nat) (range : Nat × Nat) (hhi : hi + step < 2 ^ 32)
    (hil : ops.index range.2 + 1 < 2 ^ 32) :
    ∀ (fuel n : Nat) (acc : ScaffoldResult × String) (st : SearchState)
      (out : (ScaffoldResult × String) × SearchState),
    callsTracked (gridPoint ops step n_lo hi range.1 range.2) st →
    (∃ k, n = n_lo + k * step) →
    gridLoop run ops step hi range fuel n acc st = some out →
    callsTracked (gridPoint ops step n_lo hi range.1 range.2) out.2 := by
  intro fuel
  induction fuel with
  | zero =>
    intro n acc st out _ _ h
    simp [gridLoop] at h
  | succ fuel ih =>
    intro n acc st out hst hk h
    unfold gridLoop at h
    by_cases hn : n ≤ hi
    · rw [if_pos hn] at h
      have hw : wrap32 (n + step) = n + step := wrap32_of_lt _ (by omega)
      cases ho : optimize_s run ops n range st with
      | none => rw [ho] at h; exact absurd h (by simp)
      | some r =>
        obtain ⟨result, st1⟩ := r
        rw [ho] at h
        simp only [hw] at h
        obtain ⟨k, hk⟩ := hk
        have hst1 : callsTracked (gridPoint ops step n_lo hi range.1 range.2) st1 :=
          optimize_s_loop_tracked run ops _ n (ops.index range.2) hil _ _ _ _
            (result, st1) hst
            (fun j h1 h2 => ⟨⟨k, hk, hn⟩, ⟨j, h1, h2, rfl⟩⟩) ho
        exact ih (n + step) _ st1 out hst1 ⟨k + 1, by rw [hk, Nat.add_mul]; omega⟩ h
    · rw [if_neg hn] at h
      have := Option.some.inj h
      rw [← this]
      exact hst

theorem callsTracked_empty (P : ScaffoldParam → Prop) :
    callsTracked P { memo := [], calls := [] } :=
  ⟨List.nodup_nil, fun _ h => absurd h (List.not_mem_nil _),
   fun _ h => absurd h (List.not_mem_nil _)⟩

theorem gridPoint_count (ops : SweepOps) (step n_lo n_hi s_lo s_hi : Nat) (hstep : 1 ≤ step)
    (calls : List ScaffoldParam) (hnd : calls.Nodup)
    (hgrid : ∀ key ∈ calls, gridPoint ops step n_lo n_hi s_lo s_hi key) :
    calls.length ≤ ((n_hi - n_lo) / step + 1) * (ops.index s_hi - ops.index s_lo + 1) := by
  have hinj : Function.Injective (fun c : ScaffoldParam => (c.n, c.s)) := by
    intro a b hab
    cases a; cases b
    simp only [Prod.mk.injEq] at hab
    simp only [ScaffoldParam.mk.injEq]
    exact hab
  have hsub : calls.map (fun c : ScaffoldParam => (c.n, c.s)) ⊆
      ((List.range ((n_hi - n_lo) / step + 1)).map (fun k => n_lo + k * step)) ×ˢ
        ((List.range (ops.index s_hi - ops.index s_lo + 1)).map
          (fun d => ops.value (ops.index s_lo + d))) := by
    intro p hp
    rw [List.mem_map] at hp
    obtain ⟨c, hc, rfl⟩ := hp
    obtain ⟨⟨k, hk1, hk2⟩, ⟨j, hj1, hj2, hj3⟩⟩ := hgrid c hc
    rw [List.mem_product]
    constructor
    · rw [List.mem_map]
      refine ⟨k, ?_, hk1.symm⟩
      rw [List.mem_range]
      have : k * step ≤ n_hi - n_lo := by omega
      have := (Nat.le_div_iff_mul_le (by omega : 0 < step)).mpr this
      omega
    · rw [List.mem_map]
      refine ⟨j - ops.index s_lo, ?_, ?_⟩
      · rw [List.mem_range]; omega
      · show ops.value (ops.index s_lo + (j - ops.index s_lo)) = c.s
        rw [hj3]
        congr 1
        omega
  have := ((hnd.map hinj).subperm hsub).length_le
  rw [List.length_map, List.length_product, List.length_map, List.length_map,
    List.length_range, List.length_range] at this
  exact this

/-- C28: in `optimize_grid_search` (step at least 1, bounds that do not wrap)
no (n, s) pair is run twice by the scaffolder, every pair that is run is a
point of the grid, and the number of runs is at most the number of n values
times the number of steps of the sweep of s. -/
theorem optimize_grid_search_calls (run : Nat → Nat → Nat × String) (ops : SweepOps)
    (step n_lo n_hi s_lo s_hi : Nat) (hstep : 1 ≤ step) (hhi : n_hi + step < 2 ^ 32)
    (hil : ops.index s_hi + 1 < 2 ^ 32) :
    ∃ res st, optimize_grid_search run ops step (n_lo, n_hi) (s_lo, s_hi) = some (res, st) ∧
      st.calls.Nodup ∧
      (∀ key ∈ st.calls, gridPoint ops step n_lo n_hi s_lo s_hi key) ∧
      st.calls.length
        ≤ ((n_hi - n_lo) / step + 1) * (ops.index s_hi - ops.index s_lo + 1) := by
  obtain ⟨res, st, r1, _, _⟩ := gridLoop_spec run ops step n_hi (s_lo, s_hi) hstep hhi hil
    (n_hi + 2) n_lo ({ n := 0, s := 0, n50 := 0, metrics := "" }, "")
    { memo := [], calls := [] } (memoConsistent_empty run) (fun _ => by omega) (by omega)
  obtain ⟨t1, _, t3⟩ := gridLoop_tracked run ops step n_lo n_hi (s_lo, s_hi) hhi hil
    (n_hi + 2) n_lo _ _ (res, st) (callsTracked_empty _) ⟨0, by omega⟩ r1
  refine ⟨{ res.1 with metrics := res.2 }, st, ?_, t1, t3, ?_⟩
  · simp only [optimize_grid_search, r1]
  · exact gridPoint_count ops step n_lo n_hi s_lo s_hi hstep st.calls t1 t3

/-- Witness for C28: for n in 1, 2, 3 and the seed lengths swept over 500-1000
(the steps 8 and 9, seed lengths 500 and 1000) the scaffolder is run at most 6
times. -/
theorem optimize_grid_search_calls_witness :
    exactSweep.index 500 = 8 ∧ exactSweep.index 1000 = 9 ∧
    exactSweep.value 8 = 500 ∧ exactSweep.value 9 = 1000 ∧
    ∃ res st, optimize_grid_search runPeak exactSweep 1 (1, 3) (500, 1000) = some (res, st) ∧
      st.calls.Nodup ∧ st.calls.length ≤ 6 :=
  ⟨by decide, by decide, by decide, by decide,
   match optimize_grid_search_calls runPeak exactSweep 1 1 3 500 1000 (by decide) (by decide)
       (by decide) with
   | ⟨res, st, h1, h2, _, h4⟩ => ⟨res, st, h1, h2, h4⟩⟩

end SearchResources

section LineSearch
open Scaffold

/-- Counterexample to C22 as stated: for the range 600-700 the steps of the
sweep are 8 and 9 and the scaffolder is run at the seed lengths 500 and 1000,
both outside the range; the seed length returned is 500 when the N50 is
positive and 0 when every N50 is 0. -/
theorem optimize_s_outside_range :
    exactSweep.index 600 = 8 ∧ exactSweep.index 700 = 9 ∧
    (optimize_s runPeak exactSweep 1 (600, 700) { memo := [], calls := [] }).map
        (fun r => (r.1.s, r.2.calls))
      = some (500, [{ n := 1, s := 500 }, { n := 1, s := 1000 }]) ∧
    (optimize_s runZero exactSweep 1 (600, 700) { memo := [], calls := [] }).map
        (fun r => (r.1.s, r.2.calls))
      = some (0, [{ n := 1, s := 500 }, { n := 1, s := 1000 }]) ∧
    ¬ (600 ≤ 500) ∧ ¬ (1000 ≤ 700) ∧ ¬ (600 ≤ 0) := by
  decide

theorem optimize_s_loop_terminates (run : Nat → Nat → Nat × String) (ops : SweepOps)
    (n ilast : Nat) (hil : ilast + 1 < 2 ^ 32) :
    ∀ (fuel i : Nat) (acc : ScaffoldResult) (st : SearchState),
    (i ≤ ilast → ilast + 2 ≤ fuel + i) → 1 ≤ fuel →
    ∃ res st1, optimize_s_loop run ops n ilast fuel i acc st = some (res, st1) ∧
      res.n = acc.n := by
  intro fuel
  induction fuel with
  | zero => intro i acc st _ h; omega
  | succ fuel ih =>
    intro i acc st hfuel _
    unfold optimize_s_loop
    by_cases hi : i ≤ ilast
    · rw [if_pos hi]
      have hw : wrap32 (i + 1) = i + 1 := wrap32_of_lt _ (by omega)
      simp only [hw]
      have hf := hfuel hi
      obtain ⟨res, st1, r1, r2⟩ := ih (i + 1) (optimize_s_step run ops n i acc st).1
        (optimize_s_step run ops n i acc st).2 (fun _ => by omega) (by omega)
      refine ⟨res, st1, r1, r2.trans ?_⟩
      unfold optimize_s_step
      simp only
      split <;> rfl
    · rw [if_neg hi]
      exact ⟨acc, st, rfl, rfl⟩

theorem optimize_s_terminates (run : Nat → Nat → Nat × String) (ops : SweepOps)
    (n : Nat) (range : Nat × Nat) (st : SearchState)
    (hil : ops.index range.2 + 1 < 2 ^ 32) :
    ∃ res st1, optimize_s run ops n range st = some (res, st1) ∧ res.n = n :=
  optimize_s_loop_terminates run ops n (ops.index range.2) hil (ops.index range.2 + 2)
    (ops.index range.1) { n := n, s := 0, n50 := 0, metrics := "" } st
    (fun _ => by omega) (by omega)

theorem optimize_n_loop_terminates (run : Nat → Nat → Nat × String) (step hi s : Nat)
    (hstep : 1 ≤ step) (hhi : hi + step < 2 ^ 32) :
    ∀ (fuel n : Nat) (acc : ScaffoldResult) (st : SearchState),
    (n ≤ hi → hi + 2 ≤ fuel + n) → 1 ≤ fuel →
    ∃ res st1, optimize_n_loop run step hi s fuel n acc st = some (res, st1) ∧
      res.s = acc.s := by
  intro fuel
  induction fuel with
  | zero => intro n acc st _ h; omega
  | succ fuel ih =>
    intro n acc st hfuel _
    unfold optimize_n_loop
    by_cases hn : n ≤ hi
    · rw [if_pos hn]
      have hw : wrap32 (n + step) = n + step := wrap32_of_lt _ (by omega)
      simp only [hw]
      have hf := hfuel hn
      obtain ⟨res, st1, r1, r2⟩ := ih (n + step) (optimize_n_step run s n acc st).1
        (optimize_n_step run s n acc st).2 (fun _ => by omega) (by omega)
      refine ⟨res, st1, r1, r2.trans ?_⟩
      unfold optimize_n_step
      simp only
      split <;> rfl
    · rw [if_neg hn]
      exact ⟨acc, st, rfl, rfl⟩

theorem optimize_n_terminates (run : Nat → Nat → Nat × String) (step : Nat)
    (range : Nat × Nat) (s : Nat) (st : SearchState)
    (hstep : 1 ≤ step) (hhi : range.2 + step < 2 ^ 32) :
    ∃ res st1, optimize_n run step range s st = some (res, st1) ∧ res.s = s :=
  optimize_n_loop_terminates run step range.2 s hstep hhi (range.2 + 2) range.1
    { n := 0, s := s, n50 := 0, metrics := "" } st (fun _ => by omega) (by omega)

theorem getLast_result_cons (it : LineIteration) (rest : List LineIteration)
    (best : ScaffoldResult) :
    (((it :: rest).getLast?).map LineIteration.result).getD best
      = ((rest.getLast?).map LineIteration.result).getD it.result := by
  cases rest with
  | nil => rfl
  | cons x xs => rw [List.getLast?_cons_cons]; cases h : (x :: xs).getLast? with
    | none => simp at h
    | some y => rfl

/-- The loop of `optimize_line_search` with `m` iterations left: it ends, it
runs at most `m` iterations, they alternate as the spec describes, and the
result is the result of the last iteration. -/
theorem lineLog_spec (run : Nat → Nat → Nat × String) (ops : SweepOps) (step : Nat)
    (nrange srange : Nat × Nat) (hstep : 1 ≤ step) (hhi : nrange.2 + step < 2 ^ 32)
    (hil : ops.index srange.2 + 1 < 2 ^ 32) :
    ∀ (m : Nat) (best : ScaffoldResult) (table : String) (st : SearchState),
    ∃ log res st1, lineLog run ops step nrange srange m best st = some log ∧
      lineLoop run ops step nrange srange m (best, table) st = some (res, st1) ∧
      log.length ≤ m ∧ (0 < m → 1 ≤ log.length) ∧
      alternates run ops step nrange srange best.n best.s st log ∧
      (res.1.n, res.1.s, res.1.n50)
        = ((((log.getLast?).map LineIteration.result).getD best).n,
           (((log.getLast?).map LineIteration.result).getD best).s,
           (((log.getLast?).map LineIteration.result).getD best).n50) := by
  intro m
  induction m with
  | zero =>
    intro best table st
    exact ⟨[], (best, table), st, rfl, rfl, le_refl _, fun h => absurd h (by decide),
      trivial, rfl⟩
  | succ m ih =>
    intro best table st
    obtain ⟨best1, st1, hs, hsn⟩ := optimize_s_terminates run ops best.n srange st hil
    by_cases hsame : best1.s = best.s
    · refine ⟨[{ n0 := best.n, s0 := best.s, afterS := best1, afterN := none }],
        (best1, table ++ best1.metrics), st1, ?_, ?_, ?_, fun _ => le_refl _, ?_, rfl⟩
      · simp only [lineLog, hs, if_pos hsame]
      · simp only [lineLoop, hs, if_pos hsame]
      · show 1 ≤ m + 1
        omega
      · exact ⟨rfl, rfl, st1, hs, hsn, Or.inl ⟨hsame, rfl, rfl⟩⟩
    · obtain ⟨best2, st2, hn, hns⟩ := optimize_n_terminates run step nrange best1.s st1
        hstep hhi
      by_cases hsamen : best2.n = best1.n
      · refine ⟨[{ n0 := best.n, s0 := best.s, afterS := best1, afterN := some best2 }],
          (best2, table ++ best1.metrics ++ best2.metrics), st2, ?_, ?_, ?_,
          fun _ => le_refl _, ?_, rfl⟩
        · simp only [lineLog, hs, if_neg hsame, hn, if_pos hsamen]
        · simp only [lineLoop, hs, if_neg hsame, hn, if_pos hsamen]
        · show 1 ≤ m + 1
          omega
        · exact ⟨rfl, rfl, st1, hs, hsn, Or.inr ⟨hsame, best2, st2, hn, rfl, hns,
            Or.inl ⟨hsamen.trans hsn, rfl⟩⟩⟩
      · obtain ⟨rest, res, st3, l1, l2, l3, _, l5, l6⟩ :=
          ih best2 (table ++ best1.metrics ++ best2.metrics) st2
        refine ⟨{ n0 := best.n, s0 := best.s, afterS := best1, afterN := some best2 } :: rest,
          res, st3, ?_, ?_, ?_, fun _ => ?_, ?_, ?_⟩
        · simp only [lineLog, hs, if_neg hsame, hn, if_neg hsamen, l1, Option.map_some']
        · simp only [lineLoop, hs, if_neg hsame, hn, if_neg hsamen, l2]
        · show rest.length + 1 ≤ m + 1
          omega
        · show 1 ≤ rest.length + 1
          omega
        · exact ⟨rfl, rfl, st1, hs, hsn, Or.inr ⟨hsame, best2, st2, hn, rfl, hns,
            Or.inr ⟨fun h => hsamen (h.trans hsn.symm), l5⟩⟩⟩
        · rw [l6, getLast_result_cons]
          rfl

/-- C21: `optimize_line_search` (step at least 1, bounds that do not wrap in
`unsigned`) ends.  Its iterations start from n = (n_lo + n_hi) / 2 and s = s_hi;
each runs `optimize_s` with n fixed and stops when s comes back unchanged,
otherwise runs `optimize_n` with s fixed and stops when n comes back unchanged;
there is at least one iteration and there are at most
(n_hi - n_lo) / step + 1; the result is the result of the last iteration. -/
theorem optimize_line_search_spec (run : Nat → Nat → Nat × String) (ops : SweepOps)
    (step n_lo n_hi s_lo s_hi : Nat) (hstep : 1 ≤ step) (hle : n_lo ≤ n_hi)
    (hhi : n_hi + step < 2 ^ 32) (hmid : n_lo + n_hi < 2 ^ 32)
    (hil : ops.index s_hi + 1 < 2 ^ 32) :
    ∃ log res st,
      optimize_line_search_log run ops step (n_lo, n_hi) (s_lo, s_hi) = some log ∧
      optimize_line_search run ops step (n_lo, n_hi) (s_lo, s_hi) = some (res, st) ∧
      alternates run ops step (n_lo, n_hi) (s_lo, s_hi) ((n_lo + n_hi) / 2) s_hi
        { memo := [], calls := [] } log ∧
      1 ≤ log.length ∧ log.length ≤ (n_hi - n_lo) / step + 1 ∧
      ∃ last, log.getLast? = some last ∧ res.n = last.result.n ∧ res.s = last.result.s ∧
        res.n50 = last.result.n50 := by
  have hmidw : wrap32 (n_lo + n_hi) / 2 = (n_lo + n_hi) / 2 := by
    rw [wrap32_of_lt _ hmid]
  have hdiff : wrap32 (n_hi + 2 ^ 32 - n_lo) = n_hi - n_lo := by
    unfold wrap32
    omega
  have hdiv : (n_hi - n_lo) / step ≤ n_hi - n_lo := Nat.div_le_self _ _
  have hmax : wrap32 (1 + wrap32 (n_hi + 2 ^ 32 - n_lo) / step)
      = (n_hi - n_lo) / step + 1 := by
    rw [hdiff, wrap32_of_lt _ (by omega)]
    omega
  obtain ⟨log, res, st, l1, l2, l3, l4, l5, l6⟩ :=
    lineLog_spec run ops step (n_lo, n_hi) (s_lo, s_hi) hstep hhi hil
      ((n_hi - n_lo) / step + 1)
      { n := (n_lo + n_hi) / 2, s := s_hi, n50 := 0, metrics := "" } ""
      { memo := [], calls := [] }
  have hlen := l4 (Nat.succ_pos _)
  refine ⟨log, { res.1 with metrics := res.2 }, st, ?_, ?_, l5, hlen, l3, ?_⟩
  · show lineLog run ops step (n_lo, n_hi) (s_lo, s_hi)
      (wrap32 (1 + wrap32 (n_hi + 2 ^ 32 - n_lo) / step))
      { n := wrap32 (n_lo + n_hi) / 2, s := s_hi, n50 := 0, metrics := "" }
      { memo := [], calls := [] } = some log
    rw [hmidw, hmax, l1]
  · show (match lineLoop run ops step (n_lo, n_hi) (s_lo, s_hi)
        (wrap32 (1 + wrap32 (n_hi + 2 ^ 32 - n_lo) / step))
        ({ n := wrap32 (n_lo + n_hi) / 2, s := s_hi, n50 := 0, metrics := "" }, "")
        { memo := [], calls := [] } with
      | none => none
      | some (acc, st) => some ({ acc.1 with metrics := acc.2 }, st)) = _
    rw [hmidw, hmax, l2]
  · cases hlast : log.getLast? with
    | none =>
      rw [List.getLast?_eq_none_iff] at hlast
      rw [hlast] at hlen
      exact absurd hlen (by decide)
    | some last =>
      rw [hlast] at l6
      simp only [Option.map_some', Option.getD_some, Prod.mk.injEq] at l6
      exact ⟨last, rfl, l6.1, l6.2.1, l6.2.2⟩

/-- Witness for C21: for n in 1..3 and s in 500-1000 the line search ends
after at most 3 iterations. -/
theorem optimize_line_search_spec_witness :
    ∃ log res st,
      optimize_line_search_log runPeak exactSweep 1 (1, 3) (500, 1000) = some log ∧
      optimize_line_search runPeak exactSweep 1 (1, 3) (500, 1000) = some (res, st) ∧
      1 ≤ log.length ∧ log.length ≤ 3 :=
  match optimize_line_search_spec runPeak exactSweep 1 1 3 500 1000 (by decide) (by decide)
      (by decide) (by decide) (by decide) with
  | ⟨log, res, st, h1, h2, _, h4, h5, _⟩ => ⟨log, res, st, h1, h2, h4, h5⟩

theorem scaffold_memoized_calls (run : Nat → Nat → Nat × String) (n s : Nat)
    (st : SearchState) :
    ∃ new, (scaffold_memoized run n s st).2.calls = st.calls ++ new ∧
      ∀ c ∈ new, c = ({ n := n, s := s } : ScaffoldParam) := by
  cases hf : memoFind st.memo { n := n, s := s } with
  | some found =>
    rw [scaffold_memoized_hit run n s st found hf]
    exact ⟨[], (List.append_nil _).symm, fun c h => absurd h (List.not_mem_nil _)⟩
  | none =>
    rw [scaffold_memoized_miss run n s st hf]
    exact ⟨[{ n := n, s := s }], rfl, fun c h => List.mem_singleton.mp h⟩

theorem optimize_s_loop_calls (run : Nat → Nat → Nat × String) (ops : SweepOps)
    (n ilast : Nat) (hil : ilast + 1 < 2 ^ 32) :
    ∀ (fuel i : Nat) (acc : ScaffoldResult) (st : SearchState)
      (out : ScaffoldResult × SearchState),
    optimize_s_loop run ops n ilast fuel i acc st = some out →
    ∃ new, out.2.calls = st.calls ++ new ∧
      ∀ c ∈ new, c.n = n ∧ ∃ j, i ≤ j ∧ j ≤ ilast ∧ c.s = ops.value j := by
  intro fuel
  induction fuel with
  | zero =>
    intro i acc st out h
    simp [optimize_s_loop] at h
  | succ fuel ih =>
    intro i acc st out h
    unfold optimize_s_loop at h
    by_cases hi : i ≤ ilast
    · rw [if_pos hi] at h
      have hw : wrap32 (i + 1) = i + 1 := wrap32_of_lt _ (by omega)
      simp only [hw] at h
      obtain ⟨new2, e2, m2⟩ := ih (i + 1) _ _ out h
      obtain ⟨new1, e1, m1⟩ := scaffold_memoized_calls run n (ops.value i) st
      have hstep : (optimize_s_step run ops n i acc st).2.calls = st.calls ++ new1 := by
        unfold optimize_s_step
        simp only
        split
        · exact e1
        · exact e1
      refine ⟨new1 ++ new2, by rw [e2, hstep, List.append_assoc], ?_⟩
      intro c hc
      rw [List.mem_append] at hc
      rcases hc with hc | hc
      · rw [m1 c hc]
        exact ⟨rfl, i, le_refl i, hi, rfl⟩
      · obtain ⟨c1, j, c2, c3, c4⟩ := m2 c hc
        exact ⟨c1, j, by omega, c3, c4⟩
    · rw [if_neg hi] at h
      have := Option.some.inj h
      rw [← this]
      exact ⟨[], (List.append_nil _).symm, fun c h => absurd h (List.not_mem_nil _)⟩

/-- C22, amended: for a range A-B whose ends are seed lengths of the sweep of
`optimize_s` (the sweep not decreasing between them), `optimize_s` ends, every
seed length at which it runs the scaffolder satisfies A ≤ s ≤ B, and the seed
length it returns satisfies A ≤ s ≤ B when some N50 is positive and is 0
otherwise. -/
theorem optimize_s_range (run : Nat → Nat → Nat × String) (ops : SweepOps)
    (n A B : Nat) (st : SearchState) (hil : ops.index B + 1 < 2 ^ 32)
    (hst : memoConsistent run st)
    (hA : ops.value (ops.index A) = A) (hB : ops.value (ops.index B) = B)
    (hmono : ∀ a b, ops.index A ≤ a → a ≤ b → b ≤ ops.index B →
      ops.value a ≤ ops.value b) :
    ∃ res st1 new, optimize_s run ops n (A, B) st = some (res, st1) ∧
      st1.calls = st.calls ++ new ∧
      (∀ c ∈ new, c.n = n ∧ A ≤ c.s ∧ c.s ≤ B) ∧
      ((res.n50 = 0 ∧ res.s = 0) ∨
       (0 < res.n50 ∧ A ≤ res.s ∧ res.s ≤ B ∧ (run n res.s).1 = res.n50)) := by
  have hin : ∀ j, ops.index A ≤ j → j ≤ ops.index B →
      A ≤ ops.value j ∧ ops.value j ≤ B := by
    intro j h1 h2
    constructor
    · have := hmono (ops.index A) j (le_refl _) h1 h2
      rw [hA] at this
      exact this
    · have := hmono j (ops.index B) h1 h2 (le_refl _)
      rw [hB] at this
      exact this
  obtain ⟨res, st1, r1, _, _, _, r5⟩ := optimize_s_spec run ops n (A, B) st hil hst
  obtain ⟨new, e1, m1⟩ := optimize_s_loop_calls run ops n (ops.index B) hil
    (ops.index B + 2) (ops.index A) { n := n, s := 0, n50 := 0, metrics := "" } st
    (res, st1) r1
  refine ⟨res, st1, new, r1, e1, ?_, ?_⟩
  · intro c hc
    obtain ⟨c1, j, c2, c3, c4⟩ := m1 c hc
    rw [c4]
    exact ⟨c1, hin j c2 c3⟩
  · rcases r5 with h | ⟨h1, j, h2, h3, h4, h5, _⟩
    · exact Or.inl h
    · right
      rw [h4]
      exact ⟨h1, (hin j h2 h3).1, (hin j h2 h3).2, h5⟩

/-- Witness for C22 (amended): the range 500-1000, whose ends are the seed
lengths of the steps 8 and 9. -/
theorem optimize_s_range_witness :
    ∃ res st1 new,
      optimize_s runPeak exactSweep 1 (500, 1000) { memo := [], calls := [] }
        = some (res, st1) ∧
      st1.calls = [] ++ new ∧
      (∀ c ∈ new, c.n = 1 ∧ 500 ≤ c.s ∧ c.s ≤ 1000) :=
  match optimize_s_range runPeak exactSweep 1 500 1000 { memo := [], calls := [] }
      (by decide) (memoConsistent_empty runPeak) (by decide) (by decide)
      (by
        intro a b h1 h2 h3
        have h8 : exactSweep.index 500 = 8 := by decide
        have h9 : exactSweep.index 1000 = 9 := by decide
        rw [h8] at h1
        rw [h9] at h3
        have ha : a = 8 ∨ a = 9 := by omega
        have hb : b = 8 ∨ b = 9 := by omega
        rcases ha with ha | ha <;> rcases hb with hb | hb <;> subst ha <;> subst hb
        · decide
        · decide
        · omega
        · decide) with
  | ⟨res, st1, new, h1, h2, h3, _⟩ => ⟨res, st1, new, h1, h2, h3⟩

end LineSearch

section AssemblyDriver
open Assembly

variable {G : Type}

theorem removalRounds_append (log : List Pass) (p : Pass) :
    removalRounds (log ++ [p])
      = removalRounds log + (if p = Pass.assemble false then 1 else 0) := by
  unfold removalRounds
  rw [List.count_append, List.count_singleton]
  by_cases h : p = Pass.assemble false
  · simp [h]
  · simp [h]

theorem trimRound_fields (ops : AssemblyOps G) (st st1 : AssemblyState G)
    (h : trimRound ops st = Except.ok st1) :
    st1.opt = st.opt ∧ removalRounds st1.log = removalRounds st.log := by
  unfold trimRound at h
  by_cases he : st.opt.erode > 0
  · simp only [if_pos he] at h
    by_cases ha : (ops.erodeEnds (call Pass.erodeEnds (fun g => (ops.erodeEnds st.opt g).1) st).opt
        (call Pass.erodeEnds (fun g => (ops.erodeEnds st.opt g).1) st).g).2 = 0
    · simp only [if_pos ha] at h
      have := Except.ok.inj h
      rw [← this]
      refine ⟨rfl, ?_⟩
      simp only [call, removalRounds_append]
      simp
    · simp only [if_neg ha] at h
      exact absurd h (by simp)
  · simp only [if_neg he] at h
    have := Except.ok.inj h
    rw [← this]
    refine ⟨rfl, ?_⟩
    simp only [call, removalRounds_append]
    simp

theorem trimRound_ok (ops : AssemblyOps G) (hstable : erodeStable ops)
    (st : AssemblyState G) : ∃ st1, trimRound ops st = Except.ok st1 := by
  unfold trimRound
  by_cases he : st.opt.erode > 0
  · have ha : (ops.erodeEnds (call Pass.erodeEnds (fun g => (ops.erodeEnds st.opt g).1) st).opt
        (call Pass.erodeEnds (fun g => (ops.erodeEnds st.opt g).1) st).g).2 = 0 :=
      hstable st.opt st.g
    simp only [if_pos he, if_pos ha]
    exact ⟨_, rfl⟩
  · simp only [if_neg he]
    exact ⟨_, rfl⟩

theorem removeLowCoverageContigs_fields (ops : AssemblyOps G) (st : AssemblyState G) :
    (call Pass.cleanup ops.cleanup
      (call Pass.wipeFlag ops.wipeFlag (removeLowCoverageContigs ops st))).opt.coverage = 0 ∧
    removalRounds (call Pass.cleanup ops.cleanup
      (call Pass.wipeFlag ops.wipeFlag (removeLowCoverageContigs ops st))).log
      = removalRounds st.log + 1 := by
  refine ⟨rfl, ?_⟩
  simp only [call, removeLowCoverageContigs, removalRounds_append]
  simp

/-- Counterexample to C23 as stated: on the toy collection three k-mers are
loaded, the one round of low-coverage contig removal removes a k-mer, and the
removal is not applied again although a further round would remove another
k-mer. -/
theorem assemble_removes_once :
    (loadAll countingOps countingOptions "").g = 3 ∧
    (assemble countingOps countingOptions "" 5).map
        (fun r => (r.1, r.2.g, removalRounds r.2.log, r.2.opt.coverage))
      = some (Outcome.completed, 2, 1, 0) ∧
    (countingOps.assemble countingOptions false 2).1 = 1 := by
  decide

/-- The two rounds of the loop of `assemble` when the coverage threshold is
positive. -/
theorem erodeLoop_rounds (ops : AssemblyOps G) (fuel : Nat) (st st1 st2 : AssemblyState G)
    (hcov : st.opt.coverage > 0)
    (h1 : trimRound ops st = Except.ok st1)
    (h2 : trimRound ops (call Pass.cleanup ops.cleanup
      (call Pass.wipeFlag ops.wipeFlag (removeLowCoverageContigs ops st1))) = Except.ok st2) :
    erodeLoop ops (fuel + 2) st = some (Except.ok st2) := by
  obtain ⟨a1, _⟩ := trimRound_fields ops st st1 h1
  obtain ⟨b1, _⟩ := trimRound_fields ops _ st2 h2
  obtain ⟨c1, _⟩ := removeLowCoverageContigs_fields ops st1
  have hcov1 : st1.opt.coverage > 0 := by rw [a1]; exact hcov
  have hcov2 : ¬ (st2.opt.coverage > 0) := by
    rw [b1, c1]
    exact lt_irrefl 0
  rw [erodeLoop]
  simp only [h1, if_pos hcov1]
  rw [erodeLoop]
  simp only [h2, if_neg hcov2]

/-- C23, amended: in `assemble` with coverage > 0, erosion and trimming are
run, low-coverage contig removal is applied once and sets the coverage
threshold to 0, and erosion and trimming are run once more; the removal is not
applied again, whatever it removed. -/
theorem erodeLoop_spec (ops : AssemblyOps G) (fuel : Nat) (st st1 st2 : AssemblyState G)
    (hcov : st.opt.coverage > 0)
    (h1 : trimRound ops st = Except.ok st1)
    (h2 : trimRound ops (call Pass.cleanup ops.cleanup
      (call Pass.wipeFlag ops.wipeFlag (removeLowCoverageContigs ops st1))) = Except.ok st2) :
    erodeLoop ops (fuel + 2) st = some (Except.ok st2) ∧
    st2.opt.coverage = 0 ∧
    removalRounds st2.log = removalRounds st.log + 1 := by
  obtain ⟨_, a2⟩ := trimRound_fields ops st st1 h1
  obtain ⟨b1, b2⟩ := trimRound_fields ops _ st2 h2
  obtain ⟨c1, c2⟩ := removeLowCoverageContigs_fields ops st1
  exact ⟨erodeLoop_rounds ops fuel st st1 st2 hcov h1 h2, by rw [b1, c1],
    by rw [b2, c2, a2]⟩

/-- Witness for C23 (amended) on the toy collection. -/
theorem erodeLoop_spec_witness :
    erodeLoop countingOps 2 { g := 3, opt := countingOptions, log := [] }
      = some (Except.ok
          { g := 2, opt := { countingOptions with coverage := 0 },
            log := [Pass.erodeEnds, Pass.erodeEnds, Pass.cleanup, Pass.performTrim,
              Pass.cleanup, Pass.markAmbiguous, Pass.assemble false, Pass.splitAmbiguous,
              Pass.wipeFlag, Pass.cleanup, Pass.erodeEnds, Pass.erodeEnds, Pass.cleanup,
              Pass.performTrim, Pass.cleanup] }) :=
  (erodeLoop_spec countingOps 0 { g := 3, opt := countingOptions, log := [] } _ _
    (by decide) rfl rfl).1

theorem erodeLoop_terminates (ops : AssemblyOps G) (hstable : erodeStable ops)
    (fuel : Nat) (st : AssemblyState G) :
    ∃ st2, erodeLoop ops (fuel + 2) st = some (Except.ok st2) := by
  obtain ⟨st1, h1⟩ := trimRound_ok ops hstable st
  by_cases hcov : st.opt.coverage > 0
  · obtain ⟨st2, h2⟩ := trimRound_ok ops hstable (call Pass.cleanup ops.cleanup
      (call Pass.wipeFlag ops.wipeFlag (removeLowCoverageContigs ops st1)))
    exact ⟨st2, erodeLoop_rounds ops fuel st st1 st2 hcov h1 h2⟩
  · have hcov1 : ¬ (st1.opt.coverage > 0) := by
      rw [(trimRound_fields ops st st1 h1).1]; exact hcov
    refine ⟨st1, ?_⟩
    rw [erodeLoop]
    simp only [h1, if_neg hcov1]

theorem cleanGraph_terminates (ops : AssemblyOps G) (hstable : erodeStable ops)
    (hgood : ∀ opt g, (ops.popBubbles opt g).2.2 = true)
    (fuel : Nat) (st : AssemblyState G) :
    ∃ st1, cleanGraph ops (fuel + 2) st = some (Except.ok st1) := by
  unfold cleanGraph
  simp only
  obtain ⟨st5, h5⟩ := erodeLoop_terminates ops hstable fuel
    (if ops.PAIRED_DBG = true then
      call Pass.removePairedDBGInconsistentEdges ops.removePairedDBGInconsistentEdges
        (call Pass.generateAdjacency ops.generateAdjacency
          (if (ops.setCoverageParameters st.g st.opt).kc > 0 then
            call Pass.applyKmerCoverageThreshold
              (fun g => (ops.applyKmerCoverageThreshold
                (ops.setCoverageParameters st.g st.opt).kc g).1)
              { st with opt := ops.setCoverageParameters st.g st.opt
                        log := st.log ++ [Pass.setCoverageParameters] }
          else { st with opt := ops.setCoverageParameters st.g st.opt
                         log := st.log ++ [Pass.setCoverageParameters] }))
    else
      call Pass.generateAdjacency ops.generateAdjacency
        (if (ops.setCoverageParameters st.g st.opt).kc > 0 then
          call Pass.applyKmerCoverageThreshold
            (fun g => (ops.applyKmerCoverageThreshold
              (ops.setCoverageParameters st.g st.opt).kc g).1)
            { st with opt := ops.setCoverageParameters st.g st.opt
                      log := st.log ++ [Pass.setCoverageParameters] }
        else { st with opt := ops.setCoverageParameters st.g st.opt
                       log := st.log ++ [Pass.setCoverageParameters] }))
  rw [h5]
  simp only
  by_cases hb : st5.opt.bubbleLen > 0
  · have hg := hgood st5.opt st5.g
    simp only [if_pos hb, popBubbles, hg, if_true]
    exact ⟨_, rfl⟩
  · simp only [if_neg hb]
    exact ⟨_, rfl⟩

theorem loadAll_log (ops : AssemblyOps G) (opt : AssemblyOptions) (pathIn : String) :
    ∀ p ∈ (loadAll ops opt pathIn).log,
      p = Pass.setDeletedKey ∨ p = Pass.shrink ∨ ∃ path, p = Pass.loadSequences path := by
  have hfold : ∀ (files : List String) (st : AssemblyState G),
      (∀ p ∈ st.log, ∃ path, p = Pass.loadSequences path) →
      ∀ p ∈ (files.foldl
        (fun st s => call (Pass.loadSequences s) (ops.loadSequences s) st) st).log,
        ∃ path, p = Pass.loadSequences path := by
    intro files
    induction files with
    | nil => intro st h; exact h
    | cons f rest ih =>
      intro st h
      apply ih
      intro p hp
      have hp2 : p ∈ st.log ++ [Pass.loadSequences f] := hp
      rw [List.mem_append, List.mem_singleton] at hp2
      rcases hp2 with hp2 | hp2
      · exact h p hp2
      · exact ⟨f, hp2⟩
  have h1 : ∀ p ∈ (if pathIn ≠ "" then
      call (Pass.loadSequences pathIn) (ops.loadSequences pathIn)
        ({ g := ops.init, opt := opt, log := [] } : AssemblyState G)
      else { g := ops.init, opt := opt, log := [] }).log,
      ∃ path, p = Pass.loadSequences path := by
    intro p hp
    by_cases hpath : pathIn ≠ ""
    · rw [if_pos hpath] at hp
      have hp2 : p ∈ [] ++ [Pass.loadSequences pathIn] := hp
      rw [List.nil_append, List.mem_singleton] at hp2
      exact ⟨pathIn, hp2⟩
    · rw [if_neg hpath] at hp
      exact absurd hp (List.not_mem_nil _)
  intro p hp
  have hp2 : p ∈ ((opt.inFiles.foldl
      (fun st s => call (Pass.loadSequences s) (ops.loadSequences s) st)
      (if pathIn ≠ "" then
        call (Pass.loadSequences pathIn) (ops.loadSequences pathIn)
          ({ g := ops.init, opt := opt, log := [] } : AssemblyState G)
        else { g := ops.init, opt := opt, log := [] })).log ++ [Pass.setDeletedKey])
      ++ [Pass.shrink] := hp
  rw [List.mem_append, List.mem_append, List.mem_singleton, List.mem_singleton] at hp2
  rcases hp2 with (hp2 | hp2) | hp2
  · exact Or.inr (Or.inr (hfold _ _ h1 p hp2))
  · exact Or.inl hp2
  · exact Or.inr (Or.inl hp2)

end AssemblyDriver

section BloomGraph
open RollingBloomDBG RollingBloomDBG.adjacency_iterator

variable {H : Type}

theorem heap_read_write (heap : Heap) (p q : Nat) (buf : List Char) :
    (heap.write p buf).read q = if p = q ∧ p < heap.length then buf else heap.read q := by
  simp only [Heap.read, Heap.write, List.getD_eq_getElem?_getD, List.getElem?_set]
  by_cases h : p = q
  · subst h
    by_cases h2 : p < heap.length
    · simp [h2]
    · simp [h2, List.getElem?_eq_none (Nat.le_of_not_lt h2)]
  · simp [h]

theorem heap_length_write (heap : Heap) (p : Nat) (buf : List Char) :
    (heap.write p buf).length = heap.length := List.length_set _ _ _

theorem heap_read_alloc (heap : Heap) (buf : List Char) (q : Nat) :
    (heap.alloc buf).1.read q = if q = heap.length then buf else heap.read q := by
  simp only [Heap.read, Heap.alloc, List.getD_eq_getElem?_getD, List.getElem?_append]
  by_cases h : q < heap.length
  · have h2 : q ≠ heap.length := by omega
    simp [h, h2]
  · by_cases h2 : q = heap.length
    · subst h2
      simp
    · have h3 : heap.length ≤ q := by omega
      have h4 : 1 ≤ q - heap.length := by omega
      simp [h, h2, List.getElem?_eq_none h3, List.getElem?_eq_none (l := [buf]) h4]

theorem neighbour_length (dir : extDirection) (k : Nat) (kmer : List Char) (b : Char)
    (hk : 1 ≤ k) (hlen : kmer.length = k) : (neighbour dir k kmer b).length = k := by
  unfold neighbour
  split
  · simp only [List.length_append, List.length_drop, List.length_singleton]; omega
  · simp only [List.length_cons, List.length_take]; omega

theorem setLastBase_neighbour (dir : extDirection) (k : Nat) (kmer : List Char) (c b : Char)
    (hk : 1 ≤ k) (hlen : kmer.length = k) :
    LightweightKmer.setLastBase k (neighbour dir k kmer c) dir b = neighbour dir k kmer b := by
  unfold LightweightKmer.setLastBase LightweightKmer.setBase neighbour
  cases dir with
  | SENSE =>
    simp only [if_true]
    rw [List.set_append]
    have : ¬ (k - 1 < (List.drop 1 kmer).length) := by
      rw [List.length_drop]; omega
    rw [if_neg this]
    have h2 : k - 1 - (List.drop 1 kmer).length = 0 := by
      rw [List.length_drop]; omega
    rw [h2]
    rfl
  | ANTISENSE =>
    simp only [reduceCtorEq, if_false]
    rfl

theorem shift_neighbour (dir : extDirection) (k : Nat) (kmer : List Char) (c : Char)
    (hk : 1 ≤ k) (hlen : kmer.length = k) :
    LightweightKmer.shift k kmer dir c = neighbour dir k kmer c := by
  cases dir with
  | SENSE =>
    have hdrop : (kmer.drop (k - 1)).length = 1 := by
      rw [List.length_drop]; omega
    obtain ⟨z, hz⟩ := List.length_eq_one.mp hdrop
    have hm : memmove kmer 0 1 (k - 1) = kmer.drop 1 ++ [z] := by
      unfold memmove
      rw [List.take_zero, List.nil_append, Nat.zero_add, hz,
        List.take_of_length_le (by rw [List.length_drop]; omega)]
    have : LightweightKmer.shift k kmer extDirection.SENSE c
        = LightweightKmer.setLastBase k (neighbour extDirection.SENSE k kmer z)
            extDirection.SENSE c := by
      unfold LightweightKmer.shift
      simp only [if_true]
      rw [hm]
      rfl
    rw [this, setLastBase_neighbour _ _ _ _ _ hk hlen]
  | ANTISENSE =>
    cases kmer with
    | nil => simp at hlen; omega
    | cons a rest =>
      have hm : memmove (a :: rest) 1 0 (k - 1) = a :: (a :: rest).take (k - 1) := by
        unfold memmove
        have h1 : (a :: rest).drop (1 + (k - 1)) = [] :=
          List.drop_eq_nil_of_le (by rw [hlen]; omega)
        rw [h1, List.append_nil, List.drop_zero]
        rfl
      have : LightweightKmer.shift k (a :: rest) extDirection.ANTISENSE c
          = LightweightKmer.setLastBase k (neighbour extDirection.ANTISENSE k (a :: rest) a)
              extDirection.ANTISENSE c := by
        unfold LightweightKmer.shift
        simp only [reduceCtorEq, if_false]
        rw [hm]
        rfl
      rw [this, setLastBase_neighbour _ _ _ _ _ hk hlen]

theorem preserved_write (heap0 heap : Heap) (buf : List Char)
    (h : Heap.preserved heap0 heap) : Heap.preserved heap0 (heap.write heap0.length buf) := by
  intro q hq
  rw [heap_read_write]
  have : ¬ (heap0.length = q ∧ heap0.length < heap.length) := by omega
  rw [if_neg this]
  exact h q hq

theorem preserved_alloc (heap0 heap : Heap) (buf : List Char)
    (hle : heap0.length ≤ heap.length)
    (h : Heap.preserved heap0 heap) : Heap.preserved heap0 (heap.alloc buf).1 := by
  intro q hq
  rw [heap_read_alloc]
  have : ¬ (q = heap.length) := by omega
  rw [if_neg this]
  exact h q hq

theorem setLastBase_attached (ops : RollingHashVertexOps H) (hashOf : List Char → H)
    (dir : extDirection) (k : Nat) (kmer : List Char) (u : Vertex H) (heap0 heap : Heap)
    (it : adjacency_iterator H) (b : Char)
    (hk : 1 ≤ k) (hlen : kmer.length = k) (hcoh : hashCoherent ops k hashOf)
    (h : attached hashOf dir k kmer u heap0 heap it) :
    it.m_v.setLastBase ops k heap dir b
      = (heap.write heap0.length (neighbour dir k kmer b),
         { m_kmer := heap0.length, m_rollingHash := hashOf (neighbour dir k kmer b) }) := by
  obtain ⟨_, h2, _, _, _, c, h6, h7⟩ := h
  unfold Vertex.setLastBase
  simp only [h2, h6, h7]
  rw [hcoh.2.2 _ dir b (neighbour_length dir k kmer c hk hlen),
    setLastBase_neighbour dir k kmer c b hk hlen]

theorem bloom_nextLoop_spec (ops : RollingHashVertexOps H) (contains : List Nat → Bool)
    (hashOf : List Char → H) (dir : extDirection) (k : Nat) (kmer : List Char)
    (u : Vertex H) (heap0 : Heap)
    (hk : 1 ≤ k) (hlen : kmer.length = k) (hcoh : hashCoherent ops k hashOf) :
    ∀ (fuel : Nat) (heap : Heap) (it : adjacency_iterator H),
    attached hashOf dir k kmer u heap0 heap it → NUM_BASES + 1 ≤ fuel + it.m_i →
    ∃ heap1 it1, nextLoop ops k contains dir fuel heap it = some (heap1, it1) ∧
      positioned ops contains hashOf dir k kmer u heap0 heap1 it1 ∧
      heap1.length = heap.length ∧ it.m_i ≤ it1.m_i ∧
      ∀ t, it.m_i ≤ t → t < it1.m_i →
        candidateExists ops contains hashOf dir k kmer t = false := by
  intro fuel
  induction fuel with
  | zero =>
    intro heap it h hf
    have := h.2.2.2.2.1
    omega
  | succ fuel ih =>
    intro heap it h hf
    unfold nextLoop
    by_cases hi : it.m_i < NUM_BASES
    · rw [if_pos hi]
      have hset := setLastBase_attached ops hashOf dir k kmer u heap0 heap it
        (charAt BASE_CHARS it.m_i) hk hlen hcoh h
      simp only [hset]
      obtain ⟨h1, h2, h3, h4, h5, _⟩ := h
      have hread : (heap.write heap0.length (neighbour dir k kmer (charAt BASE_CHARS it.m_i))).read
          heap0.length = neighbour dir k kmer (charAt BASE_CHARS it.m_i) := by
        rw [heap_read_write, if_pos ⟨rfl, h3⟩]
      have hlenw := heap_length_write heap heap0.length
        (neighbour dir k kmer (charAt BASE_CHARS it.m_i))
      have hpres := preserved_write heap0 heap
        (neighbour dir k kmer (charAt BASE_CHARS it.m_i)) h4
      by_cases hex : candidateExists ops contains hashOf dir k kmer it.m_i = true
      · have hve : vertex_exists ops contains
            ({ m_kmer := heap0.length,
               m_rollingHash := hashOf (neighbour dir k kmer (charAt BASE_CHARS it.m_i)) } :
              Vertex H) = true := hex
        rw [if_pos hve]
        refine ⟨_, _, rfl, ⟨⟨h1, rfl, by rw [hlenw]; exact h3, hpres, h5,
          charAt BASE_CHARS it.m_i, hread, rfl⟩, fun _ => ⟨hread, rfl, hex⟩⟩, hlenw,
          le_refl _, fun t h1 h2 => absurd (show t < it.m_i from h2) (by omega)⟩
      · have hve : ¬ (vertex_exists ops contains
            ({ m_kmer := heap0.length,
               m_rollingHash := hashOf (neighbour dir k kmer (charAt BASE_CHARS it.m_i)) } :
              Vertex H) = true) := hex
        rw [if_neg hve]
        have hatt : attached hashOf dir k kmer u heap0
            (heap.write heap0.length (neighbour dir k kmer (charAt BASE_CHARS it.m_i)))
            { it with
              m_v := { m_kmer := heap0.length,
                       m_rollingHash :=
                         hashOf (neighbour dir k kmer (charAt BASE_CHARS it.m_i)) },
              m_i := it.m_i + 1 } :=
          ⟨h1, rfl, by rw [hlenw]; exact h3, hpres, hi, charAt BASE_CHARS it.m_i, hread, rfl⟩
        obtain ⟨heap1, it1, r1, r2, r3, r4, r5⟩ := ih _ _ hatt (by
          show NUM_BASES + 1 ≤ fuel + (it.m_i + 1)
          omega)
        refine ⟨heap1, it1, r1, r2, by rw [r3, hlenw], by
          have : it.m_i + 1 ≤ it1.m_i := r4
          omega, fun t h1 h2 => ?_⟩
        by_cases ht : t = it.m_i
        · rw [ht]
          cases hc : candidateExists ops contains hashOf dir k kmer it.m_i with
          | true => exact absurd hc hex
          | false => rfl
        · exact r5 t (by
            show it.m_i + 1 ≤ t
            omega) h2
    · rw [if_neg hi]
      exact ⟨heap, it, rfl, ⟨h, fun h2 => absurd h2 hi⟩, rfl, le_refl _,
        fun t h1 h2 => by omega⟩

theorem bloom_incr_spec (ops : RollingHashVertexOps H) (contains : List Nat → Bool)
    (hashOf : List Char → H) (dir : extDirection) (k : Nat) (kmer : List Char)
    (u : Vertex H) (heap0 heap : Heap) (it : adjacency_iterator H)
    (hk : 1 ≤ k) (hlen : kmer.length = k) (hcoh : hashCoherent ops k hashOf)
    (h : attached hashOf dir k kmer u heap0 heap it) (hi : it.m_i < NUM_BASES) :
    ∃ heap1 it1, incr ops k contains dir heap it = some (heap1, it1) ∧
      positioned ops contains hashOf dir k kmer u heap0 heap1 it1 ∧
      heap1.length = heap.length ∧ it.m_i + 1 ≤ it1.m_i ∧
      ∀ t, it.m_i + 1 ≤ t → t < it1.m_i →
        candidateExists ops contains hashOf dir k kmer t = false := by
  obtain ⟨h1, h2, h3, h4, h5, h6⟩ := h
  have hatt : attached hashOf dir k kmer u heap0 heap { it with m_i := it.m_i + 1 } :=
    ⟨h1, h2, h3, h4, hi, h6⟩
  obtain ⟨heap1, it1, r1, r2, r3, r4, r5⟩ :=
    bloom_nextLoop_spec ops contains hashOf dir k kmer u heap0 hk hlen hcoh (NUM_BASES + 1) heap
      { it with m_i := it.m_i + 1 } hatt (Nat.le_add_right _ _)
  refine ⟨heap1, it1, ?_, r2, r3, r4, r5⟩
  unfold incr
  rw [if_pos hi]
  exact r1

theorem bloom_create_spec (ops : RollingHashVertexOps H) (contains : List Nat → Bool)
    (hashOf : List Char → H) (dir : extDirection) (k : Nat) (heap0 : Heap) (u : Vertex H)
    (hk : 1 ≤ k) (hlen : (heap0.read u.m_kmer).length = k)
    (hhash : u.m_rollingHash = hashOf (heap0.read u.m_kmer))
    (hcoh : hashCoherent ops k hashOf) :
    ∃ heap1 it1, create ops k contains dir heap0 u = some (heap1, it1) ∧
      positioned ops contains hashOf dir k (heap0.read u.m_kmer) u heap0 heap1 it1 ∧
      heap1.length = heap0.length + 1 ∧
      ∀ t, t < it1.m_i →
        candidateExists ops contains hashOf dir k (heap0.read u.m_kmer) t = false := by
  have htake : (heap0.read u.m_kmer).take k = heap0.read u.m_kmer :=
    List.take_of_length_le (by omega)
  have hclone : u.clone k heap0
      = ((heap0.alloc (heap0.read u.m_kmer)).1,
         { m_kmer := heap0.length, m_rollingHash := hashOf (heap0.read u.m_kmer) }) := by
    unfold Vertex.clone
    rw [htake, hhash]
    rfl
  have hreadc : (heap0.alloc (heap0.read u.m_kmer)).1.read heap0.length
      = heap0.read u.m_kmer := by
    rw [heap_read_alloc, if_pos rfl]
  have hlenc : (heap0.alloc (heap0.read u.m_kmer)).1.length = heap0.length + 1 := by
    simp [Heap.alloc]
  have hroll : (if dir = extDirection.SENSE then
        ops.rollRight (hashOf (heap0.read u.m_kmer)) (heap0.read u.m_kmer) 'A'
      else ops.rollLeft (hashOf (heap0.read u.m_kmer)) 'A' (heap0.read u.m_kmer))
      = hashOf (neighbour dir k (heap0.read u.m_kmer) 'A') := by
    cases dir with
    | SENSE =>
      rw [if_pos rfl, hcoh.1 _ 'A' hlen, shift_neighbour _ _ _ _ hk hlen]
    | ANTISENSE =>
      rw [if_neg (by decide), hcoh.2.1 _ 'A' hlen, shift_neighbour _ _ _ _ hk hlen]
  have hshift : Vertex.shift ops k (heap0.alloc (heap0.read u.m_kmer)).1
      ({ m_kmer := heap0.length, m_rollingHash := hashOf (heap0.read u.m_kmer) } : Vertex H)
      dir 'A'
      = ((heap0.alloc (heap0.read u.m_kmer)).1.write heap0.length
            (neighbour dir k (heap0.read u.m_kmer) 'A'),
         { m_kmer := heap0.length,
           m_rollingHash := hashOf (neighbour dir k (heap0.read u.m_kmer) 'A') }) := by
    unfold Vertex.shift
    simp only [hreadc, hroll, shift_neighbour dir k _ 'A' hk hlen]
  have hatt : attached hashOf dir k (heap0.read u.m_kmer) u heap0
      ((heap0.alloc (heap0.read u.m_kmer)).1.write heap0.length
        (neighbour dir k (heap0.read u.m_kmer) 'A'))
      { m_u := u,
        m_v := { m_kmer := heap0.length,
                 m_rollingHash := hashOf (neighbour dir k (heap0.read u.m_kmer) 'A') },
        m_i := 0 } := by
    refine ⟨rfl, rfl, ?_, ?_, Nat.zero_le _, 'A', ?_, rfl⟩
    · rw [heap_length_write, hlenc]; omega
    · exact preserved_write heap0 _ _
        (preserved_alloc heap0 heap0 _ (le_refl _) (fun _ _ => rfl))
    · rw [heap_read_write, if_pos ⟨rfl, by rw [hlenc]; omega⟩]
  obtain ⟨heap1, it1, r1, r2, r3, _, r5⟩ :=
    bloom_nextLoop_spec ops contains hashOf dir k (heap0.read u.m_kmer) u heap0 hk hlen hcoh
      (NUM_BASES + 1) _ _ hatt (Nat.le_add_right _ _)
  refine ⟨heap1, it1, ?_, r2, by rw [r3, heap_length_write, hlenc],
    fun t ht => r5 t (Nat.zero_le _) ht⟩
  unfold create
  simp only [hclone, hshift]
  exact r1

theorem filter_range_skip (p : Nat → Bool) (a b n : Nat) (hab : a ≤ b) (hbn : b ≤ n)
    (h : ∀ t, a ≤ t → t < b → p t = false) :
    (List.range' a (n - a)).filter p = (List.range' b (n - b)).filter p := by
  have hsplit : List.range' a (n - a)
      = List.range' a (b - a) ++ List.range' (a + 1 * (b - a)) (n - b) := by
    rw [List.range'_append]
    congr 1
    omega
  have hb : a + 1 * (b - a) = b := by omega
  rw [hsplit, hb, List.filter_append]
  have hnil : (List.range' a (b - a)).filter p = [] := by
    rw [List.filter_eq_nil_iff]
    intro t ht
    rw [List.mem_range'_1] at ht
    rw [h t ht.1 (by omega)]
    decide
  rw [hnil, List.nil_append]

theorem filter_range_head (p : Nat → Bool) (b n : Nat) (hb : b < n) (hp : p b = true) :
    (List.range' b (n - b)).filter p = b :: (List.range' (b + 1) (n - (b + 1))).filter p := by
  have : n - b = (n - (b + 1)) + 1 := by omega
  rw [this, List.range'_succ, List.filter_cons, if_pos hp]

theorem read_lt_of_length (heap : Heap) (p k : Nat) (hk : 1 ≤ k)
    (h : (heap.read p).length = k) : p < heap.length := by
  by_contra hp
  have : heap.read p = [] := by
    simp only [Heap.read, List.getD_eq_getElem?_getD,
      List.getElem?_eq_none (Nat.le_of_not_lt hp)]
    rfl
  rw [this] at h
  simp at h
  omega

theorem attached_alloc (hashOf : List Char → H) (dir : extDirection) (k : Nat)
    (kmer : List Char) (u : Vertex H) (heap0 heap : Heap) (it : adjacency_iterator H)
    (buf : List Char) (h : attached hashOf dir k kmer u heap0 heap it) :
    attached hashOf dir k kmer u heap0 (heap.alloc buf).1 it := by
  obtain ⟨h1, h2, h3, h4, h5, c, h6, h7⟩ := h
  refine ⟨h1, h2, ?_, preserved_alloc heap0 heap buf (by omega) h4, h5, c, ?_, h7⟩
  · simp only [Heap.alloc, List.length_append, List.length_singleton]
    omega
  · rw [heap_read_alloc, if_neg (by omega)]
    exact h6

theorem adjacentLoop_spec (ops : RollingHashVertexOps H) (contains : List Nat → Bool)
    (hashOf : List Char → H) (k : Nat) (kmer : List Char) (u : Vertex H) (heap0 : Heap)
    (hk : 1 ≤ k) (hlen : kmer.length = k) (hcoh : hashCoherent ops k hashOf) :
    ∀ (fuel : Nat) (heap : Heap) (it : adjacency_iterator H) (acc : List (VertexValue H)),
    positioned ops contains hashOf extDirection.SENSE k kmer u heap0 heap it →
    NUM_BASES + 1 ≤ fuel + it.m_i →
    ∃ heap1, adjacentLoop ops k contains fuel heap it acc
      = some (heap1, acc ++
          ((List.range' it.m_i (NUM_BASES - it.m_i)).filter
            (candidateExists ops contains hashOf extDirection.SENSE k kmer)).map
            (fun t => (neighbour extDirection.SENSE k kmer (charAt BASE_CHARS t),
              hashOf (neighbour extDirection.SENSE k kmer (charAt BASE_CHARS t))))) ∧
      Heap.preserved heap0 heap1 := by
  intro fuel
  induction fuel with
  | zero =>
    intro heap it acc h hf
    have := h.1.2.2.2.2.1
    omega
  | succ fuel ih =>
    intro heap it acc h hf
    unfold adjacentLoop
    by_cases hend : it.m_i = NUM_BASES
    · have he : it.isEnd = true := by simp [isEnd, hend]
      rw [if_pos he, hend, Nat.sub_self]
      refine ⟨heap, ?_, h.1.2.2.2.1⟩
      simp [List.range']
    · have he : ¬ (it.isEnd = true) := by simp [isEnd, hend]
      rw [if_neg he]
      have hi : it.m_i < NUM_BASES := by
        have := h.1.2.2.2.2.1
        omega
      obtain ⟨p1, p2, p3⟩ := h.2 hi
      obtain ⟨heap1, it1, r1, r2, _, r4, r5⟩ :=
        bloom_incr_spec ops contains hashOf extDirection.SENSE k kmer u heap0 heap it hk hlen hcoh
          h.1 hi
      rw [r1]
      simp only
      obtain ⟨heap2, q1, q2⟩ := ih heap1 it1 (acc ++ [it.m_v.value heap]) r2 (by omega)
      refine ⟨heap2, ?_, q2⟩
      rw [q1, filter_range_head _ it.m_i NUM_BASES hi p3,
        filter_range_skip _ (it.m_i + 1) it1.m_i NUM_BASES r4 r2.1.2.2.2.2.1 r5]
      have hval : it.m_v.value heap
          = (neighbour extDirection.SENSE k kmer (charAt BASE_CHARS it.m_i),
             hashOf (neighbour extDirection.SENSE k kmer (charAt BASE_CHARS it.m_i))) := by
        unfold Vertex.value
        rw [h.1.2.1, p1, p2]
      rw [hval, List.map_cons, List.append_assoc]
      rfl

theorem distanceLoop_spec (ops : RollingHashVertexOps H) (contains : List Nat → Bool)
    (hashOf : List Char → H) (dir : extDirection) (k : Nat) (kmer : List Char)
    (u : Vertex H) (heap0 : Heap)
    (hk : 1 ≤ k) (hlen : kmer.length = k) (hcoh : hashCoherent ops k hashOf) :
    ∀ (fuel : Nat) (heap : Heap) (it : adjacency_iterator H) (n : Nat),
    positioned ops contains hashOf dir k kmer u heap0 heap it →
    NUM_BASES + 1 ≤ fuel + it.m_i →
    ∃ heap1, distanceLoop ops k contains dir fuel heap it n
      = some (heap1, n +
          ((List.range' it.m_i (NUM_BASES - it.m_i)).filter
            (candidateExists ops contains hashOf dir k kmer)).length) ∧
      Heap.preserved heap0 heap1 := by
  intro fuel
  induction fuel with
  | zero =>
    intro heap it n h hf
    have := h.1.2.2.2.2.1
    omega
  | succ fuel ih =>
    intro heap it n h hf
    unfold distanceLoop
    by_cases hend : it.m_i = NUM_BASES
    · have he : it.isEnd = true := by simp [isEnd, hend]
      rw [if_pos he, hend, Nat.sub_self]
      refine ⟨heap, ?_, h.1.2.2.2.1⟩
      simp [List.range']
    · have he : ¬ (it.isEnd = true) := by simp [isEnd, hend]
      rw [if_neg he]
      have hi : it.m_i < NUM_BASES := by
        have := h.1.2.2.2.2.1
        omega
      obtain ⟨_, _, p3⟩ := h.2 hi
      obtain ⟨heap1, it1, r1, r2, _, r4, r5⟩ :=
        bloom_incr_spec ops contains hashOf dir k kmer u heap0 heap it hk hlen hcoh h.1 hi
      rw [r1]
      simp only
      obtain ⟨heap2, q1, q2⟩ := ih heap1 it1 (n + 1) r2 (by omega)
      refine ⟨heap2, ?_, q2⟩
      rw [q1, filter_range_head _ it.m_i NUM_BASES hi p3,
        filter_range_skip _ (it.m_i + 1) it1.m_i NUM_BASES r4 r2.1.2.2.2.2.1 r5,
        List.length_cons]
      congr 2
      omega

theorem edgeLoop_spec (ops : RollingHashVertexOps H) (contains : List Nat → Bool)
    (hashOf : List Char → H) (dir : extDirection) (k : Nat) (u : Vertex H) (heap0 : Heap)
    (hk : 1 ≤ k) (hlen : (heap0.read u.m_kmer).length = k)
    (hhash : u.m_rollingHash = hashOf (heap0.read u.m_kmer))
    (hcoh : hashCoherent ops k hashOf) :
    ∀ (fuel : Nat) (heap : Heap) (it : adjacency_iterator H)
      (acc : List (VertexValue H × VertexValue H)),
    positioned ops contains hashOf dir k (heap0.read u.m_kmer) u heap0 heap it →
    NUM_BASES + 1 ≤ fuel + it.m_i →
    ∃ heap1, edgeLoop ops k contains dir fuel heap it acc
      = some (heap1, acc ++
          ((List.range' it.m_i (NUM_BASES - it.m_i)).filter
            (candidateExists ops contains hashOf dir k (heap0.read u.m_kmer))).map
            (fun t =>
              if dir = extDirection.SENSE then
                ((heap0.read u.m_kmer, hashOf (heap0.read u.m_kmer)),
                 (neighbour dir k (heap0.read u.m_kmer) (charAt BASE_CHARS t),
                  hashOf (neighbour dir k (heap0.read u.m_kmer) (charAt BASE_CHARS t))))
              else
                ((neighbour dir k (heap0.read u.m_kmer) (charAt BASE_CHARS t),
                  hashOf (neighbour dir k (heap0.read u.m_kmer) (charAt BASE_CHARS t))),
                 (heap0.read u.m_kmer, hashOf (heap0.read u.m_kmer))))) ∧
      Heap.preserved heap0 heap1 := by
  have hu : u.m_kmer < heap0.length := read_lt_of_length heap0 u.m_kmer k hk hlen
  intro fuel
  induction fuel with
  | zero =>
    intro heap it acc h hf
    have := h.1.2.2.2.2.1
    omega
  | succ fuel ih =>
    intro heap it acc h hf
    unfold edgeLoop
    by_cases hend : it.m_i = NUM_BASES
    · have he : it.isEnd = true := by simp [isEnd, hend]
      rw [if_pos he, hend, Nat.sub_self]
      refine ⟨heap, ?_, h.1.2.2.2.1⟩
      simp [List.range']
    · have he : ¬ (it.isEnd = true) := by simp [isEnd, hend]
      rw [if_neg he]
      have hi : it.m_i < NUM_BASES := by
        have := h.1.2.2.2.2.1
        omega
      obtain ⟨p1, p2, p3⟩ := h.2 hi
      obtain ⟨a1, a2, a3, a4, a5, a6⟩ := h.1
      -- the clone of `m_v`
      have hnl := neighbour_length dir k (heap0.read u.m_kmer) (charAt BASE_CHARS it.m_i)
        hk hlen
      have hclone : it.m_v.clone k heap
          = ((heap.alloc (neighbour dir k (heap0.read u.m_kmer) (charAt BASE_CHARS it.m_i))).1,
             { m_kmer := heap.length,
               m_rollingHash :=
                 hashOf (neighbour dir k (heap0.read u.m_kmer) (charAt BASE_CHARS it.m_i)) }) := by
        unfold Vertex.clone
        rw [a2, p1, p2, List.take_of_length_le (by omega)]
        rfl
      simp only [hclone]
      have hatt := attached_alloc hashOf dir k (heap0.read u.m_kmer) u heap0 heap it
        (neighbour dir k (heap0.read u.m_kmer) (charAt BASE_CHARS it.m_i)) h.1
      obtain ⟨heap1, it1, r1, r2, _, r4, r5⟩ :=
        bloom_incr_spec ops contains hashOf dir k (heap0.read u.m_kmer) u heap0 _ it hk hlen hcoh
          hatt hi
      rw [r1]
      simp only
      have hvu : it.m_u.value
          (heap.alloc (neighbour dir k (heap0.read u.m_kmer) (charAt BASE_CHARS it.m_i))).1
          = (heap0.read u.m_kmer, hashOf (heap0.read u.m_kmer)) := by
        unfold Vertex.value
        rw [a1, hatt.2.2.2.1 u.m_kmer hu, hhash]
      have hvc : Vertex.value
          (heap.alloc (neighbour dir k (heap0.read u.m_kmer) (charAt BASE_CHARS it.m_i))).1
          ({ m_kmer := heap.length,
             m_rollingHash :=
               hashOf (neighbour dir k (heap0.read u.m_kmer) (charAt BASE_CHARS it.m_i)) } :
            Vertex H)
          = (neighbour dir k (heap0.read u.m_kmer) (charAt BASE_CHARS it.m_i),
             hashOf (neighbour dir k (heap0.read u.m_kmer) (charAt BASE_CHARS it.m_i))) := by
        unfold Vertex.value
        rw [heap_read_alloc, if_pos rfl]
      rw [hvu, hvc]
      obtain ⟨heap2, q1, q2⟩ := ih heap1 it1 _ r2 (by omega)
      refine ⟨heap2, ?_, q2⟩
      rw [q1, filter_range_head _ it.m_i NUM_BASES hi p3,
        filter_range_skip _ (it.m_i + 1) it1.m_i NUM_BASES r4 r2.1.2.2.2.2.1 r5,
        List.map_cons, List.append_assoc]
      rfl

theorem filter_base_chars {α : Type} (f : Char → α) (p : α → Bool) :
    ((List.range' 0 (NUM_BASES - 0)).filter (fun t => p (f (charAt BASE_CHARS t)))).map
        (fun t => f (charAt BASE_CHARS t))
      = (BASE_CHARS.map f).filter p := by
  have h1 : BASE_CHARS = (List.range' 0 (NUM_BASES - 0)).map (charAt BASE_CHARS) := by decide
  have h2 : (BASE_CHARS.map f).filter p
      = (((List.range' 0 (NUM_BASES - 0)).map (charAt BASE_CHARS)).map f).filter p := by
    rw [← h1]
  rw [h2, List.map_map, List.filter_map]
  rfl

theorem successors_eq (ops : RollingHashVertexOps H) (contains : List Nat → Bool)
    (hashOf : List Char → H) (k : Nat) (kmer : List Char) :
    ((List.range' 0 (NUM_BASES - 0)).filter
        (candidateExists ops contains hashOf extDirection.SENSE k kmer)).map
        (fun t => neighbour extDirection.SENSE k kmer (charAt BASE_CHARS t))
      = successors ops contains hashOf kmer :=
  filter_base_chars (fun b => kmer.drop 1 ++ [b])
    (fun x => contains (ops.getHashes (hashOf x)))

theorem predecessors_eq (ops : RollingHashVertexOps H) (contains : List Nat → Bool)
    (hashOf : List Char → H) (k : Nat) (kmer : List Char) :
    ((List.range' 0 (NUM_BASES - 0)).filter
        (candidateExists ops contains hashOf extDirection.ANTISENSE k kmer)).map
        (fun t => neighbour extDirection.ANTISENSE k kmer (charAt BASE_CHARS t))
      = predecessors ops k contains hashOf kmer :=
  filter_base_chars (fun b => b :: kmer.take (k - 1))
    (fun x => contains (ops.getHashes (hashOf x)))

theorem base_chars_nodup : BASE_CHARS.Nodup := by decide

/-- C29: for a vertex `u` whose k-mer has `k ≥ 2` characters and whose hash
state is the one of its k-mer, and for every membership test of the filter,
the vertices visited from `adjacent_vertices(u, g)` and the targets of the edges
visited from `out_edges(u, g)` are the k-mers `u[1..k-1] + b` that exist, for
`b` in the order A, C, G, T; the sources of the edges visited from
`in_edges(u, g)` are the k-mers `b + u[0..k-2]` that exist; there are no
duplicates; `out_degree` and `in_degree` are the numbers of these k-mers, at
most 4; and no array of the heap, so neither the k-mer of `u`, is changed. -/
theorem bloom_neighbours (ops : RollingHashVertexOps H) (contains : List Nat → Bool)
    (hashOf : List Char → H) (k : Nat) (heap : Heap) (u : Vertex H)
    (hk : 2 ≤ k) (hlen : (heap.read u.m_kmer).length = k)
    (hhash : u.m_rollingHash = hashOf (heap.read u.m_kmer))
    (hcoh : hashCoherent ops k hashOf) :
    (∃ heap1, adjacent_vertices ops k contains heap u
        = some (heap1, (successors ops contains hashOf (heap.read u.m_kmer)).map
            (fun x => (x, hashOf x))) ∧
      Heap.preserved heap heap1) ∧
    (∃ heap1, out_edges ops k contains heap u
        = some (heap1, (successors ops contains hashOf (heap.read u.m_kmer)).map
            (fun x => ((heap.read u.m_kmer, hashOf (heap.read u.m_kmer)), (x, hashOf x)))) ∧
      Heap.preserved heap heap1) ∧
    (∃ heap1, in_edges ops k contains heap u
        = some (heap1, (predecessors ops k contains hashOf (heap.read u.m_kmer)).map
            (fun x => ((x, hashOf x), (heap.read u.m_kmer, hashOf (heap.read u.m_kmer))))) ∧
      Heap.preserved heap heap1) ∧
    (∃ heap1, out_degree ops k contains heap u
        = some (heap1, (successors ops contains hashOf (heap.read u.m_kmer)).length) ∧
      Heap.preserved heap heap1) ∧
    (∃ heap1, in_degree ops k contains heap u
        = some (heap1, (predecessors ops k contains hashOf (heap.read u.m_kmer)).length) ∧
      Heap.preserved heap heap1) ∧
    (successors ops contains hashOf (heap.read u.m_kmer)).Nodup ∧
    (predecessors ops k contains hashOf (heap.read u.m_kmer)).Nodup ∧
    (successors ops contains hashOf (heap.read u.m_kmer)).length ≤ 4 ∧
    (predecessors ops k contains hashOf (heap.read u.m_kmer)).length ≤ 4 := by
  have hk1 : 1 ≤ k := by omega
  obtain ⟨hS, itS, s1, s2, _, s4⟩ := bloom_create_spec ops contains hashOf extDirection.SENSE k heap u
    hk1 hlen hhash hcoh
  obtain ⟨hA, itA, a1, a2, _, a4⟩ := bloom_create_spec ops contains hashOf extDirection.ANTISENSE k
    heap u hk1 hlen hhash hcoh
  have hskipS := filter_range_skip (candidateExists ops contains hashOf extDirection.SENSE k
    (heap.read u.m_kmer)) 0 itS.m_i NUM_BASES (Nat.zero_le _) s2.1.2.2.2.2.1
    (fun t _ h => s4 t h)
  have hskipA := filter_range_skip (candidateExists ops contains hashOf extDirection.ANTISENSE k
    (heap.read u.m_kmer)) 0 itA.m_i NUM_BASES (Nat.zero_le _) a2.1.2.2.2.2.1
    (fun t _ h => a4 t h)
  refine ⟨?_, ?_, ?_, ?_, ?_, ?_, ?_, ?_, ?_⟩
  · obtain ⟨heap1, q1, q2⟩ := adjacentLoop_spec ops contains hashOf k (heap.read u.m_kmer) u heap
      hk1 hlen hcoh (NUM_BASES + 1) hS itS [] s2 (Nat.le_add_right _ _)
    refine ⟨heap1, ?_, q2⟩
    unfold adjacent_vertices
    rw [s1]
    simp only
    rw [q1, ← hskipS, List.nil_append, ← successors_eq ops contains hashOf k, List.map_map]
    rfl
  · obtain ⟨heap1, q1, q2⟩ := edgeLoop_spec ops contains hashOf extDirection.SENSE k u heap
      hk1 hlen hhash hcoh (NUM_BASES + 1) hS itS [] s2 (Nat.le_add_right _ _)
    refine ⟨heap1, ?_, q2⟩
    unfold out_edges
    rw [s1]
    simp only
    rw [q1, ← hskipS, List.nil_append, ← successors_eq ops contains hashOf k, List.map_map]
    rfl
  · obtain ⟨heap1, q1, q2⟩ := edgeLoop_spec ops contains hashOf extDirection.ANTISENSE k u heap
      hk1 hlen hhash hcoh (NUM_BASES + 1) hA itA [] a2 (Nat.le_add_right _ _)
    refine ⟨heap1, ?_, q2⟩
    unfold in_edges
    rw [a1]
    simp only
    rw [q1, ← hskipA, List.nil_append, ← predecessors_eq ops contains hashOf k, List.map_map]
    rfl
  · obtain ⟨heap1, q1, q2⟩ := distanceLoop_spec ops contains hashOf extDirection.SENSE k
      (heap.read u.m_kmer) u heap hk1 hlen hcoh (NUM_BASES + 1) hS itS 0 s2
      (Nat.le_add_right _ _)
    refine ⟨heap1, ?_, q2⟩
    unfold out_degree
    rw [s1]
    simp only
    rw [q1, ← hskipS, Nat.zero_add, ← successors_eq ops contains hashOf k, List.length_map]
  · obtain ⟨heap1, q1, q2⟩ := distanceLoop_spec ops contains hashOf extDirection.ANTISENSE k
      (heap.read u.m_kmer) u heap hk1 hlen hcoh (NUM_BASES + 1) hA itA 0 a2
      (Nat.le_add_right _ _)
    refine ⟨heap1, ?_, q2⟩
    unfold in_degree
    rw [a1]
    simp only
    rw [q1, ← hskipA, Nat.zero_add, ← predecessors_eq ops contains hashOf k, List.length_map]
  · unfold successors
    apply List.Nodup.filter
    apply List.Nodup.map _ base_chars_nodup
    intro a b hab
    have := List.append_cancel_left hab
    exact List.singleton_inj.mp this
  · unfold predecessors
    apply List.Nodup.filter
    apply List.Nodup.map _ base_chars_nodup
    intro a b hab
    exact (List.cons_eq_cons.mp hab).1
  · unfold successors
    exact le_trans (List.length_filter_le _ _) (by simp [BASE_CHARS])
  · unfold predecessors
    exact le_trans (List.length_filter_le _ _) (by simp [BASE_CHARS])

/-- Witness for C29: the vertex ACT (k = 3) with a filter that holds the
k-mers ending in G and those starting with TA has the successor CTG and the
predecessor TAC. -/
theorem bloom_neighbours_witness :
    successors (identityOps 3) exampleFilter id ['A', 'C', 'T'] = [['C', 'T', 'G']] ∧
    predecessors (identityOps 3) 3 exampleFilter id ['A', 'C', 'T'] = [['T', 'A', 'C']] ∧
    (∃ heap1, adjacent_vertices (identityOps 3) 3 exampleFilter [['A', 'C', 'T']]
          { m_kmer := 0, m_rollingHash := ['A', 'C', 'T'] }
        = some (heap1, (successors (identityOps 3) exampleFilter id
            (Heap.read [['A', 'C', 'T']] 0)).map (fun x => (x, id x))) ∧
      Heap.preserved [['A', 'C', 'T']] heap1) ∧
    (∃ heap1, in_degree (identityOps 3) 3 exampleFilter [['A', 'C', 'T']]
          { m_kmer := 0, m_rollingHash := ['A', 'C', 'T'] }
        = some (heap1, (predecessors (identityOps 3) 3 exampleFilter id
            (Heap.read [['A', 'C', 'T']] 0)).length) ∧
      Heap.preserved [['A', 'C', 'T']] heap1) :=
  ⟨by decide, by decide,
   (bloom_neighbours (identityOps 3) exampleFilter id 3 [['A', 'C', 'T']]
      { m_kmer := 0, m_rollingHash := ['A', 'C', 'T'] } (by decide) rfl rfl
      ⟨fun _ _ _ => rfl, fun _ _ _ => rfl, fun _ _ _ _ => rfl⟩).1,
   (bloom_neighbours (identityOps 3) exampleFilter id 3 [['A', 'C', 'T']]
      { m_kmer := 0, m_rollingHash := ['A', 'C', 'T'] } (by decide) rfl rfl
      ⟨fun _ _ _ => rfl, fun _ _ _ => rfl, fun _ _ _ _ => rfl⟩).2.2.2.2.1⟩

end BloomGraph

section KmerAlgebra
open LightweightKmer RollingBloomDBG

theorem complement_involutive (c : Char) :
    complementBaseChar (complementBaseChar c) = c := by
  by_cases h1 : c = 'A'
  · subst h1; decide
  by_cases h2 : c = 'C'
  · subst h2; decide
  by_cases h3 : c = 'G'
  · subst h3; decide
  by_cases h4 : c = 'T'
  · subst h4; decide
  by_cases h5 : c = 'a'
  · subst h5; decide
  by_cases h6 : c = 'c'
  · subst h6; decide
  by_cases h7 : c = 'g'
  · subst h7; decide
  by_cases h8 : c = 't'
  · subst h8; decide
  have h : complementBaseChar c = c := by
    unfold complementBaseChar
    rw [if_neg h1, if_neg h2, if_neg h3, if_neg h4, if_neg h5, if_neg h6, if_neg h7,
      if_neg h8]
  rw [h, h]

theorem ext_charAt (k : Nat) : ∀ (a b : List Char), a.length = k → b.length = k →
    (∀ t, t < k → charAt a t = charAt b t) → a = b := by
  induction k with
  | zero =>
    intro a b ha hb _
    rw [List.length_eq_zero.mp ha, List.length_eq_zero.mp hb]
  | succ k ih =>
    intro a b ha hb h
    cases a with
    | nil => simp at ha
    | cons x xs =>
      cases b with
      | nil => simp at hb
      | cons y ys =>
        have h0 := h 0 (Nat.succ_pos k)
        rw [charAt_cons_zero, charAt_cons_zero] at h0
        have hrest := ih xs ys (by simpa using ha) (by simpa using hb) (fun t ht => by
          have := h (t + 1) (by omega)
          rw [charAt_cons_succ, charAt_cons_succ] at this
          exact this)
        rw [h0, hrest]

theorem charAt_neighbour_sense (k : Nat) (kmer : List Char) (c : Char) (t : Nat)
    (hlen : kmer.length = k) (ht : t < k) :
    charAt (neighbour extDirection.SENSE k kmer c) t
      = if t = k - 1 then c else charAt kmer (t + 1) := by
  unfold neighbour
  rw [if_pos rfl]
  simp only [charAt_eq, List.getElem?_append, List.length_drop, List.getElem?_drop]
  by_cases h : t = k - 1
  · have h1 : ¬ (t < kmer.length - 1) := by omega
    have h2 : t - (kmer.length - 1) = 0 := by omega
    rw [if_pos h, if_neg h1, h2]
    rfl
  · have h1 : t < kmer.length - 1 := by omega
    rw [if_neg h, if_pos h1, Nat.add_comm]

theorem charAt_neighbour_antisense (k : Nat) (kmer : List Char) (c : Char) (t : Nat)
    (ht : t < k) :
    charAt (neighbour extDirection.ANTISENSE k kmer c) t
      = if t = 0 then c else charAt kmer (t - 1) := by
  unfold neighbour
  rw [if_neg (by decide)]
  cases t with
  | zero => rw [charAt_cons_zero, if_pos rfl]
  | succ t =>
    rw [charAt_cons_succ, if_neg (by omega)]
    simp only [charAt_eq, List.getElem?_take]
    have : t < k - 1 := by omega
    rw [if_pos this]
    rfl

/-- Counterexample to C31 as stated: for k = 1 the k-mer A is left as it is,
and its base is not the complement T. -/
theorem reverseComplement_k1 :
    reverseComplement 1 ['A'] = ['A'] ∧
    charAt (reverseComplement 1 ['A']) 0 ≠ complementBaseChar (charAt ['A'] (1 - 1 - 0)) := by
  decide

/-- C31, amended: for every k other than 1 (also odd k, where the middle base
is complemented) and every k-mer K, `reverseComplement` yields K' with
K'[i] = complement(K[k-1-i]) for every i < k; for k = 1 it leaves K as it is;
for every k, `reverseComplement` applied twice returns K. -/
theorem reverseComplement_spec (k : Nat) (kmer : List Char) (hlen : kmer.length = k) :
    (k ≠ 1 → (reverseComplement k kmer).length = k ∧
      ∀ i, i < k →
        charAt (reverseComplement k kmer) i = complementBaseChar (charAt kmer (k - 1 - i))) ∧
    (k = 1 → reverseComplement k kmer = kmer) ∧
    reverseComplement k (reverseComplement k kmer) = kmer := by
  have h1 : k = 1 → reverseComplement k kmer = kmer := by
    intro hk
    subst hk
    simp [reverseComplement, reverseComplementLoop]
  refine ⟨fun hk => reverseComplement_charAt k kmer hlen hk, h1, ?_⟩
  by_cases hk : k = 1
  · rw [h1 hk, h1 hk]
  · obtain ⟨l1, c1⟩ := reverseComplement_charAt k kmer hlen hk
    obtain ⟨l2, c2⟩ := reverseComplement_charAt k (reverseComplement k kmer) l1 hk
    apply ext_charAt k _ _ l2 hlen
    intro t ht
    rw [c2 t ht, c1 (k - 1 - t) (by omega), complement_involutive]
    congr 1
    omega

/-- Witness for C31 (amended): the k-mer ACG (k = 3). -/
theorem reverseComplement_spec_witness :
    reverseComplement 3 ['A', 'C', 'G'] = ['C', 'G', 'T'] ∧
    reverseComplement 3 (reverseComplement 3 ['A', 'C', 'G']) = ['A', 'C', 'G'] :=
  ⟨by decide, (reverseComplement_spec 3 ['A', 'C', 'G'] rfl).2.2⟩

/-- C33: for k at least 2, a k-mer K and a base c, reverse complement after a
shift is a shift of the reverse complement in the other direction with the
complement of c, in both directions; and shifting K in the direction SENSE and
then back with the base K[0] gives K. -/
theorem shift_reverseComplement (k : Nat) (kmer : List Char) (c : Char)
    (hk : 2 ≤ k) (hlen : kmer.length = k) :
    reverseComplement k (shift k kmer extDirection.SENSE c)
      = shift k (reverseComplement k kmer) extDirection.ANTISENSE (complementBaseChar c) ∧
    reverseComplement k (shift k kmer extDirection.ANTISENSE c)
      = shift k (reverseComplement k kmer) extDirection.SENSE (complementBaseChar c) ∧
    shift k (shift k kmer extDirection.SENSE c) extDirection.ANTISENSE (getBase kmer 0)
      = kmer := by
  have hk1 : 1 ≤ k := by omega
  have hne : k ≠ 1 := by omega
  obtain ⟨lr, cr⟩ := reverseComplement_charAt k kmer hlen hne
  have lS := neighbour_length extDirection.SENSE k kmer c hk1 hlen
  have lA := neighbour_length extDirection.ANTISENSE k kmer c hk1 hlen
  refine ⟨?_, ?_, ?_⟩
  · rw [shift_neighbour _ _ _ _ hk1 hlen, shift_neighbour _ _ _ _ hk1 lr]
    obtain ⟨l1, c1⟩ := reverseComplement_charAt k _ lS hne
    apply ext_charAt k _ _ l1 (neighbour_length _ _ _ _ hk1 lr)
    intro t ht
    rw [c1 t ht, charAt_neighbour_sense k kmer c _ hlen (by omega),
      charAt_neighbour_antisense k _ _ t ht]
    by_cases h0 : t = 0
    · rw [if_pos h0, if_pos (by omega)]
    · rw [if_neg h0, if_neg (by omega), cr (t - 1) (by omega)]
      congr 2
      omega
  · rw [shift_neighbour _ _ _ _ hk1 hlen, shift_neighbour _ _ _ _ hk1 lr]
    obtain ⟨l1, c1⟩ := reverseComplement_charAt k _ lA hne
    apply ext_charAt k _ _ l1 (neighbour_length _ _ _ _ hk1 lr)
    intro t ht
    rw [c1 t ht, charAt_neighbour_antisense k kmer c _ (by omega),
      charAt_neighbour_sense k _ _ t lr ht]
    by_cases h0 : t = k - 1
    · rw [if_pos h0, if_pos (by omega)]
    · rw [if_neg h0, if_neg (by omega), cr (t + 1) (by omega)]
      congr 2
  · rw [shift_neighbour _ _ _ _ hk1 hlen, shift_neighbour _ _ _ _ hk1 lS]
    apply ext_charAt k _ _ (neighbour_length _ _ _ _ hk1 lS) hlen
    intro t ht
    rw [charAt_neighbour_antisense k _ _ t ht]
    by_cases h0 : t = 0
    · rw [if_pos h0, h0]
      rfl
    · rw [if_neg h0, charAt_neighbour_sense k kmer c _ hlen (by omega), if_neg (by omega)]
      congr 1
      omega

/-- Witness for C33: the k-mer ACG (k = 3) and the base T. -/
theorem shift_reverseComplement_witness :
    reverseComplement 3 (shift 3 ['A', 'C', 'G'] extDirection.SENSE 'T')
      = shift 3 (reverseComplement 3 ['A', 'C', 'G']) extDirection.ANTISENSE
          (complementBaseChar 'T') ∧
    shift 3 (shift 3 ['A', 'C', 'G'] extDirection.SENSE 'T') extDirection.ANTISENSE
        (getBase ['A', 'C', 'G'] 0) = ['A', 'C', 'G'] :=
  ⟨(shift_reverseComplement 3 ['A', 'C', 'G'] 'T' (by decide) rfl).1,
   (shift_reverseComplement 3 ['A', 'C', 'G'] 'T' (by decide) rfl).2.2⟩

end KmerAlgebra

section VertexOrder
open LightweightKmer RollingBloomDBGVertex

theorem drop_charAt (l : List Char) (j : Nat) (h : j < l.length) :
    l.drop j = charAt l j :: l.drop (j + 1) := by
  rw [List.drop_eq_getElem_cons h, charAt_eq, List.getElem?_eq_getElem h]
  rfl

theorem compareLoop_spec (k : Nat) (a b sa sb : List Char) (rc1 rc2 : Bool)
    (hsa : sa.length = k) (hsb : sb.length = k)
    (ca : ∀ j, j < k → charAt sa j
      = if rc1 then complementBaseChar (toupper (charAt a (k - 1 - j)))
        else toupper (charAt a j))
    (cb : ∀ j, j < k → charAt sb j
      = if rc2 then complementBaseChar (toupper (charAt b (k - 1 - j)))
        else toupper (charAt b j)) :
    ∀ (n j fuel : Nat), j + n = k → n + 1 ≤ fuel →
    compareLoop [] a b rc1 rc2 (if rc1 then -1 else (k : Int)) (if rc2 then -1 else (k : Int))
        (if rc1 then -1 else 1) (if rc2 then -1 else 1) fuel
        (if rc1 then (k : Int) - 1 - j else j) (if rc2 then (k : Int) - 1 - j else j)
      = some (lexCompare (sa.drop j) (sb.drop j)) := by
  intro n
  induction n with
  | zero =>
    intro j fuel hj hf
    have hjk : j = k := by omega
    subst hjk
    obtain ⟨fuel, rfl⟩ : ∃ f, fuel = f + 1 := ⟨fuel - 1, by omega⟩
    rw [compareLoop]
    have hcond : ((if rc1 then (j : Int) - 1 - j else j) != (if rc1 then -1 else (j : Int))
        && (if rc2 then (j : Int) - 1 - j else j) != (if rc2 then -1 else (j : Int))) = false := by
      cases rc1 <;> simp
    rw [hcond]
    rw [List.drop_of_length_le (by omega), List.drop_of_length_le (by omega)]
    rfl
  | succ n ih =>
    intro j fuel hj hf
    obtain ⟨fuel, rfl⟩ : ∃ f, fuel = f + 1 := ⟨fuel - 1, by omega⟩
    rw [compareLoop]
    have hcond : ((if rc1 then (k : Int) - 1 - j else j) != (if rc1 then -1 else (k : Int))
        && (if rc2 then (k : Int) - 1 - j else j) != (if rc2 then -1 else (k : Int))) = true := by
      cases rc1 <;> cases rc2 <;> simp <;> omega
    rw [hcond]
    simp only [if_true, List.isEmpty_nil, Bool.not_true, Bool.false_and, Bool.false_eq_true,
      if_false]
    have hp1 : (if rc1 then (k : Int) - 1 - j else (j : Int)).toNat
        = if rc1 then k - 1 - j else j := by
      cases rc1 <;> simp
    have hp2 : (if rc2 then (k : Int) - 1 - j else (j : Int)).toNat
        = if rc2 then k - 1 - j else j := by
      cases rc2 <;> simp
    have hn1 : (if rc1 then (k : Int) - 1 - j else (j : Int)) + (if rc1 then -1 else 1)
        = if rc1 then (k : Int) - 1 - (j + 1 : Nat) else ((j + 1 : Nat) : Int) := by
      cases rc1 <;> simp
      omega
    have hn2 : (if rc2 then (k : Int) - 1 - j else (j : Int)) + (if rc2 then -1 else 1)
        = if rc2 then (k : Int) - 1 - (j + 1 : Nat) else ((j + 1 : Nat) : Int) := by
      cases rc2 <;> simp
      omega
    have e1 : (if rc1 = true then
          complementBaseChar (toupper (charAt a (if rc1 then (k : Int) - 1 - j else j).toNat))
        else toupper (charAt a (if rc1 then (k : Int) - 1 - j else j).toNat))
        = charAt sa j := by
      rw [ca j (by omega), hp1]
      cases rc1 <;> simp
    have e2 : (if rc2 = true then
          complementBaseChar (toupper (charAt b (if rc2 then (k : Int) - 1 - j else j).toNat))
        else toupper (charAt b (if rc2 then (k : Int) - 1 - j else j).toNat))
        = charAt sb j := by
      rw [cb j (by omega), hp2]
      cases rc2 <;> simp
    rw [e1, e2, hn1, hn2, ih (j + 1) fuel (by omega) (by omega),
      drop_charAt sa j (by omega), drop_charAt sb j (by omega)]
    rw [lexCompare]
    split_ifs <;> rfl


theorem length_map_toupper (x : List Char) : (x.map toupper).length = x.length :=
  List.length_map _ _

theorem isCanonical_small (k : Nat) (x : List Char) (hk : k ≤ 1) :
    isCanonical k x = true := by
  unfold isCanonical
  interval_cases k <;> simp [isCanonicalLoop]

theorem orient_length (k : Nat) (x : List Char) (hx : x.length = k) :
    (orient k x).length = k := by
  unfold orient
  split
  · rw [List.length_map, hx]
  · rename_i h
    have hk : k ≠ 1 := fun h1 => h (isCanonical_small k x (by omega))
    exact (reverseComplement_charAt k (x.map toupper) (by rw [List.length_map, hx]) hk).1

theorem orient_charAt (k : Nat) (x : List Char) (hx : x.length = k) (j : Nat) (hj : j < k) :
    charAt (orient k x) j
      = if (!isCanonical k x) = true then complementBaseChar (toupper (charAt x (k - 1 - j)))
        else toupper (charAt x j) := by
  unfold orient
  by_cases h : isCanonical k x = true
  · rw [if_pos h, h]
    simp only [Bool.not_true, Bool.false_eq_true, if_false]
    exact charAt_map_toupper x j
  · have hk : k ≠ 1 := fun h1 => h (isCanonical_small k x (by omega))
    rw [if_neg h]
    simp only [Bool.not_eq_true] at h
    rw [h]
    simp only [Bool.not_false, if_true]
    rw [(reverseComplement_charAt k (x.map toupper) (by rw [List.length_map, hx]) hk).2 j hj]
    rw [charAt_map_toupper x (k - 1 - j)]

theorem compare_eq_lexCompare (k : Nat) (a b : List Char)
    (ha : a.length = k) (hb : b.length = k) :
    RollingBloomDBGVertex.compare k [] a b = some (lexCompare (orient k a) (orient k b)) := by
  have h := compareLoop_spec k a b (orient k a) (orient k b) (!isCanonical k a)
    (!isCanonical k b) (orient_length k a ha) (orient_length k b hb)
    (orient_charAt k a ha) (orient_charAt k b hb) k 0 (k + 1) (by omega) (by omega)
  simp only [List.drop_zero] at h
  rw [← h]
  unfold RollingBloomDBGVertex.compare
  simp only []
  congr 1 <;> cases isCanonical k a <;> cases isCanonical k b <;> simp


theorem lexCompare_cons (a b : Char) (as bs : List Char) :
    lexCompare (a :: as) (b :: bs)
      = if a > b then 1 else if a < b then -1 else lexCompare as bs := by
  rw [lexCompare]

theorem lexCompare_range : ∀ (x y : List Char),
    lexCompare x y = -1 ∨ lexCompare x y = 0 ∨ lexCompare x y = 1 := by
  intro x
  induction x with
  | nil => intro y; right; left; rw [lexCompare]; intro a as b bs h; cases h
  | cons a as ih =>
    intro y
    cases y with
    | nil => right; left; rw [lexCompare]; intro a as b bs _ h; cases h
    | cons b bs =>
      rw [lexCompare_cons]
      split_ifs
      · right; right; rfl
      · left; rfl
      · exact ih bs

theorem lexCompare_antisymm : ∀ (x y : List Char),
    lexCompare x y = - lexCompare y x := by
  intro x
  induction x with
  | nil =>
    intro y
    have h1 : lexCompare [] y = 0 := by rw [lexCompare]; intro a as b bs h; cases h
    have h2 : lexCompare y [] = 0 := by rw [lexCompare]; intro a as b bs _ h; cases h
    rw [h1, h2]; rfl
  | cons a as ih =>
    intro y
    cases y with
    | nil =>
      have h1 : lexCompare [] (a :: as) = 0 := by
        rw [lexCompare]; intro a as b bs h; cases h
      have h2 : lexCompare (a :: as) [] = 0 := by
        rw [lexCompare]; intro a as b bs _ h; cases h
      rw [h1, h2]; rfl
    | cons b bs =>
      rw [lexCompare_cons, lexCompare_cons]
      rcases lt_trichotomy a b with h | h | h
      · have h' : ¬ b < a := lt_asymm h
        rw [if_neg h', if_pos h, if_pos h]
      · subst h
        simp only [gt_iff_lt, lt_self_iff_false, if_false]
        exact ih bs
      · have h' : ¬ a < b := lt_asymm h
        rw [if_pos h, if_neg h', if_pos h]; rfl

theorem lexCompare_cons_neg (a b : Char) (as bs : List Char) :
    lexCompare (a :: as) (b :: bs) = -1 ↔ a < b ∨ (a = b ∧ lexCompare as bs = -1) := by
  rw [lexCompare_cons]
  rcases lt_trichotomy a b with h | h | h
  · have h' : ¬ b < a := lt_asymm h
    rw [if_neg h', if_pos h]
    exact ⟨fun _ => Or.inl h, fun _ => rfl⟩
  · subst h
    rw [if_neg (lt_irrefl a), if_neg (lt_irrefl a)]
    exact ⟨fun e => Or.inr ⟨rfl, e⟩, fun e => e.elim (fun l => absurd l (lt_irrefl a)) (·.2)⟩
  · have h' : ¬ a < b := lt_asymm h
    rw [if_pos h]
    constructor
    · intro e; exact absurd e (by decide)
    · rintro (l | ⟨e, _⟩)
      · exact absurd l h'
      · exact absurd (e ▸ h) (lt_irrefl _)

theorem lexCompare_trans : ∀ (x y z : List Char),
    lexCompare x y = -1 → lexCompare y z = -1 → lexCompare x z = -1 := by
  intro x
  induction x with
  | nil =>
    intro y z h
    have h1 : lexCompare [] y = 0 := by rw [lexCompare]; intro a as b bs h; cases h
    rw [h1] at h; exact absurd h (by decide)
  | cons a as ih =>
    intro y z hxy hyz
    cases y with
    | nil =>
      have h1 : lexCompare (a :: as) [] = 0 := by
        rw [lexCompare]; intro a as b bs _ h; cases h
      rw [h1] at hxy; exact absurd hxy (by decide)
    | cons b bs =>
      cases z with
      | nil =>
        have h1 : lexCompare (b :: bs) [] = 0 := by
          rw [lexCompare]; intro a as b bs _ h; cases h
        rw [h1] at hyz; exact absurd hyz (by decide)
      | cons c cs =>
        rw [lexCompare_cons_neg] at hxy hyz ⊢
        rcases hxy with h1 | ⟨e1, r1⟩
        · rcases hyz with h2 | ⟨e2, _⟩
          · exact Or.inl (lt_trans h1 h2)
          · exact Or.inl (e2 ▸ h1)
        · rcases hyz with h2 | ⟨e2, r2⟩
          · exact Or.inl (e1 ▸ h2)
          · exact Or.inr ⟨e1.trans e2, ih bs cs r1 r2⟩

theorem lexCompare_eq_zero : ∀ (x y : List Char), x.length = y.length →
    (lexCompare x y = 0 ↔ x = y) := by
  intro x
  induction x with
  | nil =>
    intro y h
    cases y with
    | nil => exact ⟨fun _ => rfl, fun _ => by rw [lexCompare]; intro a as b bs h; cases h⟩
    | cons b bs => simp at h
  | cons a as ih =>
    intro y h
    cases y with
    | nil => simp at h
    | cons b bs =>
      rw [lexCompare_cons]
      have hl : as.length = bs.length := by simpa using h
      rcases lt_trichotomy a b with h | h | h
      · have h' : ¬ b < a := lt_asymm h
        rw [if_neg h', if_pos h]
        constructor
        · intro e; exact absurd e (by decide)
        · intro e; injection e with e1 _; exact absurd (e1 ▸ h) (lt_irrefl _)
      · subst h
        rw [if_neg (lt_irrefl a), if_neg (lt_irrefl a), ih bs hl]
        constructor
        · intro e; rw [e]
        · intro e; injection e
      · rw [if_pos h]
        constructor
        · intro e; exact absurd e (by decide)
        · intro e; injection e with e1 _; exact absurd (e1 ▸ h) (lt_irrefl _)

theorem lt_iff (k : Nat) (a b : List Char) (ha : a.length = k) (hb : b.length = k) :
    lt k [] a b = true ↔ lexCompare (orient k a) (orient k b) = -1 := by
  unfold lt
  rw [compare_eq_lexCompare k a b ha hb]
  simp only [decide_eq_true_eq]
  rcases lexCompare_range (orient k a) (orient k b) with h | h | h <;> rw [h] <;> decide

theorem lt_false_iff (k : Nat) (a b : List Char) (ha : a.length = k) (hb : b.length = k) :
    lt k [] a b = false ∧ lt k [] b a = false ↔ orient k a = orient k b := by
  rw [← lexCompare_eq_zero _ _ ((orient_length k a ha).trans (orient_length k b hb).symm)]
  have h1 := lt_iff k a b ha hb
  have h2 := lt_iff k b a hb ha
  rw [lexCompare_antisymm (orient k b) (orient k a)] at h2
  rcases lexCompare_range (orient k a) (orient k b) with h | h | h
  · rw [h] at h1 ⊢
    constructor
    · intro e; rw [h1.2 rfl] at e; exact absurd e.1 (by decide)
    · intro e; exact absurd e (by decide)
  · rw [h] at h1 h2
    refine ⟨fun _ => h, fun _ => ⟨?_, ?_⟩⟩
    · cases hl : lt k [] a b
      · rfl
      · exact absurd (h1.1 hl) (by decide)
    · cases hl : lt k [] b a
      · rfl
      · exact absurd (h2.1 hl) (by decide)
  · rw [h] at h2 ⊢
    constructor
    · intro e; rw [h2.2 rfl] at e; exact absurd e.2 (by decide)
    · intro e; exact absurd e (by decide)

/-- Counterexample to C32 as stated: the k-mer tt is not canonical and its
reverse complement is aa, which sorts after AA, while `compare` upper-cases
each base before complementing it and finds the two k-mers equal. -/
theorem compare_orientAsStated :
    RollingBloomDBGVertex.compare 2 [] ['t', 't'] ['A', 'A'] = some 0 ∧
    orientAsStated 2 ['t', 't'] = ['a', 'a'] ∧
    orientAsStated 2 ['A', 'A'] = ['A', 'A'] ∧
    lexCompare (orientAsStated 2 ['t', 't']) (orientAsStated 2 ['A', 'A']) = 1 := by
  decide

/-- C32, amended: with no mask, `compare(a, b)` returns the three-way
lexicographic comparison (-1, 0 or 1) of `orient(a)` and `orient(b)`, where
`orient(x)` is the upper-cased x if `isCanonical(x)` and the reverse complement
of the upper-cased x otherwise; hence `compare(a, b) = -compare(b, a)`,
`compare(a, a) = 0`, and `operator<` is a strict weak ordering: irreflexive,
asymmetric, transitive, and with transitive incomparability. -/
theorem compare_spec (k : Nat) (a b c : List Char)
    (ha : a.length = k) (hb : b.length = k) (hc : c.length = k) :
    RollingBloomDBGVertex.compare k [] a b
      = some (lexCompare (orient k a) (orient k b)) ∧
    (lexCompare (orient k a) (orient k b) = -1 ∨ lexCompare (orient k a) (orient k b) = 0
      ∨ lexCompare (orient k a) (orient k b) = 1) ∧
    RollingBloomDBGVertex.compare k [] a b
      = (RollingBloomDBGVertex.compare k [] b a).map (fun r => -r) ∧
    RollingBloomDBGVertex.compare k [] a a = some 0 ∧
    lt k [] a a = false ∧
    (lt k [] a b = true → lt k [] b a = false) ∧
    (lt k [] a b = true → lt k [] b c = true → lt k [] a c = true) ∧
    (lt k [] a b = false → lt k [] b a = false → lt k [] b c = false →
      lt k [] c b = false → lt k [] a c = false ∧ lt k [] c a = false) := by
  refine ⟨compare_eq_lexCompare k a b ha hb, lexCompare_range _ _, ?_, ?_, ?_, ?_, ?_, ?_⟩
  · rw [compare_eq_lexCompare k a b ha hb, compare_eq_lexCompare k b a hb ha,
      lexCompare_antisymm (orient k a) (orient k b)]
    rfl
  · rw [compare_eq_lexCompare k a a ha ha, (lexCompare_eq_zero _ _ rfl).2 rfl]
  · exact ((lt_false_iff k a a ha ha).2 rfl).1
  · intro h
    have h1 := (lt_iff k a b ha hb).1 h
    cases hl : lt k [] b a
    · rfl
    · have h2 := (lt_iff k b a hb ha).1 hl
      rw [lexCompare_antisymm, h1] at h2
      exact absurd h2 (by decide)
  · intro h1 h2
    exact (lt_iff k a c ha hc).2
      (lexCompare_trans _ _ _ ((lt_iff k a b ha hb).1 h1) ((lt_iff k b c hb hc).1 h2))
  · intro h1 h2 h3 h4
    have e1 := (lt_false_iff k a b ha hb).1 ⟨h1, h2⟩
    have e2 := (lt_false_iff k b c hb hc).1 ⟨h3, h4⟩
    exact (lt_false_iff k a c ha hc).2 (e1.trans e2)

/-- Witness for C32: the lower-case k-mer tt and the k-mer AA are the same
vertex to `compare`, and AA comes before AC. -/
theorem compare_spec_witness :
    RollingBloomDBGVertex.compare 2 [] ['t', 't'] ['A', 'A']
      = some (lexCompare (orient 2 ['t', 't']) (orient 2 ['A', 'A'])) ∧
    orient 2 ['t', 't'] = ['A', 'A'] ∧
    lt 2 [] ['A', 'A'] ['A', 'C'] = true :=
  ⟨(compare_spec 2 ['t', 't'] ['A', 'A'] ['A', 'C'] rfl rfl rfl).1, by decide, by decide⟩

end VertexOrder

section MaskedCompare
open LightweightKmer RollingBloomDBGVertex

theorem maskedAt_ok (k : Nat) (mask : List Char) (rc1 rc2 : Bool)
    (hlen : mask.length = k) (hsym : symmetricMask k mask) (j : Nat) (hj : j < k) :
    maskedAt mask (if rc1 then (k : Int) - 1 - j else j) (if rc2 then (k : Int) - 1 - j else j)
      = Except.ok (!mask.isEmpty
          && charAt mask (if rc1 then (k : Int) - 1 - j else (j : Int)).toNat != '1') := by
  have hne : mask.isEmpty = false := by
    cases mask with
    | nil => simp at hlen; omega
    | cons c cs => rfl
  have hp : ∀ rc : Bool, maskAt mask (if rc then (k : Int) - 1 - j else j)
      = some (charAt mask j) := by
    intro rc
    unfold maskAt
    cases rc
    · simp only [Bool.false_eq_true, if_false, Int.toNat_ofNat]
      rw [if_pos ⟨by omega, by omega⟩]
    · simp only [if_true]
      have e : ((k : Int) - 1 - j).toNat = k - 1 - j := by omega
      rw [e, if_pos ⟨by omega, by omega⟩, hsym j hj]
  have hq : charAt mask (if rc1 then (k : Int) - 1 - j else (j : Int)).toNat
      = charAt mask j := by
    cases rc1
    · simp
    · simp only [if_true]
      have e : ((k : Int) - 1 - j).toNat = k - 1 - j := by omega
      rw [e, hsym j hj]
  unfold maskedAt
  rw [hne, hp rc1, hp rc2, hq]
  cases h : (charAt mask j != '1') <;> simp [h]

theorem compareLoopChecked_safe (k : Nat) (mask a b : List Char) (rc1 rc2 : Bool)
    (hlen : mask.length = k) (hsym : symmetricMask k mask) :
    ∀ (n j fuel : Nat), j + n = k → n + 1 ≤ fuel →
    ∃ r, compareLoopChecked mask a b rc1 rc2 (if rc1 then -1 else (k : Int))
        (if rc2 then -1 else (k : Int)) (if rc1 then -1 else 1) (if rc2 then -1 else 1) fuel
        (if rc1 then (k : Int) - 1 - j else j) (if rc2 then (k : Int) - 1 - j else j)
        = Except.ok r ∧
      compareLoop mask a b rc1 rc2 (if rc1 then -1 else (k : Int))
        (if rc2 then -1 else (k : Int)) (if rc1 then -1 else 1) (if rc2 then -1 else 1) fuel
        (if rc1 then (k : Int) - 1 - j else j) (if rc2 then (k : Int) - 1 - j else j)
        = some r := by
  intro n
  induction n with
  | zero =>
    intro j fuel hj hf
    have hjk : j = k := by omega
    subst hjk
    obtain ⟨fuel, rfl⟩ : ∃ f, fuel = f + 1 := ⟨fuel - 1, by omega⟩
    rw [compareLoopChecked, compareLoop]
    have hcond : ((if rc1 then (j : Int) - 1 - j else j) != (if rc1 then -1 else (j : Int))
        && (if rc2 then (j : Int) - 1 - j else j) != (if rc2 then -1 else (j : Int))) = false := by
      cases rc1 <;> simp
    rw [hcond]
    exact ⟨0, rfl, rfl⟩
  | succ n ih =>
    intro j fuel hj hf
    obtain ⟨fuel, rfl⟩ : ∃ f, fuel = f + 1 := ⟨fuel - 1, by omega⟩
    rw [compareLoopChecked, compareLoop]
    have hcond : ((if rc1 then (k : Int) - 1 - j else j) != (if rc1 then -1 else (k : Int))
        && (if rc2 then (k : Int) - 1 - j else j) != (if rc2 then -1 else (k : Int))) = true := by
      cases rc1 <;> cases rc2 <;> simp <;> omega
    have hn1 : (if rc1 then (k : Int) - 1 - j else (j : Int)) + (if rc1 then -1 else 1)
        = if rc1 then (k : Int) - 1 - (j + 1 : Nat) else ((j + 1 : Nat) : Int) := by
      cases rc1 <;> simp
      omega
    have hn2 : (if rc2 then (k : Int) - 1 - j else (j : Int)) + (if rc2 then -1 else 1)
        = if rc2 then (k : Int) - 1 - (j + 1 : Nat) else ((j + 1 : Nat) : Int) := by
      cases rc2 <;> simp
      omega
    rw [hcond, maskedAt_ok k mask rc1 rc2 hlen hsym j (by omega), hn1, hn2]
    simp only [if_true]
    obtain ⟨r, h1, h2⟩ := ih (j + 1) fuel (by omega) (by omega)
    rw [h1, h2]
    cases hm : (!mask.isEmpty
        && charAt mask (if rc1 then (k : Int) - 1 - j else (j : Int)).toNat != '1')
    · simp only [Bool.false_eq_true, if_false]
      generalize (if rc1 = true then
          complementBaseChar (toupper (charAt a (if rc1 then (k : Int) - 1 - j else j).toNat))
        else toupper (charAt a (if rc1 then (k : Int) - 1 - j else j).toNat)) = c1
      generalize (if rc2 = true then
          complementBaseChar (toupper (charAt b (if rc2 then (k : Int) - 1 - j else j).toNat))
        else toupper (charAt b (if rc2 then (k : Int) - 1 - j else j).toNat)) = c2
      split_ifs
      · exact ⟨1, rfl, rfl⟩
      · exact ⟨-1, rfl, rfl⟩
      · exact ⟨r, rfl, rfl⟩
    · simp only [if_true]
      exact ⟨r, rfl, rfl⟩

/-- With a symmetric mask of length k, `compare` never fails its assertion and
never reads the mask out of range: the checked loop returns what the plain loop
returns. -/
theorem compareChecked_safe (k : Nat) (mask a b : List Char)
    (hlen : mask.length = k) (hsym : symmetricMask k mask) :
    ∃ r, compareChecked k mask a b = Except.ok r ∧
      RollingBloomDBGVertex.compare k mask a b = some r := by
  have h := compareLoopChecked_safe k mask a b (!isCanonical k a) (!isCanonical k b)
    hlen hsym k 0 (k + 1) (by omega) (by omega)
  obtain ⟨r, h1, h2⟩ := h
  refine ⟨r, ?_, ?_⟩
  · rw [← h1]
    unfold compareChecked
    simp only []
    congr 1 <;> cases isCanonical k a <;> cases isCanonical k b <;> simp
  · rw [← h2]
    unfold RollingBloomDBGVertex.compare
    simp only []
    congr 1 <;> cases isCanonical k a <;> cases isCanonical k b <;> simp

/-- C35: with the symmetric mask 101101 for k = 6 the assertion holds and the
reads of the mask are in range, but the positions with mask 0 do influence the
result: AACCAT and ATCCTT agree at every position the mask keeps, yet `compare`
finds them different, and against AACGAA one is smaller and the other larger.
The bases at the masked positions 1 and 4 decide `isCanonical`, and with it the
direction in which `compare` reads the k-mer. -/
theorem compare_masked_positions :
    symmetricMask 6 ['1', '0', '1', '1', '0', '1'] ∧
    agreeOnMask 6 ['1', '0', '1', '1', '0', '1']
      ['A', 'A', 'C', 'C', 'A', 'T'] ['A', 'T', 'C', 'C', 'T', 'T'] ∧
    isCanonical 6 ['A', 'A', 'C', 'C', 'A', 'T'] = true ∧
    isCanonical 6 ['A', 'T', 'C', 'C', 'T', 'T'] = false ∧
    compareChecked 6 ['1', '0', '1', '1', '0', '1']
      ['A', 'A', 'C', 'C', 'A', 'T'] ['A', 'T', 'C', 'C', 'T', 'T'] = Except.ok (-1) ∧
    compareChecked 6 ['1', '0', '1', '1', '0', '1']
      ['A', 'A', 'C', 'C', 'A', 'T'] ['A', 'A', 'C', 'G', 'A', 'A'] = Except.ok (-1) ∧
    compareChecked 6 ['1', '0', '1', '1', '0', '1']
      ['A', 'T', 'C', 'C', 'T', 'T'] ['A', 'A', 'C', 'G', 'A', 'A'] = Except.ok 1 := by
  refine ⟨by decide, by decide, by decide, by decide, rfl, rfl, rfl⟩

end MaskedCompare

section IteratorHashes
open RollingHashIterator LightweightKmer

variable {H : Type}

theorem substr_length (s : List Char) (p k : Nat) (h : p + k ≤ s.length) :
    (substr s p k).length = k := by
  unfold substr
  rw [List.length_take, List.length_drop]
  omega

theorem charAt_substr (s : List Char) (p k t : Nat) (ht : t < k) :
    charAt (substr s p k) t = charAt s (p + t) := by
  unfold substr
  rw [charAt_eq, charAt_eq, List.getElem?_take_of_lt ht, List.getElem?_drop]

theorem substr_roll (s : List Char) (p k : Nat) (hp : 1 ≤ p) (hk : 1 ≤ k)
    (h : p + k ≤ s.length) :
    (substr s (p - 1) k).drop 1 ++ [charAt s (p + k - 1)] = substr s p k := by
  have hl1 : (substr s (p - 1) k).length = k := substr_length s (p - 1) k (by omega)
  apply ext_charAt k
  · rw [List.length_append, List.length_drop, hl1]; simp; omega
  · exact substr_length s p k h
  · intro t ht
    rw [charAt_substr s p k t ht]
    by_cases hlast : t = k - 1
    · rw [charAt_eq, List.getElem?_append_right (by rw [List.length_drop, hl1]; omega)]
      rw [List.length_drop, hl1]
      have e : t - (k - 1) = 0 := by omega
      rw [e]
      have e2 : p + t = p + k - 1 := by omega
      simp [e2]
    · rw [charAt_eq, List.getElem?_append_left (by rw [List.length_drop, hl1]; omega),
        List.getElem?_drop, ← charAt_eq, charAt_substr s (p - 1) k (1 + t) (by omega)]
      congr 1; omega


theorem emitChecked_spec (ops : RollingHashOps H) (hashOf : List Char → H)
    (useq : List Char) (k : Nat) (hk : 1 ≤ k) (hco : windowCoherent ops k hashOf)
    (it : RollingHashIterator H) (hseq : it.m_seq = useq) (hkk : it.m_k = k)
    (hq : it.m_pos + k ≤ useq.length)
    (hI : it.m_rollNextHash = true →
      1 ≤ it.m_pos ∧ it.m_rollingHash = hashOf (substr useq (it.m_pos - 1) k)) :
    ∃ st, emitChecked ops it = Except.ok st ∧ st.it = emit ops it ∧
      st.before = it.m_rollingHash ∧ st.rolled = it.m_rollNextHash ∧
      (emit ops it).m_rollNextHash = true ∧
      (emit ops it).m_rollingHash = hashOf (substr useq it.m_pos k) ∧
      (emit ops it).m_hashes = ops.getHashes (hashOf (substr useq it.m_pos k)) := by
  cases h : it.m_rollNextHash
  · have hr : ops.reset it.m_rollingHash (substr it.m_seq it.m_pos it.m_k)
        = hashOf (substr useq it.m_pos k) := by
      rw [hseq, hkk]
      exact hco.1 _ _ (substr_length useq it.m_pos k hq)
    refine ⟨{ it := emit ops it, rolled := false, before := it.m_rollingHash }, ?_, rfl, rfl,
      rfl, ?_, ?_, ?_⟩
    · unfold emitChecked; simp [h]
    · unfold emit; simp [h]
    · unfold emit; simp [h, hr]
    · unfold emit; simp [h, hr]
  · obtain ⟨h1, h2⟩ := hI h
    have hr : ops.rollRight it.m_rollingHash (substr it.m_seq (it.m_pos - 1) it.m_k)
        (charAt it.m_seq (it.m_pos + it.m_k - 1)) = hashOf (substr useq it.m_pos k) := by
      rw [hseq, hkk, h2, hco.2 _ _ (substr_length useq (it.m_pos - 1) k (by omega)),
        substr_roll useq it.m_pos k h1 hk hq]
    refine ⟨{ it := emit ops it, rolled := true, before := it.m_rollingHash }, ?_, rfl, rfl,
      rfl, ?_, ?_, ?_⟩
    · unfold emitChecked
      simp only [h, Bool.not_true, Bool.false_eq_true, if_false]
      rw [if_pos (by omega)]
    · unfold emit; simp [h]
    · unfold emit; simp [h, hr]
    · unfold emit; simp [h, hr]

theorem nextLoopChecked_spec (ops : RollingHashOps H) (hashOf : List Char → H)
    (spacedSeed useq : List Char) (k : Nat)
    (hk : 1 ≤ k) (hkl : k ≤ useq.length) (hlen : useq.length < npos)
    (hco : windowCoherent ops k hashOf) :
    ∀ (fuel : Nat) (it : RollingHashIterator H), it.m_seq = useq → it.m_k = k →
    badInv useq it.m_badCharPos it.m_pos →
    useq.length + 1 - k - it.m_pos < fuel →
    (it.m_rollNextHash = true →
      1 ≤ it.m_pos ∧ it.m_rollingHash = hashOf (substr useq (it.m_pos - 1) k)) →
    ∃ st, nextLoopChecked ops spacedSeed fuel it = Except.ok st ∧
      nextLoop ops spacedSeed fuel it = some st.it ∧ st.before = it.m_rollingHash ∧
      (st.it.m_pos = npos ∨
       (it.m_pos ≤ st.it.m_pos ∧ st.it.m_pos + k ≤ useq.length ∧
          st.it.m_rollNextHash = true ∧
          st.it.m_rollingHash = hashOf (substr useq st.it.m_pos k) ∧
          st.it.m_hashes = ops.getHashes (hashOf (substr useq st.it.m_pos k)) ∧
          (st.rolled = true ↔ it.m_rollNextHash = true ∧ st.it.m_pos = it.m_pos))) := by
  have hnp := npos_lt
  intro fuel
  induction fuel with
  | zero => intro it _ _ _ hf; omega
  | succ fuel ih =>
    intro it hseq hkk hinv hf hI
    have hN : wrap64 (it.m_seq.length - it.m_k + 1) = useq.length + 1 - k := by
      rw [hseq, hkk, wrap64_of_lt _ (by omega)]; omega
    unfold nextLoopChecked nextLoop
    simp only [hN]
    by_cases hcond : it.m_pos < useq.length + 1 - k
    · rw [if_pos hcond, if_pos hcond]
      obtain ⟨hinv1, hge⟩ := popFrontWhile_spec useq it.m_pos it.m_badCharPos hinv
      have hw : wrap64 (it.m_pos + it.m_k) = it.m_pos + k := by
        rw [hkk, wrap64_of_lt _ (by omega)]
      have hemit : ∃ st,
          emitChecked ops { it with m_badCharPos := popFrontWhile it.m_badCharPos it.m_pos }
            = Except.ok st ∧
          some (emit ops { it with m_badCharPos := popFrontWhile it.m_badCharPos it.m_pos })
            = some st.it ∧ st.before = it.m_rollingHash ∧
          (st.it.m_pos = npos ∨
           (it.m_pos ≤ st.it.m_pos ∧ st.it.m_pos + k ≤ useq.length ∧
              st.it.m_rollNextHash = true ∧
              st.it.m_rollingHash = hashOf (substr useq st.it.m_pos k) ∧
              st.it.m_hashes = ops.getHashes (hashOf (substr useq st.it.m_pos k)) ∧
              (st.rolled = true ↔ it.m_rollNextHash = true ∧ st.it.m_pos = it.m_pos))) := by
        obtain ⟨st, h1, h2, h3, h4, h5, h6, h7⟩ := emitChecked_spec ops hashOf useq k hk hco
          { it with m_badCharPos := popFrontWhile it.m_badCharPos it.m_pos } hseq hkk
          (by show it.m_pos + k ≤ useq.length; omega) hI
        obtain ⟨_, _, e3, _⟩ :=
          emit_fields ops { it with m_badCharPos := popFrontWhile it.m_badCharPos it.m_pos }
        have e3b : st.it.m_pos = it.m_pos := by rw [h2, e3]
        refine ⟨st, h1, by rw [h2], h3, Or.inr ⟨by omega, by omega, ?_, ?_, ?_, ?_⟩⟩
        · rw [h2]; exact h5
        · rw [e3b, h2]; exact h6
        · rw [e3b, h2]; exact h7
        · rw [h4]
          exact ⟨fun h => ⟨h, e3b⟩, fun h => h.1⟩
      cases hpop : popFrontWhile it.m_badCharPos it.m_pos with
      | nil =>
        simp only []
        rw [← hpop]
        exact hemit
      | cons front rest =>
        simp only [hw]
        rw [hpop] at hinv1 hge
        have hfront := hge front (List.mem_cons_self _ _)
        have hfbad := hinv1.2.1 front (List.mem_cons_self _ _)
        by_cases hfr : front < it.m_pos + k
        · rw [if_pos hfr, if_pos hfr]
          by_cases hseed : spacedSeed.isEmpty = true
          · rw [if_pos hseed, if_pos hseed]
            have hw2 : wrap64 (front + 1) = front + 1 :=
              wrap64_of_lt _ (by have := hfbad.1; omega)
            rw [hw2]
            have hinv2 : badInv useq (front :: rest) (front + 1) :=
              ⟨hinv1.1, hinv1.2.1, fun p hp hbad => hinv1.2.2 p (by omega) hbad⟩
            obtain ⟨st, h1, h2, h3, h4⟩ := ih
              { it with m_badCharPos := front :: rest, m_rollNextHash := false,
                        m_pos := front + 1 } hseq hkk hinv2 (by
                  show useq.length + 1 - k - (front + 1) < fuel
                  omega) (fun h => absurd h (by simp))
            refine ⟨st, h1, h2, h3, ?_⟩
            rcases h4 with h5 | ⟨h5, h6, h7, h8, h9, h10⟩
            · exact Or.inl h5
            · have h5b : front + 1 ≤ st.it.m_pos := h5
              refine Or.inr ⟨by omega, h6, h7, h8, h9, ?_⟩
              constructor
              · intro h; exact absurd (h10.1 h).1 (by simp)
              · intro h; omega
          · rw [if_neg hseed, if_neg hseed]
            by_cases hg : (!goodKmer spacedSeed it.m_pos it.m_k (front :: rest)) = true
            · rw [if_pos hg, if_pos hg]
              have hw2 : wrap64 (it.m_pos + 1) = it.m_pos + 1 := wrap64_of_lt _ (by omega)
              rw [hw2]
              have hinv2 : badInv useq (front :: rest) (it.m_pos + 1) :=
                ⟨hinv1.1, hinv1.2.1, fun p hp hbad => hinv1.2.2 p (by omega) hbad⟩
              obtain ⟨st, h1, h2, h3, h4⟩ := ih
                { it with m_badCharPos := front :: rest, m_rollNextHash := false,
                          m_pos := it.m_pos + 1 } hseq hkk hinv2 (by
                    show useq.length + 1 - k - (it.m_pos + 1) < fuel
                    omega) (fun h => absurd h (by simp))
              refine ⟨st, h1, h2, h3, ?_⟩
              rcases h4 with h5 | ⟨h5, h6, h7, h8, h9, h10⟩
              · exact Or.inl h5
              · have h5b : it.m_pos + 1 ≤ st.it.m_pos := h5
                refine Or.inr ⟨by omega, h6, h7, h8, h9, ?_⟩
                constructor
                · intro h; exact absurd (h10.1 h).1 (by simp)
                · intro h; omega
            · rw [if_neg hg, if_neg hg]
              rw [← hpop]
              exact hemit
        · rw [if_neg hfr, if_neg hfr]
          rw [← hpop]
          exact hemit
    · rw [if_neg hcond, if_neg hcond]
      exact ⟨_, rfl, rfl, rfl, Or.inl rfl⟩


theorem nextChecked_spec (ops : RollingHashOps H) (hashOf : List Char → H)
    (spacedSeed useq : List Char) (k : Nat)
    (hk : 1 ≤ k) (hlen : useq.length < npos) (hco : windowCoherent ops k hashOf)
    (it : RollingHashIterator H) (hseq : it.m_seq = useq) (hkk : it.m_k = k)
    (hinv : badInv useq it.m_badCharPos it.m_pos)
    (hI : it.m_rollNextHash = true →
      1 ≤ it.m_pos ∧ it.m_rollingHash = hashOf (substr useq (it.m_pos - 1) k)) :
    ∃ st, nextChecked ops spacedSeed it = Except.ok st ∧
      next ops spacedSeed it = some st.it ∧ st.before = it.m_rollingHash ∧
      st.it.m_seq = useq ∧ st.it.m_k = k ∧
      (st.it.m_pos = npos ∨
       (it.m_pos ≤ st.it.m_pos ∧ st.it.m_pos + k ≤ useq.length ∧
          badInv useq st.it.m_badCharPos st.it.m_pos ∧
          st.it.m_rollNextHash = true ∧
          st.it.m_rollingHash = hashOf (substr useq st.it.m_pos k) ∧
          st.it.m_hashes = ops.getHashes (hashOf (substr useq st.it.m_pos k)) ∧
          (st.rolled = true ↔ it.m_rollNextHash = true ∧ st.it.m_pos = it.m_pos))) := by
  have hnp := npos_lt
  obtain ⟨it1, n1, n2, n3, n4⟩ := next_spec ops spacedSeed useq k hk hlen it hseq hkk hinv
  have hmain : ∃ st, nextChecked ops spacedSeed it = Except.ok st ∧
      next ops spacedSeed it = some st.it ∧ st.before = it.m_rollingHash ∧
      (st.it.m_pos = npos ∨
       (it.m_pos ≤ st.it.m_pos ∧ st.it.m_pos + k ≤ useq.length ∧
          st.it.m_rollNextHash = true ∧
          st.it.m_rollingHash = hashOf (substr useq st.it.m_pos k) ∧
          st.it.m_hashes = ops.getHashes (hashOf (substr useq st.it.m_pos k)) ∧
          (st.rolled = true ↔ it.m_rollNextHash = true ∧ st.it.m_pos = it.m_pos))) := by
    unfold nextChecked next
    by_cases hshort : it.m_seq.length < it.m_k
    · rw [if_pos hshort, if_pos hshort]
      exact ⟨_, rfl, rfl, rfl, Or.inl rfl⟩
    · rw [if_neg hshort, if_neg hshort]
      have hkl : k ≤ useq.length := by rw [hseq, hkk] at hshort; omega
      rw [hseq]
      exact nextLoopChecked_spec ops hashOf spacedSeed useq k hk hkl hlen hco
        (useq.length + 1) it hseq hkk hinv (by omega) hI
  obtain ⟨st, h1, h2, h3, h4⟩ := hmain
  have e : it1 = st.it := Option.some.inj (n1.symm.trans h2)
  rw [e] at n2 n3 n4
  refine ⟨st, h1, h2, h3, n2, n3, ?_⟩
  rcases h4 with h5 | ⟨h5, h6, h7, h8, h9, h10⟩
  · exact Or.inl h5
  · rcases n4 with ⟨m1, _⟩ | ⟨_, _, _, _, m5⟩
    · omega
    · exact Or.inr ⟨h5, h6, m5, h7, h8, h9, h10⟩

theorem recordBadChars_init (seq : List Char) (hlen : seq.length < npos) :
    ∃ bad, recordBadChars (seq.map toupper) ((seq.map toupper).length + 1)
      (find_first_not_of (seq.map toupper) 0) [] = some bad ∧
      badInv (seq.map toupper) bad 0 := by
  have hl : (seq.map toupper).length = seq.length := List.length_map _ _
  have hlen2 : (seq.map toupper).length < npos := by rw [hl]; exact hlen
  have hfirst := find_first_not_of_spec (seq.map toupper) 0 (Nat.zero_le _) hlen2
  rcases hfirst with ⟨h1, h2⟩ | ⟨h1, _, h3, h4⟩
  · rw [h1]
    exact recordBadChars_spec _ hlen2 _ npos [] (Or.inl rfl)
      (fun p hbad _ => absurd hbad (h2 p (Nat.zero_le p))) List.Pairwise.nil
      (fun b hb => absurd hb (List.not_mem_nil b)) (fun _ => by omega)
      (fun hne => absurd rfl hne)
  · exact recordBadChars_spec _ hlen2 _ _ [] (Or.inr h3)
      (fun p hbad hp => absurd hbad (h4 p (Nat.zero_le p) hp)) List.Pairwise.nil
      (fun b hb => absurd hb (List.not_mem_nil b)) (fun hc => absurd hc h1)
      (fun _ => by omega)

theorem createChecked_spec (ops : RollingHashOps H) (hashOf : List Char → H)
    (spacedSeed seq : List Char) (numHashes k : Nat)
    (hk : 1 ≤ k) (hlen : seq.length < npos) (hco : windowCoherent ops k hashOf) :
    ∃ st, createChecked ops spacedSeed seq numHashes k = Except.ok st ∧
      create ops spacedSeed seq numHashes k = some st.it ∧
      st.it.m_seq = seq.map toupper ∧ st.it.m_k = k ∧
      (st.it.m_pos = npos ∨
       (st.it.m_pos + k ≤ (seq.map toupper).length ∧
          badInv (seq.map toupper) st.it.m_badCharPos st.it.m_pos ∧
          st.it.m_rollNextHash = true ∧
          st.it.m_rollingHash = hashOf (substr (seq.map toupper) st.it.m_pos k) ∧
          st.it.m_hashes
            = ops.getHashes (hashOf (substr (seq.map toupper) st.it.m_pos k)) ∧
          st.rolled = false)) := by
  have hl : (seq.map toupper).length = seq.length := List.length_map _ _
  have hlen2 : (seq.map toupper).length < npos := by rw [hl]; exact hlen
  obtain ⟨bad, hb1, hb2⟩ := recordBadChars_init seq hlen
  obtain ⟨st, h1, h2, _, h4, h5, h6⟩ := nextChecked_spec ops hashOf spacedSeed
    (seq.map toupper) k hk hlen2 hco
    { m_seq := seq.map toupper, m_numHashes := numHashes, m_hashes := [], m_k := k,
      m_rollingHash := ops.create numHashes k, m_rollNextHash := false, m_pos := 0,
      m_badCharPos := bad } rfl rfl hb2 (fun h => absurd h (by simp))
  refine ⟨st, ?_, ?_, h4, h5, ?_⟩
  · simp only [createChecked, initChecked, hb1]
    exact h1
  · simp only [create, init, hb1]
    exact h2
  · rcases h6 with h7 | ⟨_, h8, h9, h10, h11, h12, h13⟩
    · exact Or.inl h7
    · refine Or.inr ⟨h8, h9, h10, h11, h12, ?_⟩
      cases hst : st.rolled
      · rfl
      · exact absurd (h13.1 hst).1 (by simp)

theorem visitLoopChecked_spec (ops : RollingHashOps H) (hashOf : List Char → H)
    (spacedSeed useq : List Char) (k : Nat)
    (hk : 1 ≤ k) (hlen : useq.length < npos) (hco : windowCoherent ops k hashOf) :
    ∀ (fuel : Nat) (st : Step H), st.it.m_seq = useq → st.it.m_k = k →
    (st.it.m_pos = npos ∨
      (st.it.m_pos + k ≤ useq.length ∧ badInv useq st.it.m_badCharPos st.it.m_pos ∧
        st.it.m_rollNextHash = true ∧
        st.it.m_rollingHash = hashOf (substr useq st.it.m_pos k) ∧
        st.it.m_hashes = ops.getHashes (hashOf (substr useq st.it.m_pos k)) ∧
        (st.rolled = true → 1 ≤ st.it.m_pos))) →
    0 < fuel → (st.it.m_pos ≠ npos → useq.length + 1 - k - st.it.m_pos < fuel) →
    ∃ tr, visitLoopChecked ops spacedSeed fuel st = Except.ok tr ∧
      visitLoop ops spacedSeed fuel st.it = some (tr.map (fun s => s.it.m_pos)) ∧
      tr.head? = (if isEnd st.it then none else some st) ∧
      tr.Chain' (fun s1 s2 => s2.before = s1.it.m_rollingHash ∧
        (s2.rolled = true ↔ s2.it.m_pos = s1.it.m_pos + 1)) ∧
      ∀ s ∈ tr, s.it.m_pos + k ≤ useq.length ∧ (s.rolled = true → 1 ≤ s.it.m_pos) ∧
        s.it.m_rollingHash = hashOf (substr useq s.it.m_pos k) ∧
        s.it.m_hashes = ops.getHashes (hashOf (substr useq s.it.m_pos k)) := by
  have hnp := npos_lt
  intro fuel
  induction fuel with
  | zero => intro st _ _ _ hf _; omega
  | succ fuel ih =>
    intro st hseq hkk hst _ hf
    unfold visitLoopChecked visitLoop
    by_cases hend : st.it.m_pos = npos
    · have h : isEnd st.it = true := by simp [isEnd, hend]
      rw [if_pos h, if_pos h, if_pos h]
      exact ⟨[], rfl, rfl, rfl, List.chain'_nil, fun s hs => absurd hs (List.not_mem_nil s)⟩
    · have h : ¬ (isEnd st.it = true) := by simp [isEnd, hend]
      rw [if_neg h, if_neg h, if_neg h]
      obtain ⟨hq, hbad, hflag, hhash, hhashes, hroll⟩ := hst.resolve_left hend
      have hw : wrap64 (st.it.m_pos + 1) = st.it.m_pos + 1 := wrap64_of_lt _ (by omega)
      obtain ⟨st1, h1, h2, h3, h4, h5, h6⟩ := nextChecked_spec ops hashOf spacedSeed useq k
        hk hlen hco { st.it with m_pos := wrap64 (st.it.m_pos + 1) } hseq hkk
        (by
          show badInv useq st.it.m_badCharPos (wrap64 (st.it.m_pos + 1))
          rw [hw]
          exact ⟨hbad.1, hbad.2.1, fun p hp hb => hbad.2.2 p (by omega) hb⟩)
        (by
          intro _
          show 1 ≤ wrap64 (st.it.m_pos + 1) ∧
            st.it.m_rollingHash = hashOf (substr useq (wrap64 (st.it.m_pos + 1) - 1) k)
          rw [hw]
          exact ⟨by omega, hhash⟩)
      have hc : incrChecked ops spacedSeed st.it = Except.ok st1 := h1
      have hn : incr ops spacedSeed st.it = some st1.it := h2
      have hb : st1.before = st.it.m_rollingHash := h3
      have hst1 : st1.it.m_pos = npos ∨
          (st.it.m_pos + 1 ≤ st1.it.m_pos ∧ st1.it.m_pos + k ≤ useq.length ∧
            badInv useq st1.it.m_badCharPos st1.it.m_pos ∧
            st1.it.m_rollNextHash = true ∧
            st1.it.m_rollingHash = hashOf (substr useq st1.it.m_pos k) ∧
            st1.it.m_hashes = ops.getHashes (hashOf (substr useq st1.it.m_pos k)) ∧
            (st1.rolled = true ↔ st1.it.m_pos = st.it.m_pos + 1)) := by
        rcases h6 with h7 | ⟨h7, h8, h9, h10, h11, h12, h13⟩
        · exact Or.inl h7
        · have h7b : wrap64 (st.it.m_pos + 1) ≤ st1.it.m_pos := h7
          have h13b : st1.rolled = true ↔
              st.it.m_rollNextHash = true ∧ st1.it.m_pos = wrap64 (st.it.m_pos + 1) := h13
          rw [hw] at h7b h13b
          refine Or.inr ⟨h7b, h8, h9, h10, h11, h12, ?_⟩
          rw [h13b]
          exact ⟨fun x => x.2, fun x => ⟨hflag, x⟩⟩
      obtain ⟨tr, t1, t2, t3, t4, t5⟩ := ih st1 h4 h5
        (by
          rcases hst1 with h7 | ⟨h7, h8, h9, h10, h11, h12, h13⟩
          · exact Or.inl h7
          · exact Or.inr ⟨h8, h9, h10, h11, h12, fun _ => by omega⟩)
        (by omega)
        (by
          intro hne
          rcases hst1 with h7 | ⟨h7, _⟩
          · exact absurd h7 hne
          · omega)
      rw [hc, hn]
      simp only [t1, t2]
      refine ⟨st :: tr, rfl, rfl, rfl, ?_, ?_⟩
      · rw [List.chain'_cons']
        refine ⟨fun s hs => ?_, t4⟩
        rw [t3] at hs
        by_cases hend1 : isEnd st1.it = true
        · rw [if_pos hend1] at hs; cases hs
        · rw [if_neg hend1] at hs
          have e : st1 = s := by simpa using hs
          rw [← e]
          have hne1 : st1.it.m_pos ≠ npos := by
            intro x; apply hend1; simp [isEnd, x]
          obtain ⟨_, _, _, _, _, _, h13⟩ := hst1.resolve_left hne1
          exact ⟨hb, h13⟩
      · intro s hs
        rcases List.mem_cons.mp hs with e | e
        · rw [e]; exact ⟨hq, hroll, hhash, hhashes⟩
        · exact t5 s e


/-- C34: iterating over a sequence, the assertion `m_pos > 0` of the rolling
branch of `next` never fails and the iteration ends.  The first k-mer is hashed
by `reset`; each later one is hashed by rolling exactly when it is at the
position after the previously visited k-mer, and then the rolling starts from
the hash state left at that k-mer, which is the state of its window; after any
skip the hash is computed by `reset`.  So, when `rollRight` takes the hash state
of a window to that of the next window, the hash values at every visited
position are those of `reset` on the window at that position. -/
theorem iterator_hash_invariant (ops : RollingHashOps H) (hashOf : List Char → H)
    (spacedSeed seq : List Char) (numHashes k : Nat)
    (hk : 1 ≤ k) (hlen : seq.length < npos) (hco : windowCoherent ops k hashOf) :
    ∃ tr ps, visitedChecked ops spacedSeed seq numHashes k = Except.ok tr ∧
      visited ops spacedSeed seq numHashes k = some ps ∧
      tr.map (fun s => s.it.m_pos) = ps ∧
      (∀ s ∈ tr.head?, s.rolled = false) ∧
      tr.Chain' (fun s1 s2 => s2.before = s1.it.m_rollingHash ∧
        (s2.rolled = true ↔ s2.it.m_pos = s1.it.m_pos + 1)) ∧
      ∀ s ∈ tr, (s.rolled = true → 1 ≤ s.it.m_pos) ∧
        s.it.m_rollingHash = hashOf (substr (seq.map toupper) s.it.m_pos k) ∧
        ∀ h, s.it.m_hashes
          = ops.getHashes (ops.reset h (substr (seq.map toupper) s.it.m_pos k)) := by
  have hl : (seq.map toupper).length = seq.length := List.length_map _ _
  have hlen2 : (seq.map toupper).length < npos := by rw [hl]; exact hlen
  obtain ⟨st, c1, c2, c3, c4, c5⟩ :=
    createChecked_spec ops hashOf spacedSeed seq numHashes k hk hlen hco
  obtain ⟨tr, t1, t2, t3, t4, t5⟩ := visitLoopChecked_spec ops hashOf spacedSeed
    (seq.map toupper) k hk hlen2 hco (seq.length + 1) st c3 c4
    (by
      rcases c5 with h | ⟨h1, h2, h3, h4, h5, h6⟩
      · exact Or.inl h
      · exact Or.inr ⟨h1, h2, h3, h4, h5, fun x => by rw [h6] at x; cases x⟩)
    (by omega) (fun _ => by rw [hl]; omega)
  refine ⟨tr, tr.map (fun s => s.it.m_pos), ?_, ?_, rfl, ?_, t4, ?_⟩
  · simp only [visitedChecked, c1, t1]
  · simp only [visited, c2, t2]
  · intro s hs
    rw [t3] at hs
    by_cases hend : isEnd st.it = true
    · rw [if_pos hend] at hs; cases hs
    · rw [if_neg hend] at hs
      have e : st = s := by simpa using hs
      rw [← e]
      have hne : st.it.m_pos ≠ npos := by
        intro x; apply hend; simp [isEnd, x]
      exact (c5.resolve_left hne).2.2.2.2.2
  · intro s hs
    obtain ⟨hq, h1, h2, h3⟩ := t5 s hs
    refine ⟨h1, h2, fun h => ?_⟩
    rw [h3, hco.1 h _ (substr_length _ _ _ hq)]


/-- Witness for C34: with the rolling hash whose state is the window itself,
the iteration over ACGTNACGT with k = 3 visits the positions 0, 1, 5 and 6
without failing the assertion. -/
theorem iterator_hash_invariant_witness :
    windowCoherent windowOps 3 id ∧
    visited windowOps [] ['A', 'C', 'G', 'T', 'N', 'A', 'C', 'G', 'T'] 1 3
      = some [0, 1, 5, 6] ∧
    ∃ tr ps, visitedChecked windowOps []
        ['A', 'C', 'G', 'T', 'N', 'A', 'C', 'G', 'T'] 1 3 = Except.ok tr ∧
      visited windowOps [] ['A', 'C', 'G', 'T', 'N', 'A', 'C', 'G', 'T'] 1 3 = some ps ∧
      tr.map (fun s => s.it.m_pos) = ps ∧
      (∀ s ∈ tr.head?, s.rolled = false) ∧
      tr.Chain' (fun s1 s2 => s2.before = s1.it.m_rollingHash ∧
        (s2.rolled = true ↔ s2.it.m_pos = s1.it.m_pos + 1)) ∧
      ∀ s ∈ tr, (s.rolled = true → 1 ≤ s.it.m_pos) ∧
        s.it.m_rollingHash
          = id (substr (['A', 'C', 'G', 'T', 'N', 'A', 'C', 'G', 'T'].map toupper)
              s.it.m_pos 3) ∧
        ∀ h, s.it.m_hashes
          = windowOps.getHashes (windowOps.reset h
              (substr (['A', 'C', 'G', 'T', 'N', 'A', 'C', 'G', 'T'].map toupper)
                s.it.m_pos 3)) :=
  ⟨⟨fun _ _ _ => rfl, fun _ _ _ => rfl⟩, by decide,
    iterator_hash_invariant windowOps id [] ['A', 'C', 'G', 'T', 'N', 'A', 'C', 'G', 'T'] 1 3
      (by decide) (by decide) ⟨fun _ _ _ => rfl, fun _ _ _ => rfl⟩⟩

end IteratorHashes

section ScaffoldFrame
open Graph Scaffold

/-- Whether the step of the vertex loop of `filterGraph` for `u` keeps the edge
`e`. -/
theorem filterVertex_edges (s : Nat) (g : Graph) (u : ContigNode) :
    (filterVertex s g u).edges = g.edges.filter (fun e =>
      !decide (g.length u < s) ||
        (!decide (e.source = u) && !decide (e.target = u.complement) &&
          (!decide (e.source = u.complement) && !decide (e.target = u)))) := by
  by_cases hshort : g.length u < s
  · have e1 : (filterVertex s g u).edges = (clear_vertex u g).edges := by
      unfold filterVertex
      simp only [if_pos hshort]
      split <;> rfl
    rw [e1]
    simp only [clear_vertex, clear_in_edges, clear_out_edges, List.filter_filter,
      complement_complement_node, hshort, decide_True, Bool.not_true, Bool.false_or]
    apply List.filter_congr
    intro e _
    rw [Bool.and_comm]
  · have e1 : (filterVertex s g u).edges = g.edges := by
      unfold filterVertex
      simp only [if_neg hshort]
      split <;> rfl
    rw [e1]
    simp only [hshort, decide_False, Bool.not_false, Bool.true_or, List.filter_true]

theorem filterVertex_foldl_edges (s : Nat) : ∀ (vs : List ContigNode) (g : Graph),
    (vs.foldl (filterVertex s) g).edges = g.edges.filter (fun e =>
      vs.all (fun u => !decide (g.length u < s) ||
        (!decide (e.source = u) && !decide (e.target = u.complement) &&
          (!decide (e.source = u.complement) && !decide (e.target = u))))) := by
  intro vs
  induction vs with
  | nil => intro g; simp
  | cons v vs ih =>
    intro g
    rw [List.foldl_cons, ih (filterVertex s g v), filterVertex_edges,
      (filterVertex_spec s g v).2.1, List.filter_filter]
    apply List.filter_congr
    intro e _
    simp only [List.all_cons]
    rw [Bool.and_comm]

/-- C36: on a graph whose edges end in its vertices and whose complementary
vertices have equal length, the edges of `filterGraph(g0, n, s)` are exactly
the edges of g0 with at least n pairs whose source and target are both at least
s long, in the order and with the attributes they have in g0; the lengths of
the vertices are unchanged. -/
theorem filterGraph_edges (g0 : Graph) (n s : Nat)
    (hends : endsInVertices g0)
    (hlen : ∀ u : ContigNode, g0.length u.complement = g0.length u) :
    (filterGraph g0 n s).edges = g0.edges.filter (supportedEdge g0 n s) ∧
    (filterGraph g0 n s).length = g0.length ∧
    (∀ e, e ∈ (filterGraph g0 n s).edges ↔
      e ∈ g0.edges ∧ n ≤ e.ep.numPairs ∧ s ≤ g0.length e.source ∧
        s ≤ g0.length e.target) := by
  have hedges : (filterGraph g0 n s).edges = g0.edges.filter (supportedEdge g0 n s) := by
    have e1 : (filterGraph g0 n s).edges
        = ((g0.vertices.foldl (filterVertex s) g0).edges).filter
            (fun e => !PoorSupport n e) := rfl
    rw [e1, filterVertex_foldl_edges, List.filter_filter]
    apply List.filter_congr
    intro e he
    obtain ⟨hs, ht⟩ := hends e he
    rw [Bool.eq_iff_iff]
    simp only [Bool.and_eq_true, Bool.not_eq_true', PoorSupport, decide_eq_false_iff_not,
      List.all_eq_true, Bool.or_eq_true, supportedEdge, decide_eq_true_eq, not_lt]
    constructor
    · rintro ⟨h1, h2⟩
      refine ⟨h1, ?_, ?_⟩
      · rcases h2 e.source hs with h | h
        · exact h
        · exact absurd rfl h.1.1
      · rcases h2 e.target ht with h | h
        · exact h
        · exact absurd rfl h.2.2
    · rintro ⟨h1, h2, h3⟩
      refine ⟨h1, fun u _ => ?_⟩
      by_cases hu : s ≤ g0.length u
      · exact Or.inl hu
      · right
        have hu2 : ¬ s ≤ g0.length u.complement := by rw [hlen]; exact hu
        refine ⟨⟨?_, ?_⟩, ?_, ?_⟩
        · intro h; rw [h] at h2; exact hu h2
        · intro h; rw [h] at h3; exact hu2 h3
        · intro h; rw [h] at h2; exact hu2 h2
        · intro h; rw [h] at h3; exact hu h3
  refine ⟨hedges, ?_, fun e => ?_⟩
  · exact (filterVertex_foldl_spec s g0.vertices g0).2.1
  · rw [hedges, List.mem_filter]
    simp only [supportedEdge, decide_eq_true_eq]

/-- Witness for C36: with n = 5 and s = 1000 the edges at the short contig 2
and the edges with 2 pairs go, the edges between the contigs 1 and 4 stay. -/
theorem filterGraph_edges_witness :
    (filterGraph shortContigExample 5 1000).edges
      = [⟨⟨1, true⟩, ⟨4, true⟩, ⟨300, 7, 3⟩⟩, ⟨⟨4, false⟩, ⟨1, false⟩, ⟨300, 7, 3⟩⟩] ∧
    (filterGraph shortContigExample 5 1000).edges
      = shortContigExample.edges.filter (supportedEdge shortContigExample 5 1000) :=
  ⟨by decide,
    (filterGraph_edges shortContigExample 5 1000 (by decide)
      (fun u => by cases u; rfl)).1⟩

end ScaffoldFrame

section ScaffoldEdgeOrigin
open Graph Scaffold

theorem remove_edges_sub (g : Graph) (es : List Edge) :
    ∀ e ∈ (remove_edges g es).edges, e ∈ g.edges := by
  intro e he
  simp only [remove_edges, List.mem_filter] at he
  exact he.1

theorem filterGraph_sub (g : Graph) (n s : Nat) :
    ∀ e ∈ (filterGraph g n s).edges, e ∈ g.edges := by
  intro e he
  simp only [filterGraph, remove_edge_if, List.mem_filter] at he
  exact (filterVertex_foldl_spec s g.vertices g).2.2.1 e he.1

theorem removeRepeats_sub (g : Graph) :
    ∀ e ∈ (removeRepeats g).edges, e ∈ g.edges := by
  intro e he
  unfold removeRepeats at he
  exact ((removeRepeatsLoop_edges _ _ _ e).mp he).1

theorem resolveForks_from (g0 g : Graph) (hsym0 : isSymmetric g0) (hg : edgesFrom g0 g) :
    edgesFrom g0 (resolveForks g g0) := by
  intro e he
  rcases (resolveVertex_foldl_extends g0 hsym0 g.vertices g).2 e he with h | h
  · exact hg e h
  · exact h.1

/-- C37: each of the passes of `scaffold` that are defined in scaffold.cc keeps
the property that every edge of the working graph g is an edge of the original
graph g0, with the same distance, standard deviation and number of pairs; the
property holds at the start, where g is a copy of g0.  Consequently, for every
edge of g, the look-up of `addDistEst` in g0 finds an edge, the estimate is the
bundle of that edge of g0, and it is the edge itself when g0 has no parallel
edges. -/
theorem passes_keep_edge_origin (g0 g : Graph) (n s : Nat) (maxGap : Int)
    (hsym0 : isSymmetric g0) (hg : edgesFrom g0 g) :
    edgesFrom g0 g0 ∧
    edgesFrom g0 (filterGraph g n s) ∧
    edgesFrom g0 (removeCycles g) ∧
    edgesFrom g0 (resolveForks g g0) ∧
    edgesFrom g0 (removeRepeats g) ∧
    edgesFrom g0 (removeWeakEdges g) ∧
    edgesFrom g0 (removeLongEdgesStep maxGap g) ∧
    (∀ e ∈ g.edges, ∃ e0 ∈ g0.edges,
      edge e.source e.target g0 = some e0 ∧
      estimate g0 g e.source e.target = some e0.ep ∧
      (noParallelEdges g0 → e0 = e)) := by
  refine ⟨fun e he => he, fun e he => hg e (filterGraph_sub g n s e he),
    fun e he => hg e (remove_edges_sub g _ e he), resolveForks_from g0 g hsym0 hg,
    fun e he => hg e (removeRepeats_sub g e he),
    fun e he => hg e (remove_edges_sub g _ e he), ?_, ?_⟩
  · intro e he
    unfold removeLongEdgesStep at he
    split at he
    · exact hg e (remove_edges_sub g _ e he)
    · exact hg e he
  · intro e he
    have h0 : e ∈ g0.edges := hg e he
    have hsome : (edge e.source e.target g0).isSome = true :=
      (edge_isSome_iff e.source e.target g0).mpr ⟨e, h0, rfl, rfl⟩
    obtain ⟨e0, he0⟩ := Option.isSome_iff_exists.mp hsome
    obtain ⟨m1, m2, m3⟩ := edge_eq_some e.source e.target g0 e0 he0
    refine ⟨e0, m1, he0, ?_, fun hnp => edge_unique g0 hnp e0 e m1 h0 m2 m3⟩
    unfold estimate
    rw [he0]

/-- Witness for C37: the fork example, where the working graph is the original
graph without its edge of 1 pair. -/
theorem passes_keep_edge_origin_witness :
    edgesFrom forkOriginal forkFiltered ∧
    edgesFrom forkOriginal (resolveForks forkFiltered forkOriginal) ∧
    (resolveForks forkFiltered forkOriginal).edges ≠ forkFiltered.edges :=
  ⟨by decide,
    (passes_keep_edge_origin forkOriginal forkFiltered 0 0 0 ⟨by decide, fun _ => rfl⟩
      (by decide)).2.2.2.1,
    by decide⟩

end ScaffoldEdgeOrigin

section GapNodes
open Graph Scaffold

theorem estimate_mem (g0 g1 : Graph) (u v : ContigNode) (ep : DistanceEst)
    (h : estimate g0 g1 u v = some ep) :
    ∃ e, (e ∈ g0.edges ∨ e ∈ g1.edges) ∧ e.ep = ep := by
  unfold estimate at h
  cases h0 : edge u v g0 with
  | some e0 =>
    rw [h0] at h
    exact ⟨e0, Or.inl (edge_eq_some u v g0 e0 h0).1, Option.some.inj h⟩
  | none =>
    rw [h0] at h
    cases h1 : edge u v g1 with
    | some e1 =>
      rw [h1] at h
      exact ⟨e1, Or.inr (edge_eq_some u v g1 e1 h1).1, Option.some.inj h⟩
    | none => rw [h1] at h; cases h

theorem addDistEstStep_cases (k : Nat) (minGap : Int) (g0 g1 : Graph) (u v : ContigNode)
    (hmk : 1 ≤ minGap + (k : Int))
    (hno : ∀ e : Edge, e ∈ g0.edges ∨ e ∈ g1.edges →
      max e.ep.distance minGap + (k : Int) - 1 < 2 ^ 31) :
    (estimate g0 g1 u v = none ∧
      addDistEstStep k minGap g0 g1 u v = Except.error AddDistEstFailure.missingEdge) ∨
    (∃ ep, estimate g0 g1 u v = some ep ∧ ep.stdDev = 0 ∧ ¬ ep.distance < 0 ∧
      addDistEstStep k minGap g0 g1 u v = Except.error AddDistEstFailure.overlapDistance) ∨
    (∃ ep, estimate g0 g1 u v = some ep ∧ ep.stdDev = 0 ∧ ep.distance < 0 ∧
      addDistEstStep k minGap g0 g1 u v = Except.ok [PathNode.contig v]) ∨
    (∃ ep, estimate g0 g1 u v = some ep ∧ ep.stdDev ≠ 0 ∧
      addDistEstStep k minGap g0 g1 u v
        = Except.ok [PathNode.gap (max (max ep.distance minGap + (k : Int) - 1) 1),
            PathNode.contig v]) := by
  unfold addDistEstStep
  cases hest : estimate g0 g1 u v with
  | none => exact Or.inl ⟨rfl, rfl⟩
  | some ep =>
    right
    by_cases hsd : ep.stdDev = 0
    · by_cases hd : ep.distance < 0
      · right; left
        exact ⟨ep, rfl, hsd, hd, by simp [isOverlap, hsd, hd]⟩
      · left
        exact ⟨ep, rfl, hsd, hd, by simp [isOverlap, hsd, hd]⟩
    · right; right
      obtain ⟨e, he, hep⟩ := estimate_mem g0 g1 u v ep hest
      have hlt := hno e he
      rw [hep] at hlt
      have hge : 0 ≤ max ep.distance minGap + (k : Int) - 1 := by
        have := le_max_right ep.distance minGap
        omega
      have ht := toInt32_of_range _ hge hlt
      refine ⟨ep, rfl, hsd, ?_⟩
      simp only [isOverlap, if_neg hsd, ht]
      rw [if_pos hge]

theorem addDistEstLoop_gaps (k : Nat) (minGap : Int) (g0 g1 : Graph)
    (hmk : 1 ≤ minGap + (k : Int))
    (hno : ∀ e : Edge, e ∈ g0.edges ∨ e ∈ g1.edges →
      max e.ep.distance minGap + (k : Int) - 1 < 2 ^ 31) :
    ∀ (rest : List ContigNode) (u : ContigNode),
    addDistEstLoop k minGap g0 g1 u rest ≠ Except.error AddDistEstFailure.negativeGap ∧
    (∀ out, addDistEstLoop k minGap g0 g1 u rest = Except.ok out →
      (∀ n, PathNode.gap n ∈ out → max (minGap + (k : Int) - 1) 1 ≤ n) ∧
      contigsOf out = rest ∧ out.length ≤ 2 * rest.length) ∧
    ((∀ p ∈ (u :: rest).zip rest, stepFound g0 g1 p.1 p.2) →
      ∃ out, addDistEstLoop k minGap g0 g1 u rest = Except.ok out) := by
  intro rest
  induction rest with
  | nil =>
    intro u
    have hval : addDistEstLoop k minGap g0 g1 u [] = Except.ok [] := rfl
    rw [hval]
    refine ⟨(fun h => by cases h), (fun out h => ?_), (fun _ => ⟨[], rfl⟩)⟩
    have e : [] = out := Except.ok.inj h
    rw [← e]
    exact ⟨fun n hn => absurd hn (List.not_mem_nil _), rfl, Nat.le_refl _⟩
  | cons v rest ih =>
    intro u
    obtain ⟨i1, i2, i3⟩ := ih v
    have htail : (∀ p ∈ (u :: v :: rest).zip (v :: rest), stepFound g0 g1 p.1 p.2) →
        ∀ p ∈ (v :: rest).zip rest, stepFound g0 g1 p.1 p.2 := by
      intro hall p hp
      exact hall p (by simp only [List.zip_cons_cons, List.mem_cons]; exact Or.inr hp)
    have hhead : (∀ p ∈ (u :: v :: rest).zip (v :: rest), stepFound g0 g1 p.1 p.2) →
        stepFound g0 g1 u v := fun hall => hall (u, v) (by simp)
    rcases addDistEstStep_cases k minGap g0 g1 u v hmk hno with
      ⟨hest, hs⟩ | ⟨ep, hest, hsd, hd, hs⟩ | ⟨ep, hest, hsd, hd, hs⟩ | ⟨ep, hest, hsd, hs⟩
    · have hval : addDistEstLoop k minGap g0 g1 u (v :: rest)
          = Except.error AddDistEstFailure.missingEdge := by
        simp only [addDistEstLoop, hs]
      rw [hval]
      refine ⟨(fun h => by cases h), (fun out h => by cases h), (fun hall => ?_)⟩
      obtain ⟨ep, h1, _⟩ := hhead hall
      rw [hest] at h1; cases h1
    · have hval : addDistEstLoop k minGap g0 g1 u (v :: rest)
          = Except.error AddDistEstFailure.overlapDistance := by
        simp only [addDistEstLoop, hs]
      rw [hval]
      refine ⟨(fun h => by cases h), (fun out h => by cases h), (fun hall => ?_)⟩
      obtain ⟨ep1, h1, h2⟩ := hhead hall
      rw [hest] at h1
      have e : ep = ep1 := Option.some.inj h1
      rw [← e] at h2
      exact absurd (h2 hsd) hd
    · cases hl : addDistEstLoop k minGap g0 g1 v rest with
      | error x =>
        have hval : addDistEstLoop k minGap g0 g1 u (v :: rest) = Except.error x := by
          simp only [addDistEstLoop, hs, hl]
        rw [hval]
        refine ⟨(fun h => ?_), (fun out h => by cases h), (fun hall => ?_)⟩
        · apply i1
          rw [hl, Except.error.inj h]
        · obtain ⟨out, ho⟩ := i3 (htail hall)
          rw [hl] at ho; cases ho
      | ok out1 =>
        obtain ⟨j1, j2, j3⟩ := i2 out1 hl
        have hval : addDistEstLoop k minGap g0 g1 u (v :: rest)
            = Except.ok (PathNode.contig v :: out1) := by
          simp only [addDistEstLoop, hs, hl]
          rfl
        rw [hval]
        refine ⟨(fun h => by cases h), (fun out h => ?_), (fun _ => ⟨_, rfl⟩)⟩
        have e : PathNode.contig v :: out1 = out := Except.ok.inj h
        rw [← e]
        refine ⟨fun n hn => ?_, ?_, ?_⟩
        · rcases List.mem_cons.mp hn with h1 | h1
          · cases h1
          · exact j1 n h1
        · simp only [contigsOf, List.filterMap_cons]
          rw [← j2]; rfl
        · simp only [List.length_cons]; omega
    · cases hl : addDistEstLoop k minGap g0 g1 v rest with
      | error x =>
        have hval : addDistEstLoop k minGap g0 g1 u (v :: rest) = Except.error x := by
          simp only [addDistEstLoop, hs, hl]
        rw [hval]
        refine ⟨(fun h => ?_), (fun out h => by cases h), (fun hall => ?_)⟩
        · apply i1
          rw [hl, Except.error.inj h]
        · obtain ⟨out, ho⟩ := i3 (htail hall)
          rw [hl] at ho; cases ho
      | ok out1 =>
        obtain ⟨j1, j2, j3⟩ := i2 out1 hl
        have hval : addDistEstLoop k minGap g0 g1 u (v :: rest)
            = Except.ok (PathNode.gap (max (max ep.distance minGap + (k : Int) - 1) 1)
                :: PathNode.contig v :: out1) := by
          simp only [addDistEstLoop, hs, hl]
          rfl
        rw [hval]
        refine ⟨(fun h => by cases h), (fun out h => ?_), (fun _ => ⟨_, rfl⟩)⟩
        have e : PathNode.gap (max (max ep.distance minGap + (k : Int) - 1) 1)
            :: PathNode.contig v :: out1 = out := Except.ok.inj h
        rw [← e]
        refine ⟨fun n hn => ?_, ?_, ?_⟩
        · rcases List.mem_cons.mp hn with h1 | h1
          · have h2 : n = max (max ep.distance minGap + (k : Int) - 1) 1 :=
              PathNode.gap.inj h1
            rw [h2]
            have := le_max_right ep.distance minGap
            apply max_le_max _ (le_refl _)
            omega
          · rcases List.mem_cons.mp h1 with h2 | h2
            · cases h2
            · exact j1 n h2
        · simp only [contigsOf, List.filterMap_cons]
          rw [← j2]; rfl
        · simp only [List.length_cons]; omega

/-- C38: when `minGap + k >= 1` and no gap length overflows, `addDistEst` never
fails the assertion `numN >= 0`; every gap node of its output has a length of
at least max(minGap + k - 1, 1), the output without its gap nodes is the input
path, and the output has at most 2 * |path| - 1 nodes.  An output is produced
whenever the path is not empty and the other assertions hold at every step. -/
theorem addDistEst_gaps (k : Nat) (minGap : Int) (g0 g1 : Graph) (path : List ContigNode)
    (hmk : 1 ≤ minGap + (k : Int))
    (hno : ∀ e : Edge, e ∈ g0.edges ∨ e ∈ g1.edges →
      max e.ep.distance minGap + (k : Int) - 1 < 2 ^ 31) :
    addDistEst k minGap g0 g1 path ≠ Except.error AddDistEstFailure.negativeGap ∧
    (∀ out, addDistEst k minGap g0 g1 path = Except.ok out →
      (∀ n, PathNode.gap n ∈ out → max (minGap + (k : Int) - 1) 1 ≤ n) ∧
      contigsOf out = path ∧ out.length ≤ 2 * path.length - 1) ∧
    (path ≠ [] → (∀ p ∈ path.zip path.tail, stepFound g0 g1 p.1 p.2) →
      ∃ out, addDistEst k minGap g0 g1 path = Except.ok out) := by
  cases path with
  | nil =>
    have hval : addDistEst k minGap g0 g1 []
        = Except.error AddDistEstFailure.emptyPath := rfl
    rw [hval]
    exact ⟨(fun h => by cases h), (fun out h => by cases h), (fun h => absurd rfl h)⟩
  | cons u rest =>
    obtain ⟨i1, i2, i3⟩ := addDistEstLoop_gaps k minGap g0 g1 hmk hno rest u
    cases hl : addDistEstLoop k minGap g0 g1 u rest with
    | error x =>
      have hval : addDistEst k minGap g0 g1 (u :: rest) = Except.error x := by
        simp only [addDistEst, hl]
      rw [hval]
      refine ⟨(fun h => ?_), (fun out h => by cases h), (fun _ hall => ?_)⟩
      · apply i1
        rw [hl, Except.error.inj h]
      · obtain ⟨out, ho⟩ := i3 hall
        rw [hl] at ho; cases ho
    | ok out1 =>
      obtain ⟨j1, j2, j3⟩ := i2 out1 hl
      have hval : addDistEst k minGap g0 g1 (u :: rest)
          = Except.ok (PathNode.contig u :: out1) := by
        simp only [addDistEst, hl]
      rw [hval]
      refine ⟨(fun h => by cases h), (fun out h => ?_), (fun _ _ => ⟨_, rfl⟩)⟩
      have e : PathNode.contig u :: out1 = out := Except.ok.inj h
      rw [← e]
      refine ⟨fun n hn => ?_, ?_, ?_⟩
      · rcases List.mem_cons.mp hn with h1 | h1
        · cases h1
        · exact j1 n h1
      · simp only [contigsOf, List.filterMap_cons]
        rw [← j2]; rfl
      · simp only [List.length_cons]; omega

/-- Witness for C38: in the scenario graph with k = 30 and minGap = 50 the path
from contig 1 to contig 2 gets one gap of 129 bases, which is at least
max(50 + 30 - 1, 1) = 79. -/
theorem addDistEst_gaps_witness :
    addDistEst 30 50 scenarioGraph scenarioGraph [⟨1, true⟩, ⟨2, true⟩]
      = Except.ok [PathNode.contig ⟨1, true⟩, PathNode.gap 129, PathNode.contig ⟨2, true⟩] ∧
    addDistEst 30 50 scenarioGraph scenarioGraph [⟨1, true⟩, ⟨2, true⟩]
      ≠ Except.error AddDistEstFailure.negativeGap :=
  ⟨rfl,
    (addDistEst_gaps 30 50 scenarioGraph scenarioGraph [⟨1, true⟩, ⟨2, true⟩] (by decide)
      (by
        intro e he
        have h : e ∈ scenarioGraph.edges := he.elim id id
        simp only [scenarioGraph, List.mem_cons, List.mem_singleton, List.not_mem_nil,
          or_false] at h
        rcases h with h | h | h | h <;> rw [h] <;> decide)).1⟩

end GapNodes

section AssemblyRounds
open Assembly

variable {G : Type}

theorem trimRound_log (ops : AssemblyOps G) (st st1 : AssemblyState G)
    (h : trimRound ops st = Except.ok st1) :
    st1.opt = st.opt ∧ st1.log = st.log ++ trimPasses st.opt.erode := by
  unfold trimRound at h
  by_cases he : st.opt.erode > 0
  · simp only [if_pos he] at h
    by_cases ha : (ops.erodeEnds (call Pass.erodeEnds (fun g => (ops.erodeEnds st.opt g).1) st).opt
        (call Pass.erodeEnds (fun g => (ops.erodeEnds st.opt g).1) st).g).2 = 0
    · simp only [if_pos ha] at h
      have := Except.ok.inj h
      rw [← this]
      refine ⟨rfl, ?_⟩
      simp [call, trimPasses, erosionPasses, he]
    · simp only [if_neg ha] at h
      exact absurd h (by simp)
  · simp only [if_neg he] at h
    have := Except.ok.inj h
    rw [← this]
    refine ⟨rfl, ?_⟩
    simp [call, trimPasses, erosionPasses, he]

theorem trimRound_error_log (ops : AssemblyOps G) (st s : AssemblyState G) (m : String)
    (h : trimRound ops st = Except.error (m, s)) :
    s.log = st.log ++ [Pass.erodeEnds, Pass.erodeEnds] ∧ st.opt.erode > 0 := by
  unfold trimRound at h
  by_cases he : st.opt.erode > 0
  · simp only [if_pos he] at h
    by_cases ha : (ops.erodeEnds (call Pass.erodeEnds (fun g => (ops.erodeEnds st.opt g).1) st).opt
        (call Pass.erodeEnds (fun g => (ops.erodeEnds st.opt g).1) st).g).2 = 0
    · simp only [if_pos ha] at h
      exact absurd h (by simp)
    · simp only [if_neg ha] at h
      have := Except.error.inj h
      have e : s = _ := (Prod.mk.inj this).2.symm
      rw [e]
      refine ⟨?_, he⟩
      simp [call]
  · simp only [if_neg he] at h
    exact absurd h (by simp)

theorem removal_log (ops : AssemblyOps G) (st : AssemblyState G) :
    (call Pass.cleanup ops.cleanup
      (call Pass.wipeFlag ops.wipeFlag (removeLowCoverageContigs ops st))).log
      = st.log ++ removalPasses ∧
    (call Pass.cleanup ops.cleanup
      (call Pass.wipeFlag ops.wipeFlag (removeLowCoverageContigs ops st))).opt
      = { st.opt with coverage := 0 } := by
  refine ⟨?_, rfl⟩
  simp [call, removeLowCoverageContigs, removalPasses]

/-- The loop of `assemble` ends after at most two rounds, and its record is that
of `loopPasses`, or a part of it up to a failed assertion. -/
theorem erodeLoop_log (ops : AssemblyOps G) (fuel : Nat) (st : AssemblyState G) :
    ∃ r, erodeLoop ops (fuel + 2) st = some r ∧
      ((∃ s, r = Except.ok s ∧ s.opt = { st.opt with
            coverage := if st.opt.coverage > 0 then 0 else st.opt.coverage } ∧
          s.log = st.log ++ loopPasses st.opt.erode st.opt.coverage) ∨
       (∃ m s sfx, r = Except.error (m, s) ∧ s.log = st.log ++ sfx ∧
          sfx <+: loopPasses st.opt.erode st.opt.coverage ∧
          sfx ≠ loopPasses st.opt.erode st.opt.coverage)) := by
  rw [erodeLoop]
  cases h1 : trimRound ops st with
  | error a =>
    obtain ⟨m, s⟩ := a
    obtain ⟨e1, e2⟩ := trimRound_error_log ops st s m h1
    refine ⟨_, rfl, Or.inr ⟨m, s, _, rfl, e1, ?_, ?_⟩⟩
    · unfold loopPasses trimPasses erosionPasses
      rw [if_pos e2]
      split
      · exact ⟨_, rfl⟩
      · exact ⟨_, rfl⟩
    · unfold loopPasses trimPasses erosionPasses
      rw [if_pos e2]
      split <;> simp
  | ok st1 =>
    obtain ⟨a1, a2⟩ := trimRound_log ops st st1 h1
    simp only []
    by_cases hcov : st.opt.coverage > 0
    · have hcov1 : st1.opt.coverage > 0 := by rw [a1]; exact hcov
      rw [if_pos hcov1]
      obtain ⟨c1, c2⟩ := removal_log ops st1
      rw [erodeLoop]
      cases h2 : trimRound ops (call Pass.cleanup ops.cleanup
          (call Pass.wipeFlag ops.wipeFlag (removeLowCoverageContigs ops st1))) with
      | error a =>
        obtain ⟨m, s⟩ := a
        obtain ⟨e1, e2⟩ := trimRound_error_log ops _ s m h2
        have e2b : st.opt.erode > 0 := by
          rw [c2, a1] at e2; exact e2
        refine ⟨_, rfl, Or.inr ⟨m, s, trimPasses st.opt.erode ++ removalPasses ++
          [Pass.erodeEnds, Pass.erodeEnds], rfl, ?_, ?_, ?_⟩⟩
        · rw [e1, c1, a2]
          simp only [List.append_assoc]
        · unfold loopPasses
          rw [if_pos hcov]
          apply List.prefix_append_right_inj _ |>.mpr
          unfold trimPasses erosionPasses
          rw [if_pos e2b]
          exact ⟨_, rfl⟩
        · unfold loopPasses
          rw [if_pos hcov]
          intro hc
          have := List.append_cancel_left hc
          unfold trimPasses erosionPasses at this
          rw [if_pos e2b] at this
          simp at this
      | ok st2 =>
        obtain ⟨b1, b2⟩ := trimRound_log ops _ st2 h2
        have hcov2 : ¬ (st2.opt.coverage > 0) := by
          rw [b1, c2]
          exact lt_irrefl 0
        simp only []
        rw [if_neg hcov2]
        refine ⟨_, rfl, Or.inl ⟨st2, rfl, ?_, ?_⟩⟩
        · rw [b1, c2, a1, if_pos hcov]
        · rw [b2, c1, c2, a2, a1]
          unfold loopPasses
          rw [if_pos hcov]
          simp only [List.append_assoc]
    · have hcov1 : ¬ (st1.opt.coverage > 0) := by rw [a1]; exact hcov
      rw [if_neg hcov1]
      refine ⟨_, rfl, Or.inl ⟨st1, rfl, ?_, ?_⟩⟩
      · rw [a1, if_neg hcov]
      · rw [a2]
        unfold loopPasses
        rw [if_neg hcov]

theorem loopPasses_counts (e : Nat) (c : ℚ) :
    removalRounds (loopPasses e c) = (if c > 0 then 1 else 0) ∧
    trimRounds (loopPasses e c) = (if c > 0 then 2 else 1) ∧
    erodeCalls (loopPasses e c) = (if e > 0 then 2 * trimRounds (loopPasses e c) else 0) := by
  unfold loopPasses trimPasses erosionPasses removalPasses removalRounds trimRounds erodeCalls
  by_cases hc : c > 0 <;> by_cases he : e > 0 <;> simp only [hc, he, if_true, if_false] <;>
    decide


theorem count_call (P q : Pass) (f : G → G) (st : AssemblyState G) (hne : q ≠ P) :
    (call q f st).log.count P = st.log.count P := by
  simp only [call, List.count_append, List.count_singleton]
  have : (q == P) = false := by simpa using hne
  rw [this]
  rfl

theorem count_log_append (P q : Pass) (log : List Pass) (hne : q ≠ P) :
    (log ++ [q]).count P = log.count P := by
  simp only [List.count_append, List.count_singleton]
  have : (q == P) = false := by simpa using hne
  rw [this]
  rfl

theorem cleanGraph_prefix (ops : AssemblyOps G) (st : AssemblyState G) :
    (if ops.PAIRED_DBG = true then
      call Pass.removePairedDBGInconsistentEdges ops.removePairedDBGInconsistentEdges
        (call Pass.generateAdjacency ops.generateAdjacency
          (if (ops.setCoverageParameters st.g st.opt).kc > 0 then
            call Pass.applyKmerCoverageThreshold
              (fun g => (ops.applyKmerCoverageThreshold
                (ops.setCoverageParameters st.g st.opt).kc g).1)
              { st with opt := ops.setCoverageParameters st.g st.opt
                        log := st.log ++ [Pass.setCoverageParameters] }
          else { st with opt := ops.setCoverageParameters st.g st.opt
                         log := st.log ++ [Pass.setCoverageParameters] }))
    else
      call Pass.generateAdjacency ops.generateAdjacency
        (if (ops.setCoverageParameters st.g st.opt).kc > 0 then
          call Pass.applyKmerCoverageThreshold
            (fun g => (ops.applyKmerCoverageThreshold
              (ops.setCoverageParameters st.g st.opt).kc g).1)
            { st with opt := ops.setCoverageParameters st.g st.opt
                      log := st.log ++ [Pass.setCoverageParameters] }
        else { st with opt := ops.setCoverageParameters st.g st.opt
                       log := st.log ++ [Pass.setCoverageParameters] })).opt = ops.setCoverageParameters st.g st.opt ∧
    ∀ P, isRoundPass P → (if ops.PAIRED_DBG = true then
      call Pass.removePairedDBGInconsistentEdges ops.removePairedDBGInconsistentEdges
        (call Pass.generateAdjacency ops.generateAdjacency
          (if (ops.setCoverageParameters st.g st.opt).kc > 0 then
            call Pass.applyKmerCoverageThreshold
              (fun g => (ops.applyKmerCoverageThreshold
                (ops.setCoverageParameters st.g st.opt).kc g).1)
              { st with opt := ops.setCoverageParameters st.g st.opt
                        log := st.log ++ [Pass.setCoverageParameters] }
          else { st with opt := ops.setCoverageParameters st.g st.opt
                         log := st.log ++ [Pass.setCoverageParameters] }))
    else
      call Pass.generateAdjacency ops.generateAdjacency
        (if (ops.setCoverageParameters st.g st.opt).kc > 0 then
          call Pass.applyKmerCoverageThreshold
            (fun g => (ops.applyKmerCoverageThreshold
              (ops.setCoverageParameters st.g st.opt).kc g).1)
            { st with opt := ops.setCoverageParameters st.g st.opt
                      log := st.log ++ [Pass.setCoverageParameters] }
        else { st with opt := ops.setCoverageParameters st.g st.opt
                       log := st.log ++ [Pass.setCoverageParameters] })).log.count P = st.log.count P := by
  by_cases hP : ops.PAIRED_DBG = true <;>
    by_cases hk : (ops.setCoverageParameters st.g st.opt).kc > 0
  all_goals
    simp only [hP, hk, if_true, if_false]
    refine ⟨rfl, fun P hR => ?_⟩
    rcases hR with h | h | h <;> subst h <;> simp [call, List.count_append]


theorem roundPass_ne (P : Pass) (hR : isRoundPass P) :
    Pass.markAmbiguous ≠ P ∧ Pass.write_graph ≠ P ∧ Pass.popBubbles ≠ P ∧
    Pass.assemble true ≠ P ∧ Pass.setDeletedKey ≠ P ∧ Pass.shrink ≠ P ∧
    ∀ path, Pass.loadSequences path ≠ P := by
  rcases hR with h | h | h <;> subst h <;>
    exact ⟨by decide, by decide, by decide, by decide, by decide, by decide,
      fun _ h => by cases h⟩

theorem cleanGraph_counts (ops : AssemblyOps G) (fuel : Nat) (st : AssemblyState G) :
    ∃ r, cleanGraph ops (fuel + 2) st = some r ∧ ∃ s sfx,
      ((r = Except.ok s ∧
          sfx = loopPasses (ops.setCoverageParameters st.g st.opt).erode
            (ops.setCoverageParameters st.g st.opt).coverage) ∨
       (∃ m, r = Except.error (m, s) ∧
          sfx <+: loopPasses (ops.setCoverageParameters st.g st.opt).erode
            (ops.setCoverageParameters st.g st.opt).coverage)) ∧
      ∀ P, isRoundPass P → s.log.count P = st.log.count P + sfx.count P := by
  obtain ⟨hopt, hcnt⟩ := cleanGraph_prefix ops st
  obtain ⟨r5, h5, hcase⟩ := erodeLoop_log ops fuel (if ops.PAIRED_DBG = true then
      call Pass.removePairedDBGInconsistentEdges ops.removePairedDBGInconsistentEdges
        (call Pass.generateAdjacency ops.generateAdjacency
          (if (ops.setCoverageParameters st.g st.opt).kc > 0 then
            call Pass.applyKmerCoverageThreshold
              (fun g => (ops.applyKmerCoverageThreshold
                (ops.setCoverageParameters st.g st.opt).kc g).1)
              { st with opt := ops.setCoverageParameters st.g st.opt
                        log := st.log ++ [Pass.setCoverageParameters] }
          else { st with opt := ops.setCoverageParameters st.g st.opt
                         log := st.log ++ [Pass.setCoverageParameters] }))
    else
      call Pass.generateAdjacency ops.generateAdjacency
        (if (ops.setCoverageParameters st.g st.opt).kc > 0 then
          call Pass.applyKmerCoverageThreshold
            (fun g => (ops.applyKmerCoverageThreshold
              (ops.setCoverageParameters st.g st.opt).kc g).1)
            { st with opt := ops.setCoverageParameters st.g st.opt
                      log := st.log ++ [Pass.setCoverageParameters] }
        else { st with opt := ops.setCoverageParameters st.g st.opt
                       log := st.log ++ [Pass.setCoverageParameters] }))
  rw [hopt] at hcase
  unfold cleanGraph
  simp only
  rw [h5]
  rcases hcase with ⟨s5, e5, _, hl⟩ | ⟨m, s, sfx, e5, hl, hpre, _⟩
  · rw [e5]
    simp only
    have hpost : ∀ (s6 : AssemblyState G),
        (∀ P, isRoundPass P → s6.log.count P = s5.log.count P) →
        ∀ P, isRoundPass P →
          (call Pass.markAmbiguous ops.markAmbiguous
            (if s6.opt.graphPath ≠ "" then call Pass.write_graph id s6 else s6)).log.count P
          = st.log.count P
            + (loopPasses (ops.setCoverageParameters st.g st.opt).erode
                (ops.setCoverageParameters st.g st.opt).coverage).count P := by
      intro s6 h6 P hR
      obtain ⟨n1, n2, _⟩ := roundPass_ne P hR
      rw [count_call P _ _ _ n1]
      have h7 : (if s6.opt.graphPath ≠ "" then call Pass.write_graph id s6 else s6).log.count P
          = s6.log.count P := by
        split
        · exact count_call P _ _ _ n2
        · rfl
      rw [h7, h6 P hR, hl, List.count_append, hcnt P hR]
    by_cases hb : s5.opt.bubbleLen > 0
    · simp only [if_pos hb, popBubbles]
      by_cases hg : (ops.popBubbles s5.opt s5.g).2.2 = true
      · simp only [hg, if_true]
        refine ⟨_, rfl, _, _, Or.inl ⟨rfl, rfl⟩, ?_⟩
        exact hpost { s5 with g := (ops.popBubbles s5.opt s5.g).1
                              log := s5.log ++ [Pass.popBubbles] }
          (fun P hR => count_log_append P _ _ (roundPass_ne P hR).2.2.1)
      · simp only [hg, Bool.false_eq_true, if_false]
        refine ⟨_, rfl, _, _, Or.inr ⟨_, rfl, List.prefix_refl _⟩, ?_⟩
        intro P hR
        show (s5.log ++ [Pass.popBubbles]).count P = _
        rw [count_log_append P _ _ (roundPass_ne P hR).2.2.1, hl, List.count_append,
          hcnt P hR]
    · simp only [if_neg hb]
      refine ⟨_, rfl, _, _, Or.inl ⟨rfl, rfl⟩, ?_⟩
      exact hpost s5 (fun _ _ => rfl)
  · rw [e5]
    simp only
    refine ⟨_, rfl, s, sfx, Or.inr ⟨m, rfl, hpre⟩, ?_⟩
    intro P hR
    rw [hl, List.count_append, hcnt P hR]

theorem loadAll_counts (ops : AssemblyOps G) (opt : AssemblyOptions) (pathIn : String)
    (P : Pass) (hR : isRoundPass P) : (loadAll ops opt pathIn).log.count P = 0 := by
  rw [List.count_eq_zero]
  intro hmem
  obtain ⟨_, _, _, _, n5, n6, n7⟩ := roundPass_ne P hR
  rcases loadAll_log ops opt pathIn P hmem with h | h | ⟨path, h⟩
  · exact n5 h.symm
  · exact n6 h.symm
  · exact n7 path h.symm


theorem loadFailureLoop_log (ops : AssemblyOps G) :
    ∀ (files : List String) (st0 : AssemblyState G) (a : String × AssemblyState G),
    loadFailureLoop ops files st0 = some a →
    (∀ p ∈ st0.log, ∃ path, p = Pass.loadSequences path) →
    ∀ p ∈ a.2.log, ∃ path, p = Pass.loadSequences path := by
  intro files
  induction files with
  | nil => intro st0 a h; cases h
  | cons f rest ih =>
    intro st0 a h h0
    unfold loadFailureLoop at h
    have hstep : ∀ p ∈ st0.log ++ [Pass.loadSequences f], ∃ path, p = Pass.loadSequences path := by
      intro p hp
      rw [List.mem_append, List.mem_singleton] at hp
      rcases hp with hp | hp
      · exact h0 p hp
      · exact ⟨f, hp⟩
    by_cases hf : ops.loadSequencesFails f st0.g = true
    · rw [if_pos hf] at h
      have e := Option.some.inj h
      rw [← e]
      exact hstep
    · rw [if_neg hf] at h
      exact ih _ a h hstep

theorem loadFailure_counts (ops : AssemblyOps G) (opt : AssemblyOptions) (pathIn : String)
    (a : String × AssemblyState G) (h : loadFailure ops opt pathIn = some a)
    (P : Pass) (hR : isRoundPass P) : a.2.log.count P = 0 := by
  rw [List.count_eq_zero]
  intro hmem
  obtain ⟨path, hp⟩ := loadFailureLoop_log ops _ _ a h
    (fun p hp => absurd hp (List.not_mem_nil p)) P hmem
  exact (roundPass_ne P hR).2.2.2.2.2.2 path hp.symm

theorem assemble_counts (ops : AssemblyOps G) (opt : AssemblyOptions) (pathIn : String)
    (fuel : Nat) :
    ∃ out st sfx, assemble ops opt pathIn (fuel + 2) = some (out, st) ∧
      sfx <+: loopPasses
        (ops.setCoverageParameters (loadAll ops opt pathIn).g (loadAll ops opt pathIn).opt).erode
        (ops.setCoverageParameters (loadAll ops opt pathIn).g
          (loadAll ops opt pathIn).opt).coverage ∧
      (out = Outcome.completed → sfx = loopPasses
        (ops.setCoverageParameters (loadAll ops opt pathIn).g (loadAll ops opt pathIn).opt).erode
        (ops.setCoverageParameters (loadAll ops opt pathIn).g
          (loadAll ops opt pathIn).opt).coverage) ∧
      ∀ P, isRoundPass P → st.log.count P = sfx.count P := by
  unfold assemble
  cases hlf : loadFailure ops opt pathIn with
  | some a =>
    simp only
    refine ⟨_, _, [], rfl, List.nil_prefix, (fun h => by cases h), fun P hR => ?_⟩
    rw [loadFailure_counts ops opt pathIn a hlf P hR]
    rfl
  | none =>
  simp only
  by_cases hempty : ops.empty (loadAll ops opt pathIn).g = true
  · rw [if_pos hempty]
    refine ⟨_, _, [], rfl, List.nil_prefix, (fun h => by cases h), fun P hR => ?_⟩
    rw [loadAll_counts ops opt pathIn P hR]
    rfl
  · rw [if_neg hempty]
    obtain ⟨r, hr, s, sfx, hcase, hc⟩ := cleanGraph_counts ops fuel (loadAll ops opt pathIn)
    rw [hr]
    rcases hcase with ⟨e1, e2⟩ | ⟨m, e1, hpre⟩
    · rw [e1]
      simp only
      have hcount : ∀ P, isRoundPass P →
          (s.log ++ [Pass.assemble true]).count P = sfx.count P := by
        intro P hR
        rw [count_log_append P _ _ (roundPass_ne P hR).2.2.2.1, hc P hR,
          loadAll_counts ops opt pathIn P hR, Nat.zero_add]
      by_cases hz : (ops.assemble s.opt true s.g).2 = 0
      · rw [if_pos hz]
        exact ⟨_, _, sfx, rfl, (by rw [e2]), (fun h => by cases h), hcount⟩
      · rw [if_neg hz]
        exact ⟨_, _, sfx, rfl, (by rw [e2]), (fun _ => e2), hcount⟩
    · rw [e1]
      simp only
      refine ⟨_, _, sfx, rfl, hpre, (fun h => by cases h), fun P hR => ?_⟩
      rw [hc P hR, loadAll_counts ops opt pathIn P hR, Nat.zero_add]

/-- C39: the loop that `goto erode` makes in `assemble` always ends, after at
most two rounds: with `opt::coverage > 0` on entry its calls are a round of
erosion and trimming, one `removeLowCoverageContigs` (which sets
`opt::coverage` to 0) and a second round, otherwise a single round.  So in a
call of `assemble`, `removeLowCoverageContigs` runs at most once, trimming at
most twice and `erodeEnds` at most four times, and when the call runs to
completion trimming has run exactly twice (coverage > 0 on entry to the loop)
or exactly once (otherwise), each time after an erosion phase when
`opt::erode > 0`. -/
theorem assemble_rounds (ops : AssemblyOps G) (opt : AssemblyOptions) (pathIn : String)
    (fuel : Nat) :
    (∀ st : AssemblyState G, ∃ r, erodeLoop ops (fuel + 2) st = some r ∧
      ∀ s, r = Except.ok s →
        s.log = st.log ++ loopPasses st.opt.erode st.opt.coverage ∧
        removalRounds s.log
          = removalRounds st.log + (if st.opt.coverage > 0 then 1 else 0) ∧
        trimRounds s.log = trimRounds st.log + (if st.opt.coverage > 0 then 2 else 1)) ∧
    ∃ out st, assemble ops opt pathIn (fuel + 2) = some (out, st) ∧
      removalRounds st.log ≤ 1 ∧ trimRounds st.log ≤ 2 ∧ erodeCalls st.log ≤ 4 ∧
      (out = Outcome.completed →
        removalRounds st.log
          = (if (ops.setCoverageParameters (loadAll ops opt pathIn).g
              (loadAll ops opt pathIn).opt).coverage > 0 then 1 else 0) ∧
        trimRounds st.log
          = (if (ops.setCoverageParameters (loadAll ops opt pathIn).g
              (loadAll ops opt pathIn).opt).coverage > 0 then 2 else 1) ∧
        erodeCalls st.log
          = (if (ops.setCoverageParameters (loadAll ops opt pathIn).g
              (loadAll ops opt pathIn).opt).erode > 0 then 2 * trimRounds st.log else 0)) := by
  constructor
  · intro st
    obtain ⟨r, hr, hcase⟩ := erodeLoop_log ops fuel st
    refine ⟨r, hr, fun s hs => ?_⟩
    rcases hcase with ⟨s1, e1, _, hl⟩ | ⟨m, s1, sfx, e1, _⟩
    · rw [e1] at hs
      have e : s1 = s := Except.ok.inj hs
      rw [← e]
      obtain ⟨c1, c2, _⟩ := loopPasses_counts st.opt.erode st.opt.coverage
      refine ⟨hl, ?_, ?_⟩
      · unfold removalRounds at c1 ⊢
        rw [hl, List.count_append, c1]
      · unfold trimRounds at c2 ⊢
        rw [hl, List.count_append, c2]
    · rw [e1] at hs; cases hs
  · obtain ⟨out, st, sfx, h1, hpre, hfull, hc⟩ := assemble_counts ops opt pathIn fuel
    obtain ⟨c1, c2, c3⟩ := loopPasses_counts
      (ops.setCoverageParameters (loadAll ops opt pathIn).g (loadAll ops opt pathIn).opt).erode
      (ops.setCoverageParameters (loadAll ops opt pathIn).g
        (loadAll ops opt pathIn).opt).coverage
    have hle : ∀ P, sfx.count P ≤ (loopPasses
        (ops.setCoverageParameters (loadAll ops opt pathIn).g (loadAll ops opt pathIn).opt).erode
        (ops.setCoverageParameters (loadAll ops opt pathIn).g
          (loadAll ops opt pathIn).opt).coverage).count P :=
      fun P => hpre.sublist.count_le P
    have r1 : removalRounds st.log = sfx.count (Pass.assemble false) := hc _ (Or.inl rfl)
    have r2 : trimRounds st.log = sfx.count Pass.performTrim := hc _ (Or.inr (Or.inl rfl))
    have r3 : erodeCalls st.log = sfx.count Pass.erodeEnds := hc _ (Or.inr (Or.inr rfl))
    refine ⟨out, st, h1, ?_, ?_, ?_, fun hdone => ?_⟩
    · have := hle (Pass.assemble false)
      unfold removalRounds at c1
      rw [c1] at this
      rw [r1]
      split at this <;> omega
    · have := hle Pass.performTrim
      unfold trimRounds at c2
      rw [c2] at this
      rw [r2]
      split at this <;> omega
    · have := hle Pass.erodeEnds
      unfold erodeCalls trimRounds at c3
      unfold trimRounds at c2
      rw [c3, c2] at this
      rw [r3]
      split at this
      · split at this <;> omega
      · omega
    · have e := hfull hdone
      rw [r1, r2, r3, e]
      exact ⟨c1, c2, c3⟩

end AssemblyRounds

section MainSearch
open Scaffold

/-- An instance of the dispatch of `main`: for n = 1, s = 1000 and the
scaffolder whose N50 is 1200 only at s = 0, both strategies give the result of
the one run at (1, 1000), with N50 0. -/
theorem singleton_strategies_example :
    mainSearch runOnlyAtZero sweep1000 SearchStrategy.GRID_SEARCH 1 (1, 1) (1000, 1000)
      = some ({ n := 1, s := 1000, n50 := 0, metrics := "" }, []) ∧
    mainSearch runOnlyAtZero sweep1000 SearchStrategy.LINE_SEARCH 1 (1, 1) (1000, 1000)
      = some ({ n := 1, s := 1000, n50 := 0, metrics := "" }, []) := by
  decide

end MainSearch

section AssemblyEndings
open Assembly

variable {G : Type}

theorem trimRound_error_message (ops : AssemblyOps G) (st : AssemblyState G)
    (a : String × AssemblyState G) (h : trimRound ops st = Except.error a) :
    a.1 = "AssemblyAlgorithms::erodeEnds(&g) == 0" := by
  unfold trimRound at h
  by_cases he : st.opt.erode > 0
  · simp only [if_pos he] at h
    by_cases ha : (ops.erodeEnds (call Pass.erodeEnds (fun g => (ops.erodeEnds st.opt g).1) st).opt
        (call Pass.erodeEnds (fun g => (ops.erodeEnds st.opt g).1) st).g).2 = 0
    · simp only [if_pos ha] at h
      exact absurd h (by simp)
    · simp only [if_neg ha] at h
      have := Except.error.inj h
      rw [← this]
  · simp only [if_neg he] at h
    exact absurd h (by simp)

theorem erodeLoop_error_message (ops : AssemblyOps G) :
    ∀ (fuel : Nat) (st : AssemblyState G) (a : String × AssemblyState G),
    erodeLoop ops fuel st = some (Except.error a) →
    a.1 = "AssemblyAlgorithms::erodeEnds(&g) == 0" := by
  intro fuel
  induction fuel with
  | zero => intro st a h; rw [erodeLoop] at h; cases h
  | succ fuel ih =>
    intro st a h
    rw [erodeLoop] at h
    cases h1 : trimRound ops st with
    | error b =>
      rw [h1] at h
      have e : b = a := Except.error.inj (Option.some.inj h)
      rw [← e]
      exact trimRound_error_message ops st b h1
    | ok st1 =>
      rw [h1] at h
      simp only at h
      by_cases hcov : st1.opt.coverage > 0
      · rw [if_pos hcov] at h
        exact ih _ a h
      · rw [if_neg hcov] at h
        cases (Option.some.inj h)

theorem cleanGraph_error_message (ops : AssemblyOps G) (fuel : Nat) (st : AssemblyState G)
    (a : String × AssemblyState G) (h : cleanGraph ops fuel st = some (Except.error a)) :
    a.1 = "AssemblyAlgorithms::erodeEnds(&g) == 0" ∨ a.1 = "out.good()" := by
  unfold cleanGraph at h
  simp only at h
  split at h
  · cases h
  · rename_i b heq
    have e : b = a := Except.error.inj (Option.some.inj h)
    rw [← e]
    exact Or.inl (erodeLoop_error_message ops fuel _ b heq)
  · rename_i st5 heq
    split at h
    · rename_i b hb
      have e : b = a := Except.error.inj (Option.some.inj h)
      rw [← e]
      right
      by_cases hbl : st5.opt.bubbleLen > 0
      · rw [if_pos hbl] at hb
        unfold popBubbles at hb
        simp only at hb
        by_cases hg : (ops.popBubbles st5.opt st5.g).2.2 = true
        · rw [if_pos hg] at hb; cases hb
        · rw [if_neg hg] at hb
          have := Except.error.inj hb
          rw [← this]
      · rw [if_neg hbl] at hb; cases hb
    · cases (Option.some.inj h)

/-- Counterexample to C24 as stated: on the toy collection with a bubble stream
that is not good, one input file gives three k-mers, so the collection is not
empty and the final walk would give contigs, yet `assemble` ends at the failed
assertion `out.good()`, neither with a failure exit nor by running to
completion; the same holds for an `erodeEnds` that keeps removing.  And when
loading the second file fails, `assemble` ends there, after the two calls of
`loadSequences`. -/
theorem assemble_other_endings :
    badBubbleOps.empty (loadAll badBubbleOps bubbleOptions "").g = false ∧
    (assemble badBubbleOps bubbleOptions "" 2).map
        (fun r => (r.1, (badBubbleOps.assemble r.2.opt true r.2.g).2))
      = some (Outcome.assertionFailed "out.good()", 2) ∧
    (assemble unstableErodeOps countingOptions "" 2).map (fun r => r.1)
      = some (Outcome.assertionFailed "AssemblyAlgorithms::erodeEnds(&g) == 0") ∧
    (assemble failingLoadOps missingFileOptions "" 2).map (fun r => (r.1, r.2.log))
      = some (Outcome.loadFailed "missing.fa",
          [Pass.loadSequences "reads.fa", Pass.loadSequences "missing.fa"]) := by
  decide


/-- C24, amended: `assemble` always ends, in one of five ways.  It ends at a
call of `loadSequences` exactly when one fails, which is fatal.  It exits with
'error: no usable sequence' exactly when no call of `loadSequences` fails and
the collection is empty after loading, and then nothing but loading,
`setDeletedKey` and `shrink` has run.  It stops at a failed assertion exactly
when the collection is not empty and the cleaning of the graph fails one: that
the second `erodeEnds` removes nothing, or that the bubble stream is good.  It
exits with 'error: no contigs assembled' exactly when the cleaning passes and
the final walk gives zero contigs.  In every other case it runs to completion;
and the cleaning passes whenever a second `erodeEnds` removes nothing and the
bubble stream stays good. -/
theorem assemble_endings (ops : AssemblyOps G) (opt : AssemblyOptions) (pathIn : String)
    (fuel : Nat) :
    ∃ out st r, assemble ops opt pathIn (fuel + 2) = some (out, st) ∧
      cleanGraph ops (fuel + 2) (loadAll ops opt pathIn) = some r ∧
      ((∃ path, out = Outcome.loadFailed path) ↔
        (loadFailure ops opt pathIn).isSome = true) ∧
      (out = Outcome.exitFailure "error: no usable sequence\n" ↔
        (loadFailure ops opt pathIn = none ∧
         ops.empty (loadAll ops opt pathIn).g = true)) ∧
      (out = Outcome.exitFailure "error: no usable sequence\n" →
        st = loadAll ops opt pathIn ∧
        ∀ p ∈ st.log,
          p = Pass.setDeletedKey ∨ p = Pass.shrink ∨ ∃ path, p = Pass.loadSequences path) ∧
      ((∃ e, out = Outcome.assertionFailed e) ↔
        (loadFailure ops opt pathIn = none ∧
         ops.empty (loadAll ops opt pathIn).g = false ∧ ∃ a, r = Except.error a)) ∧
      (∀ e, out = Outcome.assertionFailed e →
        e = "AssemblyAlgorithms::erodeEnds(&g) == 0" ∨ e = "out.good()") ∧
      (out = Outcome.exitFailure "error: no contigs assembled\n" ↔
        (loadFailure ops opt pathIn = none ∧
         ops.empty (loadAll ops opt pathIn).g = false ∧
         ∃ st1, r = Except.ok st1 ∧ (ops.assemble st1.opt true st1.g).2 = 0)) ∧
      (out = Outcome.completed ↔
        (loadFailure ops opt pathIn = none ∧
         ops.empty (loadAll ops opt pathIn).g = false ∧
         ∃ st1, r = Except.ok st1 ∧ (ops.assemble st1.opt true st1.g).2 ≠ 0)) ∧
      (erodeStable ops → (∀ opt g, (ops.popBubbles opt g).2.2 = true) →
        ∃ st1, r = Except.ok st1) := by
  obtain ⟨r, hr, _⟩ := cleanGraph_counts ops fuel (loadAll ops opt pathIn)
  have hclean : erodeStable ops → (∀ opt g, (ops.popBubbles opt g).2.2 = true) →
      ∃ st1, r = Except.ok st1 := by
    intro hstable hgood
    obtain ⟨st1, h1⟩ := cleanGraph_terminates ops hstable hgood fuel (loadAll ops opt pathIn)
    rw [hr] at h1
    exact ⟨st1, Option.some.inj h1⟩
  cases hlf : loadFailure ops opt pathIn with
  | some a =>
    refine ⟨Outcome.loadFailed a.1, a.2, r, ?_, hr, ?_, ?_, ?_, ?_, ?_, ?_, ?_, hclean⟩
    · simp only [assemble, hlf]
    · exact ⟨fun _ => rfl, fun _ => ⟨a.1, rfl⟩⟩
    · exact ⟨(fun h => by cases h), fun h => by cases h.1⟩
    · exact fun h => by cases h
    · exact ⟨(fun ⟨e, h⟩ => by cases h), fun h => by cases h.1⟩
    · exact fun e h => by cases h
    · exact ⟨(fun h => by cases h), fun h => by cases h.1⟩
    · exact ⟨(fun h => by cases h), fun h => by cases h.1⟩
  | none =>
    by_cases hempty : ops.empty (loadAll ops opt pathIn).g = true
    · refine ⟨Outcome.exitFailure "error: no usable sequence\n", loadAll ops opt pathIn, r,
        ?_, hr, ?_, ?_, ?_, ?_, ?_, ?_, ?_, hclean⟩
      · simp only [assemble, hlf, hempty, if_true]
      · exact ⟨(fun ⟨p, h⟩ => by cases h), fun h => by cases h⟩
      · exact ⟨fun _ => ⟨rfl, hempty⟩, fun _ => rfl⟩
      · exact fun _ => ⟨rfl, loadAll_log ops opt pathIn⟩
      · refine ⟨(fun ⟨e, h⟩ => by cases h), fun h => ?_⟩
        rw [hempty] at h
        exact absurd h.2.1 (by decide)
      · exact fun e h => by cases h
      · refine ⟨fun h => absurd h (by decide), fun h => ?_⟩
        rw [hempty] at h
        exact absurd h.2.1 (by decide)
      · refine ⟨(fun h => by cases h), fun h => ?_⟩
        rw [hempty] at h
        exact absurd h.2.1 (by decide)
    · have hfalse : ops.empty (loadAll ops opt pathIn).g = false := by
        cases h : ops.empty (loadAll ops opt pathIn).g with
        | true => exact absurd h hempty
        | false => rfl
      cases r with
      | error a =>
        refine ⟨Outcome.assertionFailed a.1, a.2, Except.error a, ?_, hr, ?_, ?_, ?_, ?_, ?_,
          ?_, ?_, hclean⟩
        · simp only [assemble, hlf, hfalse, hr]
          simp
        · exact ⟨(fun ⟨p, h⟩ => by cases h), fun h => by cases h⟩
        · exact ⟨(fun h => by cases h), fun h => absurd h.2 hempty⟩
        · exact fun h => by cases h
        · exact ⟨fun _ => ⟨rfl, hfalse, a, rfl⟩, fun _ => ⟨a.1, rfl⟩⟩
        · intro e h
          have e1 : a.1 = e := by injection h
          rw [← e1]
          exact cleanGraph_error_message ops (fuel + 2) (loadAll ops opt pathIn) a hr
        · refine ⟨(fun h => by cases h), fun h => ?_⟩
          obtain ⟨_, _, st1, h1, _⟩ := h
          cases h1
        · refine ⟨(fun h => by cases h), fun h => ?_⟩
          obtain ⟨_, _, st1, h1, _⟩ := h
          cases h1
      | ok st1 =>
        by_cases hzero : (ops.assemble st1.opt true st1.g).2 = 0
        · refine ⟨Outcome.exitFailure "error: no contigs assembled\n",
            { st1 with g := (ops.assemble st1.opt true st1.g).1,
                       log := st1.log ++ [Pass.assemble true] }, Except.ok st1, ?_, hr,
            ?_, ?_, ?_, ?_, ?_, ?_, ?_, hclean⟩
          · simp only [assemble, hlf, hfalse, hr, hzero, if_true]
            simp
          · exact ⟨(fun ⟨p, h⟩ => by cases h), fun h => by cases h⟩
          · exact ⟨fun h => absurd h (by decide), fun h => absurd h.2 hempty⟩
          · exact fun h => absurd h (by decide)
          · refine ⟨(fun ⟨e, h⟩ => by cases h), fun h => ?_⟩
            obtain ⟨_, _, a, h1⟩ := h
            cases h1
          · exact fun e h => by cases h
          · exact ⟨fun _ => ⟨rfl, hfalse, st1, rfl, hzero⟩, fun _ => rfl⟩
          · refine ⟨(fun h => by cases h), fun h => ?_⟩
            obtain ⟨_, _, st2, h1, h2⟩ := h
            have e : st1 = st2 := Except.ok.inj h1
            rw [← e] at h2
            exact absurd hzero h2
        · refine ⟨Outcome.completed,
            { st1 with g := (ops.assemble st1.opt true st1.g).1,
                       log := st1.log ++ [Pass.assemble true] }, Except.ok st1, ?_, hr,
            ?_, ?_, ?_, ?_, ?_, ?_, ?_, hclean⟩
          · simp only [assemble, hlf, hfalse, hr, if_neg hzero]
            simp
          · exact ⟨(fun ⟨p, h⟩ => by cases h), fun h => by cases h⟩
          · exact ⟨(fun h => by cases h), fun h => absurd h.2 hempty⟩
          · exact fun h => by cases h
          · refine ⟨(fun ⟨e, h⟩ => by cases h), fun h => ?_⟩
            obtain ⟨_, _, a, h1⟩ := h
            cases h1
          · exact fun e h => by cases h
          · refine ⟨(fun h => by cases h), fun h => ?_⟩
            obtain ⟨_, _, st2, h1, h2⟩ := h
            have e : st1 = st2 := Except.ok.inj h1
            rw [← e] at h2
            exact absurd h2 hzero
          · exact ⟨fun _ => ⟨rfl, hfalse, st1, rfl, hzero⟩, fun _ => rfl⟩

end AssemblyEndings

end Abyss
